import Mathlib

/-!
# TDLang compiler: lexer, parser, semantic analysis, IR generation, IR optimization and code generation

A shallow embedding of `src/lexer.cpp`, `src/parser.cpp`, `semantic.cpp`,
`src/ir.cpp`, `optimizer.cpp` and `src/codegen.cpp`.

Conventions of the embedding:

* C++ `int` is a 32-bit signed integer.  Values are carried as `Int`.  Signed
  overflow is undefined behaviour in C++; the compiled program computes in
  two's complement, so the two arithmetic operations of the optimizer (`+`
  when spawns are merged, `*` when `total_duration` is folded) wrap modulo
  2^32 (`wrapInt`), and the passes return where the program returns.
* C++ `double` is carried as the rational number it denotes (`Double`); binary
  rounding is not modelled.  Doubles are only compared with zero and
  multiplied once (`dps`).  The product is rounded by the machine, so the
  optimizer takes it as a parameter (`DoubleArith`); the text that a stream
  writes for a double depends on the rounding too, so the code generator
  takes the two number formats it uses as a parameter (`DoubleFormat`).
* `std::map<std::string, std::variant<int, double, std::string>>` is an
  association list read by key.  `operator[]` assignment overwrites the entry
  of an existing key in place and appends a new entry otherwise.
* `metadata.at(k)` and `std::get<T>` throw on a missing key or on a value of
  another alternative, and `operands[i]` beyond the size of the vector is
  undefined; the passes and the code generator that use them return `Option`.
* `exit(1)` after a diagnostic on `std::cerr` is `Except.error` carrying the
  exact text written to the stream.  The parser distinguishes the diagnostic,
  an exception of `std::stoi` or `std::stod`, and the bound on loop iterations
  (`ParseFailure`).
* The source text is a list of characters; the classification functions of
  `<cctype>` are those of the "C" locale.
* A `while` loop is a recursive function over the data it consumes, or over
  an explicit bound on its iterations where the loop moves an index; the bound
  is shown to be sufficient (`parseProgram_total`, `wavesLoop_spec`).
-/

namespace Mtdl

/-! ## AST (`ast.h`) -/

/-- C++ `double`, carried as an exact rational. -/
abbrev Double := Rat

/-- Map declaration node. -/
structure MapDecl where
  name : String
  width : Int
  height : Int
  path : List (Int × Int)
deriving DecidableEq

/-- Enemy declaration node. -/
structure EnemyDecl where
  name : String
  hp : Int
  speed : Double
  reward : Int
deriving DecidableEq

/-- Tower declaration node. -/
structure TowerDecl where
  name : String
  range : Int
  damage : Int
  cost : Int
  fireRate : Double
deriving DecidableEq

/-- Individual spawn statement within a wave. -/
structure SpawnStmt where
  enemyType : String
  count : Int
  start : Int
  interval : Int
deriving DecidableEq

/-- Wave declaration node. -/
structure WaveDecl where
  name : String
  spawns : List SpawnStmt
deriving DecidableEq

/-- Tower placement statement. -/
structure PlaceStmt where
  towerType : String
  x : Int
  y : Int
deriving DecidableEq

/-- The five node kinds that `dynamic_cast` distinguishes in a program. -/
inductive Decl where
  | map (m : MapDecl)
  | enemy (e : EnemyDecl)
  | tower (t : TowerDecl)
  | wave (w : WaveDecl)
  | place (p : PlaceStmt)
deriving DecidableEq

/-- Root node of the AST. -/
structure Program where
  declarations : List Decl
deriving DecidableEq

/-! ## IR (`include/mtdl/ir.hpp`) -/

/-- IR instruction opcodes. -/
inductive IrOpcode where
  | DEFINE_MAP
  | DEFINE_ENEMY
  | DEFINE_TOWER
  | DEFINE_WAVE
  | SPAWN_ENEMY
  | PLACE_TOWER
  | SET_VALUE
  | LOAD_CONST
  | NOP
deriving DecidableEq, Repr

/-- The variant `std::variant<int, double, std::string>`. -/
inductive Value where
  | int (v : Int)
  | real (v : Double)
  | str (v : String)
deriving DecidableEq

/-- Alternative access `std::get<int>`: fails on another alternative. -/
def Value.getInt : Value → Option Int
  | .int v => some v
  | _ => none

/-- Alternative access `std::get<double>`. -/
def Value.getDouble : Value → Option Double
  | .real v => some v
  | _ => none

/-- Alternative access `std::get<std::string>`. -/
def Value.getString : Value → Option String
  | .str v => some v
  | _ => none

/-- The metadata map of an instruction, as an association list. -/
abbrev Metadata := List (String × Value)

/-- Lookup `metadata.at(k)`: the value stored under `k`, `none` when absent. -/
def Metadata.find : Metadata → String → Option Value
  | [], _ => none
  | (k', v) :: rest, k => if k' = k then some v else Metadata.find rest k

/-- Membership test `metadata.count(k)`. -/
def Metadata.count (m : Metadata) (k : String) : Bool :=
  (Metadata.find m k).isSome

/-- Assignment `metadata[k] = v`. -/
def Metadata.set : Metadata → String → Value → Metadata
  | [], k, v => [(k, v)]
  | (k', v') :: rest, k, v =>
    if k' = k then (k', v) :: rest else (k', v') :: Metadata.set rest k v

/-- Typed read `std::get<int>(metadata.at(k))`. -/
def Metadata.getInt (m : Metadata) (k : String) : Option Int :=
  (Metadata.find m k).bind Value.getInt

/-- Typed read `std::get<double>(metadata.at(k))`. -/
def Metadata.getDouble (m : Metadata) (k : String) : Option Double :=
  (Metadata.find m k).bind Value.getDouble

/-- Single IR instruction with opcode, operands, and metadata. -/
structure IrInstruction where
  opcode : IrOpcode
  operands : List String
  metadata : Metadata
deriving DecidableEq

/-- Smallest value of a 32-bit `int`. -/
def INT_MIN : Int := -2147483648

/-- Largest value of a 32-bit `int`. -/
def INT_MAX : Int := 2147483647

/-- Whether a mathematical integer is representable as an `int`. -/
def inIntRange (v : Int) : Bool := decide (INT_MIN ≤ v) && decide (v ≤ INT_MAX)

/-- The value of type `int` that a mathematical integer wraps to: the member
of its residue class modulo 2^32 that lies in the range of `int`. -/
def wrapInt (v : Int) : Int := (v + 2147483648) % 4294967296 - 2147483648

/-- Signed addition `a + b` of two `int`s.  Overflow is undefined behaviour in
C++; the compiled program adds in two's complement, so the sum wraps. -/
def intAdd (a b : Int) : Int := wrapInt (a + b)

/-- Signed multiplication `a * b` of two `int`s.  Overflow is undefined
behaviour in C++; the compiled program multiplies in two's complement, so the
product wraps. -/
def intMul (a b : Int) : Int := wrapInt (a * b)

/-- Arithmetic of the type `double` in the optimizer: `product d f` is the
value of the C++ expression `d * f` for an `int` `d` and a `double` `f`, that
is the product of `d`, converted to `double`, and `f`, rounded to a `double`.
The embedding does not model binary rounding, so the optimizer takes the
product as a parameter. -/
structure DoubleArith where
  product : Int → Double → Double

/-- The product of an `int` and a `double` where it needs no rounding: the
exact product, which is the product of the machine whenever it is a value of
the type `double`, as for the small integers and halves in the examples. -/
def exactProduct : DoubleArith := { product := fun d f => (d : Rat) * f }

/-! ## IR generation (`src/ir.cpp`) -/

/-- State of `IrGenerator`: the generated IR code. -/
structure IrGenerator where
  code : List IrInstruction

/-- Add an instruction to the IR stream (`code.push_back`). -/
def IrGenerator.emit (g : IrGenerator) (instruction : IrInstruction) : IrGenerator :=
  { code := g.code ++ [instruction] }

/-- The `pathStream` loop: each point is written as `x,y`, and a `;` follows
every point but the last (`i + 1 < path.size()`). -/
def pathStream : List (Int × Int) → String → String
  | [], acc => acc
  | p :: rest, acc =>
    let acc1 := acc ++ toString p.1 ++ "," ++ toString p.2
    pathStream rest (if rest.length > 0 then acc1 ++ ";" else acc1)

/-- Instruction emitted for one spawn statement of wave `waveName`. -/
def spawnInstruction (waveName : String) (spawn : SpawnStmt) : IrInstruction :=
  let i : IrInstruction := { opcode := .SPAWN_ENEMY, operands := [], metadata := [] }
  let i := { i with operands := i.operands ++ [waveName] }
  let i := { i with operands := i.operands ++ [spawn.enemyType] }
  let i := { i with metadata := Metadata.set i.metadata "count" (.int spawn.count) }
  let i := { i with metadata := Metadata.set i.metadata "start" (.int spawn.start) }
  { i with metadata := Metadata.set i.metadata "interval" (.int spawn.interval) }

/-- Body of the loop of `IrGenerator::generate` for one declaration. -/
def IrGenerator.step (g : IrGenerator) : Decl → IrGenerator
  | .map mapDecl =>
    let i : IrInstruction := { opcode := .DEFINE_MAP, operands := [], metadata := [] }
    let i := { i with operands := i.operands ++ [mapDecl.name] }
    let i := { i with metadata := Metadata.set i.metadata "width" (.int mapDecl.width) }
    let i := { i with metadata := Metadata.set i.metadata "height" (.int mapDecl.height) }
    let i := { i with metadata := Metadata.set i.metadata "path" (.str (pathStream mapDecl.path "")) }
    g.emit i
  | .enemy enemyDecl =>
    let i : IrInstruction := { opcode := .DEFINE_ENEMY, operands := [], metadata := [] }
    let i := { i with operands := i.operands ++ [enemyDecl.name] }
    let i := { i with metadata := Metadata.set i.metadata "hp" (.int enemyDecl.hp) }
    let i := { i with metadata := Metadata.set i.metadata "speed" (.real enemyDecl.speed) }
    let i := { i with metadata := Metadata.set i.metadata "reward" (.int enemyDecl.reward) }
    g.emit i
  | .tower towerDecl =>
    let i : IrInstruction := { opcode := .DEFINE_TOWER, operands := [], metadata := [] }
    let i := { i with operands := i.operands ++ [towerDecl.name] }
    let i := { i with metadata := Metadata.set i.metadata "range" (.int towerDecl.range) }
    let i := { i with metadata := Metadata.set i.metadata "damage" (.int towerDecl.damage) }
    let i := { i with metadata := Metadata.set i.metadata "fire_rate" (.real towerDecl.fireRate) }
    let i := { i with metadata := Metadata.set i.metadata "cost" (.int towerDecl.cost) }
    g.emit i
  | .wave waveDecl =>
    let i : IrInstruction := { opcode := .DEFINE_WAVE, operands := [], metadata := [] }
    let i := { i with operands := i.operands ++ [waveDecl.name] }
    let g := g.emit i
    waveDecl.spawns.foldl (fun g spawn => g.emit (spawnInstruction waveDecl.name spawn)) g
  | .place placeStmt =>
    let i : IrInstruction := { opcode := .PLACE_TOWER, operands := [], metadata := [] }
    let i := { i with operands := i.operands ++ [placeStmt.towerType] }
    let i := { i with metadata := Metadata.set i.metadata "x" (.int placeStmt.x) }
    let i := { i with metadata := Metadata.set i.metadata "y" (.int placeStmt.y) }
    g.emit i

/-- Generate intermediate code from the AST: `code.clear()`, then one pass over
the declarations in source order. -/
def generate (program : Program) : List IrInstruction :=
  (program.declarations.foldl IrGenerator.step { code := [] }).code

/-! ## Semantic analysis (`semantic.h`, `semantic.cpp`) -/

/-- The symbol tables of the analyzer and the map used for placement checks. -/
structure SemanticAnalyzer where
  mapDeclarations : List (String × MapDecl)
  enemyDeclarations : List (String × EnemyDecl)
  towerDeclarations : List (String × TowerDecl)
  waveDeclarations : List (String × WaveDecl)
  currentMap : Option MapDecl

/-- A newly constructed analyzer: empty tables, `currentMap = nullptr`. -/
def SemanticAnalyzer.fresh : SemanticAnalyzer :=
  { mapDeclarations := [], enemyDeclarations := [], towerDeclarations := [],
    waveDeclarations := [], currentMap := none }

/-- Key test `table.count(k)` of a symbol table. -/
def tableCount {α : Type} (table : List (String × α)) (k : String) : Bool :=
  decide (k ∈ table.map Prod.fst)

/-- Validation of a map declaration. -/
def checkMap (a : SemanticAnalyzer) (map : MapDecl) : Except String SemanticAnalyzer :=
  if tableCount a.mapDeclarations map.name then
    .error ("Semantic Error: Duplicate map name " ++ map.name ++ "\n")
  else
    let a := { a with mapDeclarations := (map.name, map) :: a.mapDeclarations,
                      currentMap := some map }
    if map.width ≤ 0 ∨ map.height ≤ 0 then
      .error "Invalid map size.\n"
    else if map.path.any (fun point =>
        decide (point.1 < 0) || decide (point.1 ≥ map.width) ||
        decide (point.2 < 0) || decide (point.2 ≥ map.height)) then
      .error "Path coordinate out of map bounds.\n"
    else
      .ok a

/-- Validation of an enemy declaration. -/
def checkEnemy (a : SemanticAnalyzer) (enemy : EnemyDecl) : Except String SemanticAnalyzer :=
  if tableCount a.enemyDeclarations enemy.name then
    .error ("Duplicate enemy: " ++ enemy.name ++ "\n")
  else
    let a := { a with enemyDeclarations := (enemy.name, enemy) :: a.enemyDeclarations }
    if enemy.hp ≤ 0 then
      .error "Enemy HP must be positive.\n"
    else if enemy.speed ≤ 0 then
      .error "Enemy speed must be positive.\n"
    else if enemy.reward < 0 then
      .error "Enemy reward cannot be negative.\n"
    else
      .ok a

/-- Validation of a tower declaration. -/
def checkTower (a : SemanticAnalyzer) (tower : TowerDecl) : Except String SemanticAnalyzer :=
  if tableCount a.towerDeclarations tower.name then
    .error ("Duplicate tower: " ++ tower.name ++ "\n")
  else
    let a := { a with towerDeclarations := (tower.name, tower) :: a.towerDeclarations }
    if tower.range ≤ 0 ∨ tower.damage ≤ 0 ∨ tower.cost < 0 then
      .error "Invalid tower stats.\n"
    else if tower.fireRate ≤ 0 then
      .error "Tower fire rate must be positive.\n"
    else
      .ok a

/-- The loop of `checkWave` over the spawns of a wave. -/
def checkSpawns (a : SemanticAnalyzer) : List SpawnStmt → Except String Unit
  | [] => .ok ()
  | spawn :: rest =>
    if !tableCount a.enemyDeclarations spawn.enemyType then
      .error ("Wave uses undefined enemy: " ++ spawn.enemyType ++ "\n")
    else if spawn.count ≤ 0 ∨ spawn.start < 0 ∨ spawn.interval ≤ 0 then
      .error "Invalid spawn parameters.\n"
    else
      checkSpawns a rest

/-- Validation of a wave declaration. -/
def checkWave (a : SemanticAnalyzer) (wave : WaveDecl) : Except String SemanticAnalyzer :=
  if tableCount a.waveDeclarations wave.name then
    .error ("Duplicate wave: " ++ wave.name ++ "\n")
  else
    let a := { a with waveDeclarations := (wave.name, wave) :: a.waveDeclarations }
    match checkSpawns a wave.spawns with
    | .error msg => .error msg
    | .ok _ => .ok a

/-- Validation of a placement statement. -/
def checkPlacement (a : SemanticAnalyzer) (placement : PlaceStmt) :
    Except String SemanticAnalyzer :=
  if !tableCount a.towerDeclarations placement.towerType then
    .error ("Placing undefined tower type: " ++ placement.towerType ++ "\n")
  else
    match a.currentMap with
    | none => .error "Place statement appears before map definition.\n"
    | some currentMap =>
      if placement.x < 0 ∨ placement.x ≥ currentMap.width ∨
         placement.y < 0 ∨ placement.y ≥ currentMap.height then
        .error "Tower placement out of map bounds.\n"
      else
        .ok a

/-- Dispatch of `analyze` on the kind of a declaration. -/
def checkDecl (a : SemanticAnalyzer) : Decl → Except String SemanticAnalyzer
  | .map m => checkMap a m
  | .enemy e => checkEnemy a e
  | .tower t => checkTower a t
  | .wave w => checkWave a w
  | .place p => checkPlacement a p

/-- The loop of `analyze`, started from analyzer state `a`. -/
def analyzeFrom (a : SemanticAnalyzer) : List Decl → Except String SemanticAnalyzer
  | [] => .ok a
  | d :: rest =>
    match checkDecl a d with
    | .error msg => .error msg
    | .ok a1 => analyzeFrom a1 rest

/-- Analysis `SemanticAnalyzer::analyze` run on a newly constructed analyzer. -/
def analyze (program : Program) : Except String SemanticAnalyzer :=
  analyzeFrom SemanticAnalyzer.fresh program.declarations

/-- The program passes semantic analysis. -/
def accepted (program : Program) : Bool :=
  match analyze program with
  | .ok _ => true
  | .error _ => false

/-! ## Optimizer (`optimizer.cpp`) -/

/-- Opcode test `Optimizer::isDefinitionInstruction`. -/
def isDefinitionInstruction (opcode : IrOpcode) : Bool :=
  opcode = .DEFINE_MAP || opcode = .DEFINE_ENEMY ||
  opcode = .DEFINE_TOWER || opcode = .DEFINE_WAVE

/-- Key builder `Optimizer::getDefinitionKey`. -/
def getDefinitionKey (instruction : IrInstruction) : String :=
  let pre :=
    match instruction.opcode with
    | .DEFINE_MAP => "MAP:"
    | .DEFINE_ENEMY => "ENEMY:"
    | .DEFINE_TOWER => "TOWER:"
    | .DEFINE_WAVE => "WAVE:"
    | _ => "UNKNOWN:"
  pre ++ instruction.operands.headD ""

/-- The loop of `duplicateDefinitionRemoval` with the set `seenDefinitions`. -/
def dedupLoop (seenDefinitions : List String) : List IrInstruction → List IrInstruction
  | [] => []
  | instruction :: rest =>
    if isDefinitionInstruction instruction.opcode && !instruction.operands.isEmpty then
      let key := getDefinitionKey instruction
      if key ∈ seenDefinitions then
        dedupLoop seenDefinitions rest
      else
        instruction :: dedupLoop (key :: seenDefinitions) rest
    else
      instruction :: dedupLoop seenDefinitions rest

/-- Pass 1: remove duplicate definitions (keep first occurrence). -/
def duplicateDefinitionRemoval (instructions : List IrInstruction) : List IrInstruction :=
  dedupLoop [] instructions

/-- Decimal rendering `std::to_string(int)`. -/
def to_string (v : Int) : String := toString v

/-- Guard of the merging branch: a `SPAWN_ENEMY` with at least two operands. -/
def isMergeable (instruction : IrInstruction) : Bool :=
  instruction.opcode = .SPAWN_ENEMY && decide (instruction.operands.length ≥ 2)

/-- The grouping key of a mergeable spawn; fails when `start` or `interval`
is missing or is not an `int`. -/
def spawnKey (instruction : IrInstruction) : Option String :=
  let wave := instruction.operands.getD 0 ""
  let enemy := instruction.operands.getD 1 ""
  (instruction.metadata.getInt "start").bind fun start =>
  (instruction.metadata.getInt "interval").bind fun interval =>
  some (wave ++ "_" ++ enemy ++ "_" ++ to_string start ++ "_" ++ to_string interval)

/-- Locals of `redundantSpawnMerging`: the output vector and the map from a
key to the index of its spawn in the output vector. -/
structure MergeState where
  optimized : List IrInstruction
  spawnGroupIndex : List (String × Nat)

/-- Body of the loop of `redundantSpawnMerging`. -/
def mergeStep (st : MergeState) (instruction : IrInstruction) : Option MergeState :=
  if isMergeable instruction then
    (spawnKey instruction).bind fun key =>
    match st.spawnGroupIndex.lookup key with
    | some index =>
      (st.optimized.get? index).bind fun target =>
      (target.metadata.getInt "count").bind fun existingCount =>
      (instruction.metadata.getInt "count").bind fun newCount =>
      let merged : IrInstruction :=
        { target with
          metadata := target.metadata.set "count" (.int (intAdd existingCount newCount)) }
      some { st with optimized := st.optimized.set index merged }
    | none =>
      some { optimized := st.optimized ++ [instruction],
             spawnGroupIndex := (key, st.optimized.length) :: st.spawnGroupIndex }
  else
    some { st with optimized := st.optimized ++ [instruction] }

/-- The loop of `redundantSpawnMerging` from a given state. -/
def mergeLoop (st : MergeState) : List IrInstruction → Option MergeState
  | [] => some st
  | instruction :: rest => (mergeStep st instruction).bind fun st1 => mergeLoop st1 rest

/-- Pass 2: merge redundant spawns. -/
def redundantSpawnMerging (instructions : List IrInstruction) : Option (List IrInstruction) :=
  (mergeLoop { optimized := [], spawnGroupIndex := [] } instructions).map MergeState.optimized

/-- The `DEFINE_TOWER` branch of constant folding: attach `dps`. -/
def foldTower (fp : DoubleArith) (instruction newInstruction : IrInstruction) :
    Option IrInstruction :=
  if instruction.opcode = .DEFINE_TOWER then
    if instruction.metadata.count "damage" && instruction.metadata.count "fire_rate" then
      (instruction.metadata.getInt "damage").bind fun damage =>
      (instruction.metadata.getDouble "fire_rate").bind fun fireRate =>
      let dps : Double := fp.product damage fireRate
      some { newInstruction with metadata := newInstruction.metadata.set "dps" (.real dps) }
    else some newInstruction
  else some newInstruction

/-- The `SPAWN_ENEMY` branch of constant folding: attach `total_duration`. -/
def foldSpawn (instruction newInstruction : IrInstruction) : Option IrInstruction :=
  if instruction.opcode = .SPAWN_ENEMY then
    if instruction.metadata.count "count" && instruction.metadata.count "interval" then
      (instruction.metadata.getInt "count").bind fun count =>
      (instruction.metadata.getInt "interval").bind fun interval =>
      let totalDuration := intMul count interval
      some { newInstruction with
              metadata := newInstruction.metadata.set "total_duration" (.int totalDuration) }
    else some newInstruction
  else some newInstruction

/-- Body of the loop of `constantFolding` for one instruction. -/
def foldInstruction (fp : DoubleArith) (instruction : IrInstruction) : Option IrInstruction :=
  (foldTower fp instruction instruction).bind fun newInstruction =>
  foldSpawn instruction newInstruction

/-- Pass 3: constant folding. -/
def constantFolding (fp : DoubleArith) : List IrInstruction → Option (List IrInstruction)
  | [] => some []
  | instruction :: rest =>
    (foldInstruction fp instruction).bind fun newInstruction =>
    (constantFolding fp rest).bind fun optimized =>
    some (newInstruction :: optimized)

/-- First sub-pass of DCE: names referenced by `SPAWN_ENEMY` instructions. -/
def referencedEnemies (instructions : List IrInstruction) : List String :=
  instructions.filterMap fun instruction =>
    if instruction.opcode = .SPAWN_ENEMY ∧ instruction.operands.length > 1 then
      instruction.operands.get? 1
    else none

/-- First sub-pass of DCE: names referenced by `PLACE_TOWER` instructions. -/
def referencedTowers (instructions : List IrInstruction) : List String :=
  instructions.filterMap fun instruction =>
    if instruction.opcode = .PLACE_TOWER ∧ ¬ instruction.operands.isEmpty then
      instruction.operands.head?
    else none

/-- First sub-pass of DCE: names defined by `DEFINE_ENEMY` (collected, never read). -/
def definedEnemies (instructions : List IrInstruction) : List String :=
  instructions.filterMap fun instruction =>
    if instruction.opcode = .DEFINE_ENEMY ∧ ¬ instruction.operands.isEmpty then
      instruction.operands.head?
    else none

/-- First sub-pass of DCE: names defined by `DEFINE_TOWER` (collected, never read). -/
def definedTowers (instructions : List IrInstruction) : List String :=
  instructions.filterMap fun instruction =>
    if instruction.opcode = .DEFINE_TOWER ∧ ¬ instruction.operands.isEmpty then
      instruction.operands.head?
    else none

/-- Second sub-pass of DCE: the value of `keep` for one instruction. -/
def dceKeep (refEnemies refTowers : List String) (instruction : IrInstruction) : Bool :=
  let keep := true
  let keep :=
    if instruction.opcode = .DEFINE_ENEMY ∧ ¬ instruction.operands.isEmpty then
      if instruction.operands.headD "" ∉ refEnemies then false else keep
    else keep
  let keep :=
    if instruction.opcode = .DEFINE_TOWER ∧ ¬ instruction.operands.isEmpty then
      if instruction.operands.headD "" ∉ refTowers then false else keep
    else keep
  let keep := if instruction.opcode = .NOP then false else keep
  keep

/-- Pass 4: dead code elimination. -/
def deadCodeElimination (instructions : List IrInstruction) : List IrInstruction :=
  instructions.filter (dceKeep (referencedEnemies instructions) (referencedTowers instructions))

/-- Entry point `Optimizer::optimize`: the four passes in sequence. -/
def optimize (fp : DoubleArith) (instructions : List IrInstruction) :
    Option (List IrInstruction) :=
  let result := duplicateDefinitionRemoval instructions
  (redundantSpawnMerging result).bind fun result =>
  (constantFolding fp result).bind fun result =>
  some (deadCodeElimination result)

/-! ## Emission rules of the IR generator, as the specification words them -/

/-- Text of one path point: `x,y`. -/
def pointText (p : Int × Int) : String := toString p.1 ++ "," ++ toString p.2

/-- The semicolon-joined concatenation of the `x,y` pairs of a path. -/
def pathText (path : List (Int × Int)) : String :=
  String.intercalate ";" (path.map pointText)

/-- The `SPAWN_ENEMY` of the emission rule for waves: operands
`[waveName, enemyType]` and metadata `{count, start, interval}`. -/
def emitSpawn (waveName : String) (s : SpawnStmt) : IrInstruction :=
  { opcode := .SPAWN_ENEMY, operands := [waveName, s.enemyType],
    metadata := [("count", .int s.count), ("start", .int s.start),
                 ("interval", .int s.interval)] }

/-- The instructions that the emission rules prescribe for one declaration. -/
def emitDecl : Decl → List IrInstruction
  | .map m =>
    [{ opcode := .DEFINE_MAP, operands := [m.name],
       metadata := [("width", .int m.width), ("height", .int m.height),
                    ("path", .str (pathText m.path))] }]
  | .enemy e =>
    [{ opcode := .DEFINE_ENEMY, operands := [e.name],
       metadata := [("hp", .int e.hp), ("speed", .real e.speed),
                    ("reward", .int e.reward)] }]
  | .tower t =>
    [{ opcode := .DEFINE_TOWER, operands := [t.name],
       metadata := [("range", .int t.range), ("damage", .int t.damage),
                    ("fire_rate", .real t.fireRate), ("cost", .int t.cost)] }]
  | .wave w =>
    { opcode := .DEFINE_WAVE, operands := [w.name], metadata := [] } ::
      w.spawns.map (emitSpawn w.name)
  | .place p =>
    [{ opcode := .PLACE_TOWER, operands := [p.towerType],
       metadata := [("x", .int p.x), ("y", .int p.y)] }]

/-- Operand lists of the instructions with a given opcode, in IR order. -/
def operandsOf (op : IrOpcode) (ir : List IrInstruction) : List (List String) :=
  (ir.filter (fun i => decide (i.opcode = op))).map IrInstruction.operands

/-- Names of the declarations that emit the given definition or placement
opcode, in source order. -/
def declaredNames (op : IrOpcode) : List Decl → List (List String)
  | [] => []
  | .map m :: rest =>
    if op = .DEFINE_MAP then [m.name] :: declaredNames op rest else declaredNames op rest
  | .enemy e :: rest =>
    if op = .DEFINE_ENEMY then [e.name] :: declaredNames op rest else declaredNames op rest
  | .tower t :: rest =>
    if op = .DEFINE_TOWER then [t.name] :: declaredNames op rest else declaredNames op rest
  | .wave w :: rest =>
    if op = .DEFINE_WAVE then [w.name] :: declaredNames op rest else declaredNames op rest
  | .place p :: rest =>
    if op = .PLACE_TOWER then [p.towerType] :: declaredNames op rest
    else declaredNames op rest

/-- Number of spawn statements of a declaration (zero unless it is a wave). -/
def spawnCount : Decl → Nat
  | .wave w => w.spawns.length
  | _ => 0

/-- The `DEFINE_WAVE` instruction of the emission rule for a wave named `W`. -/
def defineWave (W : String) : IrInstruction :=
  { opcode := .DEFINE_WAVE, operands := [W], metadata := [] }

/-- Every `SPAWN_ENEMY` of the sequence lies in the run of its own wave: an
earlier `DEFINE_WAVE` with operand list `[W]`, where `W` is the first operand
of the spawn, is separated from it by `SPAWN_ENEMY` instructions only. -/
def SpawnsFollowOwnWave (ir : List IrInstruction) : Prop :=
  ∀ (j : Nat) (x : IrInstruction), ir[j]? = some x → x.opcode = .SPAWN_ENEMY →
    ∃ (k : Nat) (W : String), k < j ∧ ir[k]? = some (defineWave W) ∧
      x.operands.head? = some W ∧
      ∀ (m : Nat) (y : IrInstruction), k < m → m < j → ir[m]? = some y →
        y.opcode = .SPAWN_ENEMY

/-! ## Validity of a program, as the specification words it -/

/-- Names of the map declarations of a declaration list, in order. -/
def mapNames (ds : List Decl) : List String :=
  ds.filterMap fun d => match d with
    | .map m => some m.name
    | _ => none

/-- Names of the enemy declarations of a declaration list, in order. -/
def enemyNames (ds : List Decl) : List String :=
  ds.filterMap fun d => match d with
    | .enemy e => some e.name
    | _ => none

/-- Names of the tower declarations of a declaration list, in order. -/
def towerNames (ds : List Decl) : List String :=
  ds.filterMap fun d => match d with
    | .tower t => some t.name
    | _ => none

/-- Names of the wave declarations of a declaration list, in order. -/
def waveNames (ds : List Decl) : List String :=
  ds.filterMap fun d => match d with
    | .wave w => some w.name
    | _ => none

/-- The most recently declared map of a declaration list, if any. -/
def lastMap (ds : List Decl) : Option MapDecl :=
  (ds.filterMap fun d => match d with
    | .map m => some m
    | _ => none).getLast?

/-- A point lies inside a `width` by `height` grid. -/
def inBounds (width height x y : Int) : Prop :=
  0 ≤ x ∧ x < width ∧ 0 ≤ y ∧ y < height

/-- The attributes of a spawn are valid and its enemy is declared in `earlier`. -/
def validSpawn (earlier : List Decl) (s : SpawnStmt) : Prop :=
  s.enemyType ∈ enemyNames earlier ∧ 0 < s.count ∧ 0 ≤ s.start ∧ 0 < s.interval

/-- Validity of one declaration with respect to the declarations before it. -/
def validDecl (earlier : List Decl) : Decl → Prop
  | .map m =>
    m.name ∉ mapNames earlier ∧ 0 < m.width ∧ 0 < m.height ∧
      ∀ p ∈ m.path, inBounds m.width m.height p.1 p.2
  | .enemy e =>
    e.name ∉ enemyNames earlier ∧ 0 < e.hp ∧ 0 < e.speed ∧ 0 ≤ e.reward
  | .tower t =>
    t.name ∉ towerNames earlier ∧ 0 < t.range ∧ 0 < t.damage ∧ 0 ≤ t.cost ∧ 0 < t.fireRate
  | .wave w =>
    w.name ∉ waveNames earlier ∧ ∀ s ∈ w.spawns, validSpawn earlier s
  | .place p =>
    p.towerType ∈ towerNames earlier ∧
      ∃ m, lastMap earlier = some m ∧ inBounds m.width m.height p.x p.y

/-- Every declaration is valid with respect to the declarations before it. -/
def ValidProgram (ds : List Decl) : Prop :=
  ∀ (n : Nat) (d : Decl), ds[n]? = some d → validDecl (ds.take n) d

/-- The analyzer state `a` records exactly the declarations `earlier`. -/
structure Tracks (a : SemanticAnalyzer) (earlier : List Decl) : Prop where
  maps : ∀ k, tableCount a.mapDeclarations k = true ↔ k ∈ mapNames earlier
  enemies : ∀ k, tableCount a.enemyDeclarations k = true ↔ k ∈ enemyNames earlier
  towers : ∀ k, tableCount a.towerDeclarations k = true ↔ k ∈ towerNames earlier
  waves : ∀ k, tableCount a.waveDeclarations k = true ↔ k ∈ waveNames earlier
  current : a.currentMap = lastMap earlier

/-! ## Vocabulary for the properties of the optimizer -/

/-- The key under which pass 1 records an instruction, `none` for the
instructions that pass 1 does not look at. -/
def defKey (i : IrInstruction) : Option String :=
  if isDefinitionInstruction i.opcode && !i.operands.isEmpty then
    some (getDefinitionKey i)
  else none

/-- The keys that pass 1 computes on a sequence, in order. -/
def defKeys (ir : List IrInstruction) : List String := ir.filterMap defKey

/-- The grouping keys that pass 2 computes on a sequence, in order (`none`
where the computation of the key throws). -/
def spawnKeys (ir : List IrInstruction) : List (Option String) :=
  (ir.filter isMergeable).map spawnKey

/-- The sequence on the right is obtained from the one on the left by removing
instructions whose opcode satisfies `drop` and by changing metadata only. -/
inductive Thin (drop : IrOpcode → Prop) : List IrInstruction → List IrInstruction → Prop
  | nil : Thin drop [] []
  | keep {a b : IrInstruction} {as bs : List IrInstruction} :
      a.opcode = b.opcode → a.operands = b.operands → Thin drop as bs →
      Thin drop (a :: as) (b :: bs)
  | skip {a : IrInstruction} {as bs : List IrInstruction} :
      drop a.opcode → Thin drop as bs → Thin drop (a :: as) bs

/-- The opcodes that end a wave group: the four definitions and `PLACE_TOWER`. -/
def isBoundary (op : IrOpcode) : Bool :=
  op = .DEFINE_MAP || op = .DEFINE_ENEMY || op = .DEFINE_TOWER ||
  op = .DEFINE_WAVE || op = .PLACE_TOWER

/-- Scan of a sequence with the wave whose group is open: a `DEFINE_WAVE`
opens the group of its first operand, another boundary instruction closes the
group, and any other instruction must be a `SPAWN_ENEMY` of the open group. -/
def Grouped : Option String → List IrInstruction → Prop
  | _, [] => True
  | cur, i :: rest =>
    if i.opcode = .DEFINE_WAVE then Grouped i.operands.head? rest
    else if isBoundary i.opcode = true then Grouped none rest
    else (i.opcode = .SPAWN_ENEMY ∧ cur.isSome = true ∧ i.operands.head? = cur)
          ∧ Grouped cur rest

/-- Wave grouping invariant: every instruction between a `DEFINE_WAVE` named
`W` and the next boundary instruction (or the end) is a `SPAWN_ENEMY` whose
first operand is `W`. -/
def WaveGrouping (ir : List IrInstruction) : Prop :=
  ∀ (before mid after : List IrInstruction) (dw : IrInstruction) (W : String),
    ir = before ++ dw :: (mid ++ after) →
    dw.opcode = .DEFINE_WAVE → dw.operands.head? = some W →
    (∀ x ∈ mid, isBoundary x.opcode = false) →
    ∀ x ∈ mid, x.opcode = .SPAWN_ENEMY ∧ x.operands.head? = some W

/-- The four passes of the optimizer. -/
inductive Pass where
  | dedup
  | merge
  | fold
  | dce
deriving DecidableEq

/-- Run one pass: `dedup` is `duplicateDefinitionRemoval`, `merge` is
`redundantSpawnMerging`, `fold` is `constantFolding`, `dce` is
`deadCodeElimination`. -/
def runPass (fp : DoubleArith) : Pass → List IrInstruction → Option (List IrInstruction)
  | .dedup, ir => some (duplicateDefinitionRemoval ir)
  | .merge, ir => redundantSpawnMerging ir
  | .fold, ir => constantFolding fp ir
  | .dce, ir => some (deadCodeElimination ir)

/-- Run a sequence of passes, each on the result of the one before. -/
def runPasses (fp : DoubleArith) : List Pass → List IrInstruction → Option (List IrInstruction)
  | [], ir => some ir
  | p :: ps, ir => (runPass fp p ir).bind (runPasses fp ps)

/-- Loop invariant of pass 2: the index map knows exactly the keys of the
mergeable spawns of the output vector, these keys are pairwise different, and
each of them could be computed. -/
structure MergeInv (st : MergeState) : Prop where
  keys : ∀ k, k ∈ st.spawnGroupIndex.map Prod.fst ↔ some k ∈ spawnKeys st.optimized
  nodup : (spawnKeys st.optimized).Nodup
  defined : none ∉ spawnKeys st.optimized

/-- A program with two enemies, a tower, two waves (the first with two spawns
of the same enemy, start and interval) and a placement. -/
def sampleProgram : Program :=
  ⟨[Decl.map ⟨"M", 5, 5, [(0, 0), (1, 0)]⟩,
    Decl.enemy ⟨"Goblin", 10, 1, 5⟩,
    Decl.enemy ⟨"Orc", 20, 2, 8⟩,
    Decl.tower ⟨"Archer", 3, 4, 50, 2⟩,
    Decl.tower ⟨"Cannon", 2, 9, 80, 1⟩,
    Decl.wave ⟨"W", [⟨"Goblin", 3, 0, 1⟩, ⟨"Goblin", 3, 0, 1⟩]⟩,
    Decl.wave ⟨"V", [⟨"Goblin", 2, 4, 2⟩]⟩,
    Decl.place ⟨"Archer", 1, 1⟩]⟩

/-- The optimized IR of `sampleProgram`. -/
def sampleOptimized : List IrInstruction :=
  [⟨.DEFINE_MAP, ["M"], [("width", .int 5), ("height", .int 5), ("path", .str "0,0;1,0")]⟩,
   ⟨.DEFINE_ENEMY, ["Goblin"], [("hp", .int 10), ("speed", .real 1), ("reward", .int 5)]⟩,
   ⟨.DEFINE_TOWER, ["Archer"], [("range", .int 3), ("damage", .int 4),
      ("fire_rate", .real 2), ("cost", .int 50), ("dps", .real 8)]⟩,
   ⟨.DEFINE_WAVE, ["W"], []⟩,
   ⟨.SPAWN_ENEMY, ["W", "Goblin"], [("count", .int 6), ("start", .int 0),
      ("interval", .int 1), ("total_duration", .int 6)]⟩,
   ⟨.DEFINE_WAVE, ["V"], []⟩,
   ⟨.SPAWN_ENEMY, ["V", "Goblin"], [("count", .int 2), ("start", .int 4),
      ("interval", .int 2), ("total_duration", .int 4)]⟩,
   ⟨.PLACE_TOWER, ["Archer"], [("x", .int 1), ("y", .int 1)]⟩]

/-- The key that pass 1 computes for the definition emitted by a declaration
(`none` for a placement, which emits no definition). -/
def declKey : Decl → Option String
  | .map m => some ("MAP:" ++ m.name)
  | .enemy e => some ("ENEMY:" ++ e.name)
  | .tower t => some ("TOWER:" ++ t.name)
  | .wave w => some ("WAVE:" ++ w.name)
  | .place _ => none

/-- A program whose two waves spawn different enemies: wave `Boss` spawns
`Rush_Orc` and wave `Boss_Rush` spawns `Orc`, with equal start and interval. -/
def collisionProgram : Program :=
  ⟨[Decl.enemy ⟨"Rush_Orc", 10, 1, 1⟩,
    Decl.enemy ⟨"Orc", 10, 1, 1⟩,
    Decl.wave ⟨"Boss", [⟨"Rush_Orc", 1, 0, 1⟩]⟩,
    Decl.wave ⟨"Boss_Rush", [⟨"Orc", 2, 0, 1⟩]⟩]⟩

/-- Sum of the `count` metadata of the `SPAWN_ENEMY` instructions whose wave
operand is `W`. -/
def waveSpawnTotal (W : String) (ir : List IrInstruction) : Int :=
  ((ir.filter fun i => decide (i.opcode = .SPAWN_ENEMY ∧ i.operands.head? = some W)).map
    fun i => (Metadata.getInt i.metadata "count").getD 0).sum

/-- Index entries of pass 2 point at a mergeable spawn of the output vector
that has the key of the entry. -/
def MergeIdx (st : MergeState) : Prop :=
  ∀ (k : String) (n : Nat), st.spawnGroupIndex.lookup k = some n →
    ∃ t, st.optimized[n]? = some t ∧ isMergeable t = true ∧ spawnKey t = some k

/-- An IR with a `NOP`, a duplicated enemy definition and a duplicated tower
definition. -/
def sampleWithNop : List IrInstruction :=
  [⟨.NOP, [], []⟩,
   ⟨.DEFINE_ENEMY, ["Goblin"], [("hp", .int 10)]⟩,
   ⟨.DEFINE_ENEMY, ["Goblin"], [("hp", .int 99)]⟩,
   ⟨.DEFINE_TOWER, ["Archer"], [("damage", .int 4), ("fire_rate", .real 2)]⟩,
   ⟨.DEFINE_TOWER, ["Archer"], [("damage", .int 7), ("fire_rate", .real 1)]⟩,
   ⟨.DEFINE_WAVE, ["W"], []⟩,
   ⟨.SPAWN_ENEMY, ["W", "Goblin"], [("count", .int 3), ("start", .int 0), ("interval", .int 1)]⟩,
   ⟨.NOP, [], []⟩,
   ⟨.PLACE_TOWER, ["Archer"], [("x", .int 1), ("y", .int 1)]⟩]

/-- The optimized form of `sampleWithNop`. -/
def sampleWithNopOptimized : List IrInstruction :=
  [⟨.DEFINE_ENEMY, ["Goblin"], [("hp", .int 10)]⟩,
   ⟨.DEFINE_TOWER, ["Archer"], [("damage", .int 4), ("fire_rate", .real 2), ("dps", .real 8)]⟩,
   ⟨.DEFINE_WAVE, ["W"], []⟩,
   ⟨.SPAWN_ENEMY, ["W", "Goblin"], [("count", .int 3), ("start", .int 0), ("interval", .int 1),
      ("total_duration", .int 3)]⟩,
   ⟨.PLACE_TOWER, ["Archer"], [("x", .int 1), ("y", .int 1)]⟩]

/-- The instruction is of kind `op` and carries the name `n` as first operand. -/
def isNamed (op : IrOpcode) (n : String) (i : IrInstruction) : Bool :=
  decide (i.opcode = op ∧ i.operands.head? = some n)

/-! ## Tokens (`include/mtdl/token.hpp`) -/

/-- All possible token types in the MTDL language. -/
inductive TokenType where
  | MAP | ENEMY | TOWER | WAVE | SPAWN | PLACE | AT
  | SIZE | PATH | COUNT | START | INTERVAL
  | IDENT | INT | FLOAT
  | LBRACE | RBRACE | LPAREN | RPAREN | LBRACKET | RBRACKET
  | COMMA | SEMICOLON | EQUAL
  | PLUS | MINUS | MUL | DIV
  | END_OF_FILE
  | UNKNOWN
deriving DecidableEq, Repr

/-- A single token with its type, text, and line. -/
structure Token where
  type : TokenType
  lexeme : String
  line : Int
deriving DecidableEq, Repr

/-! ## Lexer (`lexer.h`, `src/lexer.cpp`) -/

/-- State of the lexer: the source as a sequence of `char`s, the reading
position and the line counter.  The keyword table is the constant `keywords`. -/
structure Lexer where
  source : List Char
  position : Nat
  currentLine : Int
deriving DecidableEq, Repr

/-- Constructor `Lexer::Lexer`: position 0, line 1. -/
def Lexer.new (source : String) : Lexer :=
  { source := source.data, position := 0, currentLine := 1 }

/-- The keyword lookup table built by the constructor. -/
def keywordTable : List (String × TokenType) :=
  [("map", .MAP), ("enemy", .ENEMY), ("tower", .TOWER), ("wave", .WAVE),
   ("spawn", .SPAWN), ("place", .PLACE), ("at", .AT), ("size", .SIZE),
   ("path", .PATH), ("count", .COUNT), ("start", .START), ("interval", .INTERVAL)]

/-- Lookup `keywords.count(text) ? keywords[text]`. -/
def keywords (text : String) : Option TokenType := keywordTable.lookup text

/-- C library `isdigit` in the "C" locale. -/
def isdigit (c : Char) : Bool := c.isDigit

/-- C library `isalpha` in the "C" locale. -/
def isalpha (c : Char) : Bool := c.isAlpha

/-- C library `isalnum` in the "C" locale. -/
def isalnum (c : Char) : Bool := c.isAlphanum

/-- The characters still to be read: `source` from `position` on. -/
def Lexer.rest (l : Lexer) : List Char := l.source.drop l.position

/-- Test `isAtEnd`: `position >= source.size()`. -/
def Lexer.isAtEnd (l : Lexer) : Bool := decide (l.position ≥ l.source.length)

/-- Look at the next character without consuming: NUL at the end. -/
def Lexer.peek (l : Lexer) : Char :=
  if l.isAtEnd then '\x00' else l.source.getD l.position '\x00'

/-- Consume and return the next character; at the end return NUL and stay. -/
def Lexer.advance (l : Lexer) : Char × Lexer :=
  if l.isAtEnd then ('\x00', l)
  else (l.source.getD l.position '\x00', { l with position := l.position + 1 })

/-- The loop of `skipWhitespace` over the characters still to be read:
spaces, tabs and carriage returns are consumed, a newline is consumed and
counted, anything else ends the loop.  Returns the new position and line. -/
def skipWhitespaceLoop : List Char → Nat → Int → Nat × Int
  | [], position, line => (position, line)
  | currentChar :: rest, position, line =>
    if currentChar = ' ' ∨ currentChar = '\t' ∨ currentChar = '\r' then
      skipWhitespaceLoop rest (position + 1) line
    else if currentChar = '\n' then
      skipWhitespaceLoop rest (position + 1) (line + 1)
    else (position, line)

/-- Skip spaces, tabs, newlines. -/
def Lexer.skipWhitespace (l : Lexer) : Lexer :=
  let r := skipWhitespaceLoop l.rest l.position l.currentLine
  { l with position := r.1, currentLine := r.2 }

/-- The loop `while (!isAtEnd() && peek() != '\n') advance()` over the
characters still to be read; returns the new position. -/
def skipToLineEnd : List Char → Nat → Nat
  | [], position => position
  | c :: rest, position => if c ≠ '\n' then skipToLineEnd rest (position + 1) else position

/-- Skip one single-line comment starting with `//`, if the lexer is at one. -/
def Lexer.skipComment (l : Lexer) : Lexer :=
  if l.peek = '/' ∧ l.position + 1 < l.source.length ∧
      l.source.getD (l.position + 1) '\x00' = '/' then
    { l with position := skipToLineEnd l.rest l.position }
  else l

/-- The loop `while (p(peek())) advance()` for a test `p` that fails on NUL;
returns the new position. -/
def advanceWhile (p : Char → Bool) : List Char → Nat → Nat
  | [], position => position
  | c :: rest, position => if p c then advanceWhile p rest (position + 1) else position

/-- Copy `source.substr(start, n)`. -/
def substr (source : List Char) (start n : Nat) : String :=
  String.mk ((source.drop start).take n)

/-- Process an identifier or keyword; the first character is already consumed. -/
def Lexer.identifier (l : Lexer) : Token × Lexer :=
  let startPosition := l.position - 1
  let position := advanceWhile (fun c => isalnum c || decide (c = '_')) l.rest l.position
  let l1 := { l with position := position }
  let text := substr l1.source startPosition (l1.position - startPosition)
  match keywords text with
  | some ty => ({ type := ty, lexeme := text, line := l1.currentLine }, l1)
  | none => ({ type := .IDENT, lexeme := text, line := l1.currentLine }, l1)

/-- Process an integer or float literal; the first digit is already consumed. -/
def Lexer.number (l : Lexer) : Token × Lexer :=
  let startPosition := l.position - 1
  let isFloat := false
  let l1 := { l with position := advanceWhile isdigit l.rest l.position }
  let (isFloat, l2) :=
    if l1.peek = '.' then
      let l2 := (l1.advance).2
      (true, { l2 with position := advanceWhile isdigit l2.rest l2.position })
    else (isFloat, l1)
  let text := substr l2.source startPosition (l2.position - startPosition)
  ({ type := if isFloat then .FLOAT else .INT, lexeme := text, line := l2.currentLine }, l2)

/-- Token of a single punctuation character, as in the `switch`. -/
def punctuation (c : Char) : Option (TokenType × String) :=
  if c = '{' then some (.LBRACE, "\x7b")
  else if c = '}' then some (.RBRACE, "\x7d")
  else if c = '(' then some (.LPAREN, "(")
  else if c = ')' then some (.RPAREN, ")")
  else if c = '[' then some (.LBRACKET, "[")
  else if c = ']' then some (.RBRACKET, "]")
  else if c = ',' then some (.COMMA, ",")
  else if c = ';' then some (.SEMICOLON, ";")
  else if c = '=' then some (.EQUAL, "=")
  else none

/-- The skipping done at the head of `getNextToken`: whitespace, at most one
comment, whitespace. -/
def Lexer.skip (l : Lexer) : Lexer :=
  ((l.skipWhitespace).skipComment).skipWhitespace

/-- Get the next token and advance.  Every path through the body of the
`while (true)` of the source returns, so the body runs exactly once. -/
def Lexer.getNextToken (l : Lexer) : Token × Lexer :=
  let l := l.skip
  if l.isAtEnd then ({ type := .END_OF_FILE, lexeme := "", line := l.currentLine }, l)
  else
    let (currentChar, l) := l.advance
    if isdigit currentChar then l.number
    else if isalpha currentChar ∨ currentChar = '_' then l.identifier
    else
      match punctuation currentChar with
      | some (ty, text) => ({ type := ty, lexeme := text, line := l.currentLine }, l)
      | none =>
        ({ type := .UNKNOWN, lexeme := String.mk [currentChar], line := l.currentLine }, l)

/-- Look at the next token without advancing: position and line are restored. -/
def Lexer.peekToken (l : Lexer) : Token × Lexer :=
  let oldPosition := l.position
  let oldLine := l.currentLine
  let (token, l1) := l.getNextToken
  (token, { l1 with position := oldPosition, currentLine := oldLine })

/-- Characters that continue an identifier: letters, digits and underscore. -/
def isIdentChar (c : Char) : Bool := isalnum c || decide (c = '_')

/-- The text of a number that starts at the head of `cs`: the maximal run of
digits, extended by `.` and the maximal run of digits after it when the
character right after the first run is `.`; the flag tells whether a `.` was
consumed. -/
def numberLexeme (cs : List Char) : List Char × Bool :=
  match cs.dropWhile isdigit with
  | '.' :: after => (cs.takeWhile isdigit ++ '.' :: after.takeWhile isdigit, true)
  | _ => (cs.takeWhile isdigit, false)

/-- The token type of a word: its keyword type when it is one of the twelve
keywords, `IDENT` otherwise. -/
def wordType (text : String) : TokenType :=
  if text = "map" then .MAP
  else if text = "enemy" then .ENEMY
  else if text = "tower" then .TOWER
  else if text = "wave" then .WAVE
  else if text = "spawn" then .SPAWN
  else if text = "place" then .PLACE
  else if text = "at" then .AT
  else if text = "size" then .SIZE
  else if text = "path" then .PATH
  else if text = "count" then .COUNT
  else if text = "start" then .START
  else if text = "interval" then .INTERVAL
  else .IDENT

/-- The instructions that dead code elimination removes, as the specification
words them: every `NOP`, every `DEFINE_ENEMY` with a name operand whose name is
not the second operand of a `SPAWN_ENEMY` of the sequence, and every
`DEFINE_TOWER` with a name operand whose name is not the first operand of a
`PLACE_TOWER` of the sequence. -/
def dceRemoves (ir : List IrInstruction) (i : IrInstruction) : Bool :=
  decide (i.opcode = .NOP)
  || (decide (i.opcode = .DEFINE_ENEMY) &&
      match i.operands.head? with
      | some n => !(ir.any fun s =>
          decide (s.opcode = .SPAWN_ENEMY ∧ s.operands.get? 1 = some n))
      | none => false)
  || (decide (i.opcode = .DEFINE_TOWER) &&
      match i.operands.head? with
      | some n => !(ir.any fun s =>
          decide (s.opcode = .PLACE_TOWER ∧ s.operands.head? = some n))
      | none => false)

/-- Scenario B: an enemy `Goblin` and a wave `W` with two statements
`spawn(Goblin, count=3, start=0, interval=1);`. -/
def scenarioB (hp : Int) (speed : Double) (reward : Int) : Program :=
  ⟨[Decl.enemy ⟨"Goblin", hp, speed, reward⟩,
    Decl.wave ⟨"W", [⟨"Goblin", 3, 0, 1⟩, ⟨"Goblin", 3, 0, 1⟩]⟩]⟩

/-- The `count` entries of the `SPAWN_ENEMY` instructions of wave `W`, in order. -/
def spawnCountsOfWave (W : String) (ir : List IrInstruction) : List (Option Int) :=
  (ir.filter fun i => decide (i.opcode = .SPAWN_ENEMY ∧ i.operands.head? = some W)).map
    fun i => Metadata.getInt i.metadata "count"

/-- The lexer after `n` calls of `peekToken`. -/
def Lexer.peekTimes : Nat → Lexer → Lexer
  | 0, l => l
  | n + 1, l => Lexer.peekTimes n (l.peekToken).2

/-! ## Parser (`parser.h`, `src/parser.cpp`) -/

/-- Ways in which the parser stops without a result: `exit(1)` after a
diagnostic on `std::cerr` (carrying the text written), an exception thrown by
`std::stoi` or `std::stod` (carrying the name of the function), and the bound
on loop iterations of the embedding, which `parseProgram` never reaches. -/
inductive ParseFailure where
  | exit (diagnostic : String)
  | exception (what : String)
  | fuel
deriving DecidableEq, Repr

/-- C library `isspace` in the "C" locale. -/
def isspace (c : Char) : Bool :=
  c = ' ' || c = '\t' || c = '\n' || c = '\x0b' || c = '\x0c' || c = '\r'

/-- Value of a run of decimal digits. -/
def digitsValue (ds : List Char) : Nat :=
  ds.foldl (fun acc d => acc * 10 + (d.toNat - '0'.toNat)) 0

/-- Conversion `std::stoi` in base 10: leading white space is skipped, an
optional sign is read, then the longest run of digits; text after it is
ignored.  Without a digit the call throws `std::invalid_argument`, with a
value outside the range of `int` it throws `std::out_of_range`. -/
def stoi (s : String) : Except ParseFailure Int :=
  let cs := s.data.dropWhile isspace
  let (negative, cs) :=
    match cs with
    | '-' :: rest => (true, rest)
    | '+' :: rest => (false, rest)
    | _ => (false, cs)
  let ds := cs.takeWhile isdigit
  if ds = [] then .error (.exception "stoi")
  else
    let v : Int := if negative then -(digitsValue ds : Int) else (digitsValue ds : Int)
    if inIntRange v then .ok v else .error (.exception "stoi")

/-- Conversion `std::stod` of a decimal literal without exponent: leading white
space is skipped, an optional sign is read, then digits with an optional `.`;
text after it is ignored.  Without a digit the call throws
`std::invalid_argument`.  The value is the exact decimal; range errors of
`strtod` and the forms with an exponent, hexadecimal digits, `inf` or `nan`,
which the lexeme of a `FLOAT` token never has, are not modelled. -/
def stod (s : String) : Except ParseFailure Double :=
  let cs := s.data.dropWhile isspace
  let (negative, cs) :=
    match cs with
    | '-' :: rest => (true, rest)
    | '+' :: rest => (false, rest)
    | _ => (false, cs)
  let whole := cs.takeWhile isdigit
  let fraction :=
    match cs.dropWhile isdigit with
    | '.' :: after => after.takeWhile isdigit
    | _ => []
  if whole ++ fraction = [] then .error (.exception "stod")
  else
    let v : Rat := mkRat (digitsValue (whole ++ fraction)) (10 ^ fraction.length)
    .ok (if negative then -v else v)

/-- State of the parser: the lexer it reads from and the current token. -/
structure Parser where
  lexer : Lexer
  currentToken : Token
deriving DecidableEq, Repr

/-- Constructor `Parser::Parser`: reads the first token. -/
def Parser.new (lexer : Lexer) : Parser :=
  let r := lexer.getNextToken
  { lexer := r.2, currentToken := r.1 }

/-- Move to the next token. -/
def Parser.advance (p : Parser) : Parser :=
  let r := p.lexer.getNextToken
  { lexer := r.2, currentToken := r.1 }

/-- Method `Parser::match`: advance when the current token has the type. -/
def Parser.matchType (p : Parser) (type : TokenType) : Bool × Parser :=
  if p.currentToken.type = type then (true, p.advance) else (false, p)

/-- Method `Parser::expect`: return the current token and advance when it has
the type, otherwise write the diagnostic and exit. -/
def Parser.expect (p : Parser) (type : TokenType) (errorMessage : String) :
    Except ParseFailure (Token × Parser) :=
  if p.currentToken.type ≠ type then
    .error (.exit ("Parser Error: expected " ++ errorMessage ++ " at line "
      ++ to_string p.currentToken.line ++ "\n"))
  else .ok (p.currentToken, p.advance)

/-- Body of the loop over the path list in `parseMapDecl`: one element
`(x, y)` and the optional comma after it. -/
def parsePathPoint (p : Parser) : Except ParseFailure ((Int × Int) × Parser) := do
  let (_, p) ← p.expect .LPAREN "("
  let (xToken, p) ← p.expect .INT "x coordinate"
  let x ← stoi xToken.lexeme
  let (_, p) ← p.expect .COMMA ","
  let (yToken, p) ← p.expect .INT "y coordinate"
  let y ← stoi yToken.lexeme
  let (_, p) ← p.expect .RPAREN ")"
  let (_, p) := p.matchType .COMMA
  pure ((x, y), p)

/-- The loop `while (!match(RBRACKET))` of `parseMapDecl`. -/
def parsePathLoop : Nat → Parser → List (Int × Int) →
    Except ParseFailure (List (Int × Int) × Parser)
  | 0, _, _ => .error .fuel
  | fuel + 1, p, path =>
    match p.matchType .RBRACKET with
    | (true, p) => .ok (path, p)
    | (false, p) => do
      let (point, p) ← parsePathPoint p
      parsePathLoop fuel p (path ++ [point])

/-- Parse a map declaration; the keyword `map` is already consumed. -/
def parseMapDecl (fuel : Nat) (p : Parser) : Except ParseFailure (MapDecl × Parser) := do
  let (nameToken, p) ← p.expect .IDENT "map name"
  let (_, p) ← p.expect .LBRACE "\x7b"
  let (_, p) ← p.expect .SIZE "size"
  let (_, p) ← p.expect .EQUAL "="
  let (_, p) ← p.expect .LPAREN "("
  let (widthToken, p) ← p.expect .INT "map width"
  let width ← stoi widthToken.lexeme
  let (_, p) ← p.expect .COMMA ","
  let (heightToken, p) ← p.expect .INT "map height"
  let height ← stoi heightToken.lexeme
  let (_, p) ← p.expect .RPAREN ")"
  let (_, p) ← p.expect .SEMICOLON ";"
  let (_, p) ← p.expect .PATH "path"
  let (_, p) ← p.expect .EQUAL "="
  let (_, p) ← p.expect .LBRACKET "["
  let (path, p) ← parsePathLoop fuel p []
  let (_, p) ← p.expect .SEMICOLON ";"
  let (_, p) ← p.expect .RBRACE "\x7d"
  pure ({ name := nameToken.lexeme, width := width, height := height, path := path }, p)

/-- Parse an enemy declaration; the keyword `enemy` is already consumed. -/
def parseEnemyDecl (p : Parser) : Except ParseFailure (EnemyDecl × Parser) := do
  let (nameToken, p) ← p.expect .IDENT "enemy name"
  let (_, p) ← p.expect .LBRACE "\x7b"
  let (_, p) ← p.expect .IDENT "hp"
  let (_, p) ← p.expect .EQUAL "="
  let (hpValueToken, p) ← p.expect .INT "hp value"
  let hp ← stoi hpValueToken.lexeme
  let (_, p) ← p.expect .SEMICOLON ";"
  let (_, p) ← p.expect .IDENT "speed"
  let (_, p) ← p.expect .EQUAL "="
  let (speedValueToken, p) ← p.expect .FLOAT "speed value"
  let speed ← stod speedValueToken.lexeme
  let (_, p) ← p.expect .SEMICOLON ";"
  let (_, p) ← p.expect .IDENT "reward"
  let (_, p) ← p.expect .EQUAL "="
  let (rewardValueToken, p) ← p.expect .INT "reward value"
  let reward ← stoi rewardValueToken.lexeme
  let (_, p) ← p.expect .SEMICOLON ";"
  let (_, p) ← p.expect .RBRACE "\x7d"
  pure ({ name := nameToken.lexeme, hp := hp, speed := speed, reward := reward }, p)

/-- Parse a tower declaration; the keyword `tower` is already consumed. -/
def parseTowerDecl (p : Parser) : Except ParseFailure (TowerDecl × Parser) := do
  let (nameToken, p) ← p.expect .IDENT "tower name"
  let (_, p) ← p.expect .LBRACE "\x7b"
  let (_, p) ← p.expect .IDENT "range"
  let (_, p) ← p.expect .EQUAL "="
  let (rangeValueToken, p) ← p.expect .INT "range value"
  let range ← stoi rangeValueToken.lexeme
  let (_, p) ← p.expect .SEMICOLON ";"
  let (_, p) ← p.expect .IDENT "damage"
  let (_, p) ← p.expect .EQUAL "="
  let (damageValueToken, p) ← p.expect .INT "damage value"
  let damage ← stoi damageValueToken.lexeme
  let (_, p) ← p.expect .SEMICOLON ";"
  let (_, p) ← p.expect .IDENT "fire_rate"
  let (_, p) ← p.expect .EQUAL "="
  let (fireRateValueToken, p) ← p.expect .FLOAT "fire_rate value"
  let fireRate ← stod fireRateValueToken.lexeme
  let (_, p) ← p.expect .SEMICOLON ";"
  let (_, p) ← p.expect .IDENT "cost"
  let (_, p) ← p.expect .EQUAL "="
  let (costValueToken, p) ← p.expect .INT "cost value"
  let cost ← stoi costValueToken.lexeme
  let (_, p) ← p.expect .SEMICOLON ";"
  let (_, p) ← p.expect .RBRACE "\x7d"
  pure ({ name := nameToken.lexeme, range := range, damage := damage, cost := cost,
          fireRate := fireRate }, p)

/-- Body of the loop over the spawn statements in `parseWaveDecl`; the keyword
`spawn` is already consumed. -/
def parseSpawnStmt (p : Parser) : Except ParseFailure (SpawnStmt × Parser) := do
  let (_, p) ← p.expect .LPAREN "("
  let (enemyToken, p) ← p.expect .IDENT "enemy type"
  let (_, p) ← p.expect .COMMA ","
  let (_, p) ← p.expect .COUNT "count"
  let (_, p) ← p.expect .EQUAL "="
  let (countToken, p) ← p.expect .INT "count"
  let count ← stoi countToken.lexeme
  let (_, p) ← p.expect .COMMA ","
  let (_, p) ← p.expect .START "start"
  let (_, p) ← p.expect .EQUAL "="
  let (startToken, p) ← p.expect .INT "start"
  let start ← stoi startToken.lexeme
  let (_, p) ← p.expect .COMMA ","
  let (_, p) ← p.expect .INTERVAL "interval"
  let (_, p) ← p.expect .EQUAL "="
  let (intervalToken, p) ← p.expect .INT "interval"
  let interval ← stoi intervalToken.lexeme
  let (_, p) ← p.expect .RPAREN ")"
  let (_, p) ← p.expect .SEMICOLON ";"
  pure ({ enemyType := enemyToken.lexeme, count := count, start := start,
          interval := interval }, p)

/-- The loop `while (match(SPAWN))` of `parseWaveDecl`. -/
def parseSpawnLoop : Nat → Parser → List SpawnStmt →
    Except ParseFailure (List SpawnStmt × Parser)
  | 0, _, _ => .error .fuel
  | fuel + 1, p, spawns =>
    match p.matchType .SPAWN with
    | (true, p) => do
      let (spawn, p) ← parseSpawnStmt p
      parseSpawnLoop fuel p (spawns ++ [spawn])
    | (false, p) => .ok (spawns, p)

/-- Parse a wave declaration; the keyword `wave` is already consumed. -/
def parseWaveDecl (fuel : Nat) (p : Parser) : Except ParseFailure (WaveDecl × Parser) := do
  let (nameToken, p) ← p.expect .IDENT "wave name"
  let (_, p) ← p.expect .LBRACE "\x7b"
  let (spawns, p) ← parseSpawnLoop fuel p []
  let (_, p) ← p.expect .RBRACE "\x7d"
  pure ({ name := nameToken.lexeme, spawns := spawns }, p)

/-- Parse a placement statement; the keyword `place` is already consumed. -/
def parsePlaceStmt (p : Parser) : Except ParseFailure (PlaceStmt × Parser) := do
  let (towerToken, p) ← p.expect .IDENT "tower type"
  let (_, p) ← p.expect .AT "at"
  let (_, p) ← p.expect .LPAREN "("
  let (xToken, p) ← p.expect .INT "x coordinate"
  let x ← stoi xToken.lexeme
  let (_, p) ← p.expect .COMMA ","
  let (yToken, p) ← p.expect .INT "y coordinate"
  let y ← stoi yToken.lexeme
  let (_, p) ← p.expect .RPAREN ")"
  let (_, p) ← p.expect .SEMICOLON ";"
  pure ({ towerType := towerToken.lexeme, x := x, y := y }, p)

/-- Parse one declaration, chosen by its first token. -/
def parseDeclaration (fuel : Nat) (p : Parser) : Except ParseFailure (Decl × Parser) :=
  match p.matchType .MAP with
  | (true, p) => do let (node, p) ← parseMapDecl fuel p; pure (.map node, p)
  | (false, p) =>
  match p.matchType .ENEMY with
  | (true, p) => do let (node, p) ← parseEnemyDecl p; pure (.enemy node, p)
  | (false, p) =>
  match p.matchType .TOWER with
  | (true, p) => do let (node, p) ← parseTowerDecl p; pure (.tower node, p)
  | (false, p) =>
  match p.matchType .WAVE with
  | (true, p) => do let (node, p) ← parseWaveDecl fuel p; pure (.wave node, p)
  | (false, p) =>
  match p.matchType .PLACE with
  | (true, p) => do let (node, p) ← parsePlaceStmt p; pure (.place node, p)
  | (false, p) =>
    .error (.exit ("Unexpected declaration at line " ++ to_string p.currentToken.line ++ "\n"))

/-- The loop `while (currentToken.type != END_OF_FILE)` of `parseProgram`. -/
def parseProgramLoop : Nat → Parser → List Decl → Except ParseFailure (Program × Parser)
  | 0, _, _ => .error .fuel
  | fuel + 1, p, declarations =>
    if p.currentToken.type ≠ .END_OF_FILE then do
      let (node, p) ← parseDeclaration fuel p
      parseProgramLoop fuel p (declarations ++ [node])
    else .ok ({ declarations := declarations }, p)

/-- Parse a whole program.  Every iteration of a loop of the parser consumes
a token other than `END_OF_FILE`, the lexer consumes at least one character
for such a token, so the number of characters of the source plus two bounds
the iterations of every loop. -/
def parseProgram (p : Parser) : Except ParseFailure (Program × Parser) :=
  parseProgramLoop (p.lexer.source.length + 2) p []

/-- Lex and parse a source text: the program, or the failure. -/
def parseSource (source : String) : Except ParseFailure Program :=
  (parseProgram (Parser.new (Lexer.new source))).map Prod.fst

/-- The program parsed from a source text, when parsing succeeds. -/
def parsedProgram (source : String) : Option Program :=
  match parseSource source with
  | .ok program => some program
  | .error _ => none

/-- The failure of parsing a source text, when parsing fails. -/
def parseFailure (source : String) : Option ParseFailure :=
  match parseSource source with
  | .ok _ => none
  | .error e => some e

/-! ## Vocabulary for the properties of the parser -/

/-- The parser after `k` calls of `advance`. -/
def Parser.advanceN : Nat → Parser → Parser
  | 0, p => p
  | k + 1, p => Parser.advanceN k p.advance

/-- The `k`-th token that the lexer returns from a state, counting from 0. -/
def Lexer.tokenAt (l : Lexer) : Nat → Token
  | 0 => (l.getNextToken).1
  | k + 1 => Lexer.tokenAt (l.getNextToken).2 k

/-- The current token and the tokens that follow it have the listed types. -/
def upcomingTypes : List TokenType → Parser → Bool
  | [], _ => true
  | t :: ts, p => decide (p.currentToken.type = t) && upcomingTypes ts p.advance

/-- Token types that the parser consumes: all but `UNKNOWN` and `END_OF_FILE`. -/
def consumable (t : TokenType) : Bool := decide (t ≠ .UNKNOWN ∧ t ≠ .END_OF_FILE)

/-- The current token and the `k - 1` tokens after it are consumable. -/
def goodTokens : Nat → Parser → Bool
  | 0, _ => true
  | k + 1, p => consumable p.currentToken.type && goodTokens k p.advance

/-- Bound on the number of tokens other than `END_OF_FILE` from the current
token on: the characters not yet read, plus one when the current token is not
`END_OF_FILE`. -/
def Parser.remaining (p : Parser) : Nat :=
  (p.lexer.source.length - p.lexer.position)
    + (if p.currentToken.type = .END_OF_FILE then 0 else 1)

/-- A character at which a token other than `UNKNOWN` starts: a digit, a
letter, an underscore or one of the nine punctuation characters. -/
def startsToken (c : Char) : Bool :=
  isdigit c || isalpha c || decide (c = '_') || (punctuation c).isSome

/-- The token `k` places after the current one (the current one for `k = 0`). -/
def Parser.tokenAt (p : Parser) (k : Nat) : Token := (p.advanceN k).currentToken

/-- A parse stops with a diagnostic or an exception. -/
def rejected {α : Type} (r : Except ParseFailure α) : Bool :=
  match r with
  | .error (.exit _) => true
  | .error (.exception _) => true
  | _ => false

/-- Token types of an enemy declaration after the keyword `enemy`. -/
def enemyTypes : List TokenType :=
  [.IDENT, .LBRACE, .IDENT, .EQUAL, .INT, .SEMICOLON, .IDENT, .EQUAL, .FLOAT, .SEMICOLON,
   .IDENT, .EQUAL, .INT, .SEMICOLON, .RBRACE]

/-- Token types of a tower declaration after the keyword `tower`. -/
def towerTypes : List TokenType :=
  [.IDENT, .LBRACE, .IDENT, .EQUAL, .INT, .SEMICOLON, .IDENT, .EQUAL, .INT, .SEMICOLON,
   .IDENT, .EQUAL, .FLOAT, .SEMICOLON, .IDENT, .EQUAL, .INT, .SEMICOLON, .RBRACE]

/-- Token types of a placement statement after the keyword `place`. -/
def placeTypes : List TokenType :=
  [.IDENT, .AT, .LPAREN, .INT, .COMMA, .INT, .RPAREN, .SEMICOLON]

/-- Token types of a spawn statement after the keyword `spawn`. -/
def spawnTypes : List TokenType :=
  [.LPAREN, .IDENT, .COMMA, .COUNT, .EQUAL, .INT, .COMMA, .START, .EQUAL, .INT,
   .COMMA, .INTERVAL, .EQUAL, .INT, .RPAREN, .SEMICOLON]

/-- Token types of a path element, without the optional comma. -/
def pointTypes : List TokenType := [.LPAREN, .INT, .COMMA, .INT, .RPAREN]

/-- Token types of a map declaration after the keyword `map`, up to the
opening bracket of the path list. -/
def mapHeadTypes : List TokenType :=
  [.IDENT, .LBRACE, .SIZE, .EQUAL, .LPAREN, .INT, .COMMA, .INT, .RPAREN, .SEMICOLON,
   .PATH, .EQUAL, .LBRACKET]

/-- The lexer state after `k` tokens have been read. -/
def Lexer.stateAt (l : Lexer) : Nat → Lexer
  | 0 => l
  | k + 1 => Lexer.stateAt (l.getNextToken).2 k

/-- The current token and the tokens that follow it have the listed types and
lexemes. -/
def upcoming : List (TokenType × String) → Parser → Bool
  | [], _ => true
  | t :: ts, p =>
    decide (p.currentToken.type = t.1 ∧ p.currentToken.lexeme = t.2) && upcoming ts p.advance

/-- Tokens of one path element `(x,y)`, with or without a comma after it. -/
def pointTokens (pt : String × String) (comma : Bool) : List (TokenType × String) :=
  [(.LPAREN, "("), (.INT, pt.1), (.COMMA, ","), (.INT, pt.2), (.RPAREN, ")")]
    ++ (if comma then [(.COMMA, ",")] else [])

/-- Tokens of the elements of a path list; the flags tell after which elements
a comma is written (no comma where the flags run out). -/
def pathTokens : List (String × String) → List Bool → List (TokenType × String)
  | [], _ => []
  | pt :: pts, [] => pointTokens pt false ++ pathTokens pts []
  | pt :: pts, c :: cs => pointTokens pt c ++ pathTokens pts cs

/-- Tokens of a map declaration after the keyword `map`. -/
def mapTokens (name width height : String) (pts : List (String × String))
    (commas : List Bool) : List (TokenType × String) :=
  [(.IDENT, name), (.LBRACE, "\x7b"), (.SIZE, "size"), (.EQUAL, "="), (.LPAREN, "("),
   (.INT, width), (.COMMA, ","), (.INT, height), (.RPAREN, ")"), (.SEMICOLON, ";"),
   (.PATH, "path"), (.EQUAL, "="), (.LBRACKET, "[")]
    ++ pathTokens pts commas ++ [(.RBRACKET, "]"), (.SEMICOLON, ";"), (.RBRACE, "\x7d")]

/-- The points that the lexemes of a path list denote, converted in order. -/
def pathResult : List (String × String) → Except ParseFailure (List (Int × Int))
  | [] => pure []
  | pt :: pts => do
    let x ← stoi pt.1
    let y ← stoi pt.2
    let rest ← pathResult pts
    pure ((x, y) :: rest)

/-- The map declaration that the lexemes of a declaration denote: the name,
then width, height and the points converted in source order. -/
def mapResult (name width height : String) (pts : List (String × String)) :
    Except ParseFailure MapDecl := do
  let w ← stoi width
  let h ← stoi height
  let path ← pathResult pts
  pure { name := name, width := w, height := h, path := path }

/-! ## Code generation (`codegen.h`, `src/codegen.cpp`) and the readable dump (`src/ir.cpp`) -/

/-- The text that an output stream writes for a `double`: with
`std::fixed << std::setprecision(2)` (`fixed2`) and with the default format
(`general`).  The digits depend on the binary rounding of the value, which the
embedding does not model, so the two formats are parameters of the code
generator. -/
structure DoubleFormat where
  fixed2 : Double → String
  general : Double → String

/-- Typed read `std::get<std::string>(metadata.at(k))`. -/
def Metadata.getString (m : Metadata) (k : String) : Option String :=
  (Metadata.find m k).bind Value.getString

/-- Escape a string for JSON: the loop over the characters with its `switch`. -/
def escapeJSON (str : String) : String :=
  str.data.foldl (fun escaped c =>
    if c = '"' then escaped ++ "\\\""
    else if c = '\\' then escaped ++ "\\\\"
    else if c = '\n' then escaped ++ "\\n"
    else if c = '\r' then escaped ++ "\\r"
    else if c = '\t' then escaped ++ "\\t"
    else escaped ++ String.singleton c) ""

/-- Statement `if (metadata.count(key)) json << before << std::get<int>(metadata.at(key)) << after`. -/
def putInt (metadata : Metadata) (key before after json : String) : Option String :=
  if Metadata.count metadata key then
    (Metadata.getInt metadata key).map fun v => json ++ before ++ to_string v ++ after
  else some json

/-- Statement `if (metadata.count(key)) json << before << std::get<double>(metadata.at(key)) << after`,
for a stream that writes doubles as `format` does. -/
def putDouble (format : Double → String) (metadata : Metadata) (key before after json : String) :
    Option String :=
  if Metadata.count metadata key then
    (Metadata.getDouble metadata key).map fun v => json ++ before ++ format v ++ after
  else some json

/-- The successive results of `std::getline(pathStream, coord, ';')`: the text
is cut at every `;`, and an empty piece after the last `;` is not produced. -/
def getlineLoop : List Char → List Char → List (List Char)
  | [], coord => if coord = [] then [] else [coord]
  | c :: rest, coord =>
    if c = ';' then coord :: getlineLoop rest [] else getlineLoop rest (coord ++ [c])

/-- The loop over the coordinates of the path in `generateMapJSON`. -/
def mapPathLoop : List (List Char) → Bool → String → Option String
  | [], _, json => some json
  | coord :: rest, first, json =>
    let json := if !first then json ++ ",\n" else json
    if coord.contains ',' then do
      let x ← (stoi (String.mk (coord.takeWhile (· ≠ ',')))).toOption
      let y ← (stoi (String.mk ((coord.dropWhile (· ≠ ',')).drop 1))).toOption
      mapPathLoop rest false
        (json ++ "        \x7b\"x\": " ++ to_string x ++ ", \"y\": " ++ to_string y ++ "\x7d")
    else mapPathLoop rest false json

/-- Generate the JSON for the map definition. -/
def generateMapJSON (instruction : IrInstruction) : Option String := do
  let json := "    \"map\": \x7b\n"
  let name ← instruction.operands.head?
  let json := json ++ "      \"name\": \"" ++ escapeJSON name ++ "\",\n"
  let json ← putInt instruction.metadata "width" "      \"width\": " ",\n" json
  let json ← putInt instruction.metadata "height" "      \"height\": " ",\n" json
  let json ←
    if Metadata.count instruction.metadata "path" then do
      let pathStr ← Metadata.getString instruction.metadata "path"
      let json := json ++ "      \"path\": [\n"
      let json ← mapPathLoop (getlineLoop pathStr.data []) true json
      pure (json ++ "\n      ]\n")
    else pure json
  pure (json ++ "    \x7d")

/-- Generate the JSON for an enemy definition. -/
def generateEnemyJSON (fmt : DoubleFormat) (instruction : IrInstruction) : Option String := do
  let json := "      \x7b\n"
  let name ← instruction.operands.head?
  let json := json ++ "        \"name\": \"" ++ escapeJSON name ++ "\",\n"
  let json ← putInt instruction.metadata "hp" "        \"hp\": " ",\n" json
  let json ← putDouble fmt.fixed2 instruction.metadata "speed" "        \"speed\": " ",\n" json
  let json ← putInt instruction.metadata "reward" "        \"reward\": " "\n" json
  pure (json ++ "      \x7d")

/-- Generate the JSON for a tower definition. -/
def generateTowerJSON (fmt : DoubleFormat) (instruction : IrInstruction) : Option String := do
  let json := "      \x7b\n"
  let name ← instruction.operands.head?
  let json := json ++ "        \"name\": \"" ++ escapeJSON name ++ "\",\n"
  let json ← putInt instruction.metadata "range" "        \"range\": " ",\n" json
  let json ← putInt instruction.metadata "damage" "        \"damage\": " ",\n" json
  let json ← putDouble fmt.fixed2 instruction.metadata "fire_rate" "        \"fireRate\": " ",\n" json
  let json ← putInt instruction.metadata "cost" "        \"cost\": " "" json
  let json ← putDouble fmt.fixed2 instruction.metadata "dps" ",\n        \"dps\": " "" json
  pure (json ++ "\n      \x7d")

/-- The loop of `generateWaveJSON` that collects the `SPAWN_ENEMY` instructions
of the wave: `rest` holds the instructions from index `i` on.  Returns the text
and the index at which the loop stops. -/
def waveSpawnLoop (waveName : String) :
    List IrInstruction → Nat → Bool → String → Option (String × Nat)
  | [], i, _, json => some (json, i)
  | spawnInstruction :: rest, i, firstSpawn, json =>
    if spawnInstruction.opcode = .SPAWN_ENEMY then
      match spawnInstruction.operands.head? with
      | none => none
      | some wave =>
        if wave = waveName then do
          let json := if !firstSpawn then json ++ ",\n" else json
          let json := json ++ "          \x7b\n"
          let enemy ← spawnInstruction.operands.get? 1
          let json := json ++ "            \"enemyType\": \"" ++ escapeJSON enemy ++ "\",\n"
          let json ← putInt spawnInstruction.metadata "count" "            \"count\": " ",\n" json
          let json ← putInt spawnInstruction.metadata "start" "            \"start\": " ",\n" json
          let json ←
            putInt spawnInstruction.metadata "interval" "            \"interval\": " "\n" json
          waveSpawnLoop waveName rest (i + 1) false (json ++ "          \x7d")
        else some (json, i)
    else some (json, i)

/-- Generate the JSON for the wave at `index` with its spawns; returns the
text and the new value of `index`, the index of the last spawn processed. -/
def generateWaveJSON (instructions : List IrInstruction) (index : Nat) :
    Option (String × Nat) := do
  let waveInstruction ← instructions.get? index
  let json := "      \x7b\n"
  let name ← waveInstruction.operands.head?
  let json := json ++ "        \"name\": \"" ++ escapeJSON name ++ "\",\n"
  let json := json ++ "        \"spawns\": [\n"
  let (json, i) ← waveSpawnLoop name (instructions.drop (index + 1)) (index + 1) true json
  let json := json ++ "\n        ]\n"
  let json := json ++ "      \x7d"
  pure (json, i - 1)

/-- Generate the JSON for a tower placement. -/
def generatePlacementJSON (instruction : IrInstruction) : Option String := do
  let json := "      \x7b\n"
  let name ← instruction.operands.head?
  let json := json ++ "        \"towerType\": \"" ++ escapeJSON name ++ "\",\n"
  let json ← putInt instruction.metadata "x" "        \"x\": " ",\n" json
  let json ← putInt instruction.metadata "y" "        \"y\": " "\n" json
  pure (json ++ "      \x7d")

/-- What the first loop of `generateJSON` computes: the text written so far,
whether a map was seen, and the indices of the instructions of each kind. -/
structure Categories where
  json : String
  hasMap : Bool
  enemyIndices : List Nat
  towerIndices : List Nat
  waveIndices : List Nat
  placementIndices : List Nat

/-- The first loop of `generateJSON`, from index `i` on. -/
def categorize : List IrInstruction → Nat → Categories → Option Categories
  | [], _, c => some c
  | instruction :: rest, i, c =>
    match instruction.opcode with
    | .DEFINE_MAP =>
      if !c.hasMap then do
        let text ← generateMapJSON instruction
        categorize rest (i + 1) { c with json := c.json ++ text, hasMap := true }
      else categorize rest (i + 1) c
    | .DEFINE_ENEMY =>
      categorize rest (i + 1) { c with enemyIndices := c.enemyIndices ++ [i] }
    | .DEFINE_TOWER =>
      categorize rest (i + 1) { c with towerIndices := c.towerIndices ++ [i] }
    | .DEFINE_WAVE =>
      categorize rest (i + 1) { c with waveIndices := c.waveIndices ++ [i] }
    | .PLACE_TOWER =>
      categorize rest (i + 1) { c with placementIndices := c.placementIndices ++ [i] }
    | _ => categorize rest (i + 1) c

/-- The loop over the indices of one kind (enemies, towers, placements): each
element is followed by `,` unless it is the last, then by a newline. -/
def arrayLoop (element : IrInstruction → Option String) (instructions : List IrInstruction) :
    List Nat → String → Option String
  | [], json => some json
  | index :: rest, json => do
    let instruction ← instructions.get? index
    let text ← element instruction
    let json := json ++ text
    let json := if rest.length > 0 then json ++ "," else json
    arrayLoop element instructions rest (json ++ "\n")

/-- The loop over all instructions that writes the waves: at a `DEFINE_WAVE`
the wave is written and the index moves to its last spawn.  The index grows in
every iteration, so the number of instructions bounds the iterations. -/
def wavesLoop (instructions : List IrInstruction) : Nat → Nat → Bool → String → Option String
  | 0, i, _, json => if i < instructions.length then none else some json
  | fuel + 1, i, firstWave, json =>
    if i < instructions.length then do
      let instruction ← instructions.get? i
      if instruction.opcode = .DEFINE_WAVE then do
        let json := if !firstWave then json ++ ",\n" else json
        let (text, i) ← generateWaveJSON instructions i
        wavesLoop instructions fuel (i + 1) false (json ++ text)
      else wavesLoop instructions fuel (i + 1) firstWave json
    else some json

/-- An array block of `generateJSON` (enemies, towers, placements): when there
are instructions of the kind, the separator if a section was written before,
the title line, the elements and the closing bracket. -/
def writeArray (title : String) (element : IrInstruction → Option String)
    (instructions : List IrInstruction) (indices : List Nat) (before : Bool) (json : String) :
    Option String :=
  if !indices.isEmpty then do
    let json := if before then json ++ ",\n" else json
    let json := json ++ "    \"" ++ title ++ "\": [\n"
    let json ← arrayLoop element instructions indices json
    pure (json ++ "    ]")
  else pure json

/-- The waves block of `generateJSON`. -/
def writeWaves (instructions : List IrInstruction) (waveIndices : List Nat) (before : Bool)
    (json : String) : Option String :=
  if !waveIndices.isEmpty then do
    let json := if before then json ++ ",\n" else json
    let json := json ++ "    \"waves\": [\n"
    let json ← wavesLoop instructions instructions.length 0 true json
    pure (json ++ "    ]")
  else pure json

/-- Generate the JSON output from the IR. -/
def generateJSON (fmt : DoubleFormat) (instructions : List IrInstruction) : Option String := do
  let json := "\x7b\n"
  let json := json ++ "  \"gameConfig\": \x7b\n"
  let c ← categorize instructions 0
    { json := json, hasMap := false, enemyIndices := [], towerIndices := [],
      waveIndices := [], placementIndices := [] }
  let json := c.json
  let json ← writeArray "enemies" (generateEnemyJSON fmt) instructions c.enemyIndices
    c.hasMap json
  let json ← writeArray "towers" (generateTowerJSON fmt) instructions c.towerIndices
    (c.hasMap || !c.enemyIndices.isEmpty) json
  let json ← writeWaves instructions c.waveIndices
    (c.hasMap || !c.enemyIndices.isEmpty || !c.towerIndices.isEmpty) json
  let json ← writeArray "initialPlacements" generatePlacementJSON instructions
    c.placementIndices
    (c.hasMap || !c.enemyIndices.isEmpty || !c.towerIndices.isEmpty || !c.waveIndices.isEmpty)
    json
  let json := json ++ "\n  \x7d\n"
  let json := json ++ "\x7d\n"
  pure json

/-- Apply a function that may fail to every element in order; the result is
the list of the results, or failure as soon as one application fails. -/
def mapOpt {α β : Type} (f : α → Option β) : List α → Option (List β)
  | [] => some []
  | a :: rest => do
    let b ← f a
    let bs ← mapOpt f rest
    pure (b :: bs)

/-- One line of `IrGenerator::toString`. -/
def toStringLine (fmt : DoubleFormat) (instruction : IrInstruction) : Option String :=
  match instruction.opcode with
  | .DEFINE_MAP => do
    let name ← instruction.operands.head?
    let stream := "DEFINE_MAP " ++ name
    let stream ← putInt instruction.metadata "width" " WIDTH=" "" stream
    let stream ← putInt instruction.metadata "height" " HEIGHT=" "" stream
    if Metadata.count instruction.metadata "path" then
      (Metadata.getString instruction.metadata "path").map fun v => stream ++ " PATH=[" ++ v ++ "]"
    else pure stream
  | .DEFINE_ENEMY => do
    let name ← instruction.operands.head?
    let stream := "DEFINE_ENEMY " ++ name
    let stream ← putInt instruction.metadata "hp" " HP=" "" stream
    let stream ← putDouble fmt.general instruction.metadata "speed" " SPEED=" "" stream
    putInt instruction.metadata "reward" " REWARD=" "" stream
  | .DEFINE_TOWER => do
    let name ← instruction.operands.head?
    let stream := "DEFINE_TOWER " ++ name
    let stream ← putInt instruction.metadata "range" " RANGE=" "" stream
    let stream ← putInt instruction.metadata "damage" " DAMAGE=" "" stream
    let stream ← putDouble fmt.general instruction.metadata "fire_rate" " FIRERATE=" "" stream
    putInt instruction.metadata "cost" " COST=" "" stream
  | .DEFINE_WAVE => do
    let name ← instruction.operands.head?
    pure ("DEFINE_WAVE " ++ name)
  | .SPAWN_ENEMY => do
    let enemy ← instruction.operands.get? 1
    let wave ← instruction.operands.head?
    let stream := "  SPAWN_ENEMY " ++ enemy ++ " IN_WAVE=" ++ wave
    let stream ← putInt instruction.metadata "count" " COUNT=" "" stream
    let stream ← putInt instruction.metadata "start" " START=" "" stream
    putInt instruction.metadata "interval" " INTERVAL=" "" stream
  | .PLACE_TOWER => do
    let name ← instruction.operands.head?
    let stream := "PLACE_TOWER " ++ name
    let stream ← putInt instruction.metadata "x" " X=" "" stream
    putInt instruction.metadata "y" " Y=" "" stream
  | .NOP => pure "NOP"
  | _ => pure "UNKNOWN_OPCODE"

/-- Convert the IR to readable strings, one per instruction. -/
def IrGenerator.toString (fmt : DoubleFormat) (instructions : List IrInstruction) :
    Option (List String) :=
  mapOpt (toStringLine fmt) instructions

/-- Generate the human-readable output. -/
def generateReadable (fmt : DoubleFormat) (instructions : List IrInstruction) :
    Option String := do
  let lines ← IrGenerator.toString fmt instructions
  let result := "=== TDLang Compiled Output ===\n\n"
  pure (lines.foldl (fun result line => result ++ line ++ "\n") result)

/-- The characters that JSON escaping writes for one character, as the
specification words it: backslash and quote for a quote, two backslashes for a
backslash, backslash and `n`, `r`, `t` for newline, carriage return and tab,
and the character itself otherwise. -/
def escapedChar (c : Char) : List Char :=
  if c = '"' then ['\\', '"']
  else if c = '\\' then ['\\', '\\']
  else if c = '\n' then ['\\', 'n']
  else if c = '\r' then ['\\', 'r']
  else if c = '\t' then ['\\', 't']
  else [c]

/-- Source text of scenario A. -/
def scenarioASource : String := "map M { size = (3, 3); path = [(0,0),(1,0),(2,0)]; }"

/-- Program of scenario A. -/
def scenarioAProgram : Program := ⟨[.map ⟨"M", 3, 3, [(0, 0), (1, 0), (2, 0)]⟩]⟩

/-- The JSON object of one spawn of a wave, as `generateWaveJSON` writes it. -/
def spawnJSON (spawnInstruction : IrInstruction) : Option String := do
  let json := "          \x7b\n"
  let enemy ← spawnInstruction.operands.get? 1
  let json := json ++ "            \"enemyType\": \"" ++ escapeJSON enemy ++ "\",\n"
  let json ← putInt spawnInstruction.metadata "count" "            \"count\": " ",\n" json
  let json ← putInt spawnInstruction.metadata "start" "            \"start\": " ",\n" json
  let json ← putInt spawnInstruction.metadata "interval" "            \"interval\": " "\n" json
  pure (json ++ "          \x7d")

/-- The spawns of the wave at index `k` with name `W`: the maximal run, from
index `k + 1` on, of `SPAWN_ENEMY` instructions whose first operand is `W`. -/
def waveRun (W : String) (instructions : List IrInstruction) (k : Nat) : List IrInstruction :=
  (instructions.drop (k + 1)).takeWhile fun s =>
    (decide (s.opcode = .SPAWN_ENEMY) && decide (s.operands.head? = some W))

/-- Texts written one after the other, each but the first preceded by `sep`;
with `first = false` the first one is preceded by `sep` too. -/
def joinSep (sep : String) : Bool → List String → String
  | _, [] => ""
  | first, t :: ts => (if first then "" else sep) ++ t ++ joinSep sep false ts

/-- The JSON object of a wave with name `W` and the given spawn objects. -/
def waveJSON (W : String) (spawns : List String) : String :=
  "      \x7b\n" ++ "        \"name\": \"" ++ escapeJSON W ++ "\",\n" ++ "        \"spawns\": [\n"
    ++ joinSep ",\n" true spawns ++ "\n        ]\n" ++ "      \x7d"

/-- The indices, counted from `i`, of the instructions with a given opcode. -/
def indicesOf (op : IrOpcode) : List IrInstruction → Nat → List Nat
  | [], _ => []
  | instruction :: rest, i =>
    if instruction.opcode = op then i :: indicesOf op rest (i + 1)
    else indicesOf op rest (i + 1)

/-- The instructions with a given opcode, in IR order. -/
def ofOpcode (op : IrOpcode) (instructions : List IrInstruction) : List IrInstruction :=
  instructions.filter fun i => decide (i.opcode = op)

/-- The elements of an array section of enemies, towers or placements: each
element is followed by `,` unless it is the last, and then by a newline. -/
def arrayBody : List String → String
  | [] => ""
  | t :: ts => t ++ (if ts.length > 0 then "," else "") ++ "\n" ++ arrayBody ts

/-- An array section of enemies, towers or placements. -/
def arraySection (title : String) (texts : List String) : String :=
  "    \"" ++ title ++ "\": [\n" ++ arrayBody texts ++ "    ]"

/-- The waves section: the wave objects separated by `,` and a newline. -/
def wavesSection (texts : List String) : String :=
  "    \"waves\": [\n" ++ joinSep ",\n" true texts ++ "    ]"

/-- The sections of the JSON output that are present, in their fixed order:
the map section, rendered from the first `DEFINE_MAP`, when there is a
`DEFINE_MAP`; the sections `enemies`, `towers`, `waves` and
`initialPlacements`, each when there is an instruction of its opcode, with one
element per instruction of the opcode in IR order.  The result is `none` when
the rendering of an element fails. -/
def jsonSections (fmt : DoubleFormat) (instructions : List IrInstruction) :
    Option (List String) := do
  let maps ←
    match ofOpcode .DEFINE_MAP instructions with
    | [] => some []
    | m :: _ => (generateMapJSON m).map fun t => [t]
  let enemies ← mapOpt (generateEnemyJSON fmt) (ofOpcode .DEFINE_ENEMY instructions)
  let towers ← mapOpt (generateTowerJSON fmt) (ofOpcode .DEFINE_TOWER instructions)
  let waves ← mapOpt (fun k => (generateWaveJSON instructions k).map Prod.fst)
    (indicesOf .DEFINE_WAVE instructions 0)
  let placements ← mapOpt generatePlacementJSON (ofOpcode .PLACE_TOWER instructions)
  pure (maps
    ++ (if ofOpcode .DEFINE_ENEMY instructions = [] then []
        else [arraySection "enemies" enemies])
    ++ (if ofOpcode .DEFINE_TOWER instructions = [] then []
        else [arraySection "towers" towers])
    ++ (if ofOpcode .DEFINE_WAVE instructions = [] then [] else [wavesSection waves])
    ++ (if ofOpcode .PLACE_TOWER instructions = [] then []
        else [arraySection "initialPlacements" placements]))

/-- The JSON document with the given sections: the opening of the
`gameConfig` object, the sections separated by `,` and a newline, and the
closing. -/
def jsonDocument (sections : List String) : String :=
  "\x7b\n  \"gameConfig\": \x7b\n" ++ joinSep ",\n" true sections ++ "\n  \x7d\n\x7d\n"

/-- A formatting of doubles for the evaluation of the code generator on IR in
which no double is written. -/
def noDoubles : DoubleFormat := { fixed2 := fun _ => "", general := fun _ => "" }

/-- The lines of a text, each terminated by a newline. -/
def unlines : List String → String
  | [] => ""
  | line :: rest => line ++ "\n" ++ unlines rest

/-- The fixed text with which a line of the readable dump starts. -/
def linePrefix : IrOpcode → String
  | .DEFINE_MAP => "DEFINE_MAP "
  | .DEFINE_ENEMY => "DEFINE_ENEMY "
  | .DEFINE_TOWER => "DEFINE_TOWER "
  | .DEFINE_WAVE => "DEFINE_WAVE "
  | .SPAWN_ENEMY => "  SPAWN_ENEMY "
  | .PLACE_TOWER => "PLACE_TOWER "
  | .NOP => "NOP"
  | _ => "UNKNOWN_OPCODE"

/-- Scenario C: enemies `Goblin` and `Orc`, in this order, and a wave `W` that
spawns only `Goblin`. -/
def scenarioC (goblin orc : Int × Double × Int) : Program :=
  ⟨[Decl.enemy ⟨"Goblin", goblin.1, goblin.2.1, goblin.2.2⟩,
    Decl.enemy ⟨"Orc", orc.1, orc.2.1, orc.2.2⟩,
    Decl.wave ⟨"W", [⟨"Goblin", 3, 0, 1⟩]⟩]⟩

/-- The JSON object of an enemy with the three attributes. -/
def enemyObject (fmt : DoubleFormat) (name : String) (e : Int × Double × Int) : String :=
  "      \x7b\n" ++ "        \"name\": \"" ++ escapeJSON name ++ "\",\n"
    ++ "        \"hp\": " ++ to_string e.1 ++ ",\n"
    ++ "        \"speed\": " ++ fmt.fixed2 e.2.1 ++ ",\n"
    ++ "        \"reward\": " ++ to_string e.2.2 ++ "\n" ++ "      \x7d"

/-! ## Vocabulary for further properties of the lexer -/

/-- Number of newline characters among the first `position` characters. -/
def newlinesBefore (source : List Char) (position : Nat) : Nat :=
  (source.take position).count '\n'

/-- The line counter of the lexer is one plus the number of newline characters
before the reading position. -/
def LineInv (l : Lexer) : Prop :=
  l.currentLine = 1 + (newlinesBefore l.source l.position : Int)

instance (l : Lexer) : Decidable (LineInv l) := by
  unfold LineInv; infer_instance

/-! ## Vocabulary for the sign of parsed integers -/

/-- Every integer field of a declaration is at least 0. -/
def declNonneg : Decl → Bool
  | .map m =>
    decide (0 ≤ m.width) && decide (0 ≤ m.height)
      && m.path.all (fun point => decide (0 ≤ point.1) && decide (0 ≤ point.2))
  | .enemy e => decide (0 ≤ e.hp) && decide (0 ≤ e.reward)
  | .tower t => decide (0 ≤ t.range) && decide (0 ≤ t.damage) && decide (0 ≤ t.cost)
  | .wave w =>
    w.spawns.all (fun s => decide (0 ≤ s.count) && decide (0 ≤ s.start) && decide (0 ≤ s.interval))
  | .place p => decide (0 ≤ p.x) && decide (0 ≤ p.y)

/-- The tests `... < 0` that the analyzer evaluates on a declaration: a path
coordinate in `checkMap`, the reward in `checkEnemy`, the cost in `checkTower`,
the start of a spawn in `checkWave`, a coordinate in `checkPlacement`. -/
def signTest : Decl → Bool
  | .map m => m.path.any (fun point => decide (point.1 < 0) || decide (point.2 < 0))
  | .enemy e => decide (e.reward < 0)
  | .tower t => decide (t.cost < 0)
  | .wave w => w.spawns.any (fun s => decide (s.start < 0))
  | .place p => decide (p.x < 0) || decide (p.y < 0)

/-- Equality of two outcomes can be decided. -/
instance instDecidableEqOutcome {ε α : Type} [DecidableEq ε] [DecidableEq α] :
    DecidableEq (Except ε α) := fun a b =>
  match a, b with
  | .ok x, .ok y =>
    if h : x = y then isTrue (by rw [h]) else isFalse (fun e => h (Except.ok.inj e))
  | .error x, .error y =>
    if h : x = y then isTrue (by rw [h]) else isFalse (fun e => h (Except.error.inj e))
  | .ok _, .error _ => isFalse (fun e => Except.noConfusion e)
  | .error _, .ok _ => isFalse (fun e => Except.noConfusion e)

/-! ## Vocabulary for attribute names -/

/-- The first `n` tokens of `q` have the types of the first `n` tokens of `p`,
and the same lexemes except at the positions listed in `names`. -/
def sameTokens (names : List Nat) (n : Nat) (p q : Parser) : Bool :=
  (List.range n).all fun k =>
    decide ((q.tokenAt k).type = (p.tokenAt k).type)
      && (decide (k ∈ names) || decide ((q.tokenAt k).lexeme = (p.tokenAt k).lexeme))

/-- Positions of the attribute names of an enemy declaration, counted from the
token after the keyword `enemy`. -/
def enemyAttributeNames : List Nat := [2, 6, 10]

/-- Positions of the attribute names of a tower declaration, counted from the
token after the keyword `tower`. -/
def towerAttributeNames : List Nat := [2, 6, 10, 14]

/-- The parser that has read the first token of a source text. -/
def parserOf (source : String) : Parser := Parser.new (Lexer.new source)

/-! ## Vocabulary for placements and maps in the IR -/

/-- The first `DEFINE_MAP` of an instruction sequence, the one that
`generateJSON` writes. -/
def firstDefineMap (ir : List IrInstruction) : Option IrInstruction :=
  (ofOpcode .DEFINE_MAP ir).head?

/-- The last `DEFINE_MAP` of an instruction sequence. -/
def lastDefineMap (ir : List IrInstruction) : Option IrInstruction :=
  (ofOpcode .DEFINE_MAP ir).getLast?

/-- The `x` and `y` of a `PLACE_TOWER` lie inside the `width` by `height` grid
of a `DEFINE_MAP`. -/
def placedInside (map placement : IrInstruction) : Bool :=
  match Metadata.getInt map.metadata "width", Metadata.getInt map.metadata "height",
      Metadata.getInt placement.metadata "x", Metadata.getInt placement.metadata "y" with
  | some width, some height, some x, some y =>
    decide (0 ≤ x) && decide (x < width) && decide (0 ≤ y) && decide (y < height)
  | _, _, _, _ => false

/-- A program with two maps: the placement lies inside the second map and
outside the first. -/
def twoMapProgram : Program :=
  ⟨[Decl.map ⟨"Small", 2, 2, []⟩,
    Decl.map ⟨"Big", 10, 10, []⟩,
    Decl.tower ⟨"T", 1, 1, 0, 1⟩,
    Decl.place ⟨"T", 5, 5⟩]⟩

/-- The state of `generateJSON` before its first loop. -/
def initialCategories : Categories :=
  { json := "\x7b\n" ++ "  \"gameConfig\": \x7b\n", hasMap := false, enemyIndices := [],
    towerIndices := [], waveIndices := [], placementIndices := [] }

/-! ## Vocabulary for the conservation of spawn counts -/

/-- The number of enemies of an instruction: the `count` of a `SPAWN_ENEMY`
with at least two operands (0 when it has no `int` under `count`), and 0 for
any other instruction. -/
def countOf (instruction : IrInstruction) : Int :=
  if isMergeable instruction then (Metadata.getInt instruction.metadata "count").getD 0 else 0

/-- Sum of the `count` metadata over the `SPAWN_ENEMY` instructions with at
least two operands. -/
def spawnTotal (ir : List IrInstruction) : Int := (ir.map countOf).sum

/-- The instructions that are not `SPAWN_ENEMY`, in order. -/
def nonSpawns (ir : List IrInstruction) : List IrInstruction :=
  ir.filter fun i => decide (i.opcode ≠ .SPAWN_ENEMY)

/-- The instructions that pass 2 does not treat as a spawn (not `SPAWN_ENEMY`,
or fewer than two operands), in order. -/
def unmergeable (ir : List IrInstruction) : List IrInstruction :=
  ir.filter fun i => !isMergeable i

/-- A source text whose wave has two spawns of the same enemy, start and
interval, with counts 2147483647 and 1. -/
def countOverflowSource : String :=
  "enemy G \x7b hp = 1; speed = 1.0; reward = 0; \x7d "
    ++ "wave W \x7b spawn(G, count=2147483647, start=0, interval=1); "
    ++ "spawn(G, count=1, start=0, interval=1); \x7d"

/-- The program of `countOverflowSource`. -/
def countOverflowProgram : Program :=
  ⟨[Decl.enemy ⟨"G", 1, 1, 0⟩,
    Decl.wave ⟨"W", [⟨"G", 2147483647, 0, 1⟩, ⟨"G", 1, 0, 1⟩]⟩]⟩

/-- A source text whose spawn has count 46341 and interval 46341. -/
def durationOverflowSource : String :=
  "enemy G \x7b hp = 1; speed = 1.0; reward = 0; \x7d "
    ++ "wave W \x7b spawn(G, count=46341, start=0, interval=46341); \x7d"

/-- The program of `durationOverflowSource`. -/
def durationOverflowProgram : Program :=
  ⟨[Decl.enemy ⟨"G", 1, 1, 0⟩, Decl.wave ⟨"W", [⟨"G", 46341, 0, 46341⟩]⟩]⟩

/-! ## Vocabulary for the spawns written to the JSON output -/

/-- The first operand of the instruction at index `k` (the empty string when
there is none). -/
def waveNameAt (ir : List IrInstruction) (k : Nat) : String :=
  ((ir.get? k).bind fun w => w.operands.head?).getD ""

/-- The spawn instructions whose objects `generateJSON` writes: for each
`DEFINE_WAVE`, in IR order, the spawns that `generateWaveJSON` reads for it. -/
def emittedSpawns (ir : List IrInstruction) : List IrInstruction :=
  (indicesOf .DEFINE_WAVE ir 0).flatMap fun k => waveRun (waveNameAt ir k) ir k

/-- What the code generator needs of a wave or spawn instruction: a
`DEFINE_WAVE` has a first operand, and a `SPAWN_ENEMY` has two operands and an
`int` under `count`, `start` and `interval`. -/
def waveWritable (i : IrInstruction) : Bool :=
  (decide (i.opcode ≠ .DEFINE_WAVE) || i.operands.head?.isSome)
    && (decide (i.opcode ≠ .SPAWN_ENEMY)
        || (i.operands.head?.isSome && (i.operands.get? 1).isSome
            && (Metadata.getInt i.metadata "count").isSome
            && (Metadata.getInt i.metadata "start").isSome
            && (Metadata.getInt i.metadata "interval").isSome))

/-! ## Vocabulary for the encoding of map paths -/

/-- The characters of one path point in the path string: `x,y`. -/
def pointChars (p : Int × Int) : List Char :=
  (toString p.1).data ++ ',' :: (toString p.2).data

/-- The characters of the path string: the points separated by `;`. -/
def pathChars : List (Int × Int) → List Char
  | [] => []
  | p :: rest => pointChars p ++ (if rest.length > 0 then ';' :: pathChars rest else [])

/-- The decoding of one piece of the path string in the loop of
`generateMapJSON`: the text before the first `,` and the text after it are
converted by `stoi`. -/
def decodePoint (coord : List Char) : Option (Int × Int) := do
  let x ← (stoi (String.mk (coord.takeWhile (· ≠ ',')))).toOption
  let y ← (stoi (String.mk ((coord.dropWhile (· ≠ ',')).drop 1))).toOption
  pure (x, y)

/-- The decoding of a path string in `generateMapJSON`: the pieces between the
`;` are decoded one by one. -/
def decodePath (pathStr : String) : Option (List (Int × Int)) :=
  mapOpt decodePoint (getlineLoop pathStr.data [])

/-- The JSON object of one path point, as `generateMapJSON` writes it. -/
def pointJSON (p : Int × Int) : String :=
  "        \x7b\"x\": " ++ to_string p.1 ++ ", \"y\": " ++ to_string p.2 ++ "\x7d"

/-- Both coordinates of every point are values of the type `int`. -/
def pathInRange (path : List (Int × Int)) : Bool :=
  path.all fun p => inIntRange p.1 && inIntRange p.2

/-! ## Vocabulary for the success of the optimizer -/

/-- What the passes of the optimizer read with `std::get`: a `SPAWN_ENEMY` has
an `int` under `count`, `start` and `interval`, and a `DEFINE_TOWER` has an
`int` under `damage` and a `double` under `fire_rate`. -/
def optimizable (i : IrInstruction) : Bool :=
  (decide (i.opcode ≠ .SPAWN_ENEMY)
      || ((Metadata.getInt i.metadata "count").isSome
          && (Metadata.getInt i.metadata "start").isSome
          && (Metadata.getInt i.metadata "interval").isSome))
    && (decide (i.opcode ≠ .DEFINE_TOWER)
      || ((Metadata.getInt i.metadata "damage").isSome
          && (Metadata.getDouble i.metadata "fire_rate").isSome))

/-- The wave objects of the `waves` section: for each `DEFINE_WAVE`, in IR
order, the object with the name of the wave and the objects of the spawns of
its run. -/
def waveObjects (ir : List IrInstruction) : List String :=
  (indicesOf .DEFINE_WAVE ir 0).map fun k =>
    waveJSON (waveNameAt ir k) ((mapOpt spawnJSON (waveRun (waveNameAt ir k) ir k)).getD [])

/-- No spawn of an IR is lost in the JSON output: the spawns read for the
waves are exactly the `SPAWN_ENEMY` instructions, in IR order; for every
`DEFINE_WAVE`, `generateWaveJSON` returns the wave object with one spawn object
per instruction of the run of the wave, each of which is a `SPAWN_ENEMY` whose
first operand is the name of the wave; and the text that `generateJSON`
returns holds the `waves` section made of these wave objects. -/
def SpawnsWritten (ir : List IrInstruction) : Prop :=
  emittedSpawns ir = ofOpcode .SPAWN_ENEMY ir
  ∧ (∀ k ∈ indicesOf .DEFINE_WAVE ir 0,
      (∀ s ∈ waveRun (waveNameAt ir k) ir k,
        s.opcode = .SPAWN_ENEMY ∧ s.operands.head? = some (waveNameAt ir k))
      ∧ ∃ texts, generateWaveJSON ir k
          = some (waveJSON (waveNameAt ir k) texts,
              k + (waveRun (waveNameAt ir k) ir k).length)
        ∧ mapOpt spawnJSON (waveRun (waveNameAt ir k) ir k) = some texts
        ∧ texts.length = (waveRun (waveNameAt ir k) ir k).length)
  ∧ (∀ (fmt : DoubleFormat) (json : String), generateJSON fmt ir = some json →
      ∃ sections, jsonSections fmt ir = some sections ∧ json = jsonDocument sections
        ∧ (ofOpcode .DEFINE_WAVE ir ≠ [] → wavesSection (waveObjects ir) ∈ sections))

/-! # Theorems

Throughout, `fp` is the arithmetic of the type `double` that the optimizer
runs on; every theorem that mentions it holds for every `fp`. -/

variable {fp : DoubleArith}

/-! ## Properties of IR generation -/

theorem intercalate_go_append (x y s : String) (l : List String) :
    String.intercalate.go (x ++ y) s l = x ++ String.intercalate.go y s l := by
  induction l generalizing y with
  | nil => simp [String.intercalate.go]
  | cons a l ih =>
    simp only [String.intercalate.go]
    rw [String.append_assoc, String.append_assoc, ← String.append_assoc y, ih]

theorem pathStream_cons (p : Int × Int) (rest : List (Int × Int)) (acc : String) :
    pathStream (p :: rest) acc
      = acc ++ String.intercalate.go (pointText p) ";" (rest.map pointText) := by
  induction rest generalizing p acc with
  | nil =>
    simp [pathStream, String.intercalate.go, pointText, String.append_assoc]
  | cons q r ih =>
    have h : pathStream (p :: q :: r) acc
        = pathStream (q :: r) (acc ++ toString p.1 ++ "," ++ toString p.2 ++ ";") := by
      simp [pathStream]
    rw [h, ih]
    simp only [List.map_cons, String.intercalate.go]
    rw [← intercalate_go_append, ← intercalate_go_append]
    simp [pointText, String.append_assoc]

theorem pathStream_eq_pathText (path : List (Int × Int)) :
    pathStream path "" = pathText path := by
  cases path with
  | nil => simp [pathStream, pathText, String.intercalate]
  | cons p rest =>
    rw [pathStream_cons]
    simp [pathText, String.intercalate]

theorem spawnInstruction_eq (waveName : String) (s : SpawnStmt) :
    spawnInstruction waveName s = emitSpawn waveName s := rfl

theorem emit_foldl_code (waveName : String) (spawns : List SpawnStmt) (g : IrGenerator) :
    (spawns.foldl (fun g spawn => g.emit (spawnInstruction waveName spawn)) g).code
      = g.code ++ spawns.map (emitSpawn waveName) := by
  induction spawns generalizing g with
  | nil => simp
  | cons s rest ih =>
    rw [List.foldl_cons, ih]
    simp [IrGenerator.emit, spawnInstruction_eq]

theorem step_code (g : IrGenerator) (d : Decl) :
    (g.step d).code = g.code ++ emitDecl d := by
  cases d with
  | map m =>
    simp only [IrGenerator.step, IrGenerator.emit, emitDecl, pathStream_eq_pathText]
    rfl
  | enemy e => rfl
  | tower t => rfl
  | wave w =>
    simp only [IrGenerator.step]
    rw [emit_foldl_code]
    simp [IrGenerator.emit, emitDecl]
  | place p => rfl

theorem foldl_step_code (ds : List Decl) (g : IrGenerator) :
    (ds.foldl IrGenerator.step g).code = g.code ++ ds.flatMap emitDecl := by
  induction ds generalizing g with
  | nil => simp
  | cons d rest ih => simp [List.foldl_cons, ih, step_code, List.flatMap_cons]

theorem generate_eq_flatMap (program : Program) :
    generate program = program.declarations.flatMap emitDecl := by
  simp [generate, foldl_step_code]

theorem generate_append (ds es : List Decl) :
    generate ⟨ds ++ es⟩ = generate ⟨ds⟩ ++ generate ⟨es⟩ := by
  simp [generate_eq_flatMap, List.flatMap_append]

theorem operandsOf_append (op : IrOpcode) (a b : List IrInstruction) :
    operandsOf op (a ++ b) = operandsOf op a ++ operandsOf op b := by
  simp [operandsOf]

theorem operandsOf_spawns (op : IrOpcode) (h : op ≠ .SPAWN_ENEMY) (waveName : String)
    (spawns : List SpawnStmt) : operandsOf op (spawns.map (emitSpawn waveName)) = [] := by
  induction spawns with
  | nil => rfl
  | cons s rest ih =>
    have hne : ¬ (IrOpcode.SPAWN_ENEMY = op) := fun e => h e.symm
    simp only [operandsOf, List.map_cons, List.filter_cons, emitSpawn, hne, decide_False] at ih ⊢
    simpa [emitSpawn] using ih

theorem operandsOf_flatMap (op : IrOpcode) (h : op ≠ .SPAWN_ENEMY) (ds : List Decl) :
    operandsOf op (ds.flatMap emitDecl) = declaredNames op ds := by
  induction ds with
  | nil => rfl
  | cons d rest ih =>
    rw [List.flatMap_cons, operandsOf_append, ih]
    cases d with
    | map m => by_cases e : op = .DEFINE_MAP <;> simp [emitDecl, operandsOf, declaredNames, e, eq_comm]
    | enemy x => by_cases e : op = .DEFINE_ENEMY <;> simp [emitDecl, operandsOf, declaredNames, e, eq_comm]
    | tower t => by_cases e : op = .DEFINE_TOWER <;> simp [emitDecl, operandsOf, declaredNames, e, eq_comm]
    | wave w =>
      have hs := operandsOf_spawns op h w.name w.spawns
      by_cases e : op = .DEFINE_WAVE
      · simp only [emitDecl, declaredNames, e, if_true]
        subst e
        simp only [operandsOf, List.filter_cons, decide_True, if_true, List.map_cons] at hs ⊢
        simp [hs]
      · simp only [emitDecl, declaredNames, e, if_false]
        have e2 : ¬ (IrOpcode.DEFINE_WAVE = op) := fun x => e x.symm
        simp only [operandsOf, List.filter_cons, e2, decide_False] at hs ⊢
        simp [hs]
    | place p => by_cases e : op = .PLACE_TOWER <;> simp [emitDecl, operandsOf, declaredNames, e, eq_comm]

theorem length_flatMap_emitDecl (ds : List Decl) :
    (ds.flatMap emitDecl).length = ds.length + (ds.map spawnCount).sum := by
  induction ds with
  | nil => rfl
  | cons d rest ih =>
    rw [List.flatMap_cons, List.length_append, ih]
    cases d <;> simp [emitDecl, spawnCount] <;> omega

/-- C10: the generated IR is the concatenation, in source order, of the
instructions prescribed per declaration; hence the operand lists of the
instructions of each definition or placement opcode are the declared names in
declaration order, and the length is the number of declarations plus the total
number of spawn statements. -/
theorem generate_preserves_declaration_order (program : Program) :
    generate program = program.declarations.flatMap emitDecl
    ∧ operandsOf .DEFINE_MAP (generate program)
        = declaredNames .DEFINE_MAP program.declarations
    ∧ operandsOf .DEFINE_ENEMY (generate program)
        = declaredNames .DEFINE_ENEMY program.declarations
    ∧ operandsOf .DEFINE_TOWER (generate program)
        = declaredNames .DEFINE_TOWER program.declarations
    ∧ operandsOf .DEFINE_WAVE (generate program)
        = declaredNames .DEFINE_WAVE program.declarations
    ∧ operandsOf .PLACE_TOWER (generate program)
        = declaredNames .PLACE_TOWER program.declarations
    ∧ (generate program).length
        = program.declarations.length + (program.declarations.map spawnCount).sum := by
  rw [generate_eq_flatMap]
  refine ⟨rfl, ?_, ?_, ?_, ?_, ?_, length_flatMap_emitDecl _⟩ <;>
    exact operandsOf_flatMap _ (by decide) _

theorem spawnsFollow_append (a b : List IrInstruction)
    (ha : SpawnsFollowOwnWave a) (hb : SpawnsFollowOwnWave b) :
    SpawnsFollowOwnWave (a ++ b) := by
  intro j x hj hx
  by_cases hlt : j < a.length
  · rw [List.getElem?_append_left hlt] at hj
    obtain ⟨k, W, hk, hkW, hW, hbetween⟩ := ha j x hj hx
    refine ⟨k, W, hk, ?_, hW, ?_⟩
    · rw [List.getElem?_append_left (by omega)]; exact hkW
    · intro m y hkm hmj hm
      rw [List.getElem?_append_left (by omega)] at hm
      exact hbetween m y hkm hmj hm
  · have hge : a.length ≤ j := by omega
    rw [List.getElem?_append_right hge] at hj
    obtain ⟨k, W, hk, hkW, hW, hbetween⟩ := hb (j - a.length) x hj hx
    refine ⟨k + a.length, W, by omega, ?_, hW, ?_⟩
    · rw [List.getElem?_append_right (by omega)]
      simpa using hkW
    · intro m y hkm hmj hm
      rw [List.getElem?_append_right (by omega)] at hm
      exact hbetween (m - a.length) y (by omega) (by omega) hm

theorem spawnsFollow_emitDecl (d : Decl) : SpawnsFollowOwnWave (emitDecl d) := by
  intro j x hj hx
  cases d with
  | wave w =>
    cases j with
    | zero =>
      simp only [emitDecl, List.getElem?_cons_zero, Option.some.injEq] at hj
      subst hj
      simp at hx
    | succ j =>
      simp only [emitDecl, List.getElem?_cons_succ] at hj
      have hmem : x ∈ w.spawns.map (emitSpawn w.name) := List.getElem?_mem hj
      obtain ⟨s, _, rfl⟩ := List.mem_map.1 hmem
      refine ⟨0, w.name, by omega, by simp [emitDecl, defineWave], by simp [emitSpawn], ?_⟩
      intro m y hm _ hy
      cases m with
      | zero => omega
      | succ m =>
        simp only [emitDecl, List.getElem?_cons_succ] at hy
        obtain ⟨t, _, rfl⟩ := List.mem_map.1 (List.getElem?_mem hy)
        rfl
  | map m =>
    cases j with
    | zero =>
      simp only [emitDecl, List.getElem?_cons_zero, Option.some.injEq] at hj
      subst hj; simp at hx
    | succ j => simp [emitDecl] at hj
  | enemy e =>
    cases j with
    | zero =>
      simp only [emitDecl, List.getElem?_cons_zero, Option.some.injEq] at hj
      subst hj; simp at hx
    | succ j => simp [emitDecl] at hj
  | tower t =>
    cases j with
    | zero =>
      simp only [emitDecl, List.getElem?_cons_zero, Option.some.injEq] at hj
      subst hj; simp at hx
    | succ j => simp [emitDecl] at hj
  | place p =>
    cases j with
    | zero =>
      simp only [emitDecl, List.getElem?_cons_zero, Option.some.injEq] at hj
      subst hj; simp at hx
    | succ j => simp [emitDecl] at hj

theorem spawnsFollow_flatMap (ds : List Decl) :
    SpawnsFollowOwnWave (ds.flatMap emitDecl) := by
  induction ds with
  | nil => intro j x hj; simp at hj
  | cons d rest ih =>
    rw [List.flatMap_cons]
    exact spawnsFollow_append _ _ (spawnsFollow_emitDecl d) ih

theorem head_emitDecl_not_spawn (d : Decl) :
    ∃ i rest, emitDecl d = i :: rest ∧ i.opcode ≠ .SPAWN_ENEMY := by
  cases d <;> exact ⟨_, _, rfl, by simp⟩

theorem head_generate_not_spawn (ds : List Decl) (i : IrInstruction)
    (h : (generate ⟨ds⟩).head? = some i) : i.opcode ≠ .SPAWN_ENEMY := by
  rw [generate_eq_flatMap] at h
  cases ds with
  | nil => simp at h
  | cons d rest =>
    obtain ⟨i0, r0, he, hne⟩ := head_emitDecl_not_spawn d
    simp only [List.flatMap_cons, he, List.cons_append, List.head?_cons,
      Option.some.injEq] at h
    subst h
    exact hne

/-- C5: in the generated IR every wave declaration named `W` with `n` spawn
statements yields `DEFINE_WAVE [W]` immediately followed by exactly `n`
contiguous `SPAWN_ENEMY` instructions with first operand `W`, in spawn order
(the instruction after the run, if any, is not a `SPAWN_ENEMY`); and every
`SPAWN_ENEMY` of the output lies in the run of the `DEFINE_WAVE` of its own
wave. -/
theorem generate_wave_grouping (program : Program) :
    (∀ (before after : List Decl) (w : WaveDecl),
        program.declarations = before ++ Decl.wave w :: after →
        generate program
            = generate ⟨before⟩
              ++ (defineWave w.name :: w.spawns.map (emitSpawn w.name))
              ++ generate ⟨after⟩
          ∧ (w.spawns.map (emitSpawn w.name)).length = w.spawns.length
          ∧ (∀ (n : Nat) (s : SpawnStmt), w.spawns[n]? = some s →
              ∃ i, (w.spawns.map (emitSpawn w.name))[n]? = some i
                ∧ i.opcode = .SPAWN_ENEMY
                ∧ i.operands = [w.name, s.enemyType]
                ∧ i.operands.head? = some w.name)
          ∧ (∀ i, (generate ⟨after⟩).head? = some i → i.opcode ≠ .SPAWN_ENEMY))
    ∧ SpawnsFollowOwnWave (generate program) := by
  constructor
  · intro before after w hdecl
    refine ⟨?_, by simp, ?_, fun i hi => head_generate_not_spawn after i hi⟩
    · have : program = ⟨before ++ ([Decl.wave w] ++ after)⟩ := by
        cases program; simp_all
      rw [this, generate_append, generate_append]
      simp [generate_eq_flatMap, emitDecl, defineWave]
    · intro n s hs
      refine ⟨emitSpawn w.name s, ?_, rfl, rfl, rfl⟩
      simp [List.getElem?_map, hs]
  · rw [generate_eq_flatMap]
    exact spawnsFollow_flatMap _

/-- C5, at a program with an enemy, a wave of two spawns and a placement. -/
theorem generate_wave_grouping_witness :
    generate ⟨[Decl.enemy ⟨"G", 1, 1, 0⟩,
               Decl.wave ⟨"W", [⟨"G", 3, 0, 1⟩, ⟨"G", 2, 5, 1⟩]⟩,
               Decl.place ⟨"T", 0, 0⟩]⟩
      = generate ⟨[Decl.enemy ⟨"G", 1, 1, 0⟩]⟩
        ++ (defineWave "W" :: [emitSpawn "W" ⟨"G", 3, 0, 1⟩, emitSpawn "W" ⟨"G", 2, 5, 1⟩])
        ++ generate ⟨[Decl.place ⟨"T", 0, 0⟩]⟩ :=
  ((generate_wave_grouping
      ⟨[Decl.enemy ⟨"G", 1, 1, 0⟩,
        Decl.wave ⟨"W", [⟨"G", 3, 0, 1⟩, ⟨"G", 2, 5, 1⟩]⟩,
        Decl.place ⟨"T", 0, 0⟩]⟩).1
    [Decl.enemy ⟨"G", 1, 1, 0⟩] [Decl.place ⟨"T", 0, 0⟩]
    ⟨"W", [⟨"G", 3, 0, 1⟩, ⟨"G", 2, 5, 1⟩]⟩ rfl).1

/-! ## Properties of semantic analysis -/

theorem tracks_fresh : Tracks SemanticAnalyzer.fresh [] := by
  constructor <;> simp [SemanticAnalyzer.fresh, tableCount, mapNames, enemyNames,
    towerNames, waveNames, lastMap]

theorem tableCount_cons {α : Type} (table : List (String × α)) (n : String) (v : α)
    (k : String) :
    tableCount ((n, v) :: table) k = true ↔ k = n ∨ tableCount table k = true := by
  simp [tableCount]

theorem lastMap_append_map (earlier : List Decl) (m : MapDecl) :
    lastMap (earlier ++ [Decl.map m]) = some m := by
  simp [lastMap, List.filterMap_append]

theorem lastMap_append_other (earlier : List Decl) (d : Decl)
    (h : ∀ m, d ≠ Decl.map m) : lastMap (earlier ++ [d]) = lastMap earlier := by
  cases d with
  | map m => exact absurd rfl (h m)
  | enemy e => simp [lastMap, List.filterMap_append]
  | tower t => simp [lastMap, List.filterMap_append]
  | wave w => simp [lastMap, List.filterMap_append]
  | place p => simp [lastMap, List.filterMap_append]

theorem checkSpawns_ok_iff (a : SemanticAnalyzer) (earlier : List Decl)
    (he : ∀ k, tableCount a.enemyDeclarations k = true ↔ k ∈ enemyNames earlier)
    (spawns : List SpawnStmt) :
    checkSpawns a spawns = .ok () ↔ ∀ s ∈ spawns, validSpawn earlier s := by
  induction spawns with
  | nil => simp [checkSpawns]
  | cons s rest ih =>
    simp only [checkSpawns, List.mem_cons, forall_eq_or_imp]
    by_cases h1 : tableCount a.enemyDeclarations s.enemyType = true
    · have h1m := (he _).1 h1
      by_cases h2 : s.count ≤ 0 ∨ s.start < 0 ∨ s.interval ≤ 0
      · simp only [h1, Bool.not_true, Bool.false_eq_true, if_false, if_true, h2]
        constructor
        · intro h; cases h
        · rintro ⟨⟨_, hc, hs, hi⟩, _⟩
          omega
      · simp only [h1, Bool.not_true, Bool.false_eq_true, h2, if_false, ih]
        constructor
        · intro h
          exact ⟨⟨h1m, by omega, by omega, by omega⟩, h⟩
        · exact fun h => h.2
    · have h1m : s.enemyType ∉ enemyNames earlier := fun hm => h1 ((he _).2 hm)
      simp only [Bool.not_eq_true] at h1
      simp only [h1, Bool.not_false, if_true]
      constructor
      · intro h; cases h
      · rintro ⟨⟨hm, _⟩, _⟩
        exact absurd hm h1m

theorem names_append (earlier : List Decl) (d : Decl) :
    mapNames (earlier ++ [d]) = mapNames earlier ++ mapNames [d]
    ∧ enemyNames (earlier ++ [d]) = enemyNames earlier ++ enemyNames [d]
    ∧ towerNames (earlier ++ [d]) = towerNames earlier ++ towerNames [d]
    ∧ waveNames (earlier ++ [d]) = waveNames earlier ++ waveNames [d] := by
  simp [mapNames, enemyNames, towerNames, waveNames, List.filterMap_append]

theorem checkMap_spec (a : SemanticAnalyzer) (earlier : List Decl) (h : Tracks a earlier)
    (m : MapDecl) :
    (validDecl earlier (Decl.map m) → ∃ a1, checkMap a m = .ok a1)
    ∧ (∀ a1, checkMap a m = .ok a1 →
        validDecl earlier (Decl.map m) ∧ Tracks a1 (earlier ++ [Decl.map m])) := by
  obtain ⟨n1, n2, n3, n4⟩ := names_append earlier (Decl.map m)
  by_cases hc : tableCount a.mapDeclarations m.name = true
  · have hm := (h.maps _).1 hc
    simp only [checkMap, hc, if_true]
    exact ⟨fun hv => absurd hm hv.1, fun a1 ha => by cases ha⟩
  · have hm : m.name ∉ mapNames earlier := fun x => hc ((h.maps _).2 x)
    simp only [Bool.not_eq_true] at hc
    by_cases hsz : m.width ≤ 0 ∨ m.height ≤ 0
    · simp only [checkMap, hc, Bool.false_eq_true, if_false, hsz, if_true]
      refine ⟨fun hv => ?_, fun a1 ha => by cases ha⟩
      have := hv.2.1; have := hv.2.2.1; omega
    · by_cases hp : m.path.any (fun point =>
          decide (point.1 < 0) || decide (point.1 ≥ m.width) ||
          decide (point.2 < 0) || decide (point.2 ≥ m.height)) = true
      · simp only [checkMap, hc, Bool.false_eq_true, if_false, hsz, hp, if_true]
        refine ⟨fun hv => ?_, fun a1 ha => by cases ha⟩
        obtain ⟨pt, hpt, hbad⟩ := List.any_eq_true.1 hp
        have hin := hv.2.2.2 pt hpt
        simp only [inBounds] at hin
        simp only [Bool.or_eq_true, decide_eq_true_eq] at hbad
        omega
      · simp only [checkMap, hc, Bool.false_eq_true, if_false, hsz, hp]
        have hall : ∀ pt ∈ m.path, inBounds m.width m.height pt.1 pt.2 := by
          intro pt hpt
          have : ¬ ((decide (pt.1 < 0) || decide (pt.1 ≥ m.width) ||
              decide (pt.2 < 0) || decide (pt.2 ≥ m.height)) = true) :=
            fun hb => hp (List.any_eq_true.2 ⟨pt, hpt, hb⟩)
          simp only [Bool.or_eq_true, decide_eq_true_eq] at this
          simp only [inBounds]
          omega
        have hvalid : validDecl earlier (Decl.map m) :=
          ⟨hm, by omega, by omega, hall⟩
        refine ⟨fun _ => ⟨_, rfl⟩, fun a1 ha => ?_⟩
        simp only [Except.ok.injEq] at ha
        subst ha
        refine ⟨hvalid, ?_⟩
        constructor
        · intro k
          rw [n1, tableCount_cons, h.maps]
          simp [mapNames, or_comm]
        · intro k; rw [n2]; simpa [enemyNames] using h.enemies k
        · intro k; rw [n3]; simpa [towerNames] using h.towers k
        · intro k; rw [n4]; simpa [waveNames] using h.waves k
        · simp [lastMap_append_map]

theorem checkEnemy_spec (a : SemanticAnalyzer) (earlier : List Decl) (h : Tracks a earlier)
    (e : EnemyDecl) :
    (validDecl earlier (Decl.enemy e) → ∃ a1, checkEnemy a e = .ok a1)
    ∧ (∀ a1, checkEnemy a e = .ok a1 →
        validDecl earlier (Decl.enemy e) ∧ Tracks a1 (earlier ++ [Decl.enemy e])) := by
  obtain ⟨n1, n2, n3, n4⟩ := names_append earlier (Decl.enemy e)
  by_cases hc : tableCount a.enemyDeclarations e.name = true
  · have hm := (h.enemies _).1 hc
    simp only [checkEnemy, hc, if_true]
    exact ⟨fun hv => absurd hm hv.1, fun a1 ha => by cases ha⟩
  · have hm : e.name ∉ enemyNames earlier := fun x => hc ((h.enemies _).2 x)
    simp only [Bool.not_eq_true] at hc
    by_cases h1 : e.hp ≤ 0
    · simp only [checkEnemy, hc, Bool.false_eq_true, if_false, h1, if_true]
      refine ⟨fun hv => ?_, fun a1 ha => by cases ha⟩
      have := hv.2.1; omega
    · by_cases h2 : e.speed ≤ 0
      · simp only [checkEnemy, hc, Bool.false_eq_true, if_false, h1, h2, if_true]
        refine ⟨fun hv => ?_, fun a1 ha => by cases ha⟩
        exact absurd hv.2.2.1 (not_lt.2 h2)
      · by_cases h3 : e.reward < 0
        · simp only [checkEnemy, hc, Bool.false_eq_true, if_false, h1, h2, h3, if_true]
          refine ⟨fun hv => ?_, fun a1 ha => by cases ha⟩
          have := hv.2.2.2; omega
        · simp only [checkEnemy, hc, Bool.false_eq_true, if_false, h1, h2, h3]
          have hvalid : validDecl earlier (Decl.enemy e) :=
            ⟨hm, by omega, not_le.1 h2, by omega⟩
          refine ⟨fun _ => ⟨_, rfl⟩, fun a1 ha => ?_⟩
          simp only [Except.ok.injEq] at ha
          subst ha
          refine ⟨hvalid, ?_⟩
          constructor
          · intro k; rw [n1]; simpa [mapNames] using h.maps k
          · intro k
            rw [n2, tableCount_cons, h.enemies]
            simp [enemyNames, or_comm]
          · intro k; rw [n3]; simpa [towerNames] using h.towers k
          · intro k; rw [n4]; simpa [waveNames] using h.waves k
          · rw [lastMap_append_other _ _ (by intro m hm; cases hm)]; exact h.current

theorem checkTower_spec (a : SemanticAnalyzer) (earlier : List Decl) (h : Tracks a earlier)
    (t : TowerDecl) :
    (validDecl earlier (Decl.tower t) → ∃ a1, checkTower a t = .ok a1)
    ∧ (∀ a1, checkTower a t = .ok a1 →
        validDecl earlier (Decl.tower t) ∧ Tracks a1 (earlier ++ [Decl.tower t])) := by
  obtain ⟨n1, n2, n3, n4⟩ := names_append earlier (Decl.tower t)
  by_cases hc : tableCount a.towerDeclarations t.name = true
  · have hm := (h.towers _).1 hc
    simp only [checkTower, hc, if_true]
    exact ⟨fun hv => absurd hm hv.1, fun a1 ha => by cases ha⟩
  · have hm : t.name ∉ towerNames earlier := fun x => hc ((h.towers _).2 x)
    simp only [Bool.not_eq_true] at hc
    by_cases h1 : t.range ≤ 0 ∨ t.damage ≤ 0 ∨ t.cost < 0
    · simp only [checkTower, hc, Bool.false_eq_true, if_false, h1, if_true]
      refine ⟨fun hv => ?_, fun a1 ha => by cases ha⟩
      have := hv.2.1; have := hv.2.2.1; have := hv.2.2.2.1; omega
    · by_cases h2 : t.fireRate ≤ 0
      · simp only [checkTower, hc, Bool.false_eq_true, if_false, h1, h2, if_true]
        refine ⟨fun hv => ?_, fun a1 ha => by cases ha⟩
        exact absurd hv.2.2.2.2 (not_lt.2 h2)
      · simp only [checkTower, hc, Bool.false_eq_true, if_false, h1, h2]
        have hvalid : validDecl earlier (Decl.tower t) :=
          ⟨hm, by omega, by omega, by omega, not_le.1 h2⟩
        refine ⟨fun _ => ⟨_, rfl⟩, fun a1 ha => ?_⟩
        simp only [Except.ok.injEq] at ha
        subst ha
        refine ⟨hvalid, ?_⟩
        constructor
        · intro k; rw [n1]; simpa [mapNames] using h.maps k
        · intro k; rw [n2]; simpa [enemyNames] using h.enemies k
        · intro k
          rw [n3, tableCount_cons, h.towers]
          simp [towerNames, or_comm]
        · intro k; rw [n4]; simpa [waveNames] using h.waves k
        · rw [lastMap_append_other _ _ (by intro m hm; cases hm)]; exact h.current

theorem checkWave_spec (a : SemanticAnalyzer) (earlier : List Decl) (h : Tracks a earlier)
    (w : WaveDecl) :
    (validDecl earlier (Decl.wave w) → ∃ a1, checkWave a w = .ok a1)
    ∧ (∀ a1, checkWave a w = .ok a1 →
        validDecl earlier (Decl.wave w) ∧ Tracks a1 (earlier ++ [Decl.wave w])) := by
  obtain ⟨n1, n2, n3, n4⟩ := names_append earlier (Decl.wave w)
  by_cases hc : tableCount a.waveDeclarations w.name = true
  · have hm := (h.waves _).1 hc
    simp only [checkWave, hc, if_true]
    exact ⟨fun hv => absurd hm hv.1, fun a1 ha => by cases ha⟩
  · have hm : w.name ∉ waveNames earlier := fun x => hc ((h.waves _).2 x)
    simp only [Bool.not_eq_true] at hc
    simp only [checkWave, hc, Bool.false_eq_true, if_false]
    have hiff := checkSpawns_ok_iff
      { a with waveDeclarations := (w.name, w) :: a.waveDeclarations } earlier
      h.enemies w.spawns
    cases hs : checkSpawns
        { a with waveDeclarations := (w.name, w) :: a.waveDeclarations } w.spawns with
    | error msg =>
      rw [hs] at hiff
      refine ⟨fun hv => ?_, fun a1 ha => by cases ha⟩
      have := hiff.2 hv.2
      cases this
    | ok u =>
      rw [hs] at hiff
      have hvalid : validDecl earlier (Decl.wave w) := ⟨hm, hiff.1 rfl⟩
      refine ⟨fun _ => ⟨_, rfl⟩, fun a1 ha => ?_⟩
      simp only [Except.ok.injEq] at ha
      subst ha
      refine ⟨hvalid, ?_⟩
      constructor
      · intro k; rw [n1]; simpa [mapNames] using h.maps k
      · intro k; rw [n2]; simpa [enemyNames] using h.enemies k
      · intro k; rw [n3]; simpa [towerNames] using h.towers k
      · intro k
        rw [n4, tableCount_cons, h.waves]
        simp [waveNames, or_comm]
      · rw [lastMap_append_other _ _ (by intro m hm; cases hm)]; exact h.current

theorem checkPlacement_spec (a : SemanticAnalyzer) (earlier : List Decl)
    (h : Tracks a earlier) (p : PlaceStmt) :
    (validDecl earlier (Decl.place p) → ∃ a1, checkPlacement a p = .ok a1)
    ∧ (∀ a1, checkPlacement a p = .ok a1 →
        validDecl earlier (Decl.place p) ∧ Tracks a1 (earlier ++ [Decl.place p])) := by
  obtain ⟨n1, n2, n3, n4⟩ := names_append earlier (Decl.place p)
  by_cases hc : tableCount a.towerDeclarations p.towerType = true
  · have hm := (h.towers _).1 hc
    simp only [checkPlacement, hc, Bool.not_true, Bool.false_eq_true, if_false]
    have hcur := h.current
    cases hmap : a.currentMap with
    | none =>
      rw [hmap] at hcur
      refine ⟨fun hv => ?_, fun a1 ha => by cases ha⟩
      obtain ⟨m, hlast, _⟩ := hv.2
      rw [hlast] at hcur
      cases hcur
    | some cm =>
      rw [hmap] at hcur
      by_cases hb : p.x < 0 ∨ p.x ≥ cm.width ∨ p.y < 0 ∨ p.y ≥ cm.height
      · simp only [hb, if_true]
        refine ⟨fun hv => ?_, fun a1 ha => by cases ha⟩
        obtain ⟨m, hlast, hin⟩ := hv.2
        rw [hlast] at hcur
        cases hcur
        simp only [inBounds] at hin
        omega
      · simp only [hb, if_false]
        have hvalid : validDecl earlier (Decl.place p) :=
          ⟨hm, cm, hcur.symm, by simp only [inBounds]; omega⟩
        refine ⟨fun _ => ⟨_, rfl⟩, fun a1 ha => ?_⟩
        simp only [Except.ok.injEq] at ha
        subst ha
        refine ⟨hvalid, ?_⟩
        constructor
        · intro k; rw [n1]; simpa [mapNames] using h.maps k
        · intro k; rw [n2]; simpa [enemyNames] using h.enemies k
        · intro k; rw [n3]; simpa [towerNames] using h.towers k
        · intro k; rw [n4]; simpa [waveNames] using h.waves k
        · rw [lastMap_append_other _ _ (by intro m hm; cases hm)]; exact h.current
  · have hm : p.towerType ∉ towerNames earlier := fun x => hc ((h.towers _).2 x)
    simp only [Bool.not_eq_true] at hc
    simp only [checkPlacement, hc, Bool.not_false, if_true]
    exact ⟨fun hv => absurd hv.1 hm, fun a1 ha => by cases ha⟩

theorem checkDecl_spec (a : SemanticAnalyzer) (earlier : List Decl) (h : Tracks a earlier)
    (d : Decl) :
    (validDecl earlier d → ∃ a1, checkDecl a d = .ok a1)
    ∧ (∀ a1, checkDecl a d = .ok a1 → validDecl earlier d ∧ Tracks a1 (earlier ++ [d])) := by
  cases d with
  | map m => exact checkMap_spec a earlier h m
  | enemy e => exact checkEnemy_spec a earlier h e
  | tower t => exact checkTower_spec a earlier h t
  | wave w => exact checkWave_spec a earlier h w
  | place p => exact checkPlacement_spec a earlier h p

/-- Validity of the declarations `ds` that follow the declarations `earlier`. -/
theorem analyzeFrom_spec (ds : List Decl) (a : SemanticAnalyzer) (earlier : List Decl)
    (h : Tracks a earlier) :
    ((∀ (n : Nat) (d : Decl), ds[n]? = some d → validDecl (earlier ++ ds.take n) d) →
        ∃ a1, analyzeFrom a ds = .ok a1)
    ∧ (∀ a1, analyzeFrom a ds = .ok a1 →
        (∀ (n : Nat) (d : Decl), ds[n]? = some d → validDecl (earlier ++ ds.take n) d)
        ∧ Tracks a1 (earlier ++ ds)) := by
  induction ds generalizing a earlier with
  | nil =>
    refine ⟨fun _ => ⟨a, rfl⟩, fun a1 ha => ?_⟩
    simp only [analyzeFrom, Except.ok.injEq] at ha
    subst ha
    exact ⟨fun n d hd => by simp at hd, by simpa using h⟩
  | cons d rest ih =>
    obtain ⟨hd1, hd2⟩ := checkDecl_spec a earlier h d
    constructor
    · intro hv
      have h0 : validDecl earlier d := by simpa using hv 0 d (by simp)
      obtain ⟨a1, ha1⟩ := hd1 h0
      have ht := (hd2 a1 ha1).2
      obtain ⟨a2, ha2⟩ := (ih a1 (earlier ++ [d]) ht).1 (by
        intro n x hx
        have := hv (n + 1) x (by simpa using hx)
        simpa using this)
      exact ⟨a2, by simp [analyzeFrom, ha1, ha2]⟩
    · intro a2 ha2
      simp only [analyzeFrom] at ha2
      cases hc : checkDecl a d with
      | error msg => rw [hc] at ha2; cases ha2
      | ok a1 =>
        rw [hc] at ha2
        obtain ⟨hv0, ht⟩ := hd2 a1 hc
        obtain ⟨hvr, htr⟩ := (ih a1 (earlier ++ [d]) ht).2 a2 ha2
        refine ⟨?_, by simpa using htr⟩
        intro n x hx
        cases n with
        | zero =>
          simp only [List.getElem?_cons_zero, Option.some.injEq] at hx
          subst hx
          simpa using hv0
        | succ n =>
          have := hvr n x (by simpa using hx)
          simpa using this

theorem analyze_ok_iff_valid (ds : List Decl) :
    (∃ a, analyzeFrom SemanticAnalyzer.fresh ds = .ok a) ↔ ValidProgram ds := by
  have h := analyzeFrom_spec ds SemanticAnalyzer.fresh [] tracks_fresh
  simp only [List.nil_append] at h
  exact ⟨fun ⟨a, ha⟩ => (h.2 a ha).1, h.1⟩

theorem analyze_ok_tracks (ds : List Decl) (a : SemanticAnalyzer)
    (h : analyzeFrom SemanticAnalyzer.fresh ds = .ok a) : Tracks a ds := by
  have := (analyzeFrom_spec ds SemanticAnalyzer.fresh [] tracks_fresh).2 a h
  simpa using this.2

theorem analyzeFrom_append (ds es : List Decl) (a : SemanticAnalyzer) :
    analyzeFrom a (ds ++ es)
      = match analyzeFrom a ds with
        | .error msg => .error msg
        | .ok a1 => analyzeFrom a1 es := by
  induction ds generalizing a with
  | nil => simp [analyzeFrom]
  | cons d rest ih =>
    simp only [List.cons_append, analyzeFrom]
    cases checkDecl a d with
    | error msg => rfl
    | ok a1 => exact ih a1

/-- C7: analysis on a newly constructed analyzer succeeds exactly for the valid
programs: every declaration, in source order, has a name not used by an earlier
declaration of its kind and valid attributes; spawns name an enemy declared
earlier; placements name a tower declared earlier and lie inside the most
recently declared map. -/
theorem analyze_accepts_exactly_valid (program : Program) :
    (∃ a, analyze program = .ok a) ↔ ValidProgram program.declarations :=
  analyze_ok_iff_valid program.declarations

theorem checkSpawns_undefined (a : SemanticAnalyzer) (earlier : List Decl)
    (he : ∀ k, tableCount a.enemyDeclarations k = true ↔ k ∈ enemyNames earlier)
    (good rest : List SpawnStmt) (s : SpawnStmt)
    (hgood : ∀ g ∈ good, validSpawn earlier g)
    (hundef : s.enemyType ∉ enemyNames earlier) :
    checkSpawns a (good ++ s :: rest)
      = .error ("Wave uses undefined enemy: " ++ s.enemyType ++ "\n") := by
  induction good with
  | nil =>
    have h1 : tableCount a.enemyDeclarations s.enemyType = false := by
      cases hb : tableCount a.enemyDeclarations s.enemyType with
      | false => rfl
      | true => exact absurd ((he _).1 hb) hundef
    simp [checkSpawns, h1]
  | cons g gs ih =>
    obtain ⟨hm, hc, hs, hi⟩ := hgood g (List.mem_cons_self _ _)
    have h1 : tableCount a.enemyDeclarations g.enemyType = true := (he _).2 hm
    have h2 : ¬ (g.count ≤ 0 ∨ g.start < 0 ∨ g.interval ≤ 0) := by omega
    simp only [List.cons_append, checkSpawns, h1, Bool.not_true, Bool.false_eq_true,
      if_false, h2]
    exact ih (fun x hx => hgood x (List.mem_cons_of_mem _ hx))

/-- C8: when the declarations before a wave are valid, the wave's name is new,
and the first offending spawn of the wave names an enemy `E` with no enemy
declaration earlier in the file (whatever is declared later), analysis fails
and writes the diagnostic `Wave uses undefined enemy: E`, which contains `E`. -/
theorem undefined_enemy_rejected (before after : List Decl) (w : WaveDecl)
    (good rest : List SpawnStmt) (s : SpawnStmt)
    (hbefore : ValidProgram before)
    (hname : w.name ∉ waveNames before)
    (hspawns : w.spawns = good ++ s :: rest)
    (hgood : ∀ g ∈ good, validSpawn before g)
    (hundef : s.enemyType ∉ enemyNames before) :
    analyze ⟨before ++ Decl.wave w :: after⟩
        = .error ("Wave uses undefined enemy: " ++ s.enemyType ++ "\n")
    ∧ s.enemyType.data <:+: ("Wave uses undefined enemy: " ++ s.enemyType ++ "\n").data := by
  constructor
  · obtain ⟨a, ha⟩ := (analyze_ok_iff_valid before).2 hbefore
    have ht := analyze_ok_tracks before a ha
    have hw : tableCount a.waveDeclarations w.name = false := by
      cases hb : tableCount a.waveDeclarations w.name with
      | false => rfl
      | true => exact absurd ((ht.waves _).1 hb) hname
    have hs := checkSpawns_undefined
      { a with waveDeclarations := (w.name, w) :: a.waveDeclarations } before
      ht.enemies good rest s hgood hundef
    simp only [analyze, analyzeFrom_append, ha, analyzeFrom, checkDecl, checkWave, hw,
      Bool.false_eq_true, if_false, hspawns, hs]
  · exact ⟨"Wave uses undefined enemy: ".data, "\n".data, by simp [String.data_append]⟩

/-- C8, at a wave spawning `Dragon` before any enemy `Dragon` is declared; a
later declaration of `Dragon` does not help. -/
theorem undefined_enemy_rejected_witness :
    analyze ⟨[Decl.wave ⟨"W1", [⟨"Dragon", 1, 0, 1⟩]⟩, Decl.enemy ⟨"Dragon", 100, 1, 5⟩]⟩
        = .error "Wave uses undefined enemy: Dragon\n" :=
  (undefined_enemy_rejected [] [Decl.enemy ⟨"Dragon", 100, 1, 5⟩]
    ⟨"W1", [⟨"Dragon", 1, 0, 1⟩]⟩ [] [] ⟨"Dragon", 1, 0, 1⟩
    (by intro n d h; simp at h) (by decide) rfl (by intro g hg; cases hg) (by decide)).1

/-- C9: after valid declarations that declare the tower and at least one map,
a placement fails with `Tower placement out of map bounds.` exactly when
`x < 0`, `x >= width`, `y < 0` or `y >= height` for the most recently declared
map; an out-of-bounds placement fails with that diagnostic whatever follows,
and an in-bounds placement is accepted. -/
theorem placement_bounds_checked (before : List Decl) (p : PlaceStmt) (m : MapDecl)
    (hbefore : ValidProgram before)
    (htower : p.towerType ∈ towerNames before)
    (hmap : lastMap before = some m) :
    (analyze ⟨before ++ [Decl.place p]⟩ = .error "Tower placement out of map bounds.\n"
        ↔ (p.x < 0 ∨ p.x ≥ m.width ∨ p.y < 0 ∨ p.y ≥ m.height))
    ∧ ((p.x < 0 ∨ p.x ≥ m.width ∨ p.y < 0 ∨ p.y ≥ m.height) →
        ∀ after, analyze ⟨before ++ Decl.place p :: after⟩
          = .error "Tower placement out of map bounds.\n")
    ∧ (¬ (p.x < 0 ∨ p.x ≥ m.width ∨ p.y < 0 ∨ p.y ≥ m.height) →
        ∃ a, analyze ⟨before ++ [Decl.place p]⟩ = .ok a) := by
  obtain ⟨a, ha⟩ := (analyze_ok_iff_valid before).2 hbefore
  have ht := analyze_ok_tracks before a ha
  have hT : tableCount a.towerDeclarations p.towerType = true := (ht.towers _).2 htower
  have hcur : a.currentMap = some m := by rw [ht.current, hmap]
  have hstep : ∀ after, analyze ⟨before ++ Decl.place p :: after⟩
      = if p.x < 0 ∨ p.x ≥ m.width ∨ p.y < 0 ∨ p.y ≥ m.height then
          .error "Tower placement out of map bounds.\n"
        else analyzeFrom a after := by
    intro after
    simp only [analyze, analyzeFrom_append, ha, analyzeFrom, checkDecl, checkPlacement, hT,
      Bool.not_true, Bool.false_eq_true, if_false, hcur]
    by_cases hb : p.x < 0 ∨ p.x ≥ m.width ∨ p.y < 0 ∨ p.y ≥ m.height
    · simp only [hb, if_true]
    · simp only [hb, if_false]
  refine ⟨?_, ?_, ?_⟩
  · rw [hstep []]
    by_cases hb : p.x < 0 ∨ p.x ≥ m.width ∨ p.y < 0 ∨ p.y ≥ m.height
    · simp [hb]
    · simp [hb, analyzeFrom]
  · intro hb after
    rw [hstep after, if_pos hb]
  · intro hb
    refine ⟨a, ?_⟩
    rw [hstep [], if_neg hb]
    rfl

/-- C9, at a 5 by 5 map with `place T at (5, 0)`, and at a 9 by 9 map followed
by a 5 by 5 map, where the bounds of the later map decide. -/
theorem placement_bounds_checked_witness :
    analyze ⟨[Decl.map ⟨"M", 5, 5, []⟩, Decl.tower ⟨"T", 1, 1, 0, 1⟩] ++ [Decl.place ⟨"T", 5, 0⟩]⟩
        = .error "Tower placement out of map bounds.\n"
    ∧ analyze ⟨[Decl.map ⟨"A", 9, 9, []⟩, Decl.tower ⟨"T", 1, 1, 0, 1⟩,
                Decl.map ⟨"B", 5, 5, []⟩] ++ [Decl.place ⟨"T", 5, 0⟩]⟩
        = .error "Tower placement out of map bounds.\n" :=
  ⟨(placement_bounds_checked [Decl.map ⟨"M", 5, 5, []⟩, Decl.tower ⟨"T", 1, 1, 0, 1⟩]
      ⟨"T", 5, 0⟩ ⟨"M", 5, 5, []⟩
      ((analyze_ok_iff_valid _).1 ⟨_, rfl⟩) (by decide) rfl).1.2 (by decide),
   (placement_bounds_checked [Decl.map ⟨"A", 9, 9, []⟩, Decl.tower ⟨"T", 1, 1, 0, 1⟩,
      Decl.map ⟨"B", 5, 5, []⟩]
      ⟨"T", 5, 0⟩ ⟨"B", 5, 5, []⟩
      ((analyze_ok_iff_valid _).1 ⟨_, rfl⟩) (by decide) rfl).1.2 (by decide)⟩

/-! ## Metadata maps -/

theorem find_set_same (m : Metadata) (k : String) (v : Value) :
    Metadata.find (Metadata.set m k v) k = some v := by
  induction m with
  | nil => simp [Metadata.set, Metadata.find]
  | cons e rest ih =>
    obtain ⟨k1, v1⟩ := e
    by_cases h : k1 = k
    · simp [Metadata.set, Metadata.find, h]
    · simp [Metadata.set, Metadata.find, h, ih]

theorem find_set_ne (m : Metadata) (k k2 : String) (v : Value) (hne : k ≠ k2) :
    Metadata.find (Metadata.set m k v) k2 = Metadata.find m k2 := by
  induction m with
  | nil => simp [Metadata.set, Metadata.find, hne]
  | cons e rest ih =>
    obtain ⟨k1, v1⟩ := e
    by_cases h : k1 = k
    · subst h
      simp [Metadata.set, Metadata.find, hne]
    · by_cases h2 : k1 = k2
      · subst h2
        simp [Metadata.set, Metadata.find, h]
      · simp [Metadata.set, Metadata.find, h, h2, ih]

theorem set_of_find (m : Metadata) (k : String) (v : Value)
    (h : Metadata.find m k = some v) : Metadata.set m k v = m := by
  induction m with
  | nil => simp [Metadata.find] at h
  | cons e rest ih =>
    obtain ⟨k1, v1⟩ := e
    by_cases hk : k1 = k
    · simp only [Metadata.find, hk, if_true, Option.some.injEq] at h
      simp [Metadata.set, hk, h]
    · simp only [Metadata.find, hk, if_false] at h
      simp [Metadata.set, hk, ih h]

theorem getInt_set_ne (m : Metadata) (k k2 : String) (v : Value) (hne : k ≠ k2) :
    Metadata.getInt (Metadata.set m k v) k2 = Metadata.getInt m k2 := by
  simp [Metadata.getInt, find_set_ne m k k2 v hne]

theorem getDouble_set_ne (m : Metadata) (k k2 : String) (v : Value) (hne : k ≠ k2) :
    Metadata.getDouble (Metadata.set m k v) k2 = Metadata.getDouble m k2 := by
  simp [Metadata.getDouble, find_set_ne m k k2 v hne]

theorem count_set_ne (m : Metadata) (k k2 : String) (v : Value) (hne : k ≠ k2) :
    Metadata.count (Metadata.set m k v) k2 = Metadata.count m k2 := by
  simp [Metadata.count, find_set_ne m k k2 v hne]

/-! ## Sequences related by removal of instructions -/

theorem Thin.refl (drop : IrOpcode → Prop) (l : List IrInstruction) : Thin drop l l := by
  induction l with
  | nil => exact Thin.nil
  | cons a rest ih => exact Thin.keep rfl rfl ih

theorem Thin.mono {drop drop2 : IrOpcode → Prop} (h : ∀ op, drop op → drop2 op)
    {a b : List IrInstruction} (t : Thin drop a b) : Thin drop2 a b := by
  induction t with
  | nil => exact Thin.nil
  | keep h1 h2 _ ih => exact Thin.keep h1 h2 ih
  | skip hd _ ih => exact Thin.skip (h _ hd) ih

theorem Thin.append {drop : IrOpcode → Prop} {a b c d : List IrInstruction}
    (t1 : Thin drop a b) (t2 : Thin drop c d) : Thin drop (a ++ c) (b ++ d) := by
  induction t1 with
  | nil => simpa using t2
  | keep h1 h2 _ ih => exact Thin.keep h1 h2 ih
  | skip hd _ ih => exact Thin.skip hd ih

theorem Thin.set_right {drop : IrOpcode → Prop} {a b : List IrInstruction}
    (t : Thin drop a b) (n : Nat) (x y : IrInstruction) (hx : b[n]? = some x)
    (ho : y.opcode = x.opcode) (hp : y.operands = x.operands) :
    Thin drop a (b.set n y) := by
  induction t generalizing n with
  | nil => simp at hx
  | @keep a0 b0 as bs h1 h2 _ ih =>
    cases n with
    | zero =>
      simp only [List.getElem?_cons_zero, Option.some.injEq] at hx
      subst hx
      exact Thin.keep (h1.trans ho.symm) (h2.trans hp.symm) (by assumption)
    | succ n =>
      simp only [List.getElem?_cons_succ] at hx
      exact Thin.keep h1 h2 (ih n hx)
  | skip hd _ ih => exact Thin.skip hd (ih n hx)

theorem Thin.filter (drop : IrOpcode → Prop) (p : IrInstruction → Bool)
    (l : List IrInstruction) (h : ∀ a ∈ l, p a = false → drop a.opcode) :
    Thin drop l (l.filter p) := by
  induction l with
  | nil => exact Thin.nil
  | cons a rest ih =>
    have ih2 := ih (fun x hx => h x (List.mem_cons_of_mem _ hx))
    cases hp : p a with
    | true => simp only [List.filter_cons, hp, if_true]; exact Thin.keep rfl rfl ih2
    | false =>
      simp only [List.filter_cons, hp, Bool.false_eq_true, if_false]
      exact Thin.skip (h a (List.mem_cons_self _ _) hp) ih2

theorem Thin.mem_right {drop : IrOpcode → Prop} {a b : List IrInstruction}
    (t : Thin drop a b) (y : IrInstruction) (hy : y ∈ b) :
    ∃ x ∈ a, x.opcode = y.opcode ∧ x.operands = y.operands := by
  induction t with
  | nil => cases hy
  | @keep a0 b0 as bs h1 h2 _ ih =>
    rcases List.mem_cons.1 hy with rfl | hy
    · exact ⟨a0, List.mem_cons_self _ _, h1, h2⟩
    · obtain ⟨x, hx, hh⟩ := ih hy
      exact ⟨x, List.mem_cons_of_mem _ hx, hh⟩
  | skip _ _ ih =>
    obtain ⟨x, hx, hh⟩ := ih hy
    exact ⟨x, List.mem_cons_of_mem _ hx, hh⟩

theorem Thin.mem_left {drop : IrOpcode → Prop} {a b : List IrInstruction}
    (t : Thin drop a b) (x : IrInstruction) (hx : x ∈ a) (hk : ¬ drop x.opcode) :
    ∃ y ∈ b, y.opcode = x.opcode ∧ y.operands = x.operands := by
  induction t with
  | nil => cases hx
  | @keep a0 b0 as bs h1 h2 _ ih =>
    rcases List.mem_cons.1 hx with rfl | hx
    · exact ⟨b0, List.mem_cons_self _ _, h1.symm, h2.symm⟩
    · obtain ⟨y, hy, hh⟩ := ih hx
      exact ⟨y, List.mem_cons_of_mem _ hy, hh⟩
  | skip hd _ ih =>
    rcases List.mem_cons.1 hx with rfl | hx
    · exact absurd hd hk
    · exact ih hx

theorem defKey_congr (a b : IrInstruction) (h1 : a.opcode = b.opcode)
    (h2 : a.operands = b.operands) : defKey a = defKey b := by
  simp [defKey, getDefinitionKey, h1, h2]

theorem Thin.defKeys_sublist {drop : IrOpcode → Prop} {a b : List IrInstruction}
    (t : Thin drop a b) : (defKeys b).Sublist (defKeys a) := by
  induction t with
  | nil => exact List.Sublist.refl _
  | @keep a0 b0 as bs h1 h2 _ ih =>
    simp only [defKeys, List.filterMap_cons, defKey_congr a0 b0 h1 h2]
    cases defKey b0 with
    | none => exact ih
    | some k => exact List.Sublist.cons₂ _ ih
  | @skip a0 as bs _ _ ih =>
    simp only [defKeys, List.filterMap_cons]
    cases defKey a0 with
    | none => exact ih
    | some k => exact List.Sublist.cons _ ih

/-! ## The wave grouping scan -/

theorem grouped_cons (c : Option String) (i : IrInstruction) (rest : List IrInstruction) :
    Grouped c (i :: rest) ↔
      if i.opcode = .DEFINE_WAVE then Grouped i.operands.head? rest
      else if isBoundary i.opcode = true then Grouped none rest
      else (i.opcode = .SPAWN_ENEMY ∧ c.isSome = true ∧ i.operands.head? = c)
            ∧ Grouped c rest := by
  simp only [Grouped]

theorem grouped_weaken (c : Option String) (l : List IrInstruction)
    (h : Grouped none l) : Grouped c l := by
  cases l with
  | nil => trivial
  | cons i rest =>
    rw [grouped_cons] at h ⊢
    by_cases h1 : i.opcode = .DEFINE_WAVE
    · simpa [h1] using h
    · by_cases h2 : isBoundary i.opcode = true
      · simpa [h1, h2] using h
      · simp [h1, h2] at h

theorem Thin.grouped {drop : IrOpcode → Prop}
    (hd : ∀ op, drop op → op ≠ .DEFINE_WAVE) {a b : List IrInstruction}
    (t : Thin drop a b) (c : Option String) (h : Grouped c a) : Grouped c b := by
  induction t generalizing c with
  | nil => trivial
  | @keep a0 b0 as bs h1 h2 _ ih =>
    rw [grouped_cons] at h ⊢
    rw [← h1, ← h2]
    by_cases e1 : a0.opcode = .DEFINE_WAVE
    · simp only [e1, if_true] at h ⊢
      exact ih _ h
    · by_cases e2 : isBoundary a0.opcode = true
      · simp only [e1, e2, if_true, if_false] at h ⊢
        exact ih _ h
      · simp only [e1, e2, if_false] at h ⊢
        exact ⟨h.1, ih _ h.2⟩
  | @skip a0 as bs hdrop _ ih =>
    rw [grouped_cons] at h
    have e1 : a0.opcode ≠ .DEFINE_WAVE := hd _ hdrop
    by_cases e2 : isBoundary a0.opcode = true
    · simp only [e1, e2, if_true, if_false] at h
      exact ih _ (grouped_weaken c _ h)
    · simp only [e1, e2, if_false] at h
      exact ih _ h.2

theorem grouped_drop_front (before l : List IrInstruction) (c : Option String)
    (h : Grouped c (before ++ l)) : ∃ c1, Grouped c1 l := by
  induction before generalizing c with
  | nil => exact ⟨c, h⟩
  | cons i rest ih =>
    rw [List.cons_append, grouped_cons] at h
    by_cases e1 : i.opcode = .DEFINE_WAVE
    · simp only [e1, if_true] at h
      exact ih _ h
    · by_cases e2 : isBoundary i.opcode = true
      · simp only [e1, e2, if_true, if_false] at h
        exact ih _ h
      · simp only [e1, e2, if_false] at h
        exact ih _ h.2

theorem grouped_run (W : String) (mid after : List IrInstruction)
    (h : Grouped (some W) (mid ++ after))
    (hm : ∀ x ∈ mid, isBoundary x.opcode = false) :
    ∀ x ∈ mid, x.opcode = .SPAWN_ENEMY ∧ x.operands.head? = some W := by
  induction mid with
  | nil => intro x hx; cases hx
  | cons i rest ih =>
    rw [List.cons_append, grouped_cons] at h
    have hb : isBoundary i.opcode = false := hm i (List.mem_cons_self _ _)
    have e1 : i.opcode ≠ .DEFINE_WAVE := by
      intro e; rw [e] at hb; simp [isBoundary] at hb
    simp only [e1, hb, Bool.false_eq_true, if_false] at h
    intro x hx
    rcases List.mem_cons.1 hx with rfl | hx
    · exact ⟨h.1.1, h.1.2.2⟩
    · exact ih h.2 (fun y hy => hm y (List.mem_cons_of_mem _ hy)) x hx

theorem grouped_waveGrouping (c : Option String) (l : List IrInstruction)
    (h : Grouped c l) : WaveGrouping l := by
  intro before mid after dw W hl hop hW hm
  subst hl
  obtain ⟨c1, h1⟩ := grouped_drop_front before _ c h
  rw [grouped_cons] at h1
  simp only [hop, if_true, hW] at h1
  exact grouped_run W mid after h1 hm

theorem grouped_spawns (W : String) (spawns : List SpawnStmt) (rest : List IrInstruction)
    (h : Grouped (some W) rest) :
    Grouped (some W) (spawns.map (emitSpawn W) ++ rest) := by
  induction spawns with
  | nil => simpa using h
  | cons s ss ih =>
    rw [List.map_cons, List.cons_append, grouped_cons]
    simp [emitSpawn, isBoundary, ih]

theorem grouped_flatMap (ds : List Decl) (c : Option String) :
    Grouped c (ds.flatMap emitDecl) := by
  induction ds generalizing c with
  | nil => trivial
  | cons d rest ih =>
    rw [List.flatMap_cons]
    cases d with
    | wave w =>
      simp only [emitDecl, List.cons_append]
      rw [grouped_cons]
      simp only [if_true, List.head?_cons]
      exact grouped_spawns w.name w.spawns _ (ih _)
    | map m => simp only [emitDecl, List.cons_append, List.nil_append]; rw [grouped_cons]; simpa [isBoundary] using ih none
    | enemy e => simp only [emitDecl, List.cons_append, List.nil_append]; rw [grouped_cons]; simpa [isBoundary] using ih none
    | tower t => simp only [emitDecl, List.cons_append, List.nil_append]; rw [grouped_cons]; simpa [isBoundary] using ih none
    | place p => simp only [emitDecl, List.cons_append, List.nil_append]; rw [grouped_cons]; simpa [isBoundary] using ih none

/-! ## Pass 1: duplicate definition removal -/

theorem dedupLoop_fixed (l : List IrInstruction) (seen : List String)
    (hnd : (defKeys l).Nodup) (hdis : ∀ k ∈ defKeys l, k ∉ seen) :
    dedupLoop seen l = l := by
  induction l generalizing seen with
  | nil => rfl
  | cons i rest ih =>
    simp only [dedupLoop]
    by_cases hd : (isDefinitionInstruction i.opcode && !i.operands.isEmpty) = true
    · have hk : defKey i = some (getDefinitionKey i) := by simp [defKey, hd]
      simp only [defKeys, List.filterMap_cons, hk] at hnd hdis
      have hnot : getDefinitionKey i ∉ seen := hdis _ (List.mem_cons_self _ _)
      simp only [hd, if_true, hnot, if_false]
      rw [ih _ (List.nodup_cons.1 hnd).2]
      intro k hkm
      simp only [List.mem_cons, not_or]
      refine ⟨?_, hdis k (List.mem_cons_of_mem _ hkm)⟩
      rintro rfl
      exact (List.nodup_cons.1 hnd).1 hkm
    · have hk : defKey i = none := by simp [defKey, hd]
      simp only [defKeys, List.filterMap_cons, hk] at hnd hdis
      simp only [hd, Bool.false_eq_true, if_false]
      rw [ih _ hnd hdis]

theorem dedupLoop_keys (l : List IrInstruction) (seen : List String) :
    (defKeys (dedupLoop seen l)).Nodup ∧ ∀ k ∈ defKeys (dedupLoop seen l), k ∉ seen := by
  induction l generalizing seen with
  | nil => simp [dedupLoop, defKeys]
  | cons i rest ih =>
    simp only [dedupLoop]
    by_cases hd : (isDefinitionInstruction i.opcode && !i.operands.isEmpty) = true
    · have hk : defKey i = some (getDefinitionKey i) := by simp [defKey, hd]
      by_cases hs : getDefinitionKey i ∈ seen
      · simp only [hd, if_true, hs]
        exact ih seen
      · simp only [hd, if_true, hs, if_false]
        obtain ⟨h1, h2⟩ := ih (getDefinitionKey i :: seen)
        simp only [defKeys, List.filterMap_cons, hk]
        refine ⟨List.nodup_cons.2 ⟨fun hm => h2 _ hm (List.mem_cons_self _ _), h1⟩, ?_⟩
        intro k hkm
        rcases List.mem_cons.1 hkm with rfl | hkm
        · exact hs
        · exact fun hx => h2 k hkm (List.mem_cons_of_mem _ hx)
    · have hk : defKey i = none := by simp [defKey, hd]
      simp only [hd, Bool.false_eq_true, if_false]
      obtain ⟨h1, h2⟩ := ih seen
      simp only [defKeys, List.filterMap_cons, hk]
      exact ⟨h1, h2⟩

theorem dedup_fixed (l : List IrInstruction) (hnd : (defKeys l).Nodup) :
    duplicateDefinitionRemoval l = l :=
  dedupLoop_fixed l [] hnd (fun _ _ h => by cases h)

theorem dedup_keys_nodup (l : List IrInstruction) :
    (defKeys (duplicateDefinitionRemoval l)).Nodup := (dedupLoop_keys l []).1

/-! ## Pass 3: constant folding -/

theorem wrapInt_of_inRange (v : Int) (h : inIntRange v = true) : wrapInt v = v := by
  simp only [inIntRange, INT_MIN, INT_MAX, Bool.and_eq_true, decide_eq_true_eq] at h
  simp only [wrapInt]
  omega

theorem wrapInt_modEq (v : Int) : (wrapInt v - v) % 4294967296 = 0 := by
  simp only [wrapInt]
  omega

theorem wrapInt_inRange (v : Int) : inIntRange (wrapInt v) = true := by
  simp only [inIntRange, INT_MIN, INT_MAX, Bool.and_eq_true, decide_eq_true_eq, wrapInt]
  omega

theorem foldInstruction_cases (b c : IrInstruction) (h : foldInstruction fp b = some c) :
    c = b
    ∨ (b.opcode = .DEFINE_TOWER ∧ ∃ d f, Metadata.getInt b.metadata "damage" = some d
        ∧ Metadata.getDouble b.metadata "fire_rate" = some f
        ∧ c = { b with metadata := Metadata.set b.metadata "dps" (.real (fp.product d f)) })
    ∨ (b.opcode = .SPAWN_ENEMY ∧ ∃ n i t, Metadata.getInt b.metadata "count" = some n
        ∧ Metadata.getInt b.metadata "interval" = some i
        ∧ t = intMul n i
        ∧ c = { b with metadata := Metadata.set b.metadata "total_duration" (.int t) }) := by
  simp only [foldInstruction, foldTower, foldSpawn] at h
  by_cases hT : b.opcode = .DEFINE_TOWER
  · have hS : ¬ b.opcode = .SPAWN_ENEMY := by rw [hT]; decide
    simp only [hT, if_true] at h
    by_cases hc : (Metadata.count b.metadata "damage" && Metadata.count b.metadata "fire_rate") = true
    · simp only [hc, if_true] at h
      cases hd : Metadata.getInt b.metadata "damage" with
      | none => simp [hd] at h
      | some d =>
        cases hf : Metadata.getDouble b.metadata "fire_rate" with
        | none => simp [hd, hf] at h
        | some f =>
          simp only [hd, hf, Option.some_bind, hT] at h
          simp only [reduceCtorEq, if_false, Option.some.injEq] at h
          exact Or.inr (Or.inl ⟨hT, d, f, rfl, rfl, by simp [h, hT]⟩)
    · simp only [hc, Bool.false_eq_true, if_false, Option.some_bind, hT] at h
      simp only [reduceCtorEq, if_false, Option.some.injEq] at h
      exact Or.inl h.symm
  · simp only [hT, if_false, Option.some_bind] at h
    by_cases hS : b.opcode = .SPAWN_ENEMY
    · simp only [hS, if_true] at h
      by_cases hc : (Metadata.count b.metadata "count" && Metadata.count b.metadata "interval") = true
      · simp only [hc, if_true] at h
        cases hn : Metadata.getInt b.metadata "count" with
        | none => simp [hn] at h
        | some n =>
          cases hi : Metadata.getInt b.metadata "interval" with
          | none => simp [hn, hi] at h
          | some i =>
            simp only [hn, hi, Option.some_bind, Option.some.injEq] at h
            exact Or.inr (Or.inr ⟨hS, n, i, intMul n i, rfl, rfl, rfl, by simp [h, hS]⟩)
      · simp only [hc, Bool.false_eq_true, if_false, Option.some.injEq] at h
        exact Or.inl h.symm
    · simp only [hS, if_false, Option.some.injEq] at h
      exact Or.inl h.symm

theorem foldInstruction_shape (b c : IrInstruction) (h : foldInstruction fp b = some c) :
    c.opcode = b.opcode ∧ c.operands = b.operands
    ∧ Metadata.getInt c.metadata "start" = Metadata.getInt b.metadata "start"
    ∧ Metadata.getInt c.metadata "interval" = Metadata.getInt b.metadata "interval" := by
  rcases foldInstruction_cases b c h with rfl | ⟨_, d, f, _, _, rfl⟩ | ⟨_, n, i, t, _, _, _, rfl⟩
  · exact ⟨rfl, rfl, rfl, rfl⟩
  · exact ⟨rfl, rfl, getInt_set_ne _ _ _ _ (by decide), getInt_set_ne _ _ _ _ (by decide)⟩
  · exact ⟨rfl, rfl, getInt_set_ne _ _ _ _ (by decide), getInt_set_ne _ _ _ _ (by decide)⟩

theorem foldInstruction_idem (b c : IrInstruction) (h : foldInstruction fp b = some c) :
    foldInstruction fp c = some c := by
  rcases foldInstruction_cases b c h with rfl | ⟨hT, d, f, hd, hf, rfl⟩ |
      ⟨hS, n, i, t, hn, hi, ht, rfl⟩
  · exact h
  · have h1 : Metadata.getInt (Metadata.set b.metadata "dps" (.real (fp.product d f))) "damage"
        = some d := by rw [getInt_set_ne _ _ _ _ (by decide), hd]
    have h2 : Metadata.getDouble (Metadata.set b.metadata "dps" (.real (fp.product d f)))
        "fire_rate" = some f := by rw [getDouble_set_ne _ _ _ _ (by decide), hf]
    have h3 : Metadata.count (Metadata.set b.metadata "dps" (.real (fp.product d f))) "damage"
        = true := by
      simp only [Metadata.getInt] at h1
      simp only [Metadata.count]
      cases hx : Metadata.find (Metadata.set b.metadata "dps" (.real (fp.product d f))) "damage" with
      | none => simp [hx] at h1
      | some v => rfl
    have h4 : Metadata.count (Metadata.set b.metadata "dps" (.real (fp.product d f)))
        "fire_rate" = true := by
      simp only [Metadata.getDouble] at h2
      simp only [Metadata.count]
      cases hx : Metadata.find (Metadata.set b.metadata "dps" (.real (fp.product d f))) "fire_rate" with
      | none => simp [hx] at h2
      | some v => rfl
    simp only [foldInstruction, foldTower, foldSpawn, hT, if_true, h1, h2, h3, h4,
      Bool.and_self, Option.some_bind, reduceCtorEq, if_false]
    rw [set_of_find _ _ _ (find_set_same _ _ _)]
  · have h1 : Metadata.getInt (Metadata.set b.metadata "total_duration" (.int t)) "count"
        = some n := by rw [getInt_set_ne _ _ _ _ (by decide), hn]
    have h2 : Metadata.getInt (Metadata.set b.metadata "total_duration" (.int t)) "interval"
        = some i := by rw [getInt_set_ne _ _ _ _ (by decide), hi]
    have h3 : Metadata.count (Metadata.set b.metadata "total_duration" (.int t)) "count"
        = true := by
      simp only [Metadata.getInt] at h1
      simp only [Metadata.count]
      cases hx : Metadata.find (Metadata.set b.metadata "total_duration" (.int t)) "count" with
      | none => simp [hx] at h1
      | some v => rfl
    have h4 : Metadata.count (Metadata.set b.metadata "total_duration" (.int t)) "interval"
        = true := by
      simp only [Metadata.getInt] at h2
      simp only [Metadata.count]
      cases hx : Metadata.find (Metadata.set b.metadata "total_duration" (.int t)) "interval" with
      | none => simp [hx] at h2
      | some v => rfl
    simp only [foldInstruction, foldTower, foldSpawn, hS, reduceCtorEq, if_false, if_true,
      h1, h2, h3, h4, Bool.and_self, Option.some_bind, ← ht]
    rw [set_of_find _ _ _ (find_set_same _ _ _)]

theorem constantFolding_forall₂ (l l2 : List IrInstruction) :
    constantFolding fp l = some l2 ↔ List.Forall₂ (fun b c => foldInstruction fp b = some c) l l2 := by
  induction l generalizing l2 with
  | nil =>
    simp only [constantFolding, Option.some.injEq]
    constructor
    · rintro rfl; exact List.Forall₂.nil
    · intro h; cases h; rfl
  | cons b rest ih =>
    simp only [constantFolding]
    constructor
    · intro h
      cases hb : foldInstruction fp b with
      | none => simp [hb] at h
      | some c =>
        cases hr : constantFolding fp rest with
        | none => simp [hb, hr] at h
        | some r =>
          simp only [hb, hr, Option.some_bind, Option.some.injEq] at h
          subst h
          exact List.Forall₂.cons hb ((ih r).1 hr)
    · intro h
      cases h with
      | cons hb hr =>
        simp [hb, (ih _).2 hr]

theorem forall₂_fold_thin (drop : IrOpcode → Prop) (l l2 : List IrInstruction)
    (h : List.Forall₂ (fun b c => foldInstruction fp b = some c) l l2) : Thin drop l l2 := by
  induction h with
  | nil => exact Thin.nil
  | cons hb _ ih =>
    obtain ⟨h1, h2, _⟩ := foldInstruction_shape _ _ hb
    exact Thin.keep h1.symm h2.symm ih

theorem spawnKey_congr (b c : IrInstruction) (h2 : c.operands = b.operands)
    (h3 : Metadata.getInt c.metadata "start" = Metadata.getInt b.metadata "start")
    (h4 : Metadata.getInt c.metadata "interval" = Metadata.getInt b.metadata "interval") :
    spawnKey c = spawnKey b := by
  simp [spawnKey, h2, h3, h4]

theorem isMergeable_congr (b c : IrInstruction) (h1 : c.opcode = b.opcode)
    (h2 : c.operands = b.operands) : isMergeable c = isMergeable b := by
  simp [isMergeable, h1, h2]

theorem forall₂_fold_spawnKeys (l l2 : List IrInstruction)
    (h : List.Forall₂ (fun b c => foldInstruction fp b = some c) l l2) :
    spawnKeys l2 = spawnKeys l := by
  induction h with
  | nil => rfl
  | @cons b c bs cs hb _ ih =>
    obtain ⟨h1, h2, h3, h4⟩ := foldInstruction_shape _ _ hb
    have hm := isMergeable_congr b c h1 h2
    have hk := spawnKey_congr b c h2 h3 h4
    simp only [spawnKeys] at ih ⊢
    simp only [List.filter_cons, hm]
    cases isMergeable b with
    | true => simp [hk, ih]
    | false => simpa using ih

theorem forall₂_fold_idem (l l2 : List IrInstruction)
    (h : List.Forall₂ (fun b c => foldInstruction fp b = some c) l l2) :
    List.Forall₂ (fun b c => foldInstruction fp b = some c) l2 l2 := by
  induction h with
  | nil => exact List.Forall₂.nil
  | cons hb _ ih => exact List.Forall₂.cons (foldInstruction_idem _ _ hb) ih

/-! ## Pass 4: dead code elimination -/

theorem dceKeep_of_kept_opcode (re rt : List String) (i : IrInstruction)
    (h1 : i.opcode ≠ .DEFINE_ENEMY) (h2 : i.opcode ≠ .DEFINE_TOWER) (h3 : i.opcode ≠ .NOP) :
    dceKeep re rt i = true := by
  simp [dceKeep, h1, h2, h3]

theorem dceKeep_false_opcode (re rt : List String) (i : IrInstruction)
    (h : dceKeep re rt i = false) :
    i.opcode = .DEFINE_ENEMY ∨ i.opcode = .DEFINE_TOWER ∨ i.opcode = .NOP := by
  by_contra hc
  simp only [not_or] at hc
  rw [dceKeep_of_kept_opcode re rt i hc.1 hc.2.1 hc.2.2] at h
  cases h

theorem filterMap_filter_of_none {α β : Type} (f : α → Option β) (p : α → Bool)
    (l : List α) (h : ∀ x ∈ l, p x = false → f x = none) :
    (l.filter p).filterMap f = l.filterMap f := by
  induction l with
  | nil => rfl
  | cons a rest ih =>
    have ih2 := ih (fun x hx => h x (List.mem_cons_of_mem _ hx))
    cases hp : p a with
    | true => simp [List.filter_cons, hp, List.filterMap_cons, ih2]
    | false =>
      simp [List.filter_cons, hp, List.filterMap_cons, ih2,
        h a (List.mem_cons_self _ _) hp]

theorem referencedEnemies_dce (l : List IrInstruction) :
    referencedEnemies (deadCodeElimination l) = referencedEnemies l := by
  simp only [referencedEnemies, deadCodeElimination]
  apply filterMap_filter_of_none
  intro x _ hx
  rcases dceKeep_false_opcode _ _ x hx with h | h | h <;> simp [h]

theorem referencedTowers_dce (l : List IrInstruction) :
    referencedTowers (deadCodeElimination l) = referencedTowers l := by
  simp only [referencedTowers, deadCodeElimination]
  apply filterMap_filter_of_none
  intro x _ hx
  rcases dceKeep_false_opcode _ _ x hx with h | h | h <;> simp [h]

theorem dce_idem (l : List IrInstruction) :
    deadCodeElimination (deadCodeElimination l) = deadCodeElimination l := by
  have h1 := referencedEnemies_dce l
  have h2 := referencedTowers_dce l
  have hu : ∀ x, deadCodeElimination x
      = x.filter (dceKeep (referencedEnemies x) (referencedTowers x)) := fun _ => rfl
  rw [hu (deadCodeElimination l), h1, h2, hu l]
  simp only [List.filter_filter, Bool.and_self]

theorem dce_thin (l : List IrInstruction) :
    Thin (fun op => op = .DEFINE_ENEMY ∨ op = .DEFINE_TOWER ∨ op = .NOP) l
      (deadCodeElimination l) := by
  apply Thin.filter
  intro a _ ha
  exact dceKeep_false_opcode _ _ a ha

theorem spawnKeys_dce (l : List IrInstruction) :
    spawnKeys (deadCodeElimination l) = spawnKeys l := by
  simp only [spawnKeys, deadCodeElimination, List.filter_filter]
  congr 1
  apply List.filter_congr
  intro x _
  cases hm : isMergeable x with
  | false => rfl
  | true =>
    have hop : x.opcode = .SPAWN_ENEMY := by
      simp only [isMergeable, Bool.and_eq_true, decide_eq_true_eq] at hm
      exact hm.1
    rw [dceKeep_of_kept_opcode _ _ x (by rw [hop]; decide) (by rw [hop]; decide)
      (by rw [hop]; decide)]
    rfl

theorem dce_fold_commute (l : List IrInstruction)
    (h : List.Forall₂ (fun b c => foldInstruction fp b = some c) l l) (p : IrInstruction → Bool) :
    List.Forall₂ (fun b c => foldInstruction fp b = some c) (l.filter p) (l.filter p) := by
  induction l with
  | nil => exact List.Forall₂.nil
  | cons a rest ih =>
    cases h with
    | cons ha hr =>
      cases hp : p a with
      | true => simp only [List.filter_cons, hp, if_true]; exact List.Forall₂.cons ha (ih hr)
      | false => simp only [List.filter_cons, hp, Bool.false_eq_true, if_false]; exact ih hr

/-! ## Pass 2: redundant spawn merging -/

theorem lookup_none_iff (k : String) (l : List (String × Nat)) :
    l.lookup k = none ↔ k ∉ l.map Prod.fst := by
  induction l with
  | nil => simp [List.lookup]
  | cons e rest ih =>
    obtain ⟨k1, v1⟩ := e
    by_cases h : k = k1
    · subst h; simp [List.lookup]
    · have hb : (k == k1) = false := by simpa using h
      simp [List.lookup, hb, ih, h]

theorem spawnKeys_append (a b : List IrInstruction) :
    spawnKeys (a ++ b) = spawnKeys a ++ spawnKeys b := by
  simp [spawnKeys]

theorem spawnKeys_single_mergeable (i : IrInstruction) (h : isMergeable i = true) :
    spawnKeys [i] = [spawnKey i] := by
  simp [spawnKeys, h]

theorem spawnKeys_single_other (i : IrInstruction) (h : ¬ isMergeable i = true) :
    spawnKeys [i] = [] := by
  simp [spawnKeys, h]

theorem spawnKeys_set (l : List IrInstruction) (n : Nat) (t t2 : IrInstruction)
    (ht : l[n]? = some t) (hm : isMergeable t2 = isMergeable t)
    (hk : spawnKey t2 = spawnKey t) : spawnKeys (l.set n t2) = spawnKeys l := by
  induction l generalizing n with
  | nil => simp at ht
  | cons a rest ih =>
    cases n with
    | zero =>
      simp only [List.getElem?_cons_zero, Option.some.injEq] at ht
      subst ht
      simp only [List.set_cons_zero, spawnKeys, List.filter_cons, hm]
      cases isMergeable a <;> simp [hk]
    | succ n =>
      simp only [List.getElem?_cons_succ] at ht
      have := ih n ht
      simp only [spawnKeys] at this ⊢
      simp only [List.set_cons_succ, List.filter_cons]
      cases isMergeable a <;> simp [this]

theorem merged_same_key (t : IrInstruction) (v : Value) :
    isMergeable { t with metadata := Metadata.set t.metadata "count" v } = isMergeable t
    ∧ spawnKey { t with metadata := Metadata.set t.metadata "count" v } = spawnKey t := by
  refine ⟨rfl, ?_⟩
  apply spawnKey_congr
  · rfl
  · exact getInt_set_ne _ _ _ _ (by decide)
  · exact getInt_set_ne _ _ _ _ (by decide)

theorem mergeStep_spec (st st2 : MergeState) (i : IrInstruction) (seen : List IrInstruction)
    (hinv : MergeInv st) (hthin : Thin (fun op => op = .SPAWN_ENEMY) seen st.optimized)
    (h : mergeStep st i = some st2) :
    MergeInv st2 ∧ Thin (fun op => op = .SPAWN_ENEMY) (seen ++ [i]) st2.optimized := by
  by_cases hm : isMergeable i = true
  · simp only [mergeStep, hm, if_true] at h
    cases hk : spawnKey i with
    | none => simp [hk] at h
    | some key =>
      simp only [hk, Option.some_bind] at h
      cases hl : st.spawnGroupIndex.lookup key with
      | none =>
        simp only [hl, Option.some.injEq] at h
        subst h
        have hnot : key ∉ st.spawnGroupIndex.map Prod.fst := (lookup_none_iff _ _).1 hl
        have hnot2 : some key ∉ spawnKeys st.optimized := fun hx => hnot ((hinv.keys _).2 hx)
        refine ⟨⟨?_, ?_, ?_⟩, Thin.append hthin (Thin.refl _ _)⟩
        · intro k
          simp only [List.map_cons, List.mem_cons, spawnKeys_append,
            spawnKeys_single_mergeable i hm, hk, List.mem_append, List.mem_singleton,
            Option.some.injEq, hinv.keys k, List.not_mem_nil, or_false]
          exact or_comm
        · simp only [spawnKeys_append, spawnKeys_single_mergeable i hm, hk]
          exact List.Nodup.append hinv.nodup (List.nodup_singleton _)
            (by intro a ha hb
                rw [List.mem_singleton] at hb
                subst hb
                exact hnot2 ha)
        · simp only [spawnKeys_append, spawnKeys_single_mergeable i hm, hk,
            List.mem_append, List.mem_singleton, not_or]
          exact ⟨hinv.defined, by simp⟩
      | some index =>
        simp only [hl, List.get?_eq_getElem?] at h
        cases ht : st.optimized[index]? with
        | none => simp [ht] at h
        | some t =>
          simp only [ht, Option.some_bind] at h
          cases he : Metadata.getInt t.metadata "count" with
          | none => simp [he] at h
          | some e =>
            cases hn : Metadata.getInt i.metadata "count" with
            | none => simp [he, hn] at h
            | some n =>
              cases hs : (some (intAdd e n) : Option Int) with
              | none => cases hs
              | some total =>
                simp only [Option.some.injEq] at hs
                simp only [he, hn, hs, Option.some_bind, Option.some.injEq] at h
                subst h
                obtain ⟨e1, e2⟩ := merged_same_key t (.int total)
                have hkeys := spawnKeys_set st.optimized index t _ ht e1 e2
                refine ⟨⟨?_, ?_, ?_⟩, ?_⟩
                · intro k; simp only [hkeys]; exact hinv.keys k
                · simp only [hkeys]; exact hinv.nodup
                · simp only [hkeys]; exact hinv.defined
                · have hop : i.opcode = .SPAWN_ENEMY := by
                    simp only [isMergeable, Bool.and_eq_true, decide_eq_true_eq] at hm
                    exact hm.1
                  have t1 := Thin.set_right hthin index t
                    { t with metadata := Metadata.set t.metadata "count" (.int total) }
                    ht rfl rfl
                  have t2 := Thin.append t1
                    (@Thin.skip (fun op => op = .SPAWN_ENEMY) i [] [] hop Thin.nil)
                  simpa using t2
  · simp only [mergeStep, hm, Bool.false_eq_true, if_false, Option.some.injEq] at h
    subst h
    refine ⟨⟨?_, ?_, ?_⟩, Thin.append hthin (Thin.refl _ _)⟩
    · intro k
      simp only [spawnKeys_append, spawnKeys_single_other i hm, List.append_nil]
      exact hinv.keys k
    · simp only [spawnKeys_append, spawnKeys_single_other i hm, List.append_nil]
      exact hinv.nodup
    · simp only [spawnKeys_append, spawnKeys_single_other i hm, List.append_nil]
      exact hinv.defined

theorem mergeLoop_spec (l : List IrInstruction) (st st2 : MergeState)
    (seen : List IrInstruction) (hinv : MergeInv st)
    (hthin : Thin (fun op => op = .SPAWN_ENEMY) seen st.optimized)
    (h : mergeLoop st l = some st2) :
    MergeInv st2 ∧ Thin (fun op => op = .SPAWN_ENEMY) (seen ++ l) st2.optimized := by
  induction l generalizing st seen with
  | nil =>
    simp only [mergeLoop, Option.some.injEq] at h
    subst h
    exact ⟨hinv, by simpa using hthin⟩
  | cons i rest ih =>
    simp only [mergeLoop] at h
    cases hs : mergeStep st i with
    | none => simp [hs] at h
    | some st1 =>
      simp only [hs, Option.some_bind] at h
      obtain ⟨hinv1, hthin1⟩ := mergeStep_spec st st1 i seen hinv hthin hs
      have := ih st1 (seen ++ [i]) hinv1 hthin1 h
      simpa using this

theorem mergeInv_empty : MergeInv { optimized := [], spawnGroupIndex := [] } := by
  constructor <;> simp [spawnKeys]

theorem merge_spec (l out : List IrInstruction) (h : redundantSpawnMerging l = some out) :
    Thin (fun op => op = .SPAWN_ENEMY) l out
    ∧ (spawnKeys out).Nodup ∧ none ∉ spawnKeys out := by
  simp only [redundantSpawnMerging, Option.map_eq_some'] at h
  obtain ⟨st2, hst, rfl⟩ := h
  obtain ⟨hinv, hthin⟩ := mergeLoop_spec l _ st2 [] mergeInv_empty Thin.nil hst
  exact ⟨by simpa using hthin, hinv.nodup, hinv.defined⟩

theorem mergeLoop_fixed (l : List IrInstruction) (st : MergeState) (hinv : MergeInv st)
    (hnd : (spawnKeys (st.optimized ++ l)).Nodup) (hdef : none ∉ spawnKeys l) :
    ∃ index, mergeLoop st l = some { optimized := st.optimized ++ l, spawnGroupIndex := index } := by
  induction l generalizing st with
  | nil => exact ⟨st.spawnGroupIndex, by simp [mergeLoop]⟩
  | cons i rest ih =>
    have hsplit : spawnKeys (i :: rest) = spawnKeys [i] ++ spawnKeys rest := by
      rw [← spawnKeys_append]; rfl
    have hpush : ∃ index, mergeStep st i
        = some { optimized := st.optimized ++ [i], spawnGroupIndex := index } := by
      by_cases hm : isMergeable i = true
      · cases hk : spawnKey i with
        | none =>
          exfalso
          apply hdef
          rw [hsplit, spawnKeys_single_mergeable i hm, hk]
          simp
        | some key =>
          have hnot : some key ∉ spawnKeys st.optimized := by
            intro hx
            rw [spawnKeys_append, hsplit, spawnKeys_single_mergeable i hm, hk] at hnd
            have := (List.nodup_append.1 hnd).2.2
            exact this hx (by simp)
          have hl : st.spawnGroupIndex.lookup key = none :=
            (lookup_none_iff _ _).2 (fun hx => hnot ((hinv.keys _).1 hx))
          exact ⟨(key, st.optimized.length) :: st.spawnGroupIndex, by simp [mergeStep, hm, hk, hl]⟩
      · exact ⟨st.spawnGroupIndex, by simp [mergeStep, hm]⟩
    obtain ⟨index, hstep⟩ := hpush
    have hinv1 := (mergeStep_spec st _ i st.optimized hinv (Thin.refl _ _) hstep).1
    have hdef1 : none ∉ spawnKeys rest := by
      intro hx
      apply hdef
      rw [hsplit]
      exact List.mem_append_right _ hx
    obtain ⟨index2, hrest⟩ := ih { optimized := st.optimized ++ [i], spawnGroupIndex := index }
      hinv1 (by simpa using hnd) hdef1
    refine ⟨index2, ?_⟩
    simp only [mergeLoop, hstep, Option.some_bind, hrest]
    simp

theorem merge_fixed (l : List IrInstruction) (hnd : (spawnKeys l).Nodup)
    (hdef : none ∉ spawnKeys l) : redundantSpawnMerging l = some l := by
  obtain ⟨index, h⟩ := mergeLoop_fixed l { optimized := [], spawnGroupIndex := [] }
    mergeInv_empty (by simpa using hnd) hdef
  simp [redundantSpawnMerging, h]

/-! ## Idempotence of the optimizer -/

theorem sample_accepted : accepted sampleProgram = true := by decide

theorem sample_optimize : optimize exactProduct (generate sampleProgram) = some sampleOptimized := by
  with_unfolding_all decide

/-- C1: when `optimize` succeeds on a sequence, running it on its own output
succeeds and returns that output unchanged (same instructions, operands and
metadata, in the same order). -/
theorem optimize_idempotent (ir out : List IrInstruction)
    (h : optimize fp ir = some out) : optimize fp out = some out := by
  simp only [optimize] at h
  cases hB : redundantSpawnMerging (duplicateDefinitionRemoval ir) with
  | none => simp [hB] at h
  | some B =>
    cases hC : constantFolding fp B with
    | none => simp [hB, hC] at h
    | some C =>
      simp only [hB, hC, Option.some_bind, Option.some.injEq] at h
      subst h
      obtain ⟨tAB, ndB, defB⟩ := merge_spec _ B hB
      have fC := (constantFolding_forall₂ B C).1 hC
      have tBC : Thin (fun op => op = .SPAWN_ENEMY) B C := forall₂_fold_thin _ B C fC
      have kC := forall₂_fold_spawnKeys B C fC
      have tCD := dce_thin C
      have h1 : duplicateDefinitionRemoval (deadCodeElimination C) = deadCodeElimination C := by
        apply dedup_fixed
        have s1 := tCD.defKeys_sublist
        have s2 := tBC.defKeys_sublist
        have s3 := tAB.defKeys_sublist
        exact ((s1.trans s2).trans s3).nodup (dedup_keys_nodup ir)
      have h2 : redundantSpawnMerging (deadCodeElimination C) = some (deadCodeElimination C) := by
        apply merge_fixed
        · rw [spawnKeys_dce, kC]; exact ndB
        · rw [spawnKeys_dce, kC]; exact defB
      have h3 : constantFolding fp (deadCodeElimination C) = some (deadCodeElimination C) :=
        (constantFolding_forall₂ _ _).2 (dce_fold_commute C (forall₂_fold_idem B C fC) _)
      simp only [optimize, h1, h2, h3, Option.some_bind, dce_idem]

/-- C1, at the generated IR of `sampleProgram`, where the first run merges two
spawns, folds constants and removes an enemy and a tower. -/
theorem optimize_idempotent_witness :
    optimize exactProduct (generate sampleProgram) = some sampleOptimized
    ∧ optimize exactProduct sampleOptimized = some sampleOptimized :=
  ⟨sample_optimize,
   optimize_idempotent (generate sampleProgram) sampleOptimized sample_optimize⟩

/-! ## Generated IR of accepted programs -/

theorem defKeys_append (a b : List IrInstruction) :
    defKeys (a ++ b) = defKeys a ++ defKeys b := by
  simp [defKeys, List.filterMap_append]

theorem defKeys_spawns (W : String) (spawns : List SpawnStmt) :
    defKeys (spawns.map (emitSpawn W)) = [] := by
  induction spawns with
  | nil => rfl
  | cons s rest ih =>
    simp only [defKeys, List.map_cons, List.filterMap_cons] at ih ⊢
    simp [defKey, emitSpawn, isDefinitionInstruction, ih]

theorem defKeys_emitDecl (d : Decl) : defKeys (emitDecl d) = (declKey d).toList := by
  cases d with
  | wave w =>
    have := defKeys_spawns w.name w.spawns
    simp only [defKeys] at this
    simp [defKeys, emitDecl, List.filterMap_cons, defKey, isDefinitionInstruction,
      getDefinitionKey, declKey, this]
  | map m => simp [defKeys, emitDecl, defKey, isDefinitionInstruction, getDefinitionKey, declKey]
  | enemy e => simp [defKeys, emitDecl, defKey, isDefinitionInstruction, getDefinitionKey, declKey]
  | tower t => simp [defKeys, emitDecl, defKey, isDefinitionInstruction, getDefinitionKey, declKey]
  | place p => simp [defKeys, emitDecl, defKey, isDefinitionInstruction, declKey]

theorem defKeys_flatMap (ds : List Decl) :
    defKeys (ds.flatMap emitDecl) = ds.flatMap (fun d => (declKey d).toList) := by
  induction ds with
  | nil => rfl
  | cons d rest ih => simp [List.flatMap_cons, defKeys_append, defKeys_emitDecl, ih]

theorem validProgram_append (ds : List Decl) (d : Decl) (h : ValidProgram (ds ++ [d])) :
    ValidProgram ds ∧ validDecl ds d := by
  constructor
  · intro n x hx
    have hn : n < ds.length := by
      by_contra hc
      rw [List.getElem?_eq_none (by omega)] at hx
      cases hx
    have := h n x (by rw [List.getElem?_append_left hn]; exact hx)
    rwa [List.take_append_of_le_length (by omega)] at this
  · have := h ds.length d (by simp)
    simpa using this

theorem key_append_cancel (p a b : String) (h : p ++ a = p ++ b) : a = b := by
  have := congrArg String.data h
  simp only [String.data_append] at this
  exact String.ext (List.append_cancel_left this)

theorem declKey_fresh (ds : List Decl) (d : Decl) (hv : validDecl ds d) (k : String)
    (hk : declKey d = some k) : k ∉ ds.flatMap (fun d => (declKey d).toList) := by
  intro hmem
  obtain ⟨d2, hd2, hk2⟩ := List.mem_flatMap.1 hmem
  simp only [Option.mem_toList, Option.mem_def] at hk2
  cases d with
  | map m =>
    simp only [declKey, Option.some.injEq] at hk
    subst hk
    cases d2 with
    | map m2 =>
      simp only [declKey, Option.some.injEq] at hk2
      have hn := key_append_cancel _ _ _ hk2
      exact hv.1 (List.mem_filterMap.2 ⟨Decl.map m2, hd2, by simp [hn]⟩)
    | enemy e2 =>
      have := congrArg String.data (Option.some.inj hk2)
      simp [String.data_append] at this
    | tower t2 =>
      have := congrArg String.data (Option.some.inj hk2)
      simp [String.data_append] at this
    | wave w2 =>
      have := congrArg String.data (Option.some.inj hk2)
      simp [String.data_append] at this
    | place p2 => simp [declKey] at hk2
  | enemy e =>
    simp only [declKey, Option.some.injEq] at hk
    subst hk
    cases d2 with
    | enemy e2 =>
      simp only [declKey, Option.some.injEq] at hk2
      have hn := key_append_cancel _ _ _ hk2
      exact hv.1 (List.mem_filterMap.2 ⟨Decl.enemy e2, hd2, by simp [hn]⟩)
    | map m2 =>
      have := congrArg String.data (Option.some.inj hk2)
      simp [String.data_append] at this
    | tower t2 =>
      have := congrArg String.data (Option.some.inj hk2)
      simp [String.data_append] at this
    | wave w2 =>
      have := congrArg String.data (Option.some.inj hk2)
      simp [String.data_append] at this
    | place p2 => simp [declKey] at hk2
  | tower t =>
    simp only [declKey, Option.some.injEq] at hk
    subst hk
    cases d2 with
    | tower t2 =>
      simp only [declKey, Option.some.injEq] at hk2
      have hn := key_append_cancel _ _ _ hk2
      exact hv.1 (List.mem_filterMap.2 ⟨Decl.tower t2, hd2, by simp [hn]⟩)
    | map m2 =>
      have := congrArg String.data (Option.some.inj hk2)
      simp [String.data_append] at this
    | enemy e2 =>
      have := congrArg String.data (Option.some.inj hk2)
      simp [String.data_append] at this
    | wave w2 =>
      have := congrArg String.data (Option.some.inj hk2)
      simp [String.data_append] at this
    | place p2 => simp [declKey] at hk2
  | wave w =>
    simp only [declKey, Option.some.injEq] at hk
    subst hk
    cases d2 with
    | wave w2 =>
      simp only [declKey, Option.some.injEq] at hk2
      have hn := key_append_cancel _ _ _ hk2
      exact hv.1 (List.mem_filterMap.2 ⟨Decl.wave w2, hd2, by simp [hn]⟩)
    | map m2 =>
      have := congrArg String.data (Option.some.inj hk2)
      simp [String.data_append] at this
    | enemy e2 =>
      have := congrArg String.data (Option.some.inj hk2)
      simp [String.data_append] at this
    | tower t2 =>
      have := congrArg String.data (Option.some.inj hk2)
      simp [String.data_append] at this
    | place p2 => simp [declKey] at hk2
  | place p => simp [declKey] at hk

theorem valid_declKeys_nodup (ds : List Decl) (hv : ValidProgram ds) :
    (ds.flatMap (fun d => (declKey d).toList)).Nodup := by
  induction ds using List.reverseRecOn with
  | nil => simp
  | append_singleton ds d ih =>
    obtain ⟨hv1, hv2⟩ := validProgram_append ds d hv
    rw [List.flatMap_append]
    simp only [List.flatMap_cons, List.flatMap_nil, List.append_nil]
    cases hk : declKey d with
    | none => simpa using ih hv1
    | some k =>
      simp only [Option.toList_some]
      refine List.Nodup.append (ih hv1) (List.nodup_singleton _) ?_
      intro a ha hb
      rw [List.mem_singleton] at hb
      subst hb
      exact declKey_fresh ds d hv2 a hk ha

theorem accepted_iff_valid (program : Program) :
    accepted program = true ↔ ValidProgram program.declarations := by
  rw [← analyze_ok_iff_valid]
  simp only [accepted, analyze]
  cases analyzeFrom SemanticAnalyzer.fresh program.declarations with
  | error msg => simp
  | ok a => simp

theorem accepted_defKeys_nodup (program : Program) (h : accepted program = true) :
    (defKeys (generate program)).Nodup := by
  rw [generate_eq_flatMap, defKeys_flatMap]
  exact valid_declKeys_nodup _ ((accepted_iff_valid program).1 h)

/-! ## Wave grouping through the passes -/

theorem runPass_preserves (p : Pass) (ir out : List IrInstruction)
    (hg : Grouped none ir) (hk : (defKeys ir).Nodup) (h : runPass fp p ir = some out) :
    Grouped none out ∧ (defKeys out).Nodup := by
  cases p with
  | dedup =>
    simp only [runPass, Option.some.injEq] at h
    rw [dedup_fixed ir hk] at h
    subst h
    exact ⟨hg, hk⟩
  | merge =>
    simp only [runPass] at h
    obtain ⟨t, _, _⟩ := merge_spec ir out h
    exact ⟨t.grouped (fun op hop => by rw [hop]; decide) none hg,
      t.defKeys_sublist.nodup hk⟩
  | fold =>
    simp only [runPass] at h
    have t : Thin (fun op => op = .SPAWN_ENEMY) ir out :=
      forall₂_fold_thin _ ir out ((constantFolding_forall₂ ir out).1 h)
    exact ⟨t.grouped (fun op hop => by rw [hop]; decide) none hg,
      t.defKeys_sublist.nodup hk⟩
  | dce =>
    simp only [runPass, Option.some.injEq] at h
    subst h
    have t := dce_thin ir
    refine ⟨t.grouped (fun op hop => ?_) none hg, t.defKeys_sublist.nodup hk⟩
    rcases hop with h1 | h1 | h1 <;> rw [h1] <;> decide

theorem runPasses_preserves (ps : List Pass) (ir out : List IrInstruction)
    (hg : Grouped none ir) (hk : (defKeys ir).Nodup) (h : runPasses fp ps ir = some out) :
    Grouped none out ∧ (defKeys out).Nodup := by
  induction ps generalizing ir with
  | nil =>
    simp only [runPasses, Option.some.injEq] at h
    subst h
    exact ⟨hg, hk⟩
  | cons p rest ih =>
    simp only [runPasses] at h
    cases hp : runPass fp p ir with
    | none => simp [hp] at h
    | some mid =>
      simp only [hp, Option.some_bind] at h
      obtain ⟨hg1, hk1⟩ := runPass_preserves p ir mid hg hk hp
      exact ih mid hg1 hk1 h

theorem optimize_eq_runPasses (ir : List IrInstruction) :
    optimize fp ir = runPasses fp [Pass.dedup, Pass.merge, Pass.fold, Pass.dce] ir := by
  simp only [optimize, runPasses, runPass, Option.some_bind]

/-- For a program accepted by the semantic analyzer, whatever a sequence of
the four passes returns for the generated IR, and in particular what
`optimize` returns, satisfies the wave grouping invariant. -/
theorem wave_grouping_of_run (program : Program) (hacc : accepted program = true) :
    (∀ (passes : List Pass) (out : List IrInstruction),
        runPasses fp passes (generate program) = some out → WaveGrouping out)
    ∧ (∀ out, optimize fp (generate program) = some out → WaveGrouping out) := by
  have hg : Grouped none (generate program) := by
    rw [generate_eq_flatMap]; exact grouped_flatMap _ _
  have hk := accepted_defKeys_nodup program hacc
  have h1 : ∀ (passes : List Pass) (out : List IrInstruction),
      runPasses fp passes (generate program) = some out → WaveGrouping out := by
    intro passes out h
    exact grouped_waveGrouping none out (runPasses_preserves passes _ out hg hk h).1
  refine ⟨h1, fun out h => h1 [Pass.dedup, Pass.merge, Pass.fold, Pass.dce] out ?_⟩
  rw [← optimize_eq_runPasses]; exact h

/-! ## References of accepted programs -/

theorem mem_emitDecl_spawn (d : Decl) (i : IrInstruction) (hi : i ∈ emitDecl d)
    (hop : i.opcode = .SPAWN_ENEMY) :
    ∃ w s, d = Decl.wave w ∧ s ∈ w.spawns ∧ i = emitSpawn w.name s := by
  cases d with
  | wave w =>
    simp only [emitDecl, List.mem_cons, List.mem_map] at hi
    rcases hi with rfl | ⟨s, hs, rfl⟩
    · simp at hop
    · exact ⟨w, s, rfl, hs, rfl⟩
  | map m => simp only [emitDecl, List.mem_singleton] at hi; subst hi; simp at hop
  | enemy e => simp only [emitDecl, List.mem_singleton] at hi; subst hi; simp at hop
  | tower t => simp only [emitDecl, List.mem_singleton] at hi; subst hi; simp at hop
  | place p => simp only [emitDecl, List.mem_singleton] at hi; subst hi; simp at hop

theorem mem_emitDecl_place (d : Decl) (i : IrInstruction) (hi : i ∈ emitDecl d)
    (hop : i.opcode = .PLACE_TOWER) :
    ∃ p, d = Decl.place p ∧ i.operands = [p.towerType] := by
  cases d with
  | wave w =>
    simp only [emitDecl, List.mem_cons, List.mem_map] at hi
    rcases hi with rfl | ⟨s, hs, rfl⟩
    · simp at hop
    · simp [emitSpawn] at hop
  | map m => simp only [emitDecl, List.mem_singleton] at hi; subst hi; simp at hop
  | enemy e => simp only [emitDecl, List.mem_singleton] at hi; subst hi; simp at hop
  | tower t => simp only [emitDecl, List.mem_singleton] at hi; subst hi; simp at hop
  | place p => simp only [emitDecl, List.mem_singleton] at hi; subst hi; exact ⟨p, rfl, rfl⟩

theorem enemy_defined_in_ir (ds : List Decl) (e : String) (h : e ∈ enemyNames ds) :
    ∃ g ∈ ds.flatMap emitDecl, g.opcode = .DEFINE_ENEMY ∧ g.operands = [e] := by
  obtain ⟨d, hd, hname⟩ := List.mem_filterMap.1 h
  cases d with
  | enemy x =>
    simp only [Option.some.injEq] at hname
    subst hname
    exact ⟨_, List.mem_flatMap.2 ⟨Decl.enemy x, hd, List.mem_singleton.2 rfl⟩, rfl, rfl⟩
  | map m => simp at hname
  | tower t => simp at hname
  | wave w => simp at hname
  | place p => simp at hname

theorem tower_defined_in_ir (ds : List Decl) (t : String) (h : t ∈ towerNames ds) :
    ∃ g ∈ ds.flatMap emitDecl, g.opcode = .DEFINE_TOWER ∧ g.operands = [t] := by
  obtain ⟨d, hd, hname⟩ := List.mem_filterMap.1 h
  cases d with
  | tower x =>
    simp only [Option.some.injEq] at hname
    subst hname
    exact ⟨_, List.mem_flatMap.2 ⟨Decl.tower x, hd, List.mem_singleton.2 rfl⟩, rfl, rfl⟩
  | map m => simp at hname
  | enemy e => simp at hname
  | wave w => simp at hname
  | place p => simp at hname

theorem names_take_subset (ds : List Decl) (n : Nat) :
    (∀ e, e ∈ enemyNames (ds.take n) → e ∈ enemyNames ds)
    ∧ (∀ t, t ∈ towerNames (ds.take n) → t ∈ towerNames ds) := by
  constructor
  · intro e he
    obtain ⟨d, hd, hname⟩ := List.mem_filterMap.1 he
    exact List.mem_filterMap.2 ⟨d, List.mem_of_mem_take hd, hname⟩
  · intro t ht
    obtain ⟨d, hd, hname⟩ := List.mem_filterMap.1 ht
    exact List.mem_filterMap.2 ⟨d, List.mem_of_mem_take hd, hname⟩

theorem valid_spawn_defined (ds : List Decl) (hv : ValidProgram ds) (i : IrInstruction)
    (hi : i ∈ ds.flatMap emitDecl) (hop : i.opcode = .SPAWN_ENEMY) :
    ∃ w e, i.operands = [w, e] ∧
      ∃ g ∈ ds.flatMap emitDecl, g.opcode = .DEFINE_ENEMY ∧ g.operands = [e] := by
  obtain ⟨d, hd, hid⟩ := List.mem_flatMap.1 hi
  obtain ⟨w, s, rfl, hs, rfl⟩ := mem_emitDecl_spawn d i hid hop
  obtain ⟨n, hn⟩ := List.mem_iff_getElem?.1 hd
  have hvalid := (hv n _ hn).2 s hs
  exact ⟨w.name, s.enemyType, rfl,
    enemy_defined_in_ir ds _ ((names_take_subset ds n).1 _ hvalid.1)⟩

theorem valid_place_defined (ds : List Decl) (hv : ValidProgram ds) (i : IrInstruction)
    (hi : i ∈ ds.flatMap emitDecl) (hop : i.opcode = .PLACE_TOWER) :
    ∃ t, i.operands = [t] ∧
      ∃ g ∈ ds.flatMap emitDecl, g.opcode = .DEFINE_TOWER ∧ g.operands = [t] := by
  obtain ⟨d, hd, hid⟩ := List.mem_flatMap.1 hi
  obtain ⟨p, rfl, hp⟩ := mem_emitDecl_place d i hid hop
  obtain ⟨n, hn⟩ := List.mem_iff_getElem?.1 hd
  have hvalid := hv n _ hn
  exact ⟨p.towerType, hp,
    tower_defined_in_ir ds _ ((names_take_subset ds n).2 _ hvalid.1)⟩

theorem mem_referencedEnemies (l : List IrInstruction) (i : IrInstruction) (w e : String)
    (hi : i ∈ l) (hop : i.opcode = .SPAWN_ENEMY) (hops : i.operands = [w, e]) :
    e ∈ referencedEnemies l :=
  List.mem_filterMap.2 ⟨i, hi, by simp [hop, hops]⟩

theorem mem_referencedTowers (l : List IrInstruction) (i : IrInstruction) (t : String)
    (hi : i ∈ l) (hop : i.opcode = .PLACE_TOWER) (hops : i.operands = [t]) :
    t ∈ referencedTowers l :=
  List.mem_filterMap.2 ⟨i, hi, by simp [hop, hops]⟩

/-- For a program accepted by the semantic analyzer, in what `optimize`
returns every `SPAWN_ENEMY` has a second operand that is the name of a
`DEFINE_ENEMY` present in the output, and every `PLACE_TOWER` has a first
operand that is the name of a `DEFINE_TOWER` present in the output. -/
theorem dce_safety_of_run (program : Program) (out : List IrInstruction)
    (hacc : accepted program = true) (hopt : optimize fp (generate program) = some out) :
    (∀ i ∈ out, i.opcode = .SPAWN_ENEMY →
        ∃ e, i.operands.get? 1 = some e ∧
          ∃ d ∈ out, d.opcode = .DEFINE_ENEMY ∧ d.operands = [e])
    ∧ (∀ i ∈ out, i.opcode = .PLACE_TOWER →
        ∃ t, i.operands.get? 0 = some t ∧
          ∃ d ∈ out, d.opcode = .DEFINE_TOWER ∧ d.operands = [t]) := by
  have hv := (accepted_iff_valid program).1 hacc
  have hk := accepted_defKeys_nodup program hacc
  simp only [optimize] at hopt
  rw [dedup_fixed _ hk] at hopt
  cases hB : redundantSpawnMerging (generate program) with
  | none => simp [hB] at hopt
  | some B =>
    cases hC : constantFolding fp B with
    | none => simp [hB, hC] at hopt
    | some C =>
      simp only [hB, hC, Option.some_bind, Option.some.injEq] at hopt
      subst hopt
      obtain ⟨tAB, _, _⟩ := merge_spec _ B hB
      have tBC : Thin (fun op => op = .SPAWN_ENEMY) B C :=
        forall₂_fold_thin _ B C ((constantFolding_forall₂ B C).1 hC)
      rw [generate_eq_flatMap] at tAB
      constructor
      · intro i hi hop
        have hiC : i ∈ C := (List.mem_filter.1 hi).1
        obtain ⟨b, hb, hb1, hb2⟩ := tBC.mem_right i hiC
        obtain ⟨a, ha, ha1, ha2⟩ := tAB.mem_right b hb
        obtain ⟨w, e, hops, g, hg, hg1, hg2⟩ :=
          valid_spawn_defined _ hv a ha (by rw [ha1, hb1, hop])
        have hiops : i.operands = [w, e] := by rw [← hb2, ← ha2, hops]
        obtain ⟨gb, hgb, hgb1, hgb2⟩ := tAB.mem_left g hg (by rw [hg1]; decide)
        obtain ⟨gc, hgc, hgc1, hgc2⟩ := tBC.mem_left gb hgb (by rw [hgb1, hg1]; decide)
        have hgcop : gc.opcode = .DEFINE_ENEMY := by rw [hgc1, hgb1, hg1]
        have hgcops : gc.operands = [e] := by rw [hgc2, hgb2, hg2]
        refine ⟨e, by simp [hiops], gc, ?_, hgcop, hgcops⟩
        refine List.mem_filter.2 ⟨hgc, ?_⟩
        have href := mem_referencedEnemies C i w e hiC hop hiops
        simp [dceKeep, hgcop, hgcops, href]
      · intro i hi hop
        have hiC : i ∈ C := (List.mem_filter.1 hi).1
        obtain ⟨b, hb, hb1, hb2⟩ := tBC.mem_right i hiC
        obtain ⟨a, ha, ha1, ha2⟩ := tAB.mem_right b hb
        obtain ⟨t, hops, g, hg, hg1, hg2⟩ :=
          valid_place_defined _ hv a ha (by rw [ha1, hb1, hop])
        have hiops : i.operands = [t] := by rw [← hb2, ← ha2, hops]
        obtain ⟨gb, hgb, hgb1, hgb2⟩ := tAB.mem_left g hg (by rw [hg1]; decide)
        obtain ⟨gc, hgc, hgc1, hgc2⟩ := tBC.mem_left gb hgb (by rw [hgb1, hg1]; decide)
        have hgcop : gc.opcode = .DEFINE_TOWER := by rw [hgc1, hgb1, hg1]
        have hgcops : gc.operands = [t] := by rw [hgc2, hgb2, hg2]
        refine ⟨t, by simp [hiops], gc, ?_, hgcop, hgcops⟩
        refine List.mem_filter.2 ⟨hgc, ?_⟩
        have href := mem_referencedTowers C i t hiC hop hiops
        simp [dceKeep, hgcop, hgcops, href]

/-! ## Key collisions in pass 2 -/

/-- C2, evaluated at the IR of the accepted program `collisionProgram`: the
spawns `(Boss, Rush_Orc, 0, 1)` and `(Boss_Rush, Orc, 0, 1)` get the same key
`Boss_Rush_Orc_0_1`; the output has no `SPAWN_ENEMY` for the second
combination, and the count of the first is 3 instead of 1. -/
theorem merge_key_collision :
    accepted collisionProgram = true
    ∧ spawnKey (emitSpawn "Boss" ⟨"Rush_Orc", 1, 0, 1⟩) = some "Boss_Rush_Orc_0_1"
    ∧ spawnKey (emitSpawn "Boss_Rush" ⟨"Orc", 2, 0, 1⟩) = some "Boss_Rush_Orc_0_1"
    ∧ redundantSpawnMerging (generate collisionProgram)
        = some
          [⟨.DEFINE_ENEMY, ["Rush_Orc"], [("hp", .int 10), ("speed", .real 1), ("reward", .int 1)]⟩,
           ⟨.DEFINE_ENEMY, ["Orc"], [("hp", .int 10), ("speed", .real 1), ("reward", .int 1)]⟩,
           ⟨.DEFINE_WAVE, ["Boss"], []⟩,
           ⟨.SPAWN_ENEMY, ["Boss", "Rush_Orc"],
              [("count", .int 3), ("start", .int 0), ("interval", .int 1)]⟩,
           ⟨.DEFINE_WAVE, ["Boss_Rush"], []⟩] := by
  refine ⟨by decide, by decide, by decide, by decide⟩

/-- C3, evaluated at the IR of the accepted program `collisionProgram`: pass 2
merges the spawn of wave `Boss_Rush` into the spawn of wave `Boss`; the total
count of wave `Boss_Rush` drops from 2 to 0 and that of `Boss` rises from 1
to 3. -/
theorem merge_crosses_waves :
    accepted collisionProgram = true
    ∧ waveSpawnTotal "Boss_Rush" (generate collisionProgram) = 2
    ∧ (redundantSpawnMerging (generate collisionProgram)).map (waveSpawnTotal "Boss_Rush")
        = some 0
    ∧ waveSpawnTotal "Boss" (generate collisionProgram) = 1
    ∧ (redundantSpawnMerging (generate collisionProgram)).map (waveSpawnTotal "Boss")
        = some 3 := by
  refine ⟨by decide, by decide, by decide, by decide, by decide⟩

/-! ## Definitions and NOPs after optimization -/

theorem sampleWithNop_optimize : optimize exactProduct sampleWithNop = some sampleWithNopOptimized := by
  with_unfolding_all decide

/-- C12: when `optimize` succeeds, its output contains no instruction with
opcode `NOP`, whatever the input contains. -/
theorem optimize_no_nop (ir out : List IrInstruction) (h : optimize fp ir = some out) :
    ∀ i ∈ out, i.opcode ≠ .NOP := by
  simp only [optimize] at h
  cases hB : redundantSpawnMerging (duplicateDefinitionRemoval ir) with
  | none => simp [hB] at h
  | some B =>
    cases hC : constantFolding fp B with
    | none => simp [hB, hC] at h
    | some C =>
      simp only [hB, hC, Option.some_bind, Option.some.injEq] at h
      subst h
      intro i hi hop
      have hk := (List.mem_filter.1 hi).2
      simp [dceKeep, hop] at hk

/-- C12, at an input with two `NOP` instructions. -/
theorem optimize_no_nop_witness :
    (∃ i ∈ sampleWithNop, i.opcode = .NOP)
    ∧ ∀ i ∈ sampleWithNopOptimized, i.opcode ≠ .NOP :=
  ⟨⟨⟨.NOP, [], []⟩, by decide, rfl⟩,
   optimize_no_nop sampleWithNop sampleWithNopOptimized sampleWithNop_optimize⟩

theorem lookup_cons_eq (k k2 : String) (v : Nat) (l : List (String × Nat)) :
    List.lookup k ((k2, v) :: l) = if k = k2 then some v else List.lookup k l := by
  by_cases h : k = k2
  · subst h; simp
  · have hb : (k == k2) = false := by simpa using h
    simp [List.lookup, hb, h]

theorem mergeStep_idx (st st2 : MergeState) (i : IrInstruction)
    (hidx : MergeIdx st) (h : mergeStep st i = some st2) : MergeIdx st2 := by
  by_cases hm : isMergeable i = true
  · simp only [mergeStep, hm, if_true] at h
    cases hk : spawnKey i with
    | none => simp [hk] at h
    | some key =>
      simp only [hk, Option.some_bind] at h
      cases hl : st.spawnGroupIndex.lookup key with
      | none =>
        simp only [hl, Option.some.injEq] at h
        subst h
        intro k n hkn
        simp only [lookup_cons_eq] at hkn
        by_cases e : k = key
        · simp only [e, if_true, Option.some.injEq] at hkn
          subst hkn
          exact ⟨i, by simp, hm, by rw [e]; exact hk⟩
        · simp only [e, if_false] at hkn
          obtain ⟨t, ht, h1, h2⟩ := hidx k n hkn
          have hlt : n < st.optimized.length := by
            by_contra hc
            rw [List.getElem?_eq_none (by omega)] at ht
            cases ht
          exact ⟨t, by rw [List.getElem?_append_left hlt]; exact ht, h1, h2⟩
      | some index =>
        simp only [hl, List.get?_eq_getElem?] at h
        cases ht : st.optimized[index]? with
        | none => simp [ht] at h
        | some t =>
          simp only [ht, Option.some_bind] at h
          cases he : Metadata.getInt t.metadata "count" with
          | none => simp [he] at h
          | some e =>
            cases hn : Metadata.getInt i.metadata "count" with
            | none => simp [he, hn] at h
            | some n =>
              cases hs : (some (intAdd e n) : Option Int) with
              | none => cases hs
              | some total =>
                simp only [Option.some.injEq] at hs
                simp only [he, hn, hs, Option.some_bind, Option.some.injEq] at h
                subst h
                obtain ⟨e1, e2⟩ := merged_same_key t (.int total)
                intro k m hkm
                obtain ⟨u, hu, h1, h2⟩ := hidx k m hkm
                by_cases hq : index = m
                · subst hq
                  rw [ht] at hu
                  cases hu
                  have hlt : index < st.optimized.length := by
                    by_contra hc
                    rw [List.getElem?_eq_none (by omega)] at ht
                    cases ht
                  refine ⟨_, ?_, e1.trans h1, e2.trans h2⟩
                  simp [List.getElem?_set_self, hlt]
                · refine ⟨u, ?_, h1, h2⟩
                  simp only [List.getElem?_set_ne hq]
                  exact hu
  · simp only [mergeStep, hm, Bool.false_eq_true, if_false, Option.some.injEq] at h
    subst h
    intro k n hkn
    obtain ⟨t, ht, h1, h2⟩ := hidx k n hkn
    have hlt : n < st.optimized.length := by
      by_contra hc
      rw [List.getElem?_eq_none (by omega)] at ht
      cases ht
    exact ⟨t, by rw [List.getElem?_append_left hlt]; exact ht, h1, h2⟩

theorem mergeStep_keeps (st st2 : MergeState) (i : IrInstruction) (seen : List IrInstruction)
    (hidx : MergeIdx st)
    (hkeep : ∀ x ∈ st.optimized, isMergeable x = false → x ∈ seen)
    (h : mergeStep st i = some st2) :
    ∀ x ∈ st2.optimized, isMergeable x = false → x ∈ seen ++ [i] := by
  by_cases hm : isMergeable i = true
  · simp only [mergeStep, hm, if_true] at h
    cases hk : spawnKey i with
    | none => simp [hk] at h
    | some key =>
      simp only [hk, Option.some_bind] at h
      cases hl : st.spawnGroupIndex.lookup key with
      | none =>
        simp only [hl, Option.some.injEq] at h
        subst h
        intro x hx hxm
        rcases List.mem_append.1 hx with hx | hx
        · exact List.mem_append_left _ (hkeep x hx hxm)
        · exact List.mem_append_right _ hx
      | some index =>
        obtain ⟨u, hu, h1, _⟩ := hidx key index hl
        simp only [hl, List.get?_eq_getElem?, hu, Option.some_bind] at h
        cases he : Metadata.getInt u.metadata "count" with
        | none => simp [he] at h
        | some e =>
          cases hn : Metadata.getInt i.metadata "count" with
          | none => simp [he, hn] at h
          | some n =>
            cases hs : (some (intAdd e n) : Option Int) with
            | none => cases hs
            | some total =>
              simp only [Option.some.injEq] at hs
              simp only [he, hn, hs, Option.some_bind, Option.some.injEq] at h
              subst h
              intro x hx hxm
              rcases List.mem_or_eq_of_mem_set hx with hx | hx
              · exact List.mem_append_left _ (hkeep x hx hxm)
              · subst hx
                rw [(merged_same_key u (.int total)).1, h1] at hxm
                cases hxm
  · simp only [mergeStep, hm, Bool.false_eq_true, if_false, Option.some.injEq] at h
    subst h
    intro x hx hxm
    rcases List.mem_append.1 hx with hx | hx
    · exact List.mem_append_left _ (hkeep x hx hxm)
    · exact List.mem_append_right _ hx

theorem mergeLoop_keeps (l : List IrInstruction) (st st2 : MergeState)
    (seen : List IrInstruction) (hidx : MergeIdx st)
    (hkeep : ∀ x ∈ st.optimized, isMergeable x = false → x ∈ seen)
    (h : mergeLoop st l = some st2) :
    MergeIdx st2 ∧ ∀ x ∈ st2.optimized, isMergeable x = false → x ∈ seen ++ l := by
  induction l generalizing st seen with
  | nil =>
    simp only [mergeLoop, Option.some.injEq] at h
    subst h
    exact ⟨hidx, by simpa using hkeep⟩
  | cons i rest ih =>
    simp only [mergeLoop] at h
    cases hs : mergeStep st i with
    | none => simp [hs] at h
    | some st1 =>
      simp only [hs, Option.some_bind] at h
      have := ih st1 (seen ++ [i]) (mergeStep_idx st st1 i hidx hs)
        (mergeStep_keeps st st1 i seen hidx hkeep hs) h
      simpa using this

theorem merge_keeps (l out : List IrInstruction) (h : redundantSpawnMerging l = some out) :
    ∀ x ∈ out, isMergeable x = false → x ∈ l := by
  simp only [redundantSpawnMerging, Option.map_eq_some'] at h
  obtain ⟨st2, hst, rfl⟩ := h
  have := (mergeLoop_keeps l _ st2 [] (by intro k n hk; simp at hk)
    (by intro x hx; simp at hx) hst).2
  simpa using this

theorem defKey_of_named (op : IrOpcode) (n : String) (hop : isDefinitionInstruction op = true)
    (i : IrInstruction) (h : isNamed op n i = true) :
    defKey i = some (getDefinitionKey ⟨op, [n], []⟩) := by
  simp only [isNamed, decide_eq_true_eq] at h
  obtain ⟨h1, h2⟩ := h
  cases hops : i.operands with
  | nil => rw [hops] at h2; simp at h2
  | cons a rest =>
    rw [hops] at h2
    simp only [List.head?_cons, Option.some.injEq] at h2
    subst h2
    simp [defKey, h1, hop, hops, getDefinitionKey]

theorem dedupLoop_first (l : List IrInstruction) (seen : List String) (op : IrOpcode)
    (n : String) (hop : isDefinitionInstruction op = true) (x : IrInstruction)
    (hx : x ∈ dedupLoop seen l) (hn : isNamed op n x = true) :
    getDefinitionKey ⟨op, [n], []⟩ ∉ seen ∧ l.find? (isNamed op n) = some x := by
  induction l generalizing seen with
  | nil => simp [dedupLoop] at hx
  | cons i rest ih =>
    have hkx := defKey_of_named op n hop x hn
    simp only [dedupLoop] at hx
    by_cases hd : (isDefinitionInstruction i.opcode && !i.operands.isEmpty) = true
    · have hki : defKey i = some (getDefinitionKey i) := by simp [defKey, hd]
      by_cases hs : getDefinitionKey i ∈ seen
      · simp only [hd, if_true, hs] at hx
        obtain ⟨h1, h2⟩ := ih seen hx
        refine ⟨h1, ?_⟩
        have hni : isNamed op n i = false := by
          cases hb : isNamed op n i with
          | false => rfl
          | true =>
            have := defKey_of_named op n hop i hb
            rw [hki, Option.some.injEq] at this
            rw [this] at hs
            exact absurd hs h1
        simp [List.find?_cons, hni, h2]
      · simp only [hd, if_true, hs, if_false] at hx
        rcases List.mem_cons.1 hx with rfl | hx
        · rw [hki, Option.some.injEq] at hkx
          rw [← hkx]
          exact ⟨hs, by simp [List.find?_cons, hn]⟩
        · obtain ⟨h1, h2⟩ := ih _ hx
          have hne : getDefinitionKey ⟨op, [n], []⟩ ≠ getDefinitionKey i := fun e =>
            h1 (by rw [e]; exact List.mem_cons_self _ _)
          have hni : isNamed op n i = false := by
            cases hb : isNamed op n i with
            | false => rfl
            | true =>
              have := defKey_of_named op n hop i hb
              rw [hki, Option.some.injEq] at this
              exact absurd this.symm hne
          exact ⟨fun hm => h1 (List.mem_cons_of_mem _ hm), by simp [List.find?_cons, hni, h2]⟩
    · have hki : defKey i = none := by simp [defKey, hd]
      simp only [hd, Bool.false_eq_true, if_false] at hx
      have hni : isNamed op n i = false := by
        cases hb : isNamed op n i with
        | false => rfl
        | true =>
          have := defKey_of_named op n hop i hb
          rw [hki] at this
          cases this
      rcases List.mem_cons.1 hx with rfl | hx
      · rw [hni] at hn; cases hn
      · obtain ⟨h1, h2⟩ := ih seen hx
        exact ⟨h1, by simp [List.find?_cons, hni, h2]⟩

theorem named_count_le_one (l : List IrInstruction) (hnd : (defKeys l).Nodup)
    (op : IrOpcode) (n : String) (hop : isDefinitionInstruction op = true) :
    (l.filter (isNamed op n)).length ≤ 1 := by
  induction l with
  | nil => simp
  | cons a rest ih =>
    simp only [defKeys, List.filterMap_cons] at hnd
    cases ha : isNamed op n a with
    | false =>
      simp only [List.filter_cons, ha, Bool.false_eq_true, if_false]
      apply ih
      cases hk : defKey a with
      | none => simpa [hk] using hnd
      | some k => rw [hk] at hnd; exact (List.nodup_cons.1 hnd).2
    | true =>
      have hka := defKey_of_named op n hop a ha
      rw [hka] at hnd
      have hnot := (List.nodup_cons.1 hnd).1
      have hempty : rest.filter (isNamed op n) = [] := by
        rw [List.filter_eq_nil_iff]
        intro b hb hbn
        apply hnot
        exact List.mem_filterMap.2 ⟨b, hb, defKey_of_named op n hop b hbn⟩
      simp [List.filter_cons, ha, hempty]

theorem forall₂_fold_mem (l l2 : List IrInstruction)
    (h : List.Forall₂ (fun b c => foldInstruction fp b = some c) l l2) (d : IrInstruction)
    (hd : d ∈ l2) : ∃ b ∈ l, foldInstruction fp b = some d := by
  induction h with
  | nil => cases hd
  | @cons b c bs cs hb _ ih =>
    rcases List.mem_cons.1 hd with rfl | hd
    · exact ⟨b, List.mem_cons_self _ _, hb⟩
    · obtain ⟨x, hx, hh⟩ := ih hd
      exact ⟨x, List.mem_cons_of_mem _ hx, hh⟩

/-- C11: when `optimize` succeeds, the output has at most one instruction of
each definition opcode (`DEFINE_MAP`, `DEFINE_ENEMY`, `DEFINE_TOWER`,
`DEFINE_WAVE`) per name, and every surviving definition with a name comes from
the first instruction of its opcode and name in the input: it is that
instruction after constant folding, hence that instruction itself unless it is
a `DEFINE_TOWER`, which may have gained `dps`. -/
theorem optimize_unique_definitions (ir out : List IrInstruction)
    (h : optimize fp ir = some out) :
    (∀ (op : IrOpcode) (n : String), isDefinitionInstruction op = true →
        (out.filter (isNamed op n)).length ≤ 1)
    ∧ (∀ d ∈ out, isDefinitionInstruction d.opcode = true →
        ∀ n, d.operands.head? = some n →
          ∃ f, ir.find? (isNamed d.opcode n) = some f
            ∧ foldInstruction fp f = some d
            ∧ d.operands = f.operands
            ∧ (d.opcode ≠ .DEFINE_TOWER → d = f)) := by
  simp only [optimize] at h
  cases hB : redundantSpawnMerging (duplicateDefinitionRemoval ir) with
  | none => simp [hB] at h
  | some B =>
    cases hC : constantFolding fp B with
    | none => simp [hB, hC] at h
    | some C =>
      simp only [hB, hC, Option.some_bind, Option.some.injEq] at h
      subst h
      obtain ⟨tAB, _, _⟩ := merge_spec _ B hB
      have fC := (constantFolding_forall₂ B C).1 hC
      have tBC : Thin (fun op => op = .SPAWN_ENEMY) B C := forall₂_fold_thin _ B C fC
      have tCD := dce_thin C
      constructor
      · intro op n hop
        apply named_count_le_one _ _ op n hop
        exact ((tCD.defKeys_sublist.trans tBC.defKeys_sublist).trans
          tAB.defKeys_sublist).nodup (dedup_keys_nodup ir)
      · intro d hd hdef n hn
        have hdC : d ∈ C := (List.mem_filter.1 hd).1
        obtain ⟨b, hb, hfb⟩ := forall₂_fold_mem B C fC d hdC
        obtain ⟨s1, s2, _, _⟩ := foldInstruction_shape b d hfb
        have hbm : isMergeable b = false := by
          cases hm : isMergeable b with
          | false => rfl
          | true =>
            simp only [isMergeable, Bool.and_eq_true, decide_eq_true_eq] at hm
            rw [s1, hm.1] at hdef
            simp [isDefinitionInstruction] at hdef
        have hbA := merge_keeps _ B hB b hb hbm
        have hnamed : isNamed d.opcode n b = true := by
          simp [isNamed, ← s1, ← s2, hn]
        obtain ⟨_, hfind⟩ := dedupLoop_first ir [] d.opcode n hdef b hbA hnamed
        refine ⟨b, hfind, hfb, s2, ?_⟩
        intro hnt
        rcases foldInstruction_cases b d hfb with e | ⟨hT, _⟩ | ⟨hS, _⟩
        · exact e
        · exact absurd (s1.trans hT) hnt
        · rw [s1, hS] at hdef
          simp [isDefinitionInstruction] at hdef

/-- C11, at an input with a duplicated enemy and a duplicated tower: the
surviving tower is the first `Archer`, with `dps` attached. -/
theorem optimize_unique_definitions_witness :
    (∀ (op : IrOpcode) (n : String), isDefinitionInstruction op = true →
        (sampleWithNopOptimized.filter (isNamed op n)).length ≤ 1)
    ∧ (∀ d ∈ sampleWithNopOptimized, isDefinitionInstruction d.opcode = true →
        ∀ n, d.operands.head? = some n →
          ∃ f, sampleWithNop.find? (isNamed d.opcode n) = some f
            ∧ foldInstruction exactProduct f = some d
            ∧ d.operands = f.operands
            ∧ (d.opcode ≠ .DEFINE_TOWER → d = f)) :=
  optimize_unique_definitions sampleWithNop sampleWithNopOptimized sampleWithNop_optimize

/-! ## Properties of the lexer -/

theorem rest_cons_lt (l : Lexer) (c : Char) (cs : List Char) (h : l.rest = c :: cs) :
    l.position < l.source.length := by
  by_contra hc
  simp only [Lexer.rest] at h
  rw [List.drop_eq_nil_of_le (by omega)] at h
  cases h

theorem rest_cons_getD (l : Lexer) (c : Char) (cs : List Char) (h : l.rest = c :: cs) :
    l.source.getD l.position '\x00' = c := by
  have hlt := rest_cons_lt l c cs h
  simp only [Lexer.rest] at h
  rw [List.drop_eq_getElem_cons hlt] at h
  simp only [List.cons.injEq] at h
  simp [List.getD_eq_getElem?_getD, List.getElem?_eq_getElem hlt, h.1]

theorem rest_cons_drop (l : Lexer) (c : Char) (cs : List Char) (h : l.rest = c :: cs) :
    l.source.drop (l.position + 1) = cs := by
  have hlt := rest_cons_lt l c cs h
  simp only [Lexer.rest] at h
  rw [List.drop_eq_getElem_cons hlt] at h
  simp only [List.cons.injEq] at h
  exact h.2

theorem isAtEnd_iff (l : Lexer) : l.isAtEnd = true ↔ l.rest = [] := by
  simp [Lexer.isAtEnd, Lexer.rest, List.drop_eq_nil_iff]

theorem isAtEnd_cons (l : Lexer) (c : Char) (cs : List Char) (h : l.rest = c :: cs) :
    l.isAtEnd = false := by
  cases hb : l.isAtEnd with
  | false => rfl
  | true => rw [(isAtEnd_iff l).1 hb] at h; cases h

theorem peek_cons (l : Lexer) (c : Char) (cs : List Char) (h : l.rest = c :: cs) :
    l.peek = c := by
  simp only [Lexer.peek, isAtEnd_cons l c cs h, rest_cons_getD l c cs h]
  simp

theorem peek_nil (l : Lexer) (h : l.rest = []) : l.peek = '\x00' := by
  simp [Lexer.peek, (isAtEnd_iff l).2 h]

theorem advance_cons (l : Lexer) (c : Char) (cs : List Char) (h : l.rest = c :: cs) :
    l.advance = (c, { l with position := l.position + 1 }) := by
  simp only [Lexer.advance, isAtEnd_cons l c cs h, rest_cons_getD l c cs h]
  simp

theorem advanceWhile_eq (p : Char → Bool) (cs : List Char) (position : Nat) :
    advanceWhile p cs position = position + (cs.takeWhile p).length := by
  induction cs generalizing position with
  | nil => simp [advanceWhile]
  | cons c rest ih =>
    by_cases hp : p c = true
    · simp [advanceWhile, hp, ih, List.takeWhile_cons]
      try omega
    · simp [advanceWhile, hp, List.takeWhile_cons]

theorem take_takeWhile_length (p : Char → Bool) (cs : List Char) :
    cs.take (cs.takeWhile p).length = cs.takeWhile p := by
  induction cs with
  | nil => simp
  | cons c rest ih =>
    by_cases hp : p c = true
    · simp [List.takeWhile_cons, hp, ih]
    · simp [List.takeWhile_cons, hp]

theorem drop_takeWhile_length (p : Char → Bool) (cs : List Char) :
    cs.drop (cs.takeWhile p).length = cs.dropWhile p := by
  induction cs with
  | nil => simp
  | cons c rest ih =>
    by_cases hp : p c = true
    · simp [List.takeWhile_cons, List.dropWhile_cons, hp, ih]
    · simp [List.takeWhile_cons, List.dropWhile_cons, hp]

theorem drop_add_eq (source : List Char) (a b : Nat) :
    source.drop (a + b) = (source.drop a).drop b := by
  simp [List.drop_drop, Nat.add_comm]

theorem skipWhitespaceLoop_source (cs : List Char) (position : Nat) (line : Int) :
    position ≤ (skipWhitespaceLoop cs position line).1
    ∧ (skipWhitespaceLoop cs position line).1 ≤ position + cs.length := by
  induction cs generalizing position line with
  | nil => simp [skipWhitespaceLoop]
  | cons c rest ih =>
    simp only [skipWhitespaceLoop]
    split
    · have := ih (position + 1) line
      simp only [List.length_cons]; omega
    · split
      · have := ih (position + 1) (line + 1)
        simp only [List.length_cons]; omega
      · simp

theorem skipWhitespace_source (l : Lexer) : l.skipWhitespace.source = l.source := rfl

theorem skipComment_source (l : Lexer) : l.skipComment.source = l.source := by
  simp only [Lexer.skipComment]
  split <;> rfl

theorem skip_source (l : Lexer) : l.skip.source = l.source := by
  simp [Lexer.skip, skipWhitespace_source, skipComment_source]

theorem identifier_source (l : Lexer) : l.identifier.2.source = l.source := by
  simp only [Lexer.identifier]
  split <;> rfl

theorem number_source (l : Lexer) : l.number.2.source = l.source := by
  simp only [Lexer.number, Lexer.advance]
  split
  · split <;> rfl
  · rfl

theorem advance_source (l : Lexer) : l.advance.2.source = l.source := by
  simp only [Lexer.advance]
  split <;> rfl

theorem getNextToken_source (l : Lexer) : l.getNextToken.2.source = l.source := by
  simp only [Lexer.getNextToken]
  split
  · exact skip_source l
  · split
    · rw [number_source, advance_source, skip_source]
    · split
      · rw [identifier_source, advance_source, skip_source]
      · split
        · simp [advance_source, skip_source]
        · simp [advance_source, skip_source]

/-! ## Further properties of the passes -/

/-- C30: on the generated IR of a program accepted by the semantic analyzer,
duplicate-definition removal is the identity. -/
theorem dedup_identity_on_accepted (program : Program) (hacc : accepted program = true) :
    duplicateDefinitionRemoval (generate program) = generate program :=
  dedup_fixed _ (accepted_defKeys_nodup program hacc)

/-- C30, at `sampleProgram`. -/
theorem dedup_identity_on_accepted_witness :
    duplicateDefinitionRemoval (generate sampleProgram) = generate sampleProgram :=
  dedup_identity_on_accepted sampleProgram sample_accepted

theorem mem_referencedEnemies_iff (ir : List IrInstruction) (n : String) :
    n ∈ referencedEnemies ir ↔
      ∃ s ∈ ir, s.opcode = .SPAWN_ENEMY ∧ s.operands.get? 1 = some n := by
  simp only [referencedEnemies, List.mem_filterMap]
  constructor
  · rintro ⟨s, hs, h⟩
    by_cases hc : s.opcode = .SPAWN_ENEMY ∧ s.operands.length > 1
    · simp only [hc, and_self, if_true] at h
      exact ⟨s, hs, hc.1, h⟩
    · simp [hc] at h
  · rintro ⟨s, hs, h1, h2⟩
    refine ⟨s, hs, ?_⟩
    have hlen : s.operands.length > 1 := by
      rw [List.get?_eq_getElem?] at h2
      by_contra hc
      rw [List.getElem?_eq_none (by omega)] at h2
      cases h2
    rw [List.get?_eq_getElem?] at h2
    simp [h1, hlen, h2]

theorem mem_referencedTowers_iff (ir : List IrInstruction) (n : String) :
    n ∈ referencedTowers ir ↔
      ∃ s ∈ ir, s.opcode = .PLACE_TOWER ∧ s.operands.head? = some n := by
  simp only [referencedTowers, List.mem_filterMap]
  constructor
  · rintro ⟨s, hs, h⟩
    by_cases hc : s.opcode = .PLACE_TOWER ∧ ¬ s.operands.isEmpty = true
    · exact ⟨s, hs, hc.1, by simpa [hc] using h⟩
    · rw [if_neg hc] at h
      cases h
  · rintro ⟨s, hs, h1, h2⟩
    refine ⟨s, hs, ?_⟩
    have hne : ¬ s.operands.isEmpty = true := by
      cases hops : s.operands with
      | nil => rw [hops] at h2; simp at h2
      | cons a r => simp
    simp [h1, hne, h2]

theorem dceKeep_eq_not_removes (ir : List IrInstruction) (i : IrInstruction) :
    dceKeep (referencedEnemies ir) (referencedTowers ir) i = !dceRemoves ir i := by
  have hE := mem_referencedEnemies_iff ir
  have hT := mem_referencedTowers_iff ir
  cases hops : i.operands with
  | nil =>
    by_cases h1 : i.opcode = .NOP
    · simp [dceKeep, dceRemoves, hops, h1]
    · simp [dceKeep, dceRemoves, hops, h1]
  | cons n rest =>
    by_cases h1 : i.opcode = .NOP
    · simp [dceKeep, dceRemoves, hops, h1]
    · by_cases h2 : i.opcode = .DEFINE_ENEMY
      · by_cases hm : n ∈ referencedEnemies ir
        · obtain ⟨s, hs, hs1, hs2⟩ := (hE n).1 hm
          rw [List.get?_eq_getElem?] at hs2
          simp [dceKeep, dceRemoves, hops, h2, hm]
          exact ⟨s, hs, hs1, hs2⟩
        · have : ¬ ∃ s ∈ ir, s.opcode = .SPAWN_ENEMY ∧ s.operands.get? 1 = some n :=
            fun hx => hm ((hE n).2 hx)
          simp only [not_exists, not_and] at this
          simp [dceKeep, dceRemoves, hops, h2, hm]
          intro s hs hop
          have := this s hs hop
          rwa [List.get?_eq_getElem?] at this
      · by_cases h3 : i.opcode = .DEFINE_TOWER
        · by_cases hm : n ∈ referencedTowers ir
          · obtain ⟨s, hs, hs1, hs2⟩ := (hT n).1 hm
            simp [dceKeep, dceRemoves, hops, h3, hm]
            exact ⟨s, hs, hs1, hs2⟩
          · have : ¬ ∃ s ∈ ir, s.opcode = .PLACE_TOWER ∧ s.operands.head? = some n :=
              fun hx => hm ((hT n).2 hx)
            simp only [not_exists, not_and] at this
            simp [dceKeep, dceRemoves, hops, h3, hm]
            intro s hs hop
            exact this s hs hop
        · simp [dceKeep, dceRemoves, hops, h1, h2, h3]

/-- C28: dead code elimination returns the input, in order, without exactly
the instructions described by `dceRemoves`; every `DEFINE_MAP`, `DEFINE_WAVE`,
`SPAWN_ENEMY` and `PLACE_TOWER` of the input is retained unchanged. -/
theorem dce_keeps_exactly (ir : List IrInstruction) :
    deadCodeElimination ir = ir.filter (fun i => !dceRemoves ir i)
    ∧ (deadCodeElimination ir).Sublist ir
    ∧ (∀ i ∈ ir, (i.opcode = .DEFINE_MAP ∨ i.opcode = .DEFINE_WAVE ∨
          i.opcode = .SPAWN_ENEMY ∨ i.opcode = .PLACE_TOWER) →
        i ∈ deadCodeElimination ir) := by
  refine ⟨?_, List.filter_sublist _, ?_⟩
  · simp only [deadCodeElimination]
    apply List.filter_congr
    intro i _
    exact dceKeep_eq_not_removes ir i
  · intro i hi hop
    refine List.mem_filter.2 ⟨hi, ?_⟩
    apply dceKeep_of_kept_opcode
    · rcases hop with h | h | h | h <;> rw [h] <;> decide
    · rcases hop with h | h | h | h <;> rw [h] <;> decide
    · rcases hop with h | h | h | h <;> rw [h] <;> decide

/-- C28, at an IR whose wave has no spawns: the wave and the map stay, the
unreferenced enemy and tower and the `NOP` go. -/
theorem dce_keeps_exactly_witness :
    deadCodeElimination
      [⟨.DEFINE_MAP, ["M"], []⟩, ⟨.NOP, [], []⟩, ⟨.DEFINE_ENEMY, ["Orc"], []⟩,
       ⟨.DEFINE_TOWER, ["Cannon"], []⟩, ⟨.DEFINE_WAVE, ["W"], []⟩]
      = [⟨.DEFINE_MAP, ["M"], []⟩, ⟨.DEFINE_WAVE, ["W"], []⟩] :=
  (dce_keeps_exactly _).1.trans (by decide)

theorem mem_dedupLoop (l : List IrInstruction) (seen : List String) (x : IrInstruction)
    (hx : x ∈ dedupLoop seen l) : x ∈ l := by
  induction l generalizing seen with
  | nil => simp [dedupLoop] at hx
  | cons i rest ih =>
    simp only [dedupLoop] at hx
    split at hx
    · split at hx
      · exact List.mem_cons_of_mem _ (ih _ hx)
      · rcases List.mem_cons.1 hx with rfl | hx
        · exact List.mem_cons_self _ _
        · exact List.mem_cons_of_mem _ (ih _ hx)
    · rcases List.mem_cons.1 hx with rfl | hx
      · exact List.mem_cons_self _ _
      · exact List.mem_cons_of_mem _ (ih _ hx)

theorem count_true_of_getInt (m : Metadata) (k : String) (v : Int)
    (h : Metadata.getInt m k = some v) : Metadata.count m k = true := by
  simp only [Metadata.getInt] at h
  simp only [Metadata.count]
  cases hx : Metadata.find m k with
  | none => simp [hx] at h
  | some w => rfl

theorem foldInstruction_tower (b d : IrInstruction) (h : foldInstruction fp b = some d)
    (hT : b.opcode = .DEFINE_TOWER) (h1 : Metadata.count b.metadata "damage" = true)
    (h2 : Metadata.count b.metadata "fire_rate" = true) :
    ∃ (dmg : Int) (fr : Double), Metadata.getInt b.metadata "damage" = some dmg
      ∧ Metadata.getDouble b.metadata "fire_rate" = some fr
      ∧ d = { b with metadata := Metadata.set b.metadata "dps" (.real (fp.product dmg fr)) } := by
  simp only [foldInstruction, foldTower, foldSpawn, hT, if_true, h1, h2, Bool.and_self] at h
  cases hd : Metadata.getInt b.metadata "damage" with
  | none => simp [hd] at h
  | some dmg =>
    cases hf : Metadata.getDouble b.metadata "fire_rate" with
    | none => simp [hd, hf] at h
    | some fr =>
      simp only [hd, hf, Option.some_bind, reduceCtorEq, if_false, Option.some.injEq] at h
      exact ⟨dmg, fr, rfl, rfl, by simp [← h, hT]⟩

theorem foldInstruction_spawn (b d : IrInstruction) (h : foldInstruction fp b = some d)
    (hS : b.opcode = .SPAWN_ENEMY) (h1 : Metadata.count b.metadata "count" = true)
    (h2 : Metadata.count b.metadata "interval" = true) :
    ∃ (n i : Int), Metadata.getInt b.metadata "count" = some n
      ∧ Metadata.getInt b.metadata "interval" = some i
      ∧ d = { b with
              metadata := Metadata.set b.metadata "total_duration" (.int (intMul n i)) } := by
  simp only [foldInstruction, foldTower, foldSpawn, hS, reduceCtorEq, if_false, if_true, h1, h2,
    Bool.and_self, Option.some_bind] at h
  cases hn : Metadata.getInt b.metadata "count" with
  | none => simp [hn] at h
  | some n =>
    cases hi : Metadata.getInt b.metadata "interval" with
    | none => simp [hn, hi] at h
    | some i =>
      simp only [hn, hi, Option.some_bind, Option.some.injEq] at h
      exact ⟨n, i, rfl, rfl, by simp [← h, hS]⟩

theorem optimize_stages (ir out : List IrInstruction) (h : optimize fp ir = some out) :
    ∃ B C, redundantSpawnMerging (duplicateDefinitionRemoval ir) = some B
      ∧ constantFolding fp B = some C ∧ out = deadCodeElimination C := by
  simp only [optimize] at h
  cases hB : redundantSpawnMerging (duplicateDefinitionRemoval ir) with
  | none => simp [hB] at h
  | some B =>
    cases hC : constantFolding fp B with
    | none => simp [hB, hC] at h
    | some C =>
      simp only [hB, hC, Option.some_bind, Option.some.injEq] at h
      exact ⟨B, C, rfl, hC, h.symm⟩

/-- C27: when `optimize` succeeds, every `DEFINE_TOWER` of the output whose
metadata has `damage` and `fire_rate` has an entry `dps` of real type equal to
`damage * fire_rate`, the product of the two as the machine computes it in the
type `double` (`fp.product`, whatever its rounding); its operands and its
metadata other than `dps` are those of a `DEFINE_TOWER` of the input. -/
theorem dps_correct (ir out : List IrInstruction) (h : optimize fp ir = some out) :
    ∀ d ∈ out, d.opcode = .DEFINE_TOWER →
      Metadata.count d.metadata "damage" = true →
      Metadata.count d.metadata "fire_rate" = true →
      ∃ (dmg : Int) (fr : Double),
        Metadata.getInt d.metadata "damage" = some dmg
        ∧ Metadata.getDouble d.metadata "fire_rate" = some fr
        ∧ Metadata.find d.metadata "dps" = some (.real (fp.product dmg fr))
        ∧ ∃ f ∈ ir, f.opcode = .DEFINE_TOWER ∧ d.operands = f.operands
            ∧ ∀ k, k ≠ "dps" → Metadata.find d.metadata k = Metadata.find f.metadata k := by
  obtain ⟨B, C, hB, hC, rfl⟩ := optimize_stages ir out h
  intro d hd hop h1 h2
  have hdC : d ∈ C := (List.mem_filter.1 hd).1
  have fC := (constantFolding_forall₂ B C).1 hC
  obtain ⟨b, hb, hfb⟩ := forall₂_fold_mem B C fC d hdC
  obtain ⟨s1, s2, _, _⟩ := foldInstruction_shape b d hfb
  have hbT : b.opcode = .DEFINE_TOWER := by rw [← s1]; exact hop
  have hfind : ∀ k, k ≠ "dps" → Metadata.find d.metadata k = Metadata.find b.metadata k := by
    intro k hk
    rcases foldInstruction_cases b d hfb with rfl | ⟨_, dmg, fr, _, _, rfl⟩ | ⟨hS, _⟩
    · rfl
    · exact find_set_ne _ _ _ _ (fun e => hk e.symm)
    · rw [hbT] at hS; cases hS
  have c1 : Metadata.count b.metadata "damage" = true := by
    simpa [Metadata.count, hfind "damage" (by decide)] using h1
  have c2 : Metadata.count b.metadata "fire_rate" = true := by
    simpa [Metadata.count, hfind "fire_rate" (by decide)] using h2
  obtain ⟨dmg, fr, hdmg, hfr, rfl⟩ := foldInstruction_tower b d hfb hbT c1 c2
  have hbm : isMergeable b = false := by simp [isMergeable, hbT]
  have hbA := mem_dedupLoop ir [] b (merge_keeps _ B hB b hb hbm)
  refine ⟨dmg, fr, ?_, ?_, find_set_same _ _ _, b, hbA, hbT, rfl, hfind⟩
  · rw [← hdmg]; exact getInt_set_ne _ _ _ _ (by decide)
  · rw [← hfr]; exact getDouble_set_ne _ _ _ _ (by decide)

/-- C27, at the IR of `sampleProgram`: the surviving tower `Archer` has damage
4, fire rate 2 and `dps` 8, a product that needs no rounding. -/
theorem dps_correct_witness :
    ∃ (dmg : Int) (fr : Double),
      Metadata.getInt [("range", Value.int 3), ("damage", .int 4), ("fire_rate", .real 2),
        ("cost", .int 50), ("dps", .real 8)] "damage" = some dmg
      ∧ Metadata.getDouble [("range", Value.int 3), ("damage", .int 4), ("fire_rate", .real 2),
        ("cost", .int 50), ("dps", .real 8)] "fire_rate" = some fr
      ∧ Metadata.find [("range", Value.int 3), ("damage", .int 4), ("fire_rate", .real 2),
        ("cost", .int 50), ("dps", .real 8)] "dps"
          = some (.real (exactProduct.product dmg fr)) := by
  obtain ⟨dmg, fr, h1, h2, h3, _⟩ := dps_correct (generate sampleProgram) sampleOptimized
    sample_optimize
    ⟨.DEFINE_TOWER, ["Archer"], [("range", .int 3), ("damage", .int 4),
      ("fire_rate", .real 2), ("cost", .int 50), ("dps", .real 8)]⟩
    (by decide) rfl (by decide) (by decide)
  exact ⟨dmg, fr, h1, h2, h3⟩

/-- What constant folding stores: when `optimize` succeeds, every `SPAWN_ENEMY`
of the output that has `count` and `interval` metadata has an integer entry
`total_duration` equal to the wrapped product of the two, where `count` is the
count that the instruction carries in the output, that is, after merging; the
entry is `count * interval` when that product is a value of the type `int`. -/
theorem total_duration_wrapped (ir out : List IrInstruction) (h : optimize fp ir = some out) :
    ∀ d ∈ out, d.opcode = .SPAWN_ENEMY →
      Metadata.count d.metadata "count" = true →
      Metadata.count d.metadata "interval" = true →
      ∃ (n i : Int),
        Metadata.getInt d.metadata "count" = some n
        ∧ Metadata.getInt d.metadata "interval" = some i
        ∧ Metadata.find d.metadata "total_duration" = some (.int (wrapInt (n * i)))
        ∧ (inIntRange (n * i) = true →
            Metadata.find d.metadata "total_duration" = some (.int (n * i))) := by
  obtain ⟨B, C, hB, hC, rfl⟩ := optimize_stages ir out h
  intro d hd hop h1 h2
  have hdC : d ∈ C := (List.mem_filter.1 hd).1
  have fC := (constantFolding_forall₂ B C).1 hC
  obtain ⟨b, hb, hfb⟩ := forall₂_fold_mem B C fC d hdC
  obtain ⟨s1, s2, _, _⟩ := foldInstruction_shape b d hfb
  have hbS : b.opcode = .SPAWN_ENEMY := by rw [← s1]; exact hop
  have hfind : ∀ k, k ≠ "total_duration" →
      Metadata.find d.metadata k = Metadata.find b.metadata k := by
    intro k hk
    rcases foldInstruction_cases b d hfb with rfl | ⟨hT, _⟩ | ⟨_, n, i, t, _, _, _, rfl⟩
    · rfl
    · rw [hbS] at hT; cases hT
    · exact find_set_ne _ _ _ _ (fun e => hk e.symm)
  have c1 : Metadata.count b.metadata "count" = true := by
    simpa [Metadata.count, hfind "count" (by decide)] using h1
  have c2 : Metadata.count b.metadata "interval" = true := by
    simpa [Metadata.count, hfind "interval" (by decide)] using h2
  obtain ⟨n, i, hn, hi, rfl⟩ := foldInstruction_spawn b d hfb hbS c1 c2
  refine ⟨n, i, ?_, ?_, find_set_same _ _ _, fun hr => ?_⟩
  · rw [← hn]; exact getInt_set_ne _ _ _ _ (by decide)
  · rw [← hi]; exact getInt_set_ne _ _ _ _ (by decide)
  · simp only [find_set_same, intMul, wrapInt_of_inRange _ hr]

/-- C29 fails when the product overflows: the program
`durationOverflowProgram` (one spawn with count 46341 and interval 46341) is
accepted, `optimize` returns, and the spawn of its output has
`total_duration` -2147479015, while `count * interval` is 2147488281. -/
theorem total_duration_overflow :
    parsedProgram durationOverflowSource = some durationOverflowProgram
    ∧ accepted durationOverflowProgram = true
    ∧ optimize exactProduct (generate durationOverflowProgram)
        = some [⟨.DEFINE_ENEMY, ["G"], [("hp", .int 1), ("speed", .real 1), ("reward", .int 0)]⟩,
            ⟨.DEFINE_WAVE, ["W"], []⟩,
            ⟨.SPAWN_ENEMY, ["W", "G"],
              [("count", .int 46341), ("start", .int 0), ("interval", .int 46341),
               ("total_duration", .int (-2147479015))]⟩]
    ∧ (46341 : Int) * 46341 = 2147488281 := by
  refine ⟨?_, ?_, ?_, ?_⟩
  · set_option maxRecDepth 100000 in decide
  · decide
  · decide
  · decide

/-- C25: for the program of scenario B, whatever the attributes of `Goblin`,
the optimized IR has exactly one `SPAWN_ENEMY` of wave `W`, with count 6, and
the generated IR has two, with count 3 each. -/
theorem scenario_b_merge (hp : Int) (speed : Double) (reward : Int) :
    (∃ out, optimize fp (generate (scenarioB hp speed reward)) = some out
        ∧ spawnCountsOfWave "W" out = [some 6]
        ∧ out = [⟨.DEFINE_ENEMY, ["Goblin"],
                    [("hp", .int hp), ("speed", .real speed), ("reward", .int reward)]⟩,
                 ⟨.DEFINE_WAVE, ["W"], []⟩,
                 ⟨.SPAWN_ENEMY, ["W", "Goblin"],
                    [("count", .int 6), ("start", .int 0), ("interval", .int 1),
                     ("total_duration", .int 6)]⟩])
    ∧ spawnCountsOfWave "W" (generate (scenarioB hp speed reward)) = [some 3, some 3] := by
  refine ⟨⟨_, rfl, ?_, rfl⟩, ?_⟩
  · rfl
  · rfl

/-! ## Lexer -/

theorem keywords_wordType (text : String) :
    (match keywords text with | some ty => ty | none => TokenType.IDENT) = wordType text := by
  by_cases h1 : text = "map"
  · subst h1; rfl
  by_cases h2 : text = "enemy"
  · subst h2; rfl
  by_cases h3 : text = "tower"
  · subst h3; rfl
  by_cases h4 : text = "wave"
  · subst h4; rfl
  by_cases h5 : text = "spawn"
  · subst h5; rfl
  by_cases h6 : text = "place"
  · subst h6; rfl
  by_cases h7 : text = "at"
  · subst h7; rfl
  by_cases h8 : text = "size"
  · subst h8; rfl
  by_cases h9 : text = "path"
  · subst h9; rfl
  by_cases h10 : text = "count"
  · subst h10; rfl
  by_cases h11 : text = "start"
  · subst h11; rfl
  by_cases h12 : text = "interval"
  · subst h12; rfl
  have b : ∀ k : String, text ≠ k → (text == k) = false := fun k hk => by simpa using hk
  simp only [keywords, keywordTable, List.lookup, b _ h1, b _ h2, b _ h3, b _ h4, b _ h5,
    b _ h6, b _ h7, b _ h8, b _ h9, b _ h10, b _ h11, b _ h12, wordType, h1, h2, h3, h4, h5,
    h6, h7, h8, h9, h10, h11, h12, if_false]

theorem isalpha_not_isdigit (c : Char) (h : isalpha c = true) : isdigit c = false := by
  simp only [isalpha, Char.isAlpha, Char.isUpper, Char.isLower, Bool.or_eq_true,
    Bool.and_eq_true, decide_eq_true_eq] at h
  simp only [isdigit, Char.isDigit, Bool.and_eq_false_iff, decide_eq_false_iff_not]
  simp only [UInt32.le_def, BitVec.le_def] at h ⊢
  have e1 : (UInt32.toBitVec 48).toNat = 48 := rfl
  have e2 : (UInt32.toBitVec 57).toNat = 57 := rfl
  have e3 : (UInt32.toBitVec 65).toNat = 65 := rfl
  have e4 : (UInt32.toBitVec 90).toNat = 90 := rfl
  have e5 : (UInt32.toBitVec 97).toNat = 97 := rfl
  have e6 : (UInt32.toBitVec 122).toNat = 122 := rfl
  rw [e1, e2]
  rw [e3, e4, e5, e6] at h
  omega

theorem identifier_spec (l : Lexer) (c : Char) (cs : List Char) (h : l.rest = c :: cs) :
    Lexer.identifier { l with position := l.position + 1 }
      = (⟨wordType (String.mk (c :: cs.takeWhile isIdentChar)),
          String.mk (c :: cs.takeWhile isIdentChar), l.currentLine⟩,
         { l with position := l.position + 1 + (cs.takeWhile isIdentChar).length }) := by
  have hd := rest_cons_drop l c cs h
  have hr : l.source.drop l.position = c :: cs := h
  have htext : substr l.source (l.position + 1 - 1)
      (l.position + 1 + (cs.takeWhile isIdentChar).length - (l.position + 1 - 1))
      = String.mk (c :: cs.takeWhile isIdentChar) := by
    simp only [substr, Nat.add_sub_cancel, hr]
    have : l.position + 1 + (cs.takeWhile isIdentChar).length - l.position
        = (cs.takeWhile isIdentChar).length + 1 := by omega
    rw [this, List.take_succ_cons, take_takeWhile_length]
  have hfun : (fun c => isalnum c || decide (c = '_')) = isIdentChar := rfl
  simp only [Lexer.identifier, Lexer.rest, hd, advanceWhile_eq, hfun, htext]
  rw [← keywords_wordType]
  split <;> rename_i hk <;> simp [hk]

theorem number_spec (l : Lexer) (c : Char) (cs : List Char) (h : l.rest = c :: cs)
    (hc : isdigit c = true) :
    Lexer.number { l with position := l.position + 1 }
      = (⟨if (numberLexeme (c :: cs)).2 then .FLOAT else .INT,
          String.mk (numberLexeme (c :: cs)).1, l.currentLine⟩,
         { l with position := l.position + (numberLexeme (c :: cs)).1.length }) := by
  have hd := rest_cons_drop l c cs h
  have hr : l.source.drop l.position = c :: cs := h
  have hrest1 : Lexer.rest { l with position := l.position + 1 + (cs.takeWhile isdigit).length }
      = cs.dropWhile isdigit := by
    simp only [Lexer.rest]
    rw [drop_add_eq, hd, drop_takeWhile_length]
  have hsub : ∀ n, substr l.source (l.position + 1 - 1) (l.position + 1 + n - (l.position + 1 - 1))
      = String.mk (c :: cs.take n) := by
    intro n
    simp only [substr, Nat.add_sub_cancel, hr]
    have : l.position + 1 + n - l.position = n + 1 := by omega
    rw [this, List.take_succ_cons]
  simp only [Lexer.number, Lexer.rest, hd, advanceWhile_eq]
  cases hdw : cs.dropWhile isdigit with
  | nil =>
    have hp := peek_nil _ (hrest1.trans hdw)
    simp only [hp, numberLexeme, List.dropWhile_cons, List.takeWhile_cons, hc, if_true, hdw]
    simp only [Char.reduceEq, if_false, Bool.false_eq_true, hsub, take_takeWhile_length]
    simp [List.length_cons]; omega
  | cons d after =>
    have hp := peek_cons _ d after (hrest1.trans hdw)
    by_cases hdot : d = '.'
    · subst hdot
      have ha := advance_cons _ '.' after (hrest1.trans hdw)
      have hda := rest_cons_drop _ '.' after (hrest1.trans hdw)
      simp only [hp, numberLexeme, List.dropWhile_cons, List.takeWhile_cons, hc, if_true, hdw, ha,
        Lexer.rest]
      simp only [] at hda
      simp only [hda, advanceWhile_eq]
      have e : l.position + 1 + (cs.takeWhile isdigit).length + 1
            + (after.takeWhile isdigit).length
          = l.position + 1 + ((cs.takeWhile isdigit).length
            + ((after.takeWhile isdigit).length + 1)) := by omega
      rw [e, hsub]
      have htake : cs.take ((cs.takeWhile isdigit).length + ((after.takeWhile isdigit).length + 1))
          = cs.takeWhile isdigit ++ '.' :: after.takeWhile isdigit := by
        have hcs : cs = cs.takeWhile isdigit ++ '.' :: after := by
          rw [← hdw]; exact (List.takeWhile_append_dropWhile _ _).symm
        conv => lhs; arg 2; rw [hcs]
        rw [List.take_append, List.take_succ_cons, take_takeWhile_length]
      rw [htake]
      simp [List.length_cons, List.length_append]; omega
    · have hne : ¬ (d = '.') := hdot
      have hnl : numberLexeme (c :: cs) = (c :: cs.takeWhile isdigit, false) := by
        simp only [numberLexeme, List.dropWhile_cons, List.takeWhile_cons, hc, if_true, hdw]
        split
        · rename_i heq
          simp only [List.cons.injEq] at heq
          exact absurd heq.1 hne
        · rfl
      simp only [hp, hne, if_false, hnl, Bool.false_eq_true, hsub, take_takeWhile_length]
      simp [List.length_cons]; omega

theorem getNextToken_eof (l : Lexer) (h : l.skip.rest = []) :
    l.getNextToken = (⟨.END_OF_FILE, "", l.skip.currentLine⟩, l.skip) := by
  simp [Lexer.getNextToken, (isAtEnd_iff _).2 h]

theorem getNextToken_digit (l : Lexer) (c : Char) (cs : List Char)
    (h : l.skip.rest = c :: cs) (hc : isdigit c = true) :
    l.getNextToken
      = (⟨if (numberLexeme (c :: cs)).2 then .FLOAT else .INT,
          String.mk (numberLexeme (c :: cs)).1, l.skip.currentLine⟩,
         { l.skip with position := l.skip.position + (numberLexeme (c :: cs)).1.length }) := by
  simp only [Lexer.getNextToken, isAtEnd_cons _ c cs h, advance_cons _ c cs h, hc,
    Bool.false_eq_true, if_false, if_true]
  exact number_spec l.skip c cs h hc

theorem getNextToken_word (l : Lexer) (c : Char) (cs : List Char)
    (h : l.skip.rest = c :: cs) (hc : isalpha c = true ∨ c = '_') :
    l.getNextToken
      = (⟨wordType (String.mk (c :: cs.takeWhile isIdentChar)),
          String.mk (c :: cs.takeWhile isIdentChar), l.skip.currentLine⟩,
         { l.skip with
           position := l.skip.position + 1 + (cs.takeWhile isIdentChar).length }) := by
  have hd : isdigit c = false := by
    rcases hc with hc | hc
    · exact isalpha_not_isdigit c hc
    · subst hc; decide
  simp only [Lexer.getNextToken, isAtEnd_cons _ c cs h, advance_cons _ c cs h, hd,
    Bool.false_eq_true, if_false, hc, if_true]
  exact identifier_spec l.skip c cs h

theorem getNextToken_punct (l : Lexer) (c : Char) (cs : List Char)
    (h : l.skip.rest = c :: cs) (hd : isdigit c = false) (ha : isalpha c = false)
    (hu : c ≠ '_') (ty : TokenType) (text : String) (hp : punctuation c = some (ty, text)) :
    l.getNextToken
      = (⟨ty, text, l.skip.currentLine⟩, { l.skip with position := l.skip.position + 1 }) := by
  simp [Lexer.getNextToken, isAtEnd_cons _ c cs h, advance_cons _ c cs h, hd, ha, hu, hp]

theorem getNextToken_unknown (l : Lexer) (c : Char) (cs : List Char)
    (h : l.skip.rest = c :: cs) (hd : isdigit c = false) (ha : isalpha c = false)
    (hu : c ≠ '_') (hp : punctuation c = none) :
    l.getNextToken
      = (⟨.UNKNOWN, String.mk [c], l.skip.currentLine⟩,
         { l.skip with position := l.skip.position + 1 }) := by
  simp [Lexer.getNextToken, isAtEnd_cons _ c cs h, advance_cons _ c cs h, hd, ha, hu, hp]

/-- C13: on a source of two consecutive comment lines followed by `map`, the
first token that `getNextToken` returns is `UNKNOWN` with lexeme `/` on line 2:
only one comment is skipped before a token is produced. -/
theorem two_comment_lines_unknown :
    (Lexer.getNextToken (Lexer.new "// a\n// b\nmap")).1 = ⟨.UNKNOWN, "/", 2⟩ := by
  decide

/-- C14: when the first character after the skipped text is a digit, the token
has as lexeme the maximal run of digits, extended by `.` and the digits after
it when `.` follows the run directly, and has type `FLOAT` exactly when a `.`
was consumed; the lexer moves past the lexeme.  When that character is `-`, the
token is `UNKNOWN` with lexeme `-`. -/
theorem number_token (l : Lexer) (c : Char) (cs : List Char) (h : l.skip.rest = c :: cs) :
    (isdigit c = true →
      (l.getNextToken).1 = ⟨if (numberLexeme (c :: cs)).2 then .FLOAT else .INT,
          String.mk (numberLexeme (c :: cs)).1, l.skip.currentLine⟩
      ∧ (l.getNextToken).2.rest = (c :: cs).drop (numberLexeme (c :: cs)).1.length)
    ∧ (c = '-' → (l.getNextToken).1 = ⟨.UNKNOWN, "-", l.skip.currentLine⟩) := by
  refine ⟨fun hc => ?_, fun hm => ?_⟩
  · rw [getNextToken_digit l c cs h hc]
    refine ⟨rfl, ?_⟩
    simp only [Lexer.rest]
    rw [drop_add_eq]
    exact congrArg _ h
  · subst hm
    rw [getNextToken_unknown l '-' cs h (by decide) (by decide) (by decide) (by decide)]

/-- C14, at the sources `12;`, `1.5;`, `1.;` and `-5`. -/
theorem number_token_witness :
    (Lexer.getNextToken (Lexer.new "  12;")).1 = ⟨.INT, "12", 1⟩
    ∧ (Lexer.getNextToken (Lexer.new "1.5;")).1 = ⟨.FLOAT, "1.5", 1⟩
    ∧ (Lexer.getNextToken (Lexer.new "1.;")).1 = ⟨.FLOAT, "1.", 1⟩
    ∧ (Lexer.getNextToken (Lexer.new "-5")).1 = ⟨.UNKNOWN, "-", 1⟩ :=
  ⟨((number_token (Lexer.new "  12;") '1' ['2', ';'] (by decide)).1 (by decide)).1,
   ((number_token (Lexer.new "1.5;") '1' ['.', '5', ';'] (by decide)).1 (by decide)).1,
   ((number_token (Lexer.new "1.;") '1' ['.', ';'] (by decide)).1 (by decide)).1,
   (number_token (Lexer.new "-5") '-' ['5'] (by decide)).2 rfl⟩

/-- C15: when the first character after the skipped text is a letter or an
underscore, the lexeme of the token is that character followed by the maximal
run of letters, digits and underscores, which is the substring of the source
at that place; the type is the keyword type when the whole lexeme is one of
the twelve keywords and `IDENT` otherwise. -/
theorem identifier_token (l : Lexer) (c : Char) (cs : List Char)
    (h : l.skip.rest = c :: cs) (hc : isalpha c = true ∨ c = '_') :
    (l.getNextToken).1 = ⟨wordType (String.mk (c :: cs.takeWhile isIdentChar)),
        String.mk (c :: cs.takeWhile isIdentChar), l.skip.currentLine⟩
    ∧ (l.getNextToken).1.lexeme
        = substr l.source l.skip.position ((cs.takeWhile isIdentChar).length + 1)
    ∧ (l.getNextToken).2.rest = cs.dropWhile isIdentChar := by
  rw [getNextToken_word l c cs h hc]
  refine ⟨rfl, ?_, ?_⟩
  · have hr : l.source.drop l.skip.position = c :: cs := by
      have := h; simp only [Lexer.rest, skip_source] at this; exact this
    simp only [substr, hr, List.take_succ_cons, take_takeWhile_length]
  · have hd := rest_cons_drop _ c cs h
    simp only [Lexer.rest]
    rw [drop_add_eq, hd, drop_takeWhile_length]

/-- C15, at the sources `mapX = 1`, `start_1;` and `map X`. -/
theorem identifier_token_witness :
    (Lexer.getNextToken (Lexer.new " mapX = 1")).1 = ⟨.IDENT, "mapX", 1⟩
    ∧ (Lexer.getNextToken (Lexer.new "start_1;")).1 = ⟨.IDENT, "start_1", 1⟩
    ∧ (Lexer.getNextToken (Lexer.new "map X")).1 = ⟨.MAP, "map", 1⟩ :=
  ⟨(identifier_token (Lexer.new " mapX = 1") 'm' ['a', 'p', 'X', ' ', '=', ' ', '1']
      (by decide) (Or.inl (by decide))).1,
   (identifier_token (Lexer.new "start_1;") 's' ['t', 'a', 'r', 't', '_', '1', ';']
      (by decide) (Or.inl (by decide))).1,
   (identifier_token (Lexer.new "map X") 'm' ['a', 'p', ' ', 'X']
      (by decide) (Or.inl (by decide))).1⟩

theorem peekToken_eq (l : Lexer) : l.peekToken = ((l.getNextToken).1, l) := by
  have hs := getNextToken_source l
  simp only [Lexer.peekToken]
  cases hg : l.getNextToken with
  | mk t l1 =>
    rw [hg] at hs
    simp only [] at hs
    cases l with
    | mk s p cl =>
      cases l1 with
      | mk s1 p1 cl1 =>
        simp only [] at hs
        subst hs
        rfl

theorem peekTimes_eq (n : Nat) (l : Lexer) : Lexer.peekTimes n l = l := by
  induction n generalizing l with
  | zero => rfl
  | succ n ih => simp [Lexer.peekTimes, peekToken_eq, ih]

/-- C16: `peekToken` returns the token that `getNextToken` returns from the
same state and leaves the lexer state unchanged, so `getNextToken` after any
number of `peekToken` calls returns what it returns without them. -/
theorem peekToken_no_advance (l : Lexer) :
    (l.peekToken).1 = (l.getNextToken).1
    ∧ (l.peekToken).2 = l
    ∧ ∀ n, (Lexer.peekTimes n l).getNextToken = l.getNextToken := by
  refine ⟨by rw [peekToken_eq], by rw [peekToken_eq], fun n => by rw [peekTimes_eq]⟩

/-! ## Progress of the lexer -/

theorem skipToLineEnd_ge (cs : List Char) (position : Nat) :
    position ≤ skipToLineEnd cs position := by
  induction cs generalizing position with
  | nil => simp [skipToLineEnd]
  | cons c rest ih =>
    simp only [skipToLineEnd]
    split
    · have := ih (position + 1); omega
    · exact Nat.le_refl _

theorem skipWhitespace_position (l : Lexer) : l.position ≤ l.skipWhitespace.position :=
  (skipWhitespaceLoop_source _ _ _).1

theorem skipComment_position (l : Lexer) : l.position ≤ l.skipComment.position := by
  simp only [Lexer.skipComment]
  split
  · exact skipToLineEnd_ge _ _
  · exact Nat.le_refl _

theorem skip_position (l : Lexer) : l.position ≤ l.skip.position := by
  simp only [Lexer.skip]
  exact Nat.le_trans (skipWhitespace_position l)
    (Nat.le_trans (skipComment_position _) (skipWhitespace_position _))

theorem rest_length (l : Lexer) (c : Char) (cs : List Char) (h : l.rest = c :: cs) :
    l.position + cs.length + 1 = l.source.length := by
  have hlt := rest_cons_lt l c cs h
  have := congrArg List.length h
  simp only [Lexer.rest, List.length_drop, List.length_cons] at this
  omega

theorem wordType_consumable (text : String) : consumable (wordType text) = true := by
  by_cases h1 : text = "map"
  · subst h1; decide
  by_cases h2 : text = "enemy"
  · subst h2; decide
  by_cases h3 : text = "tower"
  · subst h3; decide
  by_cases h4 : text = "wave"
  · subst h4; decide
  by_cases h5 : text = "spawn"
  · subst h5; decide
  by_cases h6 : text = "place"
  · subst h6; decide
  by_cases h7 : text = "at"
  · subst h7; decide
  by_cases h8 : text = "size"
  · subst h8; decide
  by_cases h9 : text = "path"
  · subst h9; decide
  by_cases h10 : text = "count"
  · subst h10; decide
  by_cases h11 : text = "start"
  · subst h11; decide
  by_cases h12 : text = "interval"
  · subst h12; decide
  simp only [wordType, h1, h2, h3, h4, h5, h6, h7, h8, h9, h10, h11, h12, if_false]
  decide

theorem punctuation_consumable (c : Char) (ty : TokenType) (text : String)
    (h : punctuation c = some (ty, text)) : consumable ty = true := by
  simp only [punctuation] at h
  repeat' split at h
  all_goals first | (cases h; decide) | skip
  all_goals simp at h

theorem numberLexeme_length (c : Char) (cs : List Char) (hc : isdigit c = true) :
    1 ≤ (numberLexeme (c :: cs)).1.length
    ∧ (numberLexeme (c :: cs)).1.length ≤ cs.length + 1 := by
  have h1 : (cs.takeWhile isdigit).length ≤ cs.length :=
    (List.takeWhile_sublist _).length_le
  have hsplit : cs.takeWhile isdigit ++ cs.dropWhile isdigit = cs :=
    List.takeWhile_append_dropWhile _ _
  simp only [numberLexeme, List.dropWhile_cons, List.takeWhile_cons, hc, if_true]
  split
  · rename_i after heq
    have h2 : (after.takeWhile isdigit).length ≤ after.length :=
      (List.takeWhile_sublist _).length_le
    have h3 := congrArg List.length hsplit
    rw [heq] at h3
    simp only [List.length_append, List.length_cons] at h3 ⊢
    omega
  · simp only [List.length_cons]; omega

/-- The three outcomes of `getNextToken`: at the end of the input it returns
`END_OF_FILE` and stays; otherwise it returns another token and moves on by
at least one character, staying within the source. -/
theorem getNextToken_progress (l : Lexer) :
    ((l.getNextToken).1.type = .END_OF_FILE ∧ (l.getNextToken).2 = l.skip ∧ l.skip.rest = [])
    ∨ ((l.getNextToken).1.type ≠ .END_OF_FILE
        ∧ l.position < (l.getNextToken).2.position
        ∧ (l.getNextToken).2.position ≤ l.source.length) := by
  have hs := skip_position l
  have hsrc := skip_source l
  cases hr : l.skip.rest with
  | nil => left; rw [getNextToken_eof l hr]; exact ⟨rfl, rfl, rfl⟩
  | cons c cs =>
    right
    have hlen := rest_length _ c cs hr
    rw [hsrc] at hlen
    by_cases hd : isdigit c = true
    · rw [getNextToken_digit l c cs hr hd]
      have := numberLexeme_length c cs hd
      refine ⟨?_, ?_, ?_⟩
      · simp only []; split <;> simp
      · simp only []; omega
      · simp only []; omega
    · have hd : isdigit c = false := by simpa using hd
      by_cases hw : isalpha c = true ∨ c = '_'
      · rw [getNextToken_word l c cs hr hw]
        have h1 : (cs.takeWhile isIdentChar).length ≤ cs.length :=
          (List.takeWhile_sublist _).length_le
        have hc := wordType_consumable (String.mk (c :: cs.takeWhile isIdentChar))
        simp only [consumable, decide_eq_true_eq] at hc
        refine ⟨hc.2, ?_, ?_⟩
        · simp only []; omega
        · simp only []; omega
      · have ha : isalpha c = false := by
          cases h : isalpha c with
          | false => rfl
          | true => exact absurd (Or.inl h) hw
        have hu : c ≠ '_' := fun h => hw (Or.inr h)
        cases hp : punctuation c with
        | none =>
          rw [getNextToken_unknown l c cs hr hd ha hu hp]
          refine ⟨by simp, ?_, ?_⟩
          · simp only []; omega
          · simp only []; omega
        | some r =>
          obtain ⟨ty, text⟩ := r
          rw [getNextToken_punct l c cs hr hd ha hu ty text hp]
          have hc := punctuation_consumable c ty text hp
          simp only [consumable, decide_eq_true_eq] at hc
          refine ⟨hc.2, ?_, ?_⟩
          · simp only []; omega
          · simp only []; omega

/-- A token is `UNKNOWN` exactly when it starts at a character that is not a
digit, a letter, an underscore or a punctuation character. -/
theorem getNextToken_unknown_iff (l : Lexer) :
    (l.getNextToken).1.type = .UNKNOWN
      ↔ ∃ c cs, l.skip.rest = c :: cs ∧ startsToken c = false := by
  cases hr : l.skip.rest with
  | nil => rw [getNextToken_eof l hr]; simp
  | cons c cs =>
    by_cases hd : isdigit c = true
    · rw [getNextToken_digit l c cs hr hd]
      constructor
      · intro h; split at h <;> cases h
      · rintro ⟨c', cs', he, h⟩
        simp only [List.cons.injEq] at he
        obtain ⟨rfl, _⟩ := he
        simp [startsToken, hd] at h
    · have hd : isdigit c = false := by simpa using hd
      by_cases hw : isalpha c = true ∨ c = '_'
      · rw [getNextToken_word l c cs hr hw]
        have hc := wordType_consumable (String.mk (c :: cs.takeWhile isIdentChar))
        simp only [consumable, decide_eq_true_eq] at hc
        constructor
        · intro h; exact absurd h hc.1
        · rintro ⟨c', cs', he, h⟩
          simp only [List.cons.injEq] at he
          obtain ⟨rfl, _⟩ := he
          rcases hw with hw | hw <;> simp [startsToken, hw] at h
      · have ha : isalpha c = false := by
          cases h : isalpha c with
          | false => rfl
          | true => exact absurd (Or.inl h) hw
        have hu : c ≠ '_' := fun h => hw (Or.inr h)
        cases hp : punctuation c with
        | none =>
          rw [getNextToken_unknown l c cs hr hd ha hu hp]
          simp only [true_iff]
          exact ⟨c, cs, rfl, by simp [startsToken, hd, ha, hu, hp]⟩
        | some r =>
          obtain ⟨ty, text⟩ := r
          rw [getNextToken_punct l c cs hr hd ha hu ty text hp]
          have hc := punctuation_consumable c ty text hp
          simp only [consumable, decide_eq_true_eq] at hc
          constructor
          · intro h; exact absurd h hc.1
          · rintro ⟨c', cs', he, h⟩
            simp only [List.cons.injEq] at he
            obtain ⟨rfl, _⟩ := he
            simp [startsToken, hp] at h

theorem skipWhitespace_nil (l : Lexer) (h : l.rest = []) : l.skipWhitespace = l := by
  simp [Lexer.skipWhitespace, h, skipWhitespaceLoop]

theorem skipComment_nil (l : Lexer) (h : l.rest = []) : l.skipComment = l := by
  simp [Lexer.skipComment, peek_nil l h]

theorem skip_nil (l : Lexer) (h : l.rest = []) : l.skip = l := by
  simp only [Lexer.skip]
  rw [skipWhitespace_nil l h, skipComment_nil l h, skipWhitespace_nil l h]

/-- After `END_OF_FILE` the lexer returns `END_OF_FILE` again and stays. -/
theorem getNextToken_eof_again (l : Lexer) (h : (l.getNextToken).1.type = .END_OF_FILE) :
    (l.getNextToken).2.getNextToken = l.getNextToken := by
  rcases getNextToken_progress l with ⟨_, h2, h3⟩ | ⟨h1, _⟩
  · have hs : l.skip.skip = l.skip := skip_nil _ h3
    have e1 := getNextToken_eof l h3
    have h3' : l.skip.skip.rest = [] := by rw [hs]; exact h3
    have e2 := getNextToken_eof l.skip h3'
    rw [h2, e2, e1, hs]
  · exact absurd h h1

/-! ## Properties of the parser -/

theorem expect_bind_ok {α : Type} (p : Parser) (ty : TokenType) (msg : String)
    (f : Token × Parser → Except ParseFailure α) (r : α) :
    (p.expect ty msg >>= f) = .ok r
      ↔ p.currentToken.type = ty ∧ f (p.currentToken, p.advance) = .ok r := by
  by_cases h : p.currentToken.type = ty
  · simp [Parser.expect, h, bind, Except.bind]
  · simp [Parser.expect, h, bind, Except.bind]

theorem expect_bind_fuel {α : Type} (p : Parser) (ty : TokenType) (msg : String)
    (f : Token × Parser → Except ParseFailure α) :
    (p.expect ty msg >>= f) = .error .fuel
      ↔ p.currentToken.type = ty ∧ f (p.currentToken, p.advance) = .error .fuel := by
  by_cases h : p.currentToken.type = ty
  · simp [Parser.expect, h, bind, Except.bind]
  · simp [Parser.expect, h, bind, Except.bind]

theorem stoi_ne_fuel (s : String) : stoi s ≠ .error .fuel := by
  simp only [stoi]
  split
  · simp
  · split <;> split <;> simp

theorem stod_ne_fuel (s : String) : stod s ≠ .error .fuel := by
  simp only [stod]
  split <;> simp

theorem stoi_bind_ok {α : Type} (s : String) (f : Int → Except ParseFailure α) (r : α) :
    (stoi s >>= f) = .ok r ↔ ∃ v, stoi s = .ok v ∧ f v = .ok r := by
  cases h : stoi s <;> simp [bind, Except.bind]

theorem stoi_bind_fuel {α : Type} (s : String) (f : Int → Except ParseFailure α) :
    (stoi s >>= f) = .error .fuel ↔ ∃ v, stoi s = .ok v ∧ f v = .error .fuel := by
  cases h : stoi s with
  | error e =>
    have := stoi_ne_fuel s
    rw [h] at this
    have he : e ≠ .fuel := fun hh => this (by rw [hh])
    simp [bind, Except.bind, he]
  | ok v => simp [bind, Except.bind]

theorem stod_bind_ok {α : Type} (s : String) (f : Double → Except ParseFailure α) (r : α) :
    (stod s >>= f) = .ok r ↔ ∃ v, stod s = .ok v ∧ f v = .ok r := by
  cases h : stod s <;> simp [bind, Except.bind]

theorem stod_bind_fuel {α : Type} (s : String) (f : Double → Except ParseFailure α) :
    (stod s >>= f) = .error .fuel ↔ ∃ v, stod s = .ok v ∧ f v = .error .fuel := by
  cases h : stod s with
  | error e =>
    have := stod_ne_fuel s
    rw [h] at this
    have he : e ≠ .fuel := fun hh => this (by rw [hh])
    simp [bind, Except.bind, he]
  | ok v => simp [bind, Except.bind]

theorem pure_ok_iff {α : Type} (a r : α) :
    (pure a : Except ParseFailure α) = .ok r ↔ a = r := by
  simp [pure, Except.pure]

theorem pure_ne_fuel {α : Type} (a : α) :
    ((pure a : Except ParseFailure α) = .error .fuel) ↔ False := by
  simp [pure, Except.pure]

theorem parseEnemyDecl_ok (p p' : Parser) (v : EnemyDecl)
    (h : parseEnemyDecl p = .ok (v, p')) :
    upcomingTypes enemyTypes p = true ∧ p' = p.advanceN 15 := by
  simp only [parseEnemyDecl, expect_bind_ok, stoi_bind_ok, stod_bind_ok, pure_ok_iff,
    Prod.mk.injEq] at h
  obtain ⟨h1, h2, h3, h4, h5, _, _, h6, h7, h8, h9, _, _, h10, h11, h12, h13, _, _, h14, h15,
    _, hp⟩ := h
  refine ⟨?_, hp.symm⟩
  simp [upcomingTypes, enemyTypes, h1, h2, h3, h4, h5, h6, h7, h8, h9, h10, h11, h12, h13, h14,
    h15]

theorem parseEnemyDecl_fuel (p : Parser) : parseEnemyDecl p ≠ .error .fuel := by
  intro h
  simp only [parseEnemyDecl, expect_bind_fuel, stoi_bind_fuel, stod_bind_fuel, pure_ne_fuel,
    and_false, exists_false] at h

theorem parseTowerDecl_ok (p p' : Parser) (v : TowerDecl)
    (h : parseTowerDecl p = .ok (v, p')) :
    upcomingTypes towerTypes p = true ∧ p' = p.advanceN 19 := by
  simp only [parseTowerDecl, expect_bind_ok, stoi_bind_ok, stod_bind_ok, pure_ok_iff,
    Prod.mk.injEq] at h
  obtain ⟨h1, h2, h3, h4, h5, _, _, h6, h7, h8, h9, _, _, h10, h11, h12, h13, _, _, h14, h15,
    h16, h17, _, _, h18, h19, _, hp⟩ := h
  refine ⟨?_, hp.symm⟩
  simp [upcomingTypes, towerTypes, h1, h2, h3, h4, h5, h6, h7, h8, h9, h10, h11, h12, h13, h14,
    h15, h16, h17, h18, h19]

theorem parseTowerDecl_fuel (p : Parser) : parseTowerDecl p ≠ .error .fuel := by
  intro h
  simp only [parseTowerDecl, expect_bind_fuel, stoi_bind_fuel, stod_bind_fuel, pure_ne_fuel,
    and_false, exists_false] at h

theorem parsePlaceStmt_ok (p p' : Parser) (v : PlaceStmt)
    (h : parsePlaceStmt p = .ok (v, p')) :
    upcomingTypes placeTypes p = true ∧ p' = p.advanceN 8 := by
  simp only [parsePlaceStmt, expect_bind_ok, stoi_bind_ok, pure_ok_iff, Prod.mk.injEq] at h
  obtain ⟨h1, h2, h3, h4, _, _, h5, h6, _, _, h7, h8, _, hp⟩ := h
  refine ⟨?_, hp.symm⟩
  simp [upcomingTypes, placeTypes, h1, h2, h3, h4, h5, h6, h7, h8]

theorem parsePlaceStmt_fuel (p : Parser) : parsePlaceStmt p ≠ .error .fuel := by
  intro h
  simp only [parsePlaceStmt, expect_bind_fuel, stoi_bind_fuel, pure_ne_fuel,
    and_false, exists_false] at h

theorem parseSpawnStmt_ok (p p' : Parser) (v : SpawnStmt)
    (h : parseSpawnStmt p = .ok (v, p')) :
    upcomingTypes spawnTypes p = true ∧ p' = p.advanceN 16 := by
  simp only [parseSpawnStmt, expect_bind_ok, stoi_bind_ok, pure_ok_iff, Prod.mk.injEq] at h
  obtain ⟨h1, h2, h3, h4, h5, h6, _, _, h7, h8, h9, h10, _, _, h11, h12, h13, h14, _, _, h15,
    h16, _, hp⟩ := h
  refine ⟨?_, hp.symm⟩
  simp [upcomingTypes, spawnTypes, h1, h2, h3, h4, h5, h6, h7, h8, h9, h10, h11, h12, h13, h14,
    h15, h16]

theorem parseSpawnStmt_fuel (p : Parser) : parseSpawnStmt p ≠ .error .fuel := by
  intro h
  simp only [parseSpawnStmt, expect_bind_fuel, stoi_bind_fuel, pure_ne_fuel,
    and_false, exists_false] at h

theorem parsePathPoint_ok (p p' : Parser) (v : Int × Int)
    (h : parsePathPoint p = .ok (v, p')) :
    upcomingTypes pointTypes p = true ∧ p' = ((p.advanceN 5).matchType .COMMA).2 := by
  simp only [parsePathPoint, expect_bind_ok, stoi_bind_ok, pure_ok_iff, Prod.mk.injEq] at h
  obtain ⟨h1, h2, _, _, h3, h4, _, _, h5, _, hp⟩ := h
  refine ⟨?_, hp.symm⟩
  simp [upcomingTypes, pointTypes, h1, h2, h3, h4, h5]

theorem parsePathPoint_fuel (p : Parser) : parsePathPoint p ≠ .error .fuel := by
  intro h
  simp only [parsePathPoint, expect_bind_fuel, stoi_bind_fuel, pure_ne_fuel,
    and_false, exists_false] at h

/-! ## Tokens consumed by the parser -/

theorem advanceN_add (a b : Nat) (p : Parser) :
    p.advanceN (a + b) = (p.advanceN a).advanceN b := by
  induction a generalizing p with
  | zero => simp [Parser.advanceN]
  | succ a ih => rw [Nat.add_right_comm]; simp only [Parser.advanceN]; exact ih _

theorem goodTokens_add (a b : Nat) (p : Parser) (h1 : goodTokens a p = true)
    (h2 : goodTokens b (p.advanceN a) = true) : goodTokens (a + b) p = true := by
  induction a generalizing p with
  | zero => simpa [Parser.advanceN] using h2
  | succ a ih =>
    rw [Nat.add_right_comm]
    simp only [goodTokens, Bool.and_eq_true] at h1 ⊢
    exact ⟨h1.1, ih _ h1.2 h2⟩

theorem goodTokens_of_upcoming (ts : List TokenType) (p : Parser)
    (h : upcomingTypes ts p = true) (hc : ∀ t ∈ ts, consumable t = true) :
    goodTokens ts.length p = true := by
  induction ts generalizing p with
  | nil => rfl
  | cons t ts ih =>
    simp only [upcomingTypes, Bool.and_eq_true, decide_eq_true_eq] at h
    simp only [List.length_cons, goodTokens, Bool.and_eq_true]
    refine ⟨?_, ih _ h.2 (fun t ht => hc t (List.mem_cons_of_mem _ ht))⟩
    rw [h.1]; exact hc t (List.mem_cons_self _ _)

theorem upcomingTypes_tokenAt (ts : List TokenType) (p : Parser)
    (h : upcomingTypes ts p = true) (k : Nat) (t : TokenType) (hk : ts.get? k = some t) :
    (p.tokenAt k).type = t := by
  induction ts generalizing p k with
  | nil => simp at hk
  | cons t0 ts ih =>
    simp only [upcomingTypes, Bool.and_eq_true, decide_eq_true_eq] at h
    cases k with
    | zero =>
      simp only [List.get?_cons_zero, Option.some.injEq] at hk
      rw [← hk]; exact h.1
    | succ k =>
      simp only [List.get?_cons_succ] at hk
      exact ih _ h.2 k hk

theorem remaining_advance (p : Parser) (h : p.currentToken.type ≠ .END_OF_FILE) :
    p.advance.remaining + 1 ≤ p.remaining := by
  have hs := getNextToken_source p.lexer
  simp only [Parser.remaining, Parser.advance, h, if_false, hs]
  rcases getNextToken_progress p.lexer with ⟨h1, h2, _⟩ | ⟨h1, h2, h3⟩
  · have := skip_position p.lexer
    rw [h2]
    simp only [h1, if_true]
    omega
  · simp only [h1, if_false]
    omega

theorem consumable_ne_eof (t : TokenType) (h : consumable t = true) : t ≠ .END_OF_FILE := by
  simp only [consumable, decide_eq_true_eq] at h
  exact h.2

theorem remaining_good (k : Nat) (p : Parser) (h : goodTokens k p = true) :
    (p.advanceN k).remaining + k ≤ p.remaining := by
  induction k generalizing p with
  | zero => simp [Parser.advanceN]
  | succ k ih =>
    simp only [goodTokens, Bool.and_eq_true] at h
    have h1 := remaining_advance p (consumable_ne_eof _ h.1)
    have h2 := ih _ h.2
    simp only [Parser.advanceN]
    omega

theorem matchType_true (p : Parser) (ty : TokenType) (h : p.currentToken.type = ty) :
    p.matchType ty = (true, p.advance) := by
  simp [Parser.matchType, h]

theorem matchType_false (p : Parser) (ty : TokenType) (h : p.currentToken.type ≠ ty) :
    p.matchType ty = (false, p) := by
  simp [Parser.matchType, h]

theorem goodTokens_one (p : Parser) (h : consumable p.currentToken.type = true) :
    goodTokens 1 p = true := by
  simp [goodTokens, h]

theorem parsePathPoint_reach (p p' : Parser) (v : Int × Int)
    (h : parsePathPoint p = .ok (v, p')) :
    ∃ k, 1 ≤ k ∧ goodTokens k p = true ∧ p' = p.advanceN k := by
  obtain ⟨hu, hp⟩ := parsePathPoint_ok p p' v h
  have hg := goodTokens_of_upcoming pointTypes p hu (by decide)
  by_cases hc : (p.advanceN 5).currentToken.type = .COMMA
  · rw [matchType_true _ _ hc] at hp
    refine ⟨5 + 1, by omega, goodTokens_add 5 1 p hg (goodTokens_one _ (by rw [hc]; decide)), ?_⟩
    rw [advanceN_add]; exact hp
  · rw [matchType_false _ _ hc] at hp
    exact ⟨5, by omega, hg, hp⟩

theorem parsePathLoop_reach (fuel : Nat) (p p' : Parser) (acc path : List (Int × Int))
    (h : parsePathLoop fuel p acc = .ok (path, p')) :
    ∃ k, 1 ≤ k ∧ goodTokens k p = true ∧ p' = p.advanceN k := by
  induction fuel generalizing p acc with
  | zero => simp [parsePathLoop] at h
  | succ fuel ih =>
    simp only [parsePathLoop] at h
    by_cases hc : p.currentToken.type = .RBRACKET
    · rw [matchType_true _ _ hc] at h
      simp only [Except.ok.injEq, Prod.mk.injEq] at h
      exact ⟨1, Nat.le_refl _, goodTokens_one _ (by rw [hc]; decide), h.2.symm⟩
    · rw [matchType_false _ _ hc] at h
      simp only [] at h
      cases hpt : parsePathPoint p with
      | error e => simp [hpt, bind, Except.bind] at h
      | ok r =>
        obtain ⟨pt, p1⟩ := r
        simp only [hpt, bind, Except.bind] at h
        obtain ⟨k1, hk1, hg1, rfl⟩ := parsePathPoint_reach p p1 pt hpt
        obtain ⟨k2, hk2, hg2, rfl⟩ := ih _ _ h
        exact ⟨k1 + k2, by omega, goodTokens_add _ _ _ hg1 hg2, (advanceN_add _ _ _).symm⟩

theorem parsePathLoop_fuel (fuel : Nat) (p : Parser) (acc : List (Int × Int))
    (hf : p.remaining < fuel) : parsePathLoop fuel p acc ≠ .error .fuel := by
  induction fuel generalizing p acc with
  | zero => omega
  | succ fuel ih =>
    simp only [parsePathLoop]
    by_cases hc : p.currentToken.type = .RBRACKET
    · rw [matchType_true _ _ hc]; simp
    · rw [matchType_false _ _ hc]
      simp only []
      cases hpt : parsePathPoint p with
      | error e =>
        have := parsePathPoint_fuel p
        rw [hpt] at this
        have he : e ≠ .fuel := fun hh => this (by rw [hh])
        simp [bind, Except.bind, he]
      | ok r =>
        obtain ⟨pt, p1⟩ := r
        simp only [bind, Except.bind]
        obtain ⟨k1, hk1, hg1, rfl⟩ := parsePathPoint_reach p p1 pt hpt
        have := remaining_good k1 p hg1
        exact ih _ _ (by omega)

theorem parseMapDecl_head (fuel : Nat) (p : Parser)
    (h : (∃ r, parseMapDecl fuel p = .ok r) ∨ parseMapDecl fuel p = .error .fuel) :
    upcomingTypes mapHeadTypes p = true := by
  rcases h with ⟨r, h⟩ | h
  · simp only [parseMapDecl, expect_bind_ok, stoi_bind_ok] at h
    obtain ⟨h1, h2, h3, h4, h5, h6, _, _, h7, h8, _, _, h9, h10, h11, h12, h13, _⟩ := h
    simp [upcomingTypes, mapHeadTypes, h1, h2, h3, h4, h5, h6, h7, h8, h9, h10, h11, h12, h13]
  · simp only [parseMapDecl, expect_bind_fuel, stoi_bind_fuel] at h
    obtain ⟨h1, h2, h3, h4, h5, h6, _, _, h7, h8, _, _, h9, h10, h11, h12, h13, _⟩ := h
    simp [upcomingTypes, mapHeadTypes, h1, h2, h3, h4, h5, h6, h7, h8, h9, h10, h11, h12, h13]

theorem except_bind_ok {ε α β : Type} (m : Except ε α) (f : α → Except ε β) (r : β) :
    (m >>= f) = .ok r ↔ ∃ v, m = .ok v ∧ f v = .ok r := by
  cases m <;> simp [bind, Except.bind]

theorem pathLoop_bind_ok {β : Type} (fuel : Nat) (p : Parser) (acc : List (Int × Int))
    (f : List (Int × Int) × Parser → Except ParseFailure β) (r : β) :
    (parsePathLoop fuel p acc >>= f) = .ok r
      ↔ ∃ v, parsePathLoop fuel p acc = .ok v ∧ f v = .ok r :=
  except_bind_ok _ _ _

theorem parseMapDecl_reach (fuel : Nat) (p p' : Parser) (v : MapDecl)
    (h : parseMapDecl fuel p = .ok (v, p')) :
    ∃ k, 1 ≤ k ∧ goodTokens k p = true ∧ p' = p.advanceN k := by
  have hu := parseMapDecl_head fuel p (Or.inl ⟨_, h⟩)
  have hg := goodTokens_of_upcoming mapHeadTypes p hu (by decide)
  simp only [parseMapDecl, expect_bind_ok, stoi_bind_ok, pathLoop_bind_ok, pure_ok_iff,
    Prod.mk.injEq] at h
  obtain ⟨_, _, _, _, _, _, _, _, _, _, _, _, _, _, _, _, _, ⟨path, p1⟩, hl, s1, s2, _, hp⟩ := h
  have hl' : parsePathLoop fuel (p.advanceN 13) [] = .ok (path, p1) := hl
  obtain ⟨k1, hk1, hg1, rfl⟩ := parsePathLoop_reach _ _ _ _ _ hl'
  simp only [] at s1 s2 hp
  refine ⟨13 + k1 + 1 + 1, by omega, ?_, ?_⟩
  · refine goodTokens_add _ 1 p (goodTokens_add _ 1 p (goodTokens_add 13 k1 p hg hg1) ?_) ?_
    · rw [advanceN_add]; exact goodTokens_one _ (by rw [s1]; decide)
    · rw [advanceN_add, advanceN_add]
      exact goodTokens_one _ (by
        show consumable ((p.advanceN 13).advanceN k1).advance.currentToken.type = true
        rw [s2]; decide)
  · rw [advanceN_add, advanceN_add, advanceN_add]; exact hp.symm

theorem except_bind_error {ε α β : Type} (m : Except ε α) (f : α → Except ε β) (e : ε) :
    (m >>= f) = .error e ↔ m = .error e ∨ ∃ v, m = .ok v ∧ f v = .error e := by
  cases m <;> simp [bind, Except.bind]

theorem pathLoop_bind_fuel {β : Type} (fuel : Nat) (p : Parser) (acc : List (Int × Int))
    (f : List (Int × Int) × Parser → Except ParseFailure β) :
    (parsePathLoop fuel p acc >>= f) = .error .fuel
      ↔ parsePathLoop fuel p acc = .error .fuel
        ∨ ∃ v, parsePathLoop fuel p acc = .ok v ∧ f v = .error .fuel :=
  except_bind_error _ _ _

theorem parseMapDecl_fuel (fuel : Nat) (p : Parser) (hf : p.remaining < fuel) :
    parseMapDecl fuel p ≠ .error .fuel := by
  intro h
  have hu := parseMapDecl_head fuel p (Or.inr h)
  have hg := goodTokens_of_upcoming mapHeadTypes p hu (by decide)
  have hr : (p.advanceN 13).remaining + 13 ≤ p.remaining := remaining_good 13 p hg
  simp only [parseMapDecl, expect_bind_fuel, stoi_bind_fuel, pathLoop_bind_fuel, pure_ne_fuel,
    and_false, exists_false, or_false] at h
  obtain ⟨_, _, _, _, _, _, _, _, _, _, _, _, _, _, _, _, _, hl⟩ := h
  have hl' : parsePathLoop fuel (p.advanceN 13) [] = .error .fuel := hl
  exact parsePathLoop_fuel fuel _ [] (by omega) hl'

theorem parseSpawnStmt_reach (p p' : Parser) (v : SpawnStmt)
    (h : parseSpawnStmt p = .ok (v, p')) :
    goodTokens 16 p = true ∧ p' = p.advanceN 16 := by
  obtain ⟨hu, hp⟩ := parseSpawnStmt_ok p p' v h
  exact ⟨goodTokens_of_upcoming spawnTypes p hu (by decide), hp⟩

theorem parseSpawnLoop_reach (fuel : Nat) (p p' : Parser) (acc spawns : List SpawnStmt)
    (h : parseSpawnLoop fuel p acc = .ok (spawns, p')) :
    ∃ k, goodTokens k p = true ∧ p' = p.advanceN k := by
  induction fuel generalizing p acc with
  | zero => simp [parseSpawnLoop] at h
  | succ fuel ih =>
    simp only [parseSpawnLoop] at h
    by_cases hc : p.currentToken.type = .SPAWN
    · rw [matchType_true _ _ hc] at h
      simp only [] at h
      cases hst : parseSpawnStmt p.advance with
      | error e => simp [hst, bind, Except.bind] at h
      | ok r =>
        obtain ⟨st, p1⟩ := r
        simp only [hst, bind, Except.bind] at h
        obtain ⟨hg1, rfl⟩ := parseSpawnStmt_reach _ p1 st hst
        obtain ⟨k2, hg2, rfl⟩ := ih _ _ h
        refine ⟨1 + 16 + k2, ?_, ?_⟩
        · exact goodTokens_add _ _ _
            (goodTokens_add 1 16 p (goodTokens_one _ (by rw [hc]; decide)) hg1)
            (by rw [advanceN_add]; exact hg2)
        · rw [advanceN_add, advanceN_add]; rfl
    · rw [matchType_false _ _ hc] at h
      simp only [Except.ok.injEq, Prod.mk.injEq] at h
      exact ⟨0, rfl, h.2.symm⟩

theorem parseSpawnLoop_fuel (fuel : Nat) (p : Parser) (acc : List SpawnStmt)
    (hf : p.remaining < fuel) : parseSpawnLoop fuel p acc ≠ .error .fuel := by
  induction fuel generalizing p acc with
  | zero => omega
  | succ fuel ih =>
    simp only [parseSpawnLoop]
    by_cases hc : p.currentToken.type = .SPAWN
    · rw [matchType_true _ _ hc]
      simp only []
      have hr1 := remaining_advance p (by rw [hc]; decide)
      cases hst : parseSpawnStmt p.advance with
      | error e =>
        have := parseSpawnStmt_fuel p.advance
        rw [hst] at this
        have he : e ≠ .fuel := fun hh => this (by rw [hh])
        simp [bind, Except.bind, he]
      | ok r =>
        obtain ⟨st, p1⟩ := r
        simp only [bind, Except.bind]
        obtain ⟨hg1, rfl⟩ := parseSpawnStmt_reach _ p1 st hst
        have := remaining_good 16 _ hg1
        exact ih _ _ (by omega)
    · rw [matchType_false _ _ hc]; simp

theorem spawnLoop_bind_ok {β : Type} (fuel : Nat) (p : Parser) (acc : List SpawnStmt)
    (f : List SpawnStmt × Parser → Except ParseFailure β) (r : β) :
    (parseSpawnLoop fuel p acc >>= f) = .ok r
      ↔ ∃ v, parseSpawnLoop fuel p acc = .ok v ∧ f v = .ok r :=
  except_bind_ok _ _ _

theorem spawnLoop_bind_fuel {β : Type} (fuel : Nat) (p : Parser) (acc : List SpawnStmt)
    (f : List SpawnStmt × Parser → Except ParseFailure β) :
    (parseSpawnLoop fuel p acc >>= f) = .error .fuel
      ↔ parseSpawnLoop fuel p acc = .error .fuel
        ∨ ∃ v, parseSpawnLoop fuel p acc = .ok v ∧ f v = .error .fuel :=
  except_bind_error _ _ _

theorem parseWaveDecl_reach (fuel : Nat) (p p' : Parser) (v : WaveDecl)
    (h : parseWaveDecl fuel p = .ok (v, p')) :
    ∃ k, 1 ≤ k ∧ goodTokens k p = true ∧ p' = p.advanceN k := by
  simp only [parseWaveDecl, expect_bind_ok, spawnLoop_bind_ok, pure_ok_iff,
    Prod.mk.injEq] at h
  obtain ⟨h1, h2, ⟨spawns, p1⟩, hl, s1, _, hp⟩ := h
  have hl' : parseSpawnLoop fuel (p.advanceN 2) [] = .ok (spawns, p1) := hl
  obtain ⟨k1, hg1, rfl⟩ := parseSpawnLoop_reach _ _ _ _ _ hl'
  simp only [] at s1 hp
  have hg : goodTokens 2 p = true := by
    simp [goodTokens, h1, h2, consumable]
  refine ⟨2 + k1 + 1, by omega, ?_, ?_⟩
  · refine goodTokens_add _ 1 p (goodTokens_add 2 k1 p hg hg1) ?_
    rw [advanceN_add]; exact goodTokens_one _ (by rw [s1]; decide)
  · rw [advanceN_add, advanceN_add]; exact hp.symm

theorem parseWaveDecl_fuel (fuel : Nat) (p : Parser) (hf : p.remaining < fuel) :
    parseWaveDecl fuel p ≠ .error .fuel := by
  intro h
  simp only [parseWaveDecl, expect_bind_fuel, spawnLoop_bind_fuel, pure_ne_fuel,
    and_false, exists_false, or_false] at h
  obtain ⟨h1, h2, hl⟩ := h
  have hl' : parseSpawnLoop fuel (p.advanceN 2) [] = .error .fuel := hl
  have hg : goodTokens 2 p = true := by
    simp [goodTokens, h1, h2, consumable]
  have hr := remaining_good 2 p hg
  exact parseSpawnLoop_fuel fuel _ [] (by omega) hl'

theorem parseDeclaration_reach (fuel : Nat) (p p' : Parser) (v : Decl)
    (h : parseDeclaration fuel p = .ok (v, p')) :
    ∃ k, 1 ≤ k ∧ goodTokens k p = true ∧ p' = p.advanceN k := by
  have key : ∀ (ty : TokenType) (k : Nat), p.currentToken.type = ty → consumable ty = true →
      goodTokens k p.advance = true → p' = p.advance.advanceN k →
      ∃ k, 1 ≤ k ∧ goodTokens k p = true ∧ p' = p.advanceN k := by
    intro ty k hty hc hg hp
    refine ⟨1 + k, by omega, goodTokens_add 1 k p (goodTokens_one _ (by rw [hty]; exact hc)) hg, ?_⟩
    rw [advanceN_add]; exact hp
  simp only [parseDeclaration] at h
  by_cases h1 : p.currentToken.type = .MAP
  · rw [matchType_true _ _ h1] at h
    simp only [except_bind_ok, pure_ok_iff, Prod.mk.injEq] at h
    obtain ⟨⟨node, p1⟩, hn, _, rfl⟩ := h
    obtain ⟨k, _, hg, hp⟩ := parseMapDecl_reach _ _ _ _ hn
    exact key _ k h1 (by decide) hg hp
  rw [matchType_false _ _ h1] at h
  simp only [] at h
  by_cases h2 : p.currentToken.type = .ENEMY
  · rw [matchType_true _ _ h2] at h
    simp only [except_bind_ok, pure_ok_iff, Prod.mk.injEq] at h
    obtain ⟨⟨node, p1⟩, hn, _, rfl⟩ := h
    obtain ⟨hu, hp⟩ := parseEnemyDecl_ok _ _ _ hn
    exact key _ _ h2 (by decide) (goodTokens_of_upcoming enemyTypes _ hu (by decide)) hp
  rw [matchType_false _ _ h2] at h
  simp only [] at h
  by_cases h3 : p.currentToken.type = .TOWER
  · rw [matchType_true _ _ h3] at h
    simp only [except_bind_ok, pure_ok_iff, Prod.mk.injEq] at h
    obtain ⟨⟨node, p1⟩, hn, _, rfl⟩ := h
    obtain ⟨hu, hp⟩ := parseTowerDecl_ok _ _ _ hn
    exact key _ _ h3 (by decide) (goodTokens_of_upcoming towerTypes _ hu (by decide)) hp
  rw [matchType_false _ _ h3] at h
  simp only [] at h
  by_cases h4 : p.currentToken.type = .WAVE
  · rw [matchType_true _ _ h4] at h
    simp only [except_bind_ok, pure_ok_iff, Prod.mk.injEq] at h
    obtain ⟨⟨node, p1⟩, hn, _, rfl⟩ := h
    obtain ⟨k, _, hg, hp⟩ := parseWaveDecl_reach _ _ _ _ hn
    exact key _ k h4 (by decide) hg hp
  rw [matchType_false _ _ h4] at h
  simp only [] at h
  by_cases h5 : p.currentToken.type = .PLACE
  · rw [matchType_true _ _ h5] at h
    simp only [except_bind_ok, pure_ok_iff, Prod.mk.injEq] at h
    obtain ⟨⟨node, p1⟩, hn, _, rfl⟩ := h
    obtain ⟨hu, hp⟩ := parsePlaceStmt_ok _ _ _ hn
    exact key _ _ h5 (by decide) (goodTokens_of_upcoming placeTypes _ hu (by decide)) hp
  rw [matchType_false _ _ h5] at h
  simp at h

theorem parseDeclaration_fuel (fuel : Nat) (p : Parser) (hf : p.remaining ≤ fuel)
    (hne : p.currentToken.type ≠ .END_OF_FILE) :
    parseDeclaration fuel p ≠ .error .fuel := by
  have hr := remaining_advance p hne
  intro h
  simp only [parseDeclaration] at h
  by_cases h1 : p.currentToken.type = .MAP
  · rw [matchType_true _ _ h1] at h
    simp only [except_bind_error, pure_ne_fuel, and_false, exists_false, or_false] at h
    exact parseMapDecl_fuel fuel _ (by omega) h
  rw [matchType_false _ _ h1] at h
  simp only [] at h
  by_cases h2 : p.currentToken.type = .ENEMY
  · rw [matchType_true _ _ h2] at h
    simp only [except_bind_error, pure_ne_fuel, and_false, exists_false, or_false] at h
    exact parseEnemyDecl_fuel _ h
  rw [matchType_false _ _ h2] at h
  simp only [] at h
  by_cases h3 : p.currentToken.type = .TOWER
  · rw [matchType_true _ _ h3] at h
    simp only [except_bind_error, pure_ne_fuel, and_false, exists_false, or_false] at h
    exact parseTowerDecl_fuel _ h
  rw [matchType_false _ _ h3] at h
  simp only [] at h
  by_cases h4 : p.currentToken.type = .WAVE
  · rw [matchType_true _ _ h4] at h
    simp only [except_bind_error, pure_ne_fuel, and_false, exists_false, or_false] at h
    exact parseWaveDecl_fuel fuel _ (by omega) h
  rw [matchType_false _ _ h4] at h
  simp only [] at h
  by_cases h5 : p.currentToken.type = .PLACE
  · rw [matchType_true _ _ h5] at h
    simp only [except_bind_error, pure_ne_fuel, and_false, exists_false, or_false] at h
    exact parsePlaceStmt_fuel _ h
  rw [matchType_false _ _ h5] at h
  simp at h

theorem parseProgramLoop_reach (fuel : Nat) (p p' : Parser) (acc : List Decl) (v : Program)
    (h : parseProgramLoop fuel p acc = .ok (v, p')) :
    ∃ k, goodTokens k p = true ∧ p' = p.advanceN k
      ∧ p'.currentToken.type = .END_OF_FILE := by
  induction fuel generalizing p acc with
  | zero => simp [parseProgramLoop] at h
  | succ fuel ih =>
    simp only [parseProgramLoop] at h
    by_cases hc : p.currentToken.type = .END_OF_FILE
    · simp only [hc, ne_eq, not_true_eq_false, if_false, Except.ok.injEq, Prod.mk.injEq] at h
      obtain ⟨_, rfl⟩ := h
      exact ⟨0, rfl, rfl, hc⟩
    · simp only [hc, ne_eq, not_false_eq_true, if_true, except_bind_ok] at h
      obtain ⟨⟨node, p1⟩, hd, hl⟩ := h
      obtain ⟨k1, _, hg1, rfl⟩ := parseDeclaration_reach _ _ _ _ hd
      obtain ⟨k2, hg2, rfl, he⟩ := ih _ _ hl
      exact ⟨k1 + k2, goodTokens_add _ _ _ hg1 hg2, (advanceN_add _ _ _).symm, he⟩

theorem parseProgramLoop_fuel (fuel : Nat) (p : Parser) (acc : List Decl)
    (hf : p.remaining < fuel) : parseProgramLoop fuel p acc ≠ .error .fuel := by
  induction fuel generalizing p acc with
  | zero => omega
  | succ fuel ih =>
    simp only [parseProgramLoop]
    by_cases hc : p.currentToken.type = .END_OF_FILE
    · simp [hc]
    · simp only [hc, ne_eq, not_false_eq_true, if_true]
      intro h
      rw [except_bind_error] at h
      rcases h with h | ⟨⟨node, p1⟩, hd, hl⟩
      · exact parseDeclaration_fuel fuel p (by omega) hc h
      · obtain ⟨k1, hk1, hg1, rfl⟩ := parseDeclaration_reach _ _ _ _ hd
        have := remaining_good k1 p hg1
        exact ih (p.advanceN k1) _ (by omega) hl

/-- The bound on loop iterations is never reached: `parseProgram` returns a
program or stops with a diagnostic or an exception. -/
theorem parseProgram_total (p : Parser) : parseProgram p ≠ .error .fuel := by
  apply parseProgramLoop_fuel
  simp only [Parser.remaining]
  split <;> omega

/-! ## The token stream of a parsed source -/

theorem tokenAt_stateAt (l : Lexer) (k : Nat) :
    l.tokenAt k = ((l.stateAt k).getNextToken).1 := by
  induction k generalizing l with
  | zero => rfl
  | succ k ih => simp only [Lexer.tokenAt, Lexer.stateAt]; exact ih _

theorem advanceN_new (k : Nat) (l : Lexer) :
    ((Parser.new l).advanceN k).currentToken = l.tokenAt k := by
  induction k generalizing l with
  | zero => rfl
  | succ k ih =>
    simp only [Parser.advanceN, Lexer.tokenAt]
    exact ih (l.getNextToken).2

theorem tokenAt_eof_forever (l : Lexer) (h : (l.getNextToken).1.type = .END_OF_FILE)
    (k : Nat) : (l.tokenAt k).type = .END_OF_FILE := by
  induction k generalizing l with
  | zero => exact h
  | succ k ih =>
    simp only [Lexer.tokenAt]
    apply ih
    rw [getNextToken_eof_again l h]; exact h

theorem tokenAt_eof_after (k : Nat) (l : Lexer) (h : (l.tokenAt k).type = .END_OF_FILE)
    (j : Nat) (hj : k ≤ j) : (l.tokenAt j).type = .END_OF_FILE := by
  induction k generalizing l j with
  | zero => exact tokenAt_eof_forever l h j
  | succ k ih =>
    cases j with
    | zero => omega
    | succ j =>
      simp only [Lexer.tokenAt] at h ⊢
      exact ih _ h j (by omega)

theorem goodTokens_tokenAt (k : Nat) (l : Lexer) (h : goodTokens k (Parser.new l) = true)
    (j : Nat) (hj : j < k) : consumable (l.tokenAt j).type = true := by
  induction k generalizing l j with
  | zero => omega
  | succ k ih =>
    simp only [goodTokens, Bool.and_eq_true] at h
    cases j with
    | zero => exact h.1
    | succ j =>
      simp only [Lexer.tokenAt]
      exact ih (l.getNextToken).2 h.2 j (by omega)

theorem parsedProgram_some (source : String) (program : Program)
    (h : parsedProgram source = some program) :
    ∃ p', parseProgram (Parser.new (Lexer.new source)) = .ok (program, p') := by
  simp only [parsedProgram, parseSource] at h
  cases hp : parseProgram (Parser.new (Lexer.new source)) with
  | error e => simp [hp, Except.map] at h
  | ok r =>
    obtain ⟨v, p'⟩ := r
    simp only [hp, Except.map, Option.some.injEq] at h
    exact ⟨p', by rw [← h]⟩

theorem parsed_tokens_known (source : String) (program : Program)
    (h : parsedProgram source = some program) (k : Nat) :
    ((Lexer.new source).tokenAt k).type ≠ .UNKNOWN := by
  obtain ⟨p', hp⟩ := parsedProgram_some source program h
  obtain ⟨n, hg, rfl, he⟩ := parseProgramLoop_reach _ _ _ _ _ hp
  rw [advanceN_new] at he
  by_cases hk : k < n
  · have := goodTokens_tokenAt n _ hg k hk
    simp only [consumable, decide_eq_true_eq] at this
    exact this.1
  · rw [tokenAt_eof_after n _ he k (by omega)]
    decide

/-- C17 (amended): when a source parses, no token that the lexer produces for
it has type `UNKNOWN`; equivalently, every token of the source starts, after
the white space and the comment that the lexer skips, at a digit, a letter, an
underscore or one of `{ } ( ) [ ] , ; =`. -/
theorem unknown_token_rejected (source : String) (program : Program)
    (h : parsedProgram source = some program) :
    (∀ k, ((Lexer.new source).tokenAt k).type ≠ .UNKNOWN)
    ∧ (∀ k c cs, ((Lexer.new source).stateAt k).skip.rest = c :: cs →
        startsToken c = true) := by
  refine ⟨parsed_tokens_known source program h, fun k c cs hr => ?_⟩
  have hk := parsed_tokens_known source program h k
  rw [tokenAt_stateAt] at hk
  cases hs : startsToken c with
  | true => rfl
  | false => exact absurd ((getNextToken_unknown_iff _).2 ⟨c, cs, hr, hs⟩) hk

/-- C17, at a source with a map declaration: its fourth token is not `UNKNOWN`. -/
theorem unknown_token_rejected_witness :
    ((Lexer.new "map M { size = (3, 3); path = [(0,0),(1,0),(2,0)]; }").tokenAt 3).type
      ≠ .UNKNOWN :=
  (unknown_token_rejected "map M { size = (3, 3); path = [(0,0),(1,0),(2,0)]; }"
    ⟨[.map ⟨"M", 3, 3, [(0, 0), (1, 0), (2, 0)]⟩]⟩ (by decide)).1 3

/-- C17, counterexample to the claim as stated: a source with the character
`.`, outside any comment, that parses. -/
theorem dot_in_float_accepted :
    parsedProgram "enemy G { hp = 1; speed = 1.5; reward = 2; }"
        = some ⟨[.enemy ⟨"G", 1, 3 / 2, 2⟩]⟩
    ∧ '.' ∈ "enemy G { hp = 1; speed = 1.5; reward = 2; }".data
    ∧ '/' ∉ "enemy G { hp = 1; speed = 1.5; reward = 2; }".data
    ∧ isspace '.' = false ∧ isalpha '.' = false ∧ isdigit '.' = false
    ∧ '.' ∉ ['_', '{', '}', '(', ')', '[', ']', ',', ';', '='] := by
  refine ⟨by with_unfolding_all decide, by decide, by decide, by decide, by decide, by decide,
    by decide⟩

/-! ## Token types required by the parser -/

theorem rejected_of {α : Type} (x : Except ParseFailure α) (h1 : ∀ r, x ≠ .ok r)
    (h2 : x ≠ .error .fuel) : rejected x = true := by
  cases x with
  | ok r => exact absurd rfl (h1 r)
  | error e =>
    cases e with
    | exit d => rfl
    | exception w => rfl
    | fuel => exact absurd rfl h2

theorem not_upcoming (ts : List TokenType) (p : Parser) (k : Nat) (t t' : TokenType)
    (hk : ts.get? k = some t) (ht : (p.tokenAt k).type = t') (hne : t' ≠ t) :
    upcomingTypes ts p ≠ true := by
  intro h
  have := upcomingTypes_tokenAt ts p h k t hk
  rw [ht] at this
  exact hne this

theorem enemy_rejected (p : Parser) (k : Nat) (t t' : TokenType)
    (hk : enemyTypes.get? k = some t) (ht : (p.tokenAt k).type = t') (hne : t' ≠ t) :
    rejected (parseEnemyDecl p) = true :=
  rejected_of _ (fun r h => not_upcoming _ p k t t' hk ht hne (parseEnemyDecl_ok p r.2 r.1 h).1)
    (parseEnemyDecl_fuel p)

theorem tower_rejected (p : Parser) (k : Nat) (t t' : TokenType)
    (hk : towerTypes.get? k = some t) (ht : (p.tokenAt k).type = t') (hne : t' ≠ t) :
    rejected (parseTowerDecl p) = true :=
  rejected_of _ (fun r h => not_upcoming _ p k t t' hk ht hne (parseTowerDecl_ok p r.2 r.1 h).1)
    (parseTowerDecl_fuel p)

theorem place_rejected (p : Parser) (k : Nat) (t t' : TokenType)
    (hk : placeTypes.get? k = some t) (ht : (p.tokenAt k).type = t') (hne : t' ≠ t) :
    rejected (parsePlaceStmt p) = true :=
  rejected_of _ (fun r h => not_upcoming _ p k t t' hk ht hne (parsePlaceStmt_ok p r.2 r.1 h).1)
    (parsePlaceStmt_fuel p)

theorem spawn_rejected (p : Parser) (k : Nat) (t t' : TokenType)
    (hk : spawnTypes.get? k = some t) (ht : (p.tokenAt k).type = t') (hne : t' ≠ t) :
    rejected (parseSpawnStmt p) = true :=
  rejected_of _ (fun r h => not_upcoming _ p k t t' hk ht hne (parseSpawnStmt_ok p r.2 r.1 h).1)
    (parseSpawnStmt_fuel p)

theorem point_rejected (p : Parser) (k : Nat) (t t' : TokenType)
    (hk : pointTypes.get? k = some t) (ht : (p.tokenAt k).type = t') (hne : t' ≠ t) :
    rejected (parsePathPoint p) = true :=
  rejected_of _ (fun r h => not_upcoming _ p k t t' hk ht hne (parsePathPoint_ok p r.2 r.1 h).1)
    (parsePathPoint_fuel p)

theorem map_rejected (fuel : Nat) (p : Parser) (k : Nat) (t t' : TokenType)
    (hk : mapHeadTypes.get? k = some t) (ht : (p.tokenAt k).type = t') (hne : t' ≠ t) :
    rejected (parseMapDecl fuel p) = true :=
  rejected_of _
    (fun r h => not_upcoming _ p k t t' hk ht hne (parseMapDecl_head fuel p (Or.inl ⟨r, h⟩)))
    (fun h => not_upcoming _ p k t t' hk ht hne (parseMapDecl_head fuel p (Or.inr h)))

/-- C18: an enemy declaration whose speed value is an `INT` token and a tower
declaration whose fire rate value is an `INT` token are rejected, and so is a
`FLOAT` token at the place of the map width or height, of a path or placement
coordinate, of hp, reward, range, damage, cost, count, start or interval.
Places are counted in tokens from the token after the keyword (`enemy`,
`tower`, `map`, `place`, `spawn`) or from the `(` of a path element. -/
theorem int_float_distinct (p : Parser) (fuel : Nat) :
    ((p.tokenAt 8).type = .INT → rejected (parseEnemyDecl p) = true)
    ∧ ((p.tokenAt 12).type = .INT → rejected (parseTowerDecl p) = true)
    ∧ ((p.tokenAt 4).type = .FLOAT ∨ (p.tokenAt 12).type = .FLOAT →
        rejected (parseEnemyDecl p) = true)
    ∧ ((p.tokenAt 4).type = .FLOAT ∨ (p.tokenAt 8).type = .FLOAT
        ∨ (p.tokenAt 16).type = .FLOAT → rejected (parseTowerDecl p) = true)
    ∧ ((p.tokenAt 5).type = .FLOAT ∨ (p.tokenAt 7).type = .FLOAT →
        rejected (parseMapDecl fuel p) = true)
    ∧ ((p.tokenAt 1).type = .FLOAT ∨ (p.tokenAt 3).type = .FLOAT →
        rejected (parsePathPoint p) = true)
    ∧ ((p.tokenAt 3).type = .FLOAT ∨ (p.tokenAt 5).type = .FLOAT →
        rejected (parsePlaceStmt p) = true)
    ∧ ((p.tokenAt 5).type = .FLOAT ∨ (p.tokenAt 9).type = .FLOAT
        ∨ (p.tokenAt 13).type = .FLOAT → rejected (parseSpawnStmt p) = true) := by
  refine ⟨fun h => enemy_rejected p 8 .FLOAT .INT rfl h (by decide),
    fun h => tower_rejected p 12 .FLOAT .INT rfl h (by decide), ?_, ?_, ?_, ?_, ?_, ?_⟩
  · rintro (h | h)
    · exact enemy_rejected p 4 .INT .FLOAT rfl h (by decide)
    · exact enemy_rejected p 12 .INT .FLOAT rfl h (by decide)
  · rintro (h | h | h)
    · exact tower_rejected p 4 .INT .FLOAT rfl h (by decide)
    · exact tower_rejected p 8 .INT .FLOAT rfl h (by decide)
    · exact tower_rejected p 16 .INT .FLOAT rfl h (by decide)
  · rintro (h | h)
    · exact map_rejected fuel p 5 .INT .FLOAT rfl h (by decide)
    · exact map_rejected fuel p 7 .INT .FLOAT rfl h (by decide)
  · rintro (h | h)
    · exact point_rejected p 1 .INT .FLOAT rfl h (by decide)
    · exact point_rejected p 3 .INT .FLOAT rfl h (by decide)
  · rintro (h | h)
    · exact place_rejected p 3 .INT .FLOAT rfl h (by decide)
    · exact place_rejected p 5 .INT .FLOAT rfl h (by decide)
  · rintro (h | h | h)
    · exact spawn_rejected p 5 .INT .FLOAT rfl h (by decide)
    · exact spawn_rejected p 9 .INT .FLOAT rfl h (by decide)
    · exact spawn_rejected p 13 .INT .FLOAT rfl h (by decide)

/-- C18, at the sources `enemy G { hp = 1; speed = 1; reward = 2; }` and
`place T at (1.5, 2);` after their keyword: both are rejected, and parsing the
first source stops with the diagnostic of the speed value. -/
theorem int_float_distinct_witness :
    rejected (parseEnemyDecl
      (Parser.new (Lexer.new "enemy G { hp = 1; speed = 1; reward = 2; }")).advance) = true
    ∧ rejected (parsePlaceStmt
      (Parser.new (Lexer.new "place T at (1.5, 2);")).advance) = true
    ∧ parseFailure "enemy G { hp = 1; speed = 1; reward = 2; }"
        = some (.exit "Parser Error: expected speed value at line 1\n") :=
  ⟨(int_float_distinct
      (Parser.new (Lexer.new "enemy G { hp = 1; speed = 1; reward = 2; }")).advance 0).1
      (by set_option maxRecDepth 100000 in decide),
   (int_float_distinct
      (Parser.new (Lexer.new "place T at (1.5, 2);")).advance 0).2.2.2.2.2.2.1
      (Or.inl (by set_option maxRecDepth 100000 in decide)),
   by set_option maxRecDepth 100000 in decide⟩

/-! ## Optional commas of the path list -/

theorem upcoming_append (a b : List (TokenType × String)) (p : Parser) :
    upcoming (a ++ b) p = (upcoming a p && upcoming b (p.advanceN a.length)) := by
  induction a generalizing p with
  | nil => simp [upcoming, Parser.advanceN]
  | cons t ts ih => simp [upcoming, Parser.advanceN, ih, Bool.and_assoc]

theorem expect_ok (p : Parser) (ty : TokenType) (msg : String)
    (h : p.currentToken.type = ty) : p.expect ty msg = .ok (p.currentToken, p.advance) := by
  simp [Parser.expect, h]

theorem pathTokens_head (pts : List (String × String)) (commas : List Bool)
    (rest : List (TokenType × String)) (p : Parser)
    (h : upcoming (pathTokens pts commas ++ (.RBRACKET, "]") :: rest) p = true) :
    p.currentToken.type ≠ .COMMA
    ∧ (p.currentToken.type = .RBRACKET ↔ pts = []) := by
  cases pts with
  | nil =>
    simp only [pathTokens, List.nil_append, upcoming, Bool.and_eq_true, decide_eq_true_eq] at h
    rw [h.1.1]; simp
  | cons pt pts =>
    cases commas <;>
    · simp only [pathTokens, pointTokens, List.cons_append, upcoming, Bool.and_eq_true,
        decide_eq_true_eq] at h
      rw [h.1.1]; simp

theorem parsePathPoint_tokens (pt : String × String) (comma : Bool)
    (rest : List (TokenType × String)) (p : Parser)
    (h : upcoming (pointTokens pt comma ++ rest) p = true)
    (hn : ((p.advanceN (pointTokens pt comma).length).currentToken.type ≠ .COMMA)) :
    parsePathPoint p = (do
      let x ← stoi pt.1
      let y ← stoi pt.2
      pure ((x, y), p.advanceN (pointTokens pt comma).length)) := by
  cases comma with
  | false =>
    simp only [pointTokens, Bool.false_eq_true, if_false, List.append_nil, List.cons_append,
      List.nil_append, upcoming, Bool.and_eq_true, decide_eq_true_eq, List.length_cons,
      List.length_nil] at h hn ⊢
    obtain ⟨⟨h1, _⟩, ⟨h2, l2⟩, ⟨h3, _⟩, ⟨h4, l4⟩, ⟨h5, _⟩, _⟩ := h
    simp only [Parser.advanceN] at hn ⊢
    simp only [parsePathPoint, expect_ok _ _ _ h1, expect_ok _ _ _ h2, expect_ok _ _ _ h3,
      expect_ok _ _ _ h4, expect_ok _ _ _ h5, l2, l4, matchType_false _ _ hn, bind,
      Except.bind]
  | true =>
    simp only [pointTokens, if_true, List.cons_append, List.nil_append, upcoming,
      Bool.and_eq_true, decide_eq_true_eq, List.length_cons, List.length_nil] at h ⊢
    obtain ⟨⟨h1, _⟩, ⟨h2, l2⟩, ⟨h3, _⟩, ⟨h4, l4⟩, ⟨h5, _⟩, ⟨h6, _⟩, _⟩ := h
    simp only [Parser.advanceN]
    simp only [parsePathPoint, expect_ok _ _ _ h1, expect_ok _ _ _ h2, expect_ok _ _ _ h3,
      expect_ok _ _ _ h4, expect_ok _ _ _ h5, l2, l4, matchType_true _ _ h6, bind,
      Except.bind]

theorem pathTokens_cons (pt : String × String) (pts : List (String × String))
    (commas : List Bool) :
    pathTokens (pt :: pts) commas
      = pointTokens pt (commas.headD false) ++ pathTokens pts commas.tail := by
  cases commas <;> rfl

theorem parsePathLoop_tokens (pts : List (String × String)) (commas : List Bool)
    (rest : List (TokenType × String)) (fuel : Nat) (p : Parser) (acc : List (Int × Int))
    (h : upcoming (pathTokens pts commas ++ (.RBRACKET, "]") :: rest) p = true)
    (hf : pts.length < fuel) :
    parsePathLoop fuel p acc
      = (pathResult pts).map
          (fun path => (acc ++ path, p.advanceN ((pathTokens pts commas).length + 1))) := by
  induction pts generalizing commas fuel p acc with
  | nil =>
    obtain ⟨_, hb⟩ := pathTokens_head [] commas rest p h
    cases fuel with
    | zero => simp at hf
    | succ fuel =>
      simp only [parsePathLoop, matchType_true _ _ (hb.2 rfl), pathResult, pathTokens,
        List.length_nil, Nat.zero_add, Parser.advanceN]
      simp [pure, Except.pure, Except.map]
  | cons pt pts ih =>
    obtain ⟨_, hb⟩ := pathTokens_head (pt :: pts) commas rest p h
    have hnb : p.currentToken.type ≠ .RBRACKET := fun e => by
      have := hb.1 e; cases this
    cases fuel with
    | zero => simp at hf
    | succ fuel =>
      rw [pathTokens_cons, List.append_assoc, upcoming_append, Bool.and_eq_true] at h
      have hrest := h.2
      have hn := (pathTokens_head pts commas.tail rest _ hrest).1
      have hpt := parsePathPoint_tokens pt (commas.headD false) _ p
        (by rw [upcoming_append, Bool.and_eq_true]; exact h) hn
      simp only [parsePathLoop, matchType_false _ _ hnb, hpt, pathResult]
      cases hx : stoi pt.1 with
      | error e => simp [bind, Except.bind, Except.map]
      | ok x =>
        cases hy : stoi pt.2 with
        | error e => simp [bind, Except.bind, Except.map]
        | ok y =>
          simp only [bind, Except.bind, pure, Except.pure]
          rw [ih commas.tail fuel _ _ hrest (by simp only [List.length_cons] at hf; omega)]
          rw [pathTokens_cons]
          cases pathResult pts with
          | error e => simp [Except.map]
          | ok path =>
            simp only [Except.map, List.append_assoc, List.singleton_append, List.length_append,
              Except.ok.injEq, Prod.mk.injEq, true_and]
            rw [← advanceN_add, Nat.add_assoc]

/-- C19: when the tokens after the keyword `map` are those of a map
declaration, with a comma after any of the path elements or after none, the
parser returns the declaration that the lexemes denote, which does not depend
on where the commas are: two declarations that differ only in the commas of
the path list parse to the same `MapDecl`. -/
theorem path_commas_optional (name width height : String) (pts : List (String × String))
    (commas commas' : List Bool) (p q : Parser) (fuel fuel' : Nat)
    (hp : upcoming (mapTokens name width height pts commas) p = true)
    (hq : upcoming (mapTokens name width height pts commas') q = true)
    (hf : pts.length < fuel) (hf' : pts.length < fuel') :
    (parseMapDecl fuel p).map Prod.fst = mapResult name width height pts
    ∧ (parseMapDecl fuel' q).map Prod.fst = mapResult name width height pts := by
  have key : ∀ (commas : List Bool) (p : Parser) (fuel : Nat),
      upcoming (mapTokens name width height pts commas) p = true → pts.length < fuel →
      (parseMapDecl fuel p).map Prod.fst = mapResult name width height pts := by
    intro commas p fuel hp hf
    simp only [mapTokens, List.append_assoc] at hp
    rw [upcoming_append, Bool.and_eq_true] at hp
    obtain ⟨hhead, hrest⟩ := hp
    simp only [upcoming, Bool.and_eq_true, decide_eq_true_eq] at hhead
    obtain ⟨⟨h1, l1⟩, ⟨h2, _⟩, ⟨h3, _⟩, ⟨h4, _⟩, ⟨h5, _⟩, ⟨h6, l6⟩, ⟨h7, _⟩, ⟨h8, l8⟩, ⟨h9, _⟩,
      ⟨h10, _⟩, ⟨h11, _⟩, ⟨h12, _⟩, ⟨h13, _⟩, _⟩ := hhead
    simp only [List.length_cons, List.length_nil, Parser.advanceN] at hrest
    have hloop := parsePathLoop_tokens pts commas [(.SEMICOLON, ";"), (.RBRACE, "\x7d")] fuel _ []
      hrest hf
    rw [upcoming_append, Bool.and_eq_true] at hrest
    have htail := hrest.2
    simp only [upcoming, Parser.advanceN, Bool.and_eq_true, decide_eq_true_eq] at htail
    obtain ⟨_, ⟨s1, _⟩, ⟨s2, _⟩, _⟩ := htail
    have s1' : (Parser.advanceN ((pathTokens pts commas).length + 1)
        p.advance.advance.advance.advance.advance.advance.advance.advance.advance.advance.advance.advance.advance).currentToken.type
        = .SEMICOLON := by
      rw [advanceN_add]; simp only [Parser.advanceN]; exact s1
    have s2' : (Parser.advanceN ((pathTokens pts commas).length + 1)
        p.advance.advance.advance.advance.advance.advance.advance.advance.advance.advance.advance.advance.advance).advance.currentToken.type
        = .RBRACE := by
      rw [advanceN_add]; simp only [Parser.advanceN]; exact s2
    cases hw : stoi width with
    | error e =>
      simp only [parseMapDecl, expect_ok _ _ _ h1, expect_ok _ _ _ h2, expect_ok _ _ _ h3,
        expect_ok _ _ _ h4, expect_ok _ _ _ h5, expect_ok _ _ _ h6, l1, l6, l8, hw, mapResult,
        bind, Except.bind, Except.map]
    | ok w =>
      cases hh : stoi height with
      | error e =>
        simp only [parseMapDecl, expect_ok _ _ _ h1, expect_ok _ _ _ h2, expect_ok _ _ _ h3,
          expect_ok _ _ _ h4, expect_ok _ _ _ h5, expect_ok _ _ _ h6, expect_ok _ _ _ h7,
          expect_ok _ _ _ h8, l1, l6, l8, hw, hh, mapResult, bind, Except.bind, Except.map]
      | ok h =>
        cases hpath : pathResult pts with
        | error e =>
          simp only [parseMapDecl, expect_ok _ _ _ h1, expect_ok _ _ _ h2, expect_ok _ _ _ h3,
            expect_ok _ _ _ h4, expect_ok _ _ _ h5, expect_ok _ _ _ h6, expect_ok _ _ _ h7,
            expect_ok _ _ _ h8, expect_ok _ _ _ h9, expect_ok _ _ _ h10, expect_ok _ _ _ h11,
            expect_ok _ _ _ h12, expect_ok _ _ _ h13, l1, l6, l8, hloop, hw, hh, hpath,
            mapResult, bind, Except.bind, Except.map]
        | ok path =>
          simp only [parseMapDecl, expect_ok _ _ _ h1, expect_ok _ _ _ h2, expect_ok _ _ _ h3,
            expect_ok _ _ _ h4, expect_ok _ _ _ h5, expect_ok _ _ _ h6, expect_ok _ _ _ h7,
            expect_ok _ _ _ h8, expect_ok _ _ _ h9, expect_ok _ _ _ h10, expect_ok _ _ _ h11,
            expect_ok _ _ _ h12, expect_ok _ _ _ h13, l1, l6, l8, hloop, hw, hh, hpath,
            mapResult, bind, Except.bind, Except.map, expect_ok _ _ _ s1',
            expect_ok _ _ _ s2', pure, Except.pure, List.nil_append]
  exact ⟨key commas p fuel hp hf, key commas' q fuel' hq hf'⟩

/-- C19, at the sources `map M { size = (3, 3); path = [(0,0),(1,0),(2,0)]; }`
and `map M { size = (3, 3); path = [(0,0) (1,0) (2,0),]; }` after the keyword:
both give the map `M` of size 3 by 3 with the three points in order. -/
theorem path_commas_optional_witness :
    ((parseMapDecl 4 (Parser.new (Lexer.new
        "map M { size = (3, 3); path = [(0,0),(1,0),(2,0)]; }")).advance).map Prod.fst
      = mapResult "M" "3" "3" [("0", "0"), ("1", "0"), ("2", "0")]
    ∧ (parseMapDecl 4 (Parser.new (Lexer.new
        "map M { size = (3, 3); path = [(0,0) (1,0) (2,0),]; }")).advance).map Prod.fst
      = mapResult "M" "3" "3" [("0", "0"), ("1", "0"), ("2", "0")])
    ∧ mapResult "M" "3" "3" [("0", "0"), ("1", "0"), ("2", "0")]
      = .ok ⟨"M", 3, 3, [(0, 0), (1, 0), (2, 0)]⟩ :=
  ⟨path_commas_optional "M" "3" "3" [("0", "0"), ("1", "0"), ("2", "0")]
    [true, true, false] [false, false, true] _ _ 4 4
    (by set_option maxRecDepth 100000 in decide)
    (by set_option maxRecDepth 100000 in decide) (by decide) (by decide),
   by rfl⟩

/-! ## Code generation -/

theorem escape_foldl (cs : List Char) (acc : String) :
    (cs.foldl (fun escaped c =>
      if c = '"' then escaped ++ "\\\""
      else if c = '\\' then escaped ++ "\\\\"
      else if c = '\n' then escaped ++ "\\n"
      else if c = '\r' then escaped ++ "\\r"
      else if c = '\t' then escaped ++ "\\t"
      else escaped ++ String.singleton c) acc).data = acc.data ++ cs.flatMap escapedChar := by
  induction cs generalizing acc with
  | nil => simp
  | cons c cs ih =>
    simp only [List.foldl_cons, List.flatMap_cons, ih, escapedChar]
    split_ifs <;> simp [String.data_append, String.singleton]

/-- C22: the escaped string is the concatenation, over the characters in
order, of backslash-quote for a quote, backslash-backslash for a backslash,
backslash-`n`, backslash-`r`, backslash-`t` for newline, carriage return and
tab, and of the character itself for every other character. -/
theorem escapeJSON_spec (s : String) :
    (escapeJSON s).data = s.data.flatMap escapedChar
    ∧ (∀ c, c ≠ '"' → c ≠ '\\' → c ≠ '\n' → c ≠ '\r' → c ≠ '\t' → escapedChar c = [c])
    ∧ escapedChar '"' = ['\\', '"'] ∧ escapedChar '\\' = ['\\', '\\']
    ∧ escapedChar '\n' = ['\\', 'n'] ∧ escapedChar '\r' = ['\\', 'r']
    ∧ escapedChar '\t' = ['\\', 't'] := by
  refine ⟨?_, ?_, rfl, rfl, rfl, rfl, rfl⟩
  · simp only [escapeJSON]
    rw [escape_foldl]
    rfl
  · intro c h1 h2 h3 h4 h5
    simp [escapedChar, h1, h2, h3, h4, h5]

/-- C24: the source of scenario A lexes and parses to the map `M`, the program
is accepted, and the JSON of its unoptimized IR is the `gameConfig` object
with the single section `map`: name `M`, width 3, height 3 and the three path
points in order; there is no other section. -/
theorem scenario_a_minimal_map (fmt : DoubleFormat) :
    parsedProgram scenarioASource = some scenarioAProgram
    ∧ accepted scenarioAProgram = true
    ∧ generate scenarioAProgram
        = [⟨.DEFINE_MAP, ["M"],
            [("width", .int 3), ("height", .int 3), ("path", .str "0,0;1,0;2,0")]⟩]
    ∧ generateJSON fmt (generate scenarioAProgram)
        = some ("\x7b\n  \"gameConfig\": \x7b\n"
            ++ "    \"map\": \x7b\n"
            ++ "      \"name\": \"M\",\n"
            ++ "      \"width\": 3,\n"
            ++ "      \"height\": 3,\n"
            ++ "      \"path\": [\n"
            ++ "        \x7b\"x\": 0, \"y\": 0\x7d,\n"
            ++ "        \x7b\"x\": 1, \"y\": 0\x7d,\n"
            ++ "        \x7b\"x\": 2, \"y\": 0\x7d\n"
            ++ "      ]\n"
            ++ "    \x7d"
            ++ "\n  \x7d\n\x7d\n") := by
  refine ⟨by decide, by decide, by decide, by rfl⟩

theorem putInt_acc (m : Metadata) (key before after json : String) :
    putInt m key before after json
      = (putInt m key before after "").map (fun t => json ++ t) := by
  simp only [putInt]
  split
  · cases Metadata.getInt m key <;> simp [String.append_assoc]
  · simp

theorem putDouble_acc (format : Double → String) (m : Metadata)
    (key before after json : String) :
    putDouble format m key before after json
      = (putDouble format m key before after "").map (fun t => json ++ t) := by
  simp only [putDouble]
  split
  · cases Metadata.getDouble m key <;> simp [String.append_assoc]
  · simp

theorem spawn_step (s : IrInstruction) (json : String) :
    (do
      let enemy ← s.operands.get? 1
      let json1 ← putInt s.metadata "count" "            \"count\": " ",\n"
        (json ++ "          \x7b\n" ++ "            \"enemyType\": \"" ++ escapeJSON enemy ++ "\",\n")
      let json2 ← putInt s.metadata "start" "            \"start\": " ",\n" json1
      let json3 ← putInt s.metadata "interval" "            \"interval\": " "\n" json2
      pure (json3 ++ "          \x7d"))
    = (spawnJSON s).map (fun t => json ++ t) := by
  simp only [spawnJSON]
  cases s.operands.get? 1 with
  | none => rfl
  | some enemy =>
    simp only [Option.bind_eq_bind, Option.some_bind, Option.pure_def]
    rw [putInt_acc s.metadata "count" _ _ (json ++ _ ++ _ ++ _ ++ _),
      putInt_acc s.metadata "count" _ _ ("          \x7b\n" ++ _ ++ _ ++ _)]
    cases putInt s.metadata "count" "            \"count\": " ",\n" "" with
    | none => rfl
    | some t1 =>
      simp only [Option.map_some', Option.some_bind]
      rw [putInt_acc s.metadata "start" _ _ (json ++ _ ++ _ ++ _ ++ _ ++ _),
        putInt_acc s.metadata "start" _ _ ("          \x7b\n" ++ _ ++ _ ++ _ ++ _)]
      cases putInt s.metadata "start" "            \"start\": " ",\n" "" with
      | none => rfl
      | some t2 =>
        simp only [Option.map_some', Option.some_bind]
        rw [putInt_acc s.metadata "interval" _ _ (json ++ _ ++ _ ++ _ ++ _ ++ _ ++ _),
          putInt_acc s.metadata "interval" _ _ ("          \x7b\n" ++ _ ++ _ ++ _ ++ _ ++ _)]
        cases putInt s.metadata "interval" "            \"interval\": " "\n" "" with
        | none => rfl
        | some t3 =>
          simp only [Option.map_some', Option.some_bind, String.append_assoc]

theorem waveSpawnLoop_cons (W : String) (s : IrInstruction) (rest : List IrInstruction)
    (i : Nat) (first : Bool) (json : String)
    (hop : s.opcode = .SPAWN_ENEMY) (hw : s.operands.head? = some W) :
    waveSpawnLoop W (s :: rest) i first json
      = (spawnJSON s).bind fun t =>
          waveSpawnLoop W rest (i + 1) false ((if first then json else json ++ ",\n") ++ t) := by
  have hstep := spawn_step s (if first then json else json ++ ",\n")
  have hj : (if (!first) = true then json ++ ",\n" else json)
      = (if first then json else json ++ ",\n") := by cases first <;> rfl
  simp only [waveSpawnLoop, hop, hw, if_true, hj]
  generalize (if first then json else json ++ ",\n") = j0 at hstep ⊢
  simp only [Option.bind_eq_bind, Option.pure_def] at hstep ⊢
  generalize spawnJSON s = sp at hstep ⊢
  generalize s.operands.get? 1 = eo at hstep ⊢
  cases eo with
  | none =>
    cases sp with
    | none => rfl
    | some t => simp at hstep
  | some enemy =>
    simp only [Option.some_bind] at hstep ⊢
    generalize putInt s.metadata "count" "            \"count\": " ",\n"
      (j0 ++ "          \x7b\n" ++ "            \"enemyType\": \"" ++ escapeJSON enemy ++ "\",\n")
      = o1 at hstep ⊢
    cases o1 with
    | none =>
      cases sp with
      | none => rfl
      | some t => simp at hstep
    | some j1 =>
      simp only [Option.some_bind] at hstep ⊢
      generalize putInt s.metadata "start" "            \"start\": " ",\n" j1 = o2 at hstep ⊢
      cases o2 with
      | none =>
        cases sp with
        | none => rfl
        | some t => simp at hstep
      | some j2 =>
        simp only [Option.some_bind] at hstep ⊢
        generalize putInt s.metadata "interval" "            \"interval\": " "\n" j2 = o3
          at hstep ⊢
        cases o3 with
        | none =>
          cases sp with
          | none => rfl
          | some t => simp at hstep
        | some j3 =>
          cases sp with
          | none => simp at hstep
          | some t =>
            simp only [Option.some_bind, Option.map_some', Option.some.injEq] at hstep ⊢
            rw [hstep]

theorem waveSpawnLoop_spec (W : String) (rest : List IrInstruction) (i : Nat) (first : Bool)
    (json out : String) (i' : Nat)
    (h : waveSpawnLoop W rest i first json = some (out, i')) :
    ∃ texts,
      ((rest.takeWhile fun s =>
          (decide (s.opcode = .SPAWN_ENEMY) && decide (s.operands.head? = some W))) |> mapOpt spawnJSON)
        = some texts
      ∧ out = json ++ joinSep ",\n" first texts
      ∧ i' = i + (rest.takeWhile fun s =>
          (decide (s.opcode = .SPAWN_ENEMY) && decide (s.operands.head? = some W))).length := by
  induction rest generalizing i first json with
  | nil =>
    simp only [waveSpawnLoop, Option.some.injEq, Prod.mk.injEq] at h
    exact ⟨[], rfl, by simp [joinSep, h.1.symm], by simp [h.2.symm]⟩
  | cons s rest ih =>
    by_cases hop : s.opcode = .SPAWN_ENEMY
    · cases hw : s.operands.head? with
      | none => simp [waveSpawnLoop, hop, hw] at h
      | some wave =>
        by_cases hW : wave = W
        · subst hW
          rw [waveSpawnLoop_cons wave s rest i first json hop hw] at h
          cases hsp : spawnJSON s with
          | none => rw [hsp] at h; simp at h
          | some t =>
            rw [hsp] at h
            simp only [Option.some_bind] at h
            obtain ⟨texts, hm, ho, hi⟩ := ih _ _ _ h
            refine ⟨t :: texts, ?_, ?_, ?_⟩
            · simp [List.takeWhile_cons, hop, hw, hsp, hm, mapOpt]
            · rw [ho]
              cases first <;> simp [joinSep, String.append_assoc]
            · simp [List.takeWhile_cons, hop, hw, hi]; omega
        · simp only [waveSpawnLoop, hop, hw, hW, if_true, if_false, Option.some.injEq,
            Prod.mk.injEq] at h
          refine ⟨[], ?_, ?_, ?_⟩
          · simp [List.takeWhile_cons, hop, hw, hW, mapOpt]
          · simp [joinSep, h.1.symm]
          · simp [List.takeWhile_cons, hop, hw, hW, h.2.symm]
    · simp only [waveSpawnLoop, hop, if_false, Option.some.injEq, Prod.mk.injEq] at h
      refine ⟨[], ?_, ?_, ?_⟩
      · simp [List.takeWhile_cons, hop, mapOpt]
      · simp [joinSep, h.1.symm]
      · simp [List.takeWhile_cons, hop, h.2.symm]

theorem drop_takeWhile_length_ir (p : IrInstruction → Bool) (l : List IrInstruction) :
    l.drop (l.takeWhile p).length = l.dropWhile p := by
  induction l with
  | nil => simp
  | cons a rest ih =>
    by_cases hp : p a = true
    · simp [List.takeWhile_cons, List.dropWhile_cons, hp, ih]
    · simp [List.takeWhile_cons, List.dropWhile_cons, hp]

theorem dropWhile_head_not (p : IrInstruction → Bool) (l : List IrInstruction)
    (x : IrInstruction) (h : (l.dropWhile p).head? = some x) : p x = false := by
  induction l with
  | nil => simp at h
  | cons a rest ih =>
    by_cases hp : p a = true
    · simp only [List.dropWhile_cons, hp, if_true] at h
      exact ih h
    · simp only [List.dropWhile_cons, hp, Bool.false_eq_true, if_false, List.head?_cons,
        Option.some.injEq] at h
      subst h
      simpa using hp

theorem generateWaveJSON_spec (instructions : List IrInstruction) (k : Nat)
    (w : IrInstruction) (W text : String) (k' : Nat)
    (hk : instructions.get? k = some w) (hW : w.operands.head? = some W)
    (h : generateWaveJSON instructions k = some (text, k')) :
    ∃ texts, mapOpt spawnJSON (waveRun W instructions k) = some texts
      ∧ text = waveJSON W texts
      ∧ k' = k + (waveRun W instructions k).length := by
  simp only [generateWaveJSON, hk, hW, Option.bind_eq_bind, Option.some_bind,
    Option.pure_def] at h
  cases hl : waveSpawnLoop W (instructions.drop (k + 1)) (k + 1) true
      ("      \x7b\n" ++ "        \"name\": \"" ++ escapeJSON W ++ "\",\n"
        ++ "        \"spawns\": [\n") with
  | none => rw [hl] at h; simp at h
  | some r =>
    obtain ⟨out, i'⟩ := r
    rw [hl] at h
    simp only [Option.some_bind, Option.some.injEq, Prod.mk.injEq] at h
    obtain ⟨texts, hm, ho, hi⟩ := waveSpawnLoop_spec _ _ _ _ _ _ _ hl
    refine ⟨texts, hm, ?_, ?_⟩
    · rw [← h.1, ho]; simp [waveJSON, String.append_assoc]
    · rw [← h.2, hi]; simp only [waveRun]; omega

/-- C21: when `generateWaveJSON` returns for a `DEFINE_WAVE` at index `k` with
name `W`, the spawns that it lists are, in order, the JSON objects of the
maximal run, from index `k + 1` on, of `SPAWN_ENEMY` instructions whose first
operand is `W`; the index moves to the last instruction of the run, and the
instruction after the run, if any, is not a `SPAWN_ENEMY` of `W`. -/
theorem wave_spawn_grouping (instructions : List IrInstruction) (k : Nat)
    (w : IrInstruction) (W text : String) (k' : Nat)
    (hk : instructions.get? k = some w) (_hop : w.opcode = .DEFINE_WAVE)
    (hW : w.operands.head? = some W)
    (h : generateWaveJSON instructions k = some (text, k')) :
    ∃ texts, mapOpt spawnJSON (waveRun W instructions k) = some texts
      ∧ text = waveJSON W texts
      ∧ k' = k + (waveRun W instructions k).length
      ∧ (∀ j s, instructions.get? (k + 1 + j) = some s → j < (waveRun W instructions k).length →
          (waveRun W instructions k).get? j = some s
          ∧ s.opcode = .SPAWN_ENEMY ∧ s.operands.head? = some W)
      ∧ (∀ s, instructions.get? (k + 1 + (waveRun W instructions k).length) = some s →
          ¬ (s.opcode = .SPAWN_ENEMY ∧ s.operands.head? = some W)) := by
  obtain ⟨texts, hm, ht, hk'⟩ := generateWaveJSON_spec instructions k w W text k' hk hW h
  refine ⟨texts, hm, ht, hk', ?_, ?_⟩
  · intro j s hs hj
    have hpre : (waveRun W instructions k).get? j = some s := by
      have hsplit : instructions.drop (k + 1)
          = waveRun W instructions k ++ (instructions.drop (k + 1)).dropWhile fun s =>
              (decide (s.opcode = .SPAWN_ENEMY) && decide (s.operands.head? = some W)) :=
        (List.takeWhile_append_dropWhile _ _).symm
      have : (instructions.drop (k + 1)).get? j = some s := by
        rw [List.get?_eq_getElem?, List.getElem?_drop, ← List.get?_eq_getElem?]; exact hs
      rw [hsplit, List.get?_eq_getElem?, List.getElem?_append_left hj,
        ← List.get?_eq_getElem?] at this
      exact this
    refine ⟨hpre, ?_⟩
    have hmem : s ∈ waveRun W instructions k := List.get?_mem hpre
    have := List.mem_takeWhile_imp hmem
    simpa using this
  · intro s hs hc
    have hd : ((instructions.drop (k + 1)).dropWhile fun s =>
        (decide (s.opcode = .SPAWN_ENEMY) && decide (s.operands.head? = some W))).head?
        = some s := by
      rw [← drop_takeWhile_length_ir, List.head?_drop, List.getElem?_drop,
        ← List.get?_eq_getElem?]
      exact hs
    have := dropWhile_head_not _ _ _ hd
    simp [hc.1, hc.2] at this

/-- C21, at an IR in which wave `W` is followed by two of its spawns, a spawn
of another wave and a later spawn of `W`: two spawns are listed. -/
theorem wave_spawn_grouping_witness :
    ∃ texts, mapOpt spawnJSON (waveRun "W"
        [⟨.DEFINE_WAVE, ["W"], []⟩, ⟨.SPAWN_ENEMY, ["W", "A"], []⟩,
         ⟨.SPAWN_ENEMY, ["W", "B"], []⟩, ⟨.SPAWN_ENEMY, ["V", "C"], []⟩,
         ⟨.SPAWN_ENEMY, ["W", "D"], []⟩] 0) = some texts
      ∧ texts.length = 2 := by
  obtain ⟨texts, hm, _, _⟩ := wave_spawn_grouping
    [⟨.DEFINE_WAVE, ["W"], []⟩, ⟨.SPAWN_ENEMY, ["W", "A"], []⟩,
     ⟨.SPAWN_ENEMY, ["W", "B"], []⟩, ⟨.SPAWN_ENEMY, ["V", "C"], []⟩,
     ⟨.SPAWN_ENEMY, ["W", "D"], []⟩] 0 ⟨.DEFINE_WAVE, ["W"], []⟩ "W"
    (waveJSON "W" ["          \x7b\n            \"enemyType\": \"A\",\n          \x7d",
      "          \x7b\n            \"enemyType\": \"B\",\n          \x7d"]) 2 rfl rfl rfl (by rfl)
  refine ⟨texts, hm, ?_⟩
  have : mapOpt spawnJSON (waveRun "W"
        [⟨.DEFINE_WAVE, ["W"], []⟩, ⟨.SPAWN_ENEMY, ["W", "A"], []⟩,
         ⟨.SPAWN_ENEMY, ["W", "B"], []⟩, ⟨.SPAWN_ENEMY, ["V", "C"], []⟩,
         ⟨.SPAWN_ENEMY, ["W", "D"], []⟩] 0)
      = some ["          \x7b\n            \"enemyType\": \"A\",\n          \x7d",
      "          \x7b\n            \"enemyType\": \"B\",\n          \x7d"] := by rfl
  rw [this] at hm
  cases hm
  rfl

/-! ## Layout of the JSON output -/

theorem mapOpt_length {α β : Type} (f : α → Option β) (l : List α) (ts : List β)
    (h : mapOpt f l = some ts) : ts.length = l.length := by
  induction l generalizing ts with
  | nil => simp only [mapOpt, Option.some.injEq] at h; subst h; rfl
  | cons a rest ih =>
    simp only [mapOpt, Option.bind_eq_bind, Option.pure_def] at h
    cases h1 : f a with
    | none => rw [h1] at h; simp at h
    | some b =>
      rw [h1] at h
      cases h2 : mapOpt f rest with
      | none => rw [h2] at h; simp at h
      | some bs =>
        rw [h2] at h
        simp only [Option.some_bind, Option.some.injEq] at h
        subst h
        simp [ih bs h2]

theorem arrayLoop_spec (element : IrInstruction → Option String)
    (instructions : List IrInstruction) (indices : List Nat) (json : String) :
    arrayLoop element instructions indices json
      = (mapOpt (fun k => (instructions.get? k).bind element) indices).map
          (fun ts => json ++ arrayBody ts) := by
  induction indices generalizing json with
  | nil => simp [arrayLoop, mapOpt, arrayBody]
  | cons k rest ih =>
    simp only [arrayLoop, mapOpt, Option.bind_eq_bind, Option.pure_def]
    cases hk : instructions.get? k with
    | none => simp
    | some ins =>
      simp only [Option.some_bind]
      cases he : element ins with
      | none => simp
      | some t =>
        simp only [Option.some_bind, ih]
        cases hm : mapOpt (fun k => (instructions.get? k).bind element) rest with
        | none => simp
        | some ts =>
          have hl : ts.length = rest.length := mapOpt_length _ _ _ hm
          simp only [Option.map_some', Option.some_bind, arrayBody, hl, Option.some.injEq]
          split <;> simp [String.append_assoc]

theorem indices_filter (op : IrOpcode) (element : IrInstruction → Option String)
    (pre rest : List IrInstruction) :
    mapOpt (fun k => ((pre ++ rest).get? k).bind element) (indicesOf op rest pre.length)
      = mapOpt element (ofOpcode op rest) := by
  induction rest generalizing pre with
  | nil => simp [indicesOf, ofOpcode, mapOpt]
  | cons a rest ih =>
    have hstep := ih (pre ++ [a])
    simp only [List.append_assoc, List.singleton_append, List.length_append, List.length_cons,
      List.length_nil, Nat.zero_add] at hstep
    by_cases h : a.opcode = op
    · simp only [indicesOf, h, if_true, ofOpcode, List.filter_cons, decide_True, mapOpt,
        Option.bind_eq_bind, Option.pure_def]
      have hg : (pre ++ a :: rest).get? pre.length = some a := by
        rw [List.get?_eq_getElem?, List.getElem?_append_right (Nat.le_refl _)]
        simp
      rw [hg, hstep]
      rfl
    · simp only [indicesOf, h, if_false, ofOpcode, List.filter_cons, decide_False,
        Bool.false_eq_true]
      exact hstep

theorem indicesOf_eq_nil (op : IrOpcode) (l : List IrInstruction) (i : Nat) :
    indicesOf op l i = [] ↔ ofOpcode op l = [] := by
  induction l generalizing i with
  | nil => simp [indicesOf, ofOpcode]
  | cons a rest ih =>
    by_cases h : a.opcode = op
    · simp [indicesOf, ofOpcode, h]
    · simp only [indicesOf, h, if_false, ofOpcode, List.filter_cons, decide_False,
        Bool.false_eq_true]
      exact ih (i + 1)

theorem indicesOf_skip (op : IrOpcode) (a b : List IrInstruction) (j : Nat)
    (h : ∀ s ∈ a, s.opcode ≠ op) :
    indicesOf op (a ++ b) j = indicesOf op b (j + a.length) := by
  induction a generalizing j with
  | nil => simp
  | cons s a ih =>
    have hs := h s (List.mem_cons_self _ _)
    simp only [List.cons_append, indicesOf, hs, if_false, List.length_cons, List.append_eq]
    rw [ih (j + 1) (fun t ht => h t (List.mem_cons_of_mem _ ht))]
    congr 1; omega

theorem joinSep_snoc (sep : String) (first : Bool) (a : List String) (s : String) :
    joinSep sep first (a ++ [s])
      = joinSep sep first a ++ (if a = [] ∧ first = true then "" else sep) ++ s := by
  induction a generalizing first with
  | nil => cases first <;> simp [joinSep]
  | cons t ts ih =>
    simp only [List.cons_append, joinSep, List.append_eq]
    rw [ih false]
    simp [String.append_assoc]

theorem categorize_spec (rest : List IrInstruction) (i : Nat) (c : Categories) :
    categorize rest i c
      = (if c.hasMap then some ""
         else match ofOpcode .DEFINE_MAP rest with
           | [] => some ""
           | m :: _ => generateMapJSON m).map fun t =>
          { json := c.json ++ t
            hasMap := c.hasMap || !(ofOpcode .DEFINE_MAP rest).isEmpty
            enemyIndices := c.enemyIndices ++ indicesOf .DEFINE_ENEMY rest i
            towerIndices := c.towerIndices ++ indicesOf .DEFINE_TOWER rest i
            waveIndices := c.waveIndices ++ indicesOf .DEFINE_WAVE rest i
            placementIndices := c.placementIndices ++ indicesOf .PLACE_TOWER rest i } := by
  induction rest generalizing i c with
  | nil =>
    cases c
    simp only [categorize, ofOpcode, List.filter_nil, indicesOf, List.append_nil,
      List.isEmpty_nil, Bool.not_true, Bool.or_false]
    split <;> simp
  | cons a rest ih =>
    cases hop : a.opcode
    case DEFINE_MAP =>
      simp only [categorize, hop]
      by_cases hm : c.hasMap = true
      · simp [hm, ih, indicesOf, hop, ofOpcode]
      · have hm' : c.hasMap = false := by simpa using hm
        simp only [hm', Bool.not_false, if_true, Bool.false_eq_true, if_false, ofOpcode,
          List.filter_cons, hop, decide_True, Option.bind_eq_bind]
        cases generateMapJSON a with
        | none => rfl
        | some t =>
          simp only [Option.some_bind, ih, if_true, Option.map_some', indicesOf, hop,
            reduceCtorEq, if_false, String.append_empty, Bool.true_or, Bool.false_or,
            List.isEmpty_cons, Bool.not_false]
    all_goals
      simp only [categorize, hop, ih, indicesOf, ofOpcode, List.filter_cons, reduceCtorEq,
        decide_False, decide_True, Bool.false_eq_true, if_false, if_true, List.append_assoc,
        List.singleton_append]

theorem generateWaveJSON_name (instructions : List IrInstruction) (k : Nat)
    (w : IrInstruction) (r : String × Nat) (hk : instructions.get? k = some w)
    (h : generateWaveJSON instructions k = some r) : ∃ W, w.operands.head? = some W := by
  simp only [generateWaveJSON, hk, Option.bind_eq_bind, Option.some_bind] at h
  cases hW : w.operands.head? with
  | none => rw [hW] at h; simp at h
  | some W => exact ⟨W, rfl⟩

theorem waveRun_opcode (W : String) (instructions : List IrInstruction) (k : Nat) :
    ∀ s ∈ waveRun W instructions k, s.opcode ≠ .DEFINE_WAVE := by
  intro s hs
  have := List.mem_takeWhile_imp hs
  simp only [Bool.and_eq_true, decide_eq_true_eq] at this
  rw [this.1]; decide

theorem drop_waveRun (W : String) (instructions : List IrInstruction) (k : Nat) :
    instructions.drop (k + 1)
      = waveRun W instructions k
        ++ instructions.drop (k + (waveRun W instructions k).length + 1) := by
  have h := (List.takeWhile_append_dropWhile
    (fun s => (decide (s.opcode = .SPAWN_ENEMY) && decide (s.operands.head? = some W)))
    (instructions.drop (k + 1))).symm
  rw [← drop_takeWhile_length_ir, List.drop_drop] at h
  have e : k + 1 + (List.takeWhile (fun s =>
      (decide (s.opcode = .SPAWN_ENEMY) && decide (s.operands.head? = some W)))
      (instructions.drop (k + 1))).length
      = k + (waveRun W instructions k).length + 1 := by
    simp only [waveRun]; omega
  rw [e] at h
  exact h

theorem wavesLoop_spec (instructions : List IrInstruction) (fuel i : Nat) (first : Bool)
    (json : String) (hf : instructions.length ≤ i + fuel) :
    wavesLoop instructions fuel i first json
      = (mapOpt (fun k => (generateWaveJSON instructions k).map Prod.fst)
          (indicesOf .DEFINE_WAVE (instructions.drop i) i)).map
          (fun ts => json ++ joinSep ",\n" first ts) := by
  induction fuel generalizing i first json with
  | zero =>
    have hi : ¬ i < instructions.length := by omega
    simp only [wavesLoop, hi, if_false]
    rw [List.drop_eq_nil_of_le (by omega)]
    simp [indicesOf, mapOpt, joinSep]
  | succ fuel ih =>
    by_cases hi : i < instructions.length
    · have hd : instructions.drop i = instructions[i] :: instructions.drop (i + 1) :=
        List.drop_eq_getElem_cons hi
      have hg : instructions.get? i = some instructions[i] := by
        rw [List.get?_eq_getElem?, List.getElem?_eq_getElem hi]
      simp only [wavesLoop, hi, if_true, hg, Option.bind_eq_bind, Option.some_bind, hd, indicesOf]
      by_cases hop : instructions[i].opcode = .DEFINE_WAVE
      · simp only [hop, if_true, mapOpt, Option.bind_eq_bind, Option.pure_def]
        cases hw : generateWaveJSON instructions i with
        | none => simp
        | some r =>
          obtain ⟨text, i'⟩ := r
          obtain ⟨W, hW⟩ := generateWaveJSON_name instructions i _ _ hg hw
          obtain ⟨_, _, _, hi'⟩ := generateWaveJSON_spec instructions i _ W text i' hg hW hw
          simp only [Option.some_bind, Option.map_some']
          rw [ih (i' + 1) false _ (by omega)]
          have hidx : indicesOf .DEFINE_WAVE (instructions.drop (i + 1)) (i + 1)
              = indicesOf .DEFINE_WAVE (instructions.drop (i' + 1)) (i' + 1) := by
            rw [drop_waveRun W instructions i,
              indicesOf_skip _ _ _ _ (waveRun_opcode W instructions i), hi']
            congr 1; omega
          rw [hidx]
          cases mapOpt (fun k => (generateWaveJSON instructions k).map Prod.fst)
              (indicesOf .DEFINE_WAVE (instructions.drop (i' + 1)) (i' + 1)) with
          | none => simp
          | some ts =>
            cases first <;> simp [joinSep, String.append_assoc]
      · simp only [hop, if_false]
        exact ih (i + 1) first json (by omega)
    · simp only [wavesLoop, hi, if_false]
      rw [List.drop_eq_nil_of_le (by omega)]
      simp [indicesOf, mapOpt, joinSep]

theorem isEmpty_indicesOf (op : IrOpcode) (l : List IrInstruction) (i : Nat) :
    (indicesOf op l i).isEmpty = decide (ofOpcode op l = []) := by
  have := indicesOf_eq_nil op l i
  cases h : indicesOf op l i with
  | nil => simp [this.1 h]
  | cons a b =>
    have hne : ofOpcode op l ≠ [] := fun e => by
      have := this.2 e; rw [h] at this; cases this
    simp [hne]

theorem writeArray_spec (title : String) (element : IrInstruction → Option String)
    (op : IrOpcode) (ir : List IrInstruction) (before : Bool) (json : String) :
    writeArray title element ir (indicesOf op ir 0) before json
      = (mapOpt element (ofOpcode op ir)).map fun ts =>
          if ofOpcode op ir = [] then json
          else (if before then json ++ ",\n" else json) ++ arraySection title ts := by
  have hidx := indices_filter op element [] ir
  simp only [List.nil_append, List.length_nil] at hidx
  simp only [writeArray, isEmpty_indicesOf, arrayLoop_spec, hidx, Option.bind_eq_bind,
    Option.pure_def]
  by_cases he : ofOpcode op ir = []
  · simp [he, mapOpt]
  · simp only [he, decide_False, Bool.not_false, if_true, if_false]
    cases mapOpt element (ofOpcode op ir) with
    | none => rfl
    | some ts => simp [arraySection, String.append_assoc]

theorem writeWaves_spec (ir : List IrInstruction) (before : Bool) (json : String) :
    writeWaves ir (indicesOf .DEFINE_WAVE ir 0) before json
      = (mapOpt (fun k => (generateWaveJSON ir k).map Prod.fst)
          (indicesOf .DEFINE_WAVE ir 0)).map fun ts =>
          if ofOpcode .DEFINE_WAVE ir = [] then json
          else (if before then json ++ ",\n" else json) ++ wavesSection ts := by
  have hl := wavesLoop_spec ir ir.length 0 true
  simp only [List.drop_zero] at hl
  simp only [writeWaves, isEmpty_indicesOf, Option.bind_eq_bind, Option.pure_def]
  by_cases he : ofOpcode .DEFINE_WAVE ir = []
  · have := (indicesOf_eq_nil .DEFINE_WAVE ir 0).2 he
    simp [he, this, mapOpt]
  · simp only [he, decide_False, Bool.not_false, if_true, if_false]
    rw [hl _ (by omega)]
    cases mapOpt (fun k => (generateWaveJSON ir k).map Prod.fst)
        (indicesOf .DEFINE_WAVE ir 0) with
    | none => rfl
    | some ts => simp [wavesSection, String.append_assoc]

theorem generateJSON_eq_sections (fmt : DoubleFormat) (ir : List IrInstruction) :
    generateJSON fmt ir = (jsonSections fmt ir).map jsonDocument := by
  simp only [generateJSON, jsonSections, categorize_spec, Bool.false_eq_true, if_false,
    Option.bind_eq_bind, Option.pure_def, List.nil_append, Bool.false_or]
  cases hmaps : ofOpcode .DEFINE_MAP ir with
  | nil =>
    simp only [Option.map_some', Option.some_bind, List.isEmpty_nil, Bool.not_true,
      writeArray_spec, writeWaves_spec, isEmpty_indicesOf, Bool.false_or, String.append_empty]
    generalize mapOpt (generateEnemyJSON fmt) (ofOpcode .DEFINE_ENEMY ir) = oe
    generalize mapOpt (generateTowerJSON fmt) (ofOpcode .DEFINE_TOWER ir) = ot
    generalize mapOpt (fun k => (generateWaveJSON ir k).map Prod.fst)
      (indicesOf .DEFINE_WAVE ir 0) = ow
    generalize mapOpt generatePlacementJSON (ofOpcode .PLACE_TOWER ir) = op
    cases oe with
    | none => rfl
    | some es =>
      cases ot with
      | none => rfl
      | some ts =>
        cases ow with
        | none => rfl
        | some ws =>
          cases op with
          | none => rfl
          | some ps =>
            simp only [Option.map_some', Option.some_bind, Option.some.injEq]
            by_cases he : ofOpcode .DEFINE_ENEMY ir = [] <;>
            by_cases ht : ofOpcode .DEFINE_TOWER ir = [] <;>
            by_cases hw : ofOpcode .DEFINE_WAVE ir = [] <;>
            by_cases hp : ofOpcode .PLACE_TOWER ir = [] <;>
            simp [he, ht, hw, hp, jsonDocument, joinSep, String.append_assoc]
  | cons m ms =>
    simp only [List.isEmpty_cons, Bool.not_false]
    cases generateMapJSON m with
    | none => rfl
    | some t =>
      simp only [Option.map_some', Option.some_bind, writeArray_spec, writeWaves_spec,
        isEmpty_indicesOf, Bool.true_or]
      generalize mapOpt (generateEnemyJSON fmt) (ofOpcode .DEFINE_ENEMY ir) = oe
      generalize mapOpt (generateTowerJSON fmt) (ofOpcode .DEFINE_TOWER ir) = ot
      generalize mapOpt (fun k => (generateWaveJSON ir k).map Prod.fst)
        (indicesOf .DEFINE_WAVE ir 0) = ow
      generalize mapOpt generatePlacementJSON (ofOpcode .PLACE_TOWER ir) = op
      cases oe with
      | none => rfl
      | some es =>
        cases ot with
        | none => rfl
        | some ts =>
          cases ow with
          | none => rfl
          | some ws =>
            cases op with
            | none => rfl
            | some ps =>
              simp only [Option.map_some', Option.some_bind, Option.some.injEq]
              by_cases he : ofOpcode .DEFINE_ENEMY ir = [] <;>
              by_cases ht : ofOpcode .DEFINE_TOWER ir = [] <;>
              by_cases hw : ofOpcode .DEFINE_WAVE ir = [] <;>
              by_cases hp : ofOpcode .PLACE_TOWER ir = [] <;>
              simp [he, ht, hw, hp, jsonDocument, joinSep, String.append_assoc]

/-- C20 (amended): `generateJSON` returns exactly when every section can be
rendered, and then returns the opening of the `gameConfig` object, the sections
that are present, in the order map, enemies, towers, waves, initialPlacements
and separated by a comma and a newline, and the closing.  A section is present
when the IR has an instruction of its opcode; the map section is rendered from
the first `DEFINE_MAP`, and each array section has one element per instruction
of its opcode, in IR order. -/
theorem json_section_layout (fmt : DoubleFormat) (ir : List IrInstruction) :
    generateJSON fmt ir = (jsonSections fmt ir).map jsonDocument :=
  generateJSON_eq_sections fmt ir

/-- C20, counterexample to the claim as stated: on an IR whose `DEFINE_ENEMY`
has no operand, and on one whose map width is not an integer, `generateJSON`
does not return. -/
theorem generateJSON_may_fail :
    generateJSON noDoubles [⟨.DEFINE_ENEMY, [], []⟩] = none
    ∧ generateJSON noDoubles [⟨.DEFINE_MAP, ["M"], [("width", .str "3")]⟩] = none := by
  exact ⟨rfl, rfl⟩
/-! ## The readable dump -/

theorem readable_foldl (lines : List String) (acc : String) :
    lines.foldl (fun result line => result ++ line ++ "\n") acc = acc ++ unlines lines := by
  induction lines generalizing acc with
  | nil => simp [unlines]
  | cons l ls ih =>
    simp only [List.foldl_cons, unlines]
    rw [ih]
    simp [String.append_assoc]

theorem mapOpt_get {α β : Type} (f : α → Option β) (l : List α) (ts : List β)
    (h : mapOpt f l = some ts) (k : Nat) (a : α) (b : β)
    (ha : l.get? k = some a) (hb : ts.get? k = some b) : f a = some b := by
  induction l generalizing ts k with
  | nil => simp at ha
  | cons x rest ih =>
    simp only [mapOpt, Option.bind_eq_bind, Option.pure_def] at h
    cases h1 : f x with
    | none => rw [h1] at h; simp at h
    | some y =>
      rw [h1] at h
      cases h2 : mapOpt f rest with
      | none => rw [h2] at h; simp at h
      | some ys =>
        rw [h2] at h
        simp only [Option.some_bind, Option.some.injEq] at h
        subst h
        cases k with
        | zero =>
          simp only [List.get?_cons_zero, Option.some.injEq] at ha hb
          subst ha; subst hb; exact h1
        | succ k =>
          simp only [List.get?_cons_succ] at ha hb
          exact ih ys h2 k ha hb

theorem putInt_value (m : Metadata) (key before after json : String) (v : Int)
    (h : Metadata.find m key = some (.int v)) :
    putInt m key before after json = some (json ++ before ++ to_string v ++ after) := by
  simp [putInt, Metadata.count, Metadata.getInt, h, Value.getInt]

theorem putInt_prefix (m : Metadata) (key before after json out : String)
    (h : putInt m key before after json = some out) : ∃ t, out = json ++ t := by
  simp only [putInt] at h
  split at h
  · cases hg : Metadata.getInt m key with
    | none => rw [hg] at h; simp at h
    | some v =>
      rw [hg] at h
      simp only [Option.map_some', Option.some.injEq] at h
      exact ⟨before ++ to_string v ++ after, by rw [← h]; simp [String.append_assoc]⟩
  · simp only [Option.some.injEq] at h
    exact ⟨"", by rw [← h]; simp⟩

theorem putDouble_prefix (format : Double → String) (m : Metadata)
    (key before after json out : String)
    (h : putDouble format m key before after json = some out) : ∃ t, out = json ++ t := by
  simp only [putDouble] at h
  split at h
  · cases hg : Metadata.getDouble m key with
    | none => rw [hg] at h; simp at h
    | some v =>
      rw [hg] at h
      simp only [Option.map_some', Option.some.injEq] at h
      exact ⟨before ++ format v ++ after, by rw [← h]; simp [String.append_assoc]⟩
  · simp only [Option.some.injEq] at h
    exact ⟨"", by rw [← h]; simp⟩

theorem toStringLine_prefix (fmt : DoubleFormat) (ins : IrInstruction) (line : String)
    (h : toStringLine fmt ins = some line) : ∃ t, line = linePrefix ins.opcode ++ t := by
  simp only [toStringLine] at h
  cases hop : ins.opcode <;> rw [hop] at h <;>
    simp only [Option.bind_eq_bind, Option.pure_def, Option.bind_eq_some, Option.some.injEq]
      at h
  case DEFINE_MAP =>
    obtain ⟨name, _, s1, h1, s2, h2, h3⟩ := h
    obtain ⟨t1, rfl⟩ := putInt_prefix _ _ _ _ _ _ h1
    obtain ⟨t2, rfl⟩ := putInt_prefix _ _ _ _ _ _ h2
    split at h3
    · cases hp : Metadata.getString ins.metadata "path" with
      | none => rw [hp] at h3; simp at h3
      | some v =>
        rw [hp] at h3
        simp only [Option.map_some', Option.some.injEq] at h3
        exact ⟨name ++ t1 ++ t2 ++ " PATH=[" ++ v ++ "]", by
          rw [← h3]; simp [linePrefix, String.append_assoc]⟩
    · simp only [Option.some.injEq] at h3
      exact ⟨name ++ t1 ++ t2, by rw [← h3]; simp [linePrefix, String.append_assoc]⟩
  case DEFINE_ENEMY =>
    obtain ⟨name, _, s1, h1, s2, h2, h3⟩ := h
    obtain ⟨t1, rfl⟩ := putInt_prefix _ _ _ _ _ _ h1
    obtain ⟨t2, rfl⟩ := putDouble_prefix _ _ _ _ _ _ _ h2
    obtain ⟨t3, rfl⟩ := putInt_prefix _ _ _ _ _ _ h3
    exact ⟨name ++ t1 ++ t2 ++ t3, by simp [linePrefix, String.append_assoc]⟩
  case DEFINE_TOWER =>
    obtain ⟨name, _, s1, h1, s2, h2, s3, h3, h4⟩ := h
    obtain ⟨t1, rfl⟩ := putInt_prefix _ _ _ _ _ _ h1
    obtain ⟨t2, rfl⟩ := putInt_prefix _ _ _ _ _ _ h2
    obtain ⟨t3, rfl⟩ := putDouble_prefix _ _ _ _ _ _ _ h3
    obtain ⟨t4, rfl⟩ := putInt_prefix _ _ _ _ _ _ h4
    exact ⟨name ++ t1 ++ t2 ++ t3 ++ t4, by simp [linePrefix, String.append_assoc]⟩
  case DEFINE_WAVE =>
    obtain ⟨name, _, rfl⟩ := h
    exact ⟨name, rfl⟩
  case SPAWN_ENEMY =>
    obtain ⟨enemy, _, wave, _, s1, h1, s2, h2, h3⟩ := h
    obtain ⟨t1, rfl⟩ := putInt_prefix _ _ _ _ _ _ h1
    obtain ⟨t2, rfl⟩ := putInt_prefix _ _ _ _ _ _ h2
    obtain ⟨t3, rfl⟩ := putInt_prefix _ _ _ _ _ _ h3
    exact ⟨enemy ++ " IN_WAVE=" ++ wave ++ t1 ++ t2 ++ t3, by
      simp [linePrefix, String.append_assoc]⟩
  case PLACE_TOWER =>
    obtain ⟨name, _, s1, h1, h2⟩ := h
    obtain ⟨t1, rfl⟩ := putInt_prefix _ _ _ _ _ _ h1
    obtain ⟨t2, rfl⟩ := putInt_prefix _ _ _ _ _ _ h2
    exact ⟨name ++ t1 ++ t2, by simp [linePrefix, String.append_assoc]⟩
  case NOP => exact ⟨"", by rw [← h]; rfl⟩
  case SET_VALUE => exact ⟨"", by rw [← h]; rfl⟩
  case LOAD_CONST => exact ⟨"", by rw [← h]; rfl⟩

/-- C23 (amended): when `generateReadable` returns, it returns the header, an
empty line and one line per instruction, in IR order, each terminated by a
newline.  The line of a `DEFINE_WAVE` is `DEFINE_WAVE name`, the line of a
`NOP` is `NOP`, the line of a `PLACE_TOWER` with integer `x` and `y` is
`PLACE_TOWER tower X=x Y=y`, the line of a `SPAWN_ENEMY` with integer `count`,
`start` and `interval` is `  SPAWN_ENEMY enemy IN_WAVE=wave COUNT=c START=s
INTERVAL=i`; the line of a `SPAWN_ENEMY` begins with exactly two spaces and the
line of any other opcode does not begin with a space. -/
theorem readable_layout (fmt : DoubleFormat) (ir : List IrInstruction) (out : String)
    (h : generateReadable fmt ir = some out) :
    ∃ lines, mapOpt (toStringLine fmt) ir = some lines
      ∧ lines.length = ir.length
      ∧ out = "=== TDLang Compiled Output ===\n\n" ++ unlines lines
      ∧ ∀ k ins line, ir.get? k = some ins → lines.get? k = some line →
          (ins.opcode = .DEFINE_WAVE →
            ∃ name, ins.operands.head? = some name ∧ line = "DEFINE_WAVE " ++ name)
          ∧ (ins.opcode = .NOP → line = "NOP")
          ∧ (ins.opcode = .PLACE_TOWER → ∀ x y,
              Metadata.find ins.metadata "x" = some (.int x) →
              Metadata.find ins.metadata "y" = some (.int y) →
              ∃ tower, ins.operands.head? = some tower
                ∧ line = "PLACE_TOWER " ++ tower ++ " X=" ++ to_string x
                    ++ " Y=" ++ to_string y)
          ∧ (ins.opcode = .SPAWN_ENEMY → ∀ c s i,
              Metadata.find ins.metadata "count" = some (.int c) →
              Metadata.find ins.metadata "start" = some (.int s) →
              Metadata.find ins.metadata "interval" = some (.int i) →
              ∃ wave enemy, ins.operands.head? = some wave ∧ ins.operands.get? 1 = some enemy
                ∧ line = "  SPAWN_ENEMY " ++ enemy ++ " IN_WAVE=" ++ wave
                    ++ " COUNT=" ++ to_string c ++ " START=" ++ to_string s
                    ++ " INTERVAL=" ++ to_string i)
          ∧ (ins.opcode = .SPAWN_ENEMY → ∃ rest, line.data = ' ' :: ' ' :: 'S' :: rest)
          ∧ (ins.opcode ≠ .SPAWN_ENEMY → line.data.head? ≠ some ' ') := by
  simp only [generateReadable, IrGenerator.toString, Option.bind_eq_bind, Option.pure_def,
    Option.bind_eq_some, Option.some.injEq] at h
  obtain ⟨lines, hl, ho⟩ := h
  refine ⟨lines, hl, mapOpt_length _ _ _ hl, ?_, ?_⟩
  · rw [← ho, readable_foldl]
  · intro k ins line hi hk
    have hline := mapOpt_get _ _ _ hl k ins line hi hk
    obtain ⟨t, ht⟩ := toStringLine_prefix fmt ins line hline
    refine ⟨?_, ?_, ?_, ?_, ?_, ?_⟩
    · intro hop
      simp only [toStringLine, hop, Option.bind_eq_bind, Option.pure_def, Option.bind_eq_some,
        Option.some.injEq] at hline
      obtain ⟨name, hn, rfl⟩ := hline
      exact ⟨name, hn, rfl⟩
    · intro hop
      simp only [toStringLine, hop, Option.pure_def, Option.some.injEq] at hline
      exact hline.symm
    · intro hop x y hx hy
      simp only [toStringLine, hop, Option.bind_eq_bind, Option.bind_eq_some] at hline
      obtain ⟨tower, hn, s1, h1, h2⟩ := hline
      rw [putInt_value _ _ _ _ _ x hx] at h1
      simp only [Option.some.injEq] at h1
      subst h1
      rw [putInt_value _ _ _ _ _ y hy] at h2
      simp only [Option.some.injEq] at h2
      exact ⟨tower, hn, by rw [← h2]; simp [String.append_assoc]⟩
    · intro hop c s i hc hs hi'
      simp only [toStringLine, hop, Option.bind_eq_bind, Option.bind_eq_some] at hline
      obtain ⟨enemy, he, wave, hw, s1, h1, s2, h2, h3⟩ := hline
      rw [putInt_value _ _ _ _ _ c hc] at h1
      simp only [Option.some.injEq] at h1
      subst h1
      rw [putInt_value _ _ _ _ _ s hs] at h2
      simp only [Option.some.injEq] at h2
      subst h2
      rw [putInt_value _ _ _ _ _ i hi'] at h3
      simp only [Option.some.injEq] at h3
      exact ⟨wave, enemy, hw, he, by rw [← h3]; simp [String.append_assoc]⟩
    · intro hop
      rw [hop] at ht
      exact ⟨("SPAWN_ENEMY " ++ t).data.tail, by rw [ht]; rfl⟩
    · intro hop
      rw [ht]
      cases hop' : ins.opcode <;> first | exact absurd hop' hop | (simp [linePrefix, String.data_append])

/-- C23, at the IR of a wave `W` with one spawn and a placement. -/
theorem readable_layout_witness :
    ∃ lines, mapOpt (toStringLine noDoubles)
        [⟨.DEFINE_WAVE, ["W"], []⟩,
         ⟨.SPAWN_ENEMY, ["W", "Goblin"],
           [("count", .int 3), ("start", .int 0), ("interval", .int 1)]⟩,
         ⟨.PLACE_TOWER, ["Archer"], [("x", .int 1), ("y", .int 2)]⟩] = some lines
      ∧ "=== TDLang Compiled Output ===\n\nDEFINE_WAVE W\n  SPAWN_ENEMY Goblin IN_WAVE=W COUNT=3 START=0 INTERVAL=1\nPLACE_TOWER Archer X=1 Y=2\n"
        = "=== TDLang Compiled Output ===\n\n" ++ unlines lines := by
  obtain ⟨lines, h1, _, h3, _⟩ := readable_layout noDoubles
    [⟨.DEFINE_WAVE, ["W"], []⟩,
     ⟨.SPAWN_ENEMY, ["W", "Goblin"],
       [("count", .int 3), ("start", .int 0), ("interval", .int 1)]⟩,
     ⟨.PLACE_TOWER, ["Archer"], [("x", .int 1), ("y", .int 2)]⟩]
    "=== TDLang Compiled Output ===\n\nDEFINE_WAVE W\n  SPAWN_ENEMY Goblin IN_WAVE=W COUNT=3 START=0 INTERVAL=1\nPLACE_TOWER Archer X=1 Y=2\n"
    (by rfl)
  exact ⟨lines, h1, h3⟩

/-- C23, counterexample to the claim as stated: the line of a `PLACE_TOWER`
without `x` and `y` metadata is `PLACE_TOWER T`, and the dump of a
`DEFINE_WAVE` without operand is not returned. -/
theorem readable_line_without_metadata :
    generateReadable noDoubles [⟨.PLACE_TOWER, ["T"], []⟩]
      = some "=== TDLang Compiled Output ===\n\nPLACE_TOWER T\n"
    ∧ generateReadable noDoubles [⟨.DEFINE_WAVE, [], []⟩] = none := by
  exact ⟨rfl, rfl⟩

/-! ## Scenario C -/

theorem scenarioC_generate (goblin orc : Int × Double × Int) :
    generate (scenarioC goblin orc)
      = [⟨.DEFINE_ENEMY, ["Goblin"],
           [("hp", .int goblin.1), ("speed", .real goblin.2.1), ("reward", .int goblin.2.2)]⟩,
         ⟨.DEFINE_ENEMY, ["Orc"],
           [("hp", .int orc.1), ("speed", .real orc.2.1), ("reward", .int orc.2.2)]⟩,
         ⟨.DEFINE_WAVE, ["W"], []⟩,
         ⟨.SPAWN_ENEMY, ["W", "Goblin"],
           [("count", .int 3), ("start", .int 0), ("interval", .int 1)]⟩] := rfl

theorem scenarioC_optimize (goblin orc : Int × Double × Int) :
    optimize fp (generate (scenarioC goblin orc))
      = some [⟨.DEFINE_ENEMY, ["Goblin"],
           [("hp", .int goblin.1), ("speed", .real goblin.2.1), ("reward", .int goblin.2.2)]⟩,
         ⟨.DEFINE_WAVE, ["W"], []⟩,
         ⟨.SPAWN_ENEMY, ["W", "Goblin"],
           [("count", .int 3), ("start", .int 0), ("interval", .int 1),
            ("total_duration", .int 3)]⟩] := rfl

theorem enemy_json (fmt : DoubleFormat) (name : String) (e : Int × Double × Int) :
    generateEnemyJSON fmt ⟨.DEFINE_ENEMY, [name],
        [("hp", .int e.1), ("speed", .real e.2.1), ("reward", .int e.2.2)]⟩
      = some (enemyObject fmt name e) := rfl

/-- C26: for the program of scenario C, whatever the attributes of the two
enemies, the JSON generated from the optimized IR has the sections `enemies`
and `waves`, and its `enemies` array has exactly one element, the object of
`Goblin`; the JSON generated from the unoptimized IR has an `enemies` array
with two elements, the objects of `Goblin` and `Orc` in this order. -/
theorem scenario_c_dce (fmt : DoubleFormat) (goblin orc : Int × Double × Int) :
    (∃ out, optimize fp (generate (scenarioC goblin orc)) = some out
      ∧ (ofOpcode .DEFINE_ENEMY out).map (fun i => i.operands) = [["Goblin"]]
      ∧ generateJSON fmt out
        = some (jsonDocument
            [arraySection "enemies" [enemyObject fmt "Goblin" goblin],
             wavesSection [waveJSON "W"
               ["          \x7b\n            \"enemyType\": \"Goblin\",\n            \"count\": 3,\n            \"start\": 0,\n            \"interval\": 1\n          \x7d"]]]))
    ∧ (ofOpcode .DEFINE_ENEMY (generate (scenarioC goblin orc))).map (fun i => i.operands)
        = [["Goblin"], ["Orc"]]
    ∧ generateJSON fmt (generate (scenarioC goblin orc))
        = some (jsonDocument
            [arraySection "enemies"
               [enemyObject fmt "Goblin" goblin, enemyObject fmt "Orc" orc],
             wavesSection [waveJSON "W"
               ["          \x7b\n            \"enemyType\": \"Goblin\",\n            \"count\": 3,\n            \"start\": 0,\n            \"interval\": 1\n          \x7d"]]]) := by
  refine ⟨⟨_, scenarioC_optimize goblin orc, rfl, ?_⟩, rfl, ?_⟩
  · rw [generateJSON_eq_sections]; rfl
  · rw [generateJSON_eq_sections]; rfl

/-! ## Termination of the lexer -/

theorem tokenAt_eof_of_bound (n : Nat) (l : Lexer) (h : l.source.length ≤ l.position + n) :
    (l.tokenAt n).type = .END_OF_FILE := by
  induction n generalizing l with
  | zero =>
    rcases getNextToken_progress l with ⟨h1, _, _⟩ | ⟨_, h2, h3⟩
    · exact h1
    · simp only [Nat.add_zero] at h; omega
  | succ n ih =>
    simp only [Lexer.tokenAt]
    rcases getNextToken_progress l with ⟨h1, _, _⟩ | ⟨_, h2, h3⟩
    · have := tokenAt_eof_forever l h1 (n + 1)
      simpa [Lexer.tokenAt] using this
    · apply ih
      rw [getNextToken_source]
      omega

theorem first_eof (l : Lexer) :
    ∃ n, n ≤ l.source.length - l.position
      ∧ (∀ j, j < n → (l.tokenAt j).type ≠ .END_OF_FILE)
      ∧ (∀ j, n ≤ j → (l.tokenAt j).type = .END_OF_FILE) := by
  classical
  have hex : ∃ n, (l.tokenAt n).type = .END_OF_FILE :=
    ⟨l.source.length - l.position, tokenAt_eof_of_bound _ l (by omega)⟩
  refine ⟨Nat.find hex, ?_, ?_, ?_⟩
  · exact Nat.find_min' hex (tokenAt_eof_of_bound _ l (by omega))
  · intro j hj
    exact Nat.find_min hex hj
  · intro j hj
    exact tokenAt_eof_after _ l (Nat.find_spec hex) j hj

/-- C38: a call of `getNextToken` that returns a token other than
`END_OF_FILE` strictly increases the reading position and leaves it within the
source; from any state, the tokens before the first `END_OF_FILE` number at
most the characters that remain, and every token from the first `END_OF_FILE`
on is `END_OF_FILE`.  For a fresh lexer this bound is the length of the
source. -/
theorem lexer_terminates (l : Lexer) :
    ((l.getNextToken).1.type ≠ .END_OF_FILE →
        l.position < (l.getNextToken).2.position
        ∧ (l.getNextToken).2.position ≤ l.source.length)
    ∧ ((l.getNextToken).1.type = .END_OF_FILE →
        (l.getNextToken).2.getNextToken = l.getNextToken)
    ∧ (∃ n, n ≤ l.source.length - l.position
        ∧ (∀ j, j < n → (l.tokenAt j).type ≠ .END_OF_FILE)
        ∧ (∀ j, n ≤ j → (l.tokenAt j).type = .END_OF_FILE))
    ∧ (∀ (source : String) (j : Nat), source.length ≤ j →
        ((Lexer.new source).tokenAt j).type = .END_OF_FILE) := by
  refine ⟨fun h => ?_, getNextToken_eof_again l, first_eof l, fun source j hj => ?_⟩
  · rcases getNextToken_progress l with ⟨h1, _, _⟩ | ⟨_, h2, h3⟩
    · exact absurd h1 h
    · exact ⟨h2, h3⟩
  · apply tokenAt_eof_of_bound
    simp only [Lexer.new, String.length] at hj ⊢
    omega

/-! ## Line numbers of tokens -/

theorem newlinesBefore_add (source : List Char) (position n : Nat) :
    newlinesBefore source (position + n)
      = newlinesBefore source position + ((source.drop position).take n).count '\n' := by
  simp only [newlinesBefore, List.take_add, List.count_append]

theorem newlinesBefore_all (source : List Char) (position : Nat)
    (h : source.length ≤ position) : newlinesBefore source position = source.count '\n' := by
  simp only [newlinesBefore, List.take_of_length_le h]

theorem skipWhitespaceLoop_line (cs : List Char) (position : Nat) (line : Int) :
    ∃ n, n ≤ cs.length
      ∧ skipWhitespaceLoop cs position line
          = (position + n, line + (((cs.take n).count '\n' : Nat) : Int))
      ∧ ∀ c rest, cs.drop n = c :: rest →
          ¬ (c = ' ' ∨ c = '\t' ∨ c = '\r') ∧ c ≠ '\n' := by
  induction cs generalizing position line with
  | nil => exact ⟨0, by simp [skipWhitespaceLoop]⟩
  | cons c cs ih =>
    by_cases h1 : c = ' ' ∨ c = '\t' ∨ c = '\r'
    · obtain ⟨n, hn, he, hh⟩ := ih (position + 1) line
      refine ⟨n + 1, by simp [hn], ?_, ?_⟩
      · simp only [skipWhitespaceLoop, h1, if_true, he, List.take_succ_cons]
        have hc : c ≠ '\n' := by
          rcases h1 with h | h | h <;> (subst h; decide)
        rw [List.count_cons_of_ne (Ne.symm hc)]
        simp only [Prod.mk.injEq, and_true]; omega
      · exact hh
    · by_cases h2 : c = '\n'
      · obtain ⟨n, hn, he, hh⟩ := ih (position + 1) (line + 1)
        refine ⟨n + 1, by simp [hn], ?_, ?_⟩
        · subst h2
          have e : skipWhitespaceLoop ('\n' :: cs) position line
              = skipWhitespaceLoop cs (position + 1) (line + 1) := by
            simp [skipWhitespaceLoop]
          rw [e, he, List.take_succ_cons, List.count_cons_self]
          apply Prod.ext
          · simp only []; omega
          · simp only []; push_cast; omega
        · exact hh
      · refine ⟨0, Nat.zero_le _, ?_, ?_⟩
        · simp [skipWhitespaceLoop, h1, h2]
        · intro d rest hd
          simp only [List.drop_zero, List.cons.injEq] at hd
          rw [← hd.1]
          exact ⟨h1, h2⟩

theorem skipToLineEnd_line (cs : List Char) (position : Nat) :
    ∃ n, n ≤ cs.length ∧ skipToLineEnd cs position = position + n
      ∧ (cs.take n).count '\n' = 0 := by
  induction cs generalizing position with
  | nil => exact ⟨0, by simp [skipToLineEnd]⟩
  | cons c cs ih =>
    by_cases h : c = '\n'
    · exact ⟨0, by simp, by simp [skipToLineEnd, h], by simp⟩
    · obtain ⟨n, hn, he, hc⟩ := ih (position + 1)
      refine ⟨n + 1, by simp [hn], ?_, ?_⟩
      · simp only [skipToLineEnd, ne_eq, h, not_false_eq_true, if_true, he]; omega
      · rw [List.take_succ_cons, List.count_cons_of_ne (Ne.symm h)]; exact hc

theorem skipWhitespace_line (l : Lexer) (h : LineInv l) :
    LineInv l.skipWhitespace
    ∧ ∀ c rest, l.skipWhitespace.rest = c :: rest →
        ¬ (c = ' ' ∨ c = '\t' ∨ c = '\r') ∧ c ≠ '\n' := by
  obtain ⟨n, hn, he, hh⟩ := skipWhitespaceLoop_line l.rest l.position l.currentLine
  constructor
  · simp only [LineInv, Lexer.skipWhitespace, he] at h ⊢
    rw [newlinesBefore_add, h]
    simp only [Lexer.rest]
    push_cast; omega
  · intro c rest hr
    apply hh c rest
    simp only [Lexer.skipWhitespace, he] at hr
    simp only [Lexer.rest] at hr ⊢
    rw [← hr, List.drop_drop]

theorem skipComment_line (l : Lexer) (h : LineInv l) : LineInv l.skipComment := by
  simp only [Lexer.skipComment]
  split
  · obtain ⟨n, hn, he, hc⟩ := skipToLineEnd_line l.rest l.position
    simp only [LineInv, he] at h ⊢
    rw [newlinesBefore_add, h]
    simp only [Lexer.rest] at hc
    rw [hc]; simp
  · exact h

theorem skip_line (l : Lexer) (h : LineInv l) :
    LineInv l.skip
    ∧ ∀ c rest, l.skip.rest = c :: rest →
        ¬ (c = ' ' ∨ c = '\t' ∨ c = '\r') ∧ c ≠ '\n' :=
  skipWhitespace_line _ (skipComment_line _ (skipWhitespace_line l h).1)

theorem lineInv_consume (l : Lexer) (n : Nat) (h : LineInv l)
    (hc : (l.rest.take n).count '\n' = 0) :
    LineInv { l with position := l.position + n } := by
  simp only [LineInv] at h ⊢
  rw [newlinesBefore_add, h]
  simp only [Lexer.rest] at hc
  rw [hc]; simp

theorem isdigit_not_newline (c : Char) (h : isdigit c = true) : c ≠ '\n' := by
  intro e; subst e; revert h; decide

theorem isIdentChar_not_newline (c : Char) (h : isIdentChar c = true) : c ≠ '\n' := by
  intro e; subst e; revert h; decide

theorem count_eq_zero_of_forall (cs : List Char) (h : ∀ x ∈ cs, x ≠ '\n') :
    cs.count '\n' = 0 := by
  rw [List.count_eq_zero]
  intro hm
  exact h _ hm rfl

theorem numberLexeme_prefix (cs : List Char) :
    (numberLexeme cs).1 <+: cs ∧ ∀ x ∈ (numberLexeme cs).1, x ≠ '\n' := by
  have hsplit : cs.takeWhile isdigit ++ cs.dropWhile isdigit = cs :=
    List.takeWhile_append_dropWhile _ _
  have htw : ∀ (l : List Char), ∀ x ∈ l.takeWhile isdigit, x ≠ '\n' := fun l x hx =>
    isdigit_not_newline x (List.mem_takeWhile_imp hx)
  simp only [numberLexeme]
  split
  · rename_i after heq
    constructor
    · have h2 : after.takeWhile isdigit ++ after.dropWhile isdigit = after :=
        List.takeWhile_append_dropWhile _ _
      refine ⟨after.dropWhile isdigit, ?_⟩
      conv => rhs; rw [← hsplit, heq, ← h2]
      simp
    · intro x hx
      simp only [List.mem_append, List.mem_cons] at hx
      rcases hx with hx | hx | hx
      · exact htw _ x hx
      · subst hx; decide
      · exact htw _ x hx
  · exact ⟨List.takeWhile_prefix _, htw cs⟩

theorem punctuation_text (c : Char) (ty : TokenType) (text : String)
    (h : punctuation c = some (ty, text)) : text.data = [c] := by
  simp only [punctuation] at h
  repeat' split at h
  all_goals first | (cases h; subst_vars; rfl) | skip
  all_goals simp at h

/-- One call of `getNextToken` from a state whose line counter is right: the
token carries the line of the position reached by the skipping, its lexeme is a
non-empty prefix of the text from there, and the line counter is right again
afterwards. -/
theorem getNextToken_line (l : Lexer) (h : LineInv l) :
    (l.getNextToken).1.line = 1 + (newlinesBefore l.source l.skip.position : Int)
    ∧ LineInv (l.getNextToken).2
    ∧ ((l.getNextToken).1.type ≠ .END_OF_FILE →
        (l.getNextToken).1.lexeme.data ≠ []
        ∧ (l.getNextToken).1.lexeme.data <+: l.source.drop l.skip.position)
    ∧ ((l.getNextToken).1.type = .END_OF_FILE → l.source.length ≤ l.skip.position) := by
  obtain ⟨hinv, hhead⟩ := skip_line l h
  have hsrc := skip_source l
  have hline : l.skip.currentLine = 1 + (newlinesBefore l.source l.skip.position : Int) := by
    have := hinv
    simp only [LineInv, hsrc] at this
    exact this
  cases hr : l.skip.rest with
  | nil =>
    rw [getNextToken_eof l hr]
    refine ⟨hline, hinv, fun hne => absurd rfl hne, fun _ => ?_⟩
    have : l.skip.source.drop l.skip.position = [] := hr
    rw [List.drop_eq_nil_iff, hsrc] at this
    exact this
  | cons c cs =>
    have hr2 : l.source.drop l.skip.position = c :: cs := by rw [← hsrc]; exact hr
    obtain ⟨hws, hnl⟩ := hhead c cs hr
    by_cases hd : isdigit c = true
    · rw [getNextToken_digit l c cs hr hd]
      obtain ⟨hpre, hno⟩ := numberLexeme_prefix (c :: cs)
      have hlen := numberLexeme_length c cs hd
      refine ⟨hline, ?_, fun _ => ⟨?_, ?_⟩, fun he => ?_⟩
      · apply lineInv_consume _ _ hinv
        rw [hr, List.prefix_iff_eq_take.mp hpre |>.symm]
        exact count_eq_zero_of_forall _ hno
      · simp only []
        intro e; rw [e] at hlen; simp at hlen
      · simp only [hr2]; exact hpre
      · simp only [] at he; split at he <;> simp at he
    · have hd : isdigit c = false := by simpa using hd
      by_cases hw : isalpha c = true ∨ c = '_'
      · rw [getNextToken_word l c cs hr hw]
        have hc := wordType_consumable (String.mk (c :: cs.takeWhile isIdentChar))
        simp only [consumable, decide_eq_true_eq] at hc
        refine ⟨hline, ?_, fun _ => ⟨by simp, ?_⟩, fun he => absurd he hc.2⟩
        · have := lineInv_consume l.skip (1 + (cs.takeWhile isIdentChar).length) hinv (by
            rw [hr, Nat.add_comm, List.take_succ_cons, take_takeWhile_length,
              List.count_cons_of_ne (Ne.symm hnl)]
            exact count_eq_zero_of_forall _ (fun x hx =>
              isIdentChar_not_newline x (List.mem_takeWhile_imp hx)))
          simpa [Nat.add_assoc] using this
        · simp only [hr2]
          exact List.prefix_cons_inj c |>.mpr (List.takeWhile_prefix _)
      · have ha : isalpha c = false := by
          cases h : isalpha c with
          | false => rfl
          | true => exact absurd (Or.inl h) hw
        have hu : c ≠ '_' := fun h => hw (Or.inr h)
        have hone : LineInv { l.skip with position := l.skip.position + 1 } := by
          apply lineInv_consume _ _ hinv
          rw [hr, List.take_succ_cons, List.take_zero, List.count_cons_of_ne (Ne.symm hnl)]
          rfl
        have hp1 : [c] <+: c :: cs := ⟨cs, rfl⟩
        cases hp : punctuation c with
        | none =>
          rw [getNextToken_unknown l c cs hr hd ha hu hp]
          exact ⟨hline, hone, fun _ => ⟨by simp, by simp only [hr2]; exact hp1⟩,
            fun he => by simp at he⟩
        | some r =>
          obtain ⟨ty, text⟩ := r
          rw [getNextToken_punct l c cs hr hd ha hu ty text hp]
          have hc := punctuation_consumable c ty text hp
          simp only [consumable, decide_eq_true_eq] at hc
          have ht := punctuation_text c ty text hp
          exact ⟨hline, hone, fun _ => ⟨by simp [ht], by simp only [hr2, ht]; exact hp1⟩,
            fun he => absurd he hc.2⟩

theorem lineInv_new (source : String) : LineInv (Lexer.new source) := by
  simp [LineInv, Lexer.new, newlinesBefore]

theorem lineInv_stateAt (l : Lexer) (k : Nat) (h : LineInv l) : LineInv (l.stateAt k) := by
  induction k generalizing l with
  | zero => exact h
  | succ k ih => exact ih _ (getNextToken_line l h).2.1

theorem stateAt_source (l : Lexer) (k : Nat) : (l.stateAt k).source = l.source := by
  induction k generalizing l with
  | zero => rfl
  | succ k ih => simp only [Lexer.stateAt]; rw [ih, getNextToken_source]

theorem wordType_ne_int (text : String) : wordType text ≠ .INT := by
  by_cases h1 : text = "map"
  · subst h1; decide
  by_cases h2 : text = "enemy"
  · subst h2; decide
  by_cases h3 : text = "tower"
  · subst h3; decide
  by_cases h4 : text = "wave"
  · subst h4; decide
  by_cases h5 : text = "spawn"
  · subst h5; decide
  by_cases h6 : text = "place"
  · subst h6; decide
  by_cases h7 : text = "at"
  · subst h7; decide
  by_cases h8 : text = "size"
  · subst h8; decide
  by_cases h9 : text = "path"
  · subst h9; decide
  by_cases h10 : text = "count"
  · subst h10; decide
  by_cases h11 : text = "start"
  · subst h11; decide
  by_cases h12 : text = "interval"
  · subst h12; decide
  simp only [wordType, h1, h2, h3, h4, h5, h6, h7, h8, h9, h10, h11, h12, if_false]
  decide

theorem punctuation_ne_int (c : Char) (ty : TokenType) (text : String)
    (h : punctuation c = some (ty, text)) : ty ≠ .INT := by
  simp only [punctuation] at h
  repeat' split at h
  all_goals first | (cases h; decide) | skip
  all_goals simp at h

/-- The lexeme of an `INT` token starts with a digit. -/
theorem getNextToken_int (l : Lexer) (ht : (l.getNextToken).1.type = .INT) :
    ∃ c cs, (l.getNextToken).1.lexeme.data = c :: cs ∧ isdigit c = true := by
  cases hr : l.skip.rest with
  | nil => rw [getNextToken_eof l hr] at ht; simp at ht
  | cons c cs =>
    by_cases hd : isdigit c = true
    · rw [getNextToken_digit l c cs hr hd]
      refine ⟨c, (numberLexeme (c :: cs)).1.tail, ?_, hd⟩
      simp only [numberLexeme, List.dropWhile_cons, List.takeWhile_cons, hd, if_true]
      split <;> rfl
    · have hd : isdigit c = false := by simpa using hd
      by_cases hw : isalpha c = true ∨ c = '_'
      · rw [getNextToken_word l c cs hr hw] at ht
        exact absurd ht (wordType_ne_int _)
      · have ha : isalpha c = false := by
          cases h : isalpha c with
          | false => rfl
          | true => exact absurd (Or.inl h) hw
        have hu : c ≠ '_' := fun h => hw (Or.inr h)
        cases hp : punctuation c with
        | none =>
          rw [getNextToken_unknown l c cs hr hd ha hu hp] at ht
          simp at ht
        | some r =>
          obtain ⟨ty, text⟩ := r
          rw [getNextToken_punct l c cs hr hd ha hu ty text hp] at ht
          exact absurd ht (punctuation_ne_int c ty text hp)

theorem isdigit_not_isspace (c : Char) (h : isdigit c = true) : isspace c = false := by
  cases hs : isspace c with
  | false => rfl
  | true =>
    simp only [isspace, Bool.or_eq_true, decide_eq_true_eq] at hs
    rcases hs with ((((hs | hs) | hs) | hs) | hs) | hs <;> (subst hs; revert h; decide)

/-- Conversion of a text that starts with a digit: no sign is read. -/
theorem stoi_digit (s : String) (c : Char) (cs : List Char)
    (hs : s.data = c :: cs) (hc : isdigit c = true) :
    stoi s = if inIntRange (digitsValue ((c :: cs).takeWhile isdigit) : Int)
      then .ok (digitsValue ((c :: cs).takeWhile isdigit) : Int)
      else .error (.exception "stoi") := by
  have hsp := isdigit_not_isspace c hc
  have hm : c ≠ '-' := by intro e; subst e; revert hc; decide
  have hp : c ≠ '+' := by intro e; subst e; revert hc; decide
  have hmatch : @stoi.match_1 (fun _ => Bool × List Char) (c :: cs)
      (fun rest => (true, rest)) (fun rest => (false, rest)) (fun _ => (false, c :: cs))
      = (false, c :: cs) := by
    split
    · rename_i rest heq; simp only [List.cons.injEq] at heq; exact absurd heq.1 hm
    · rename_i rest heq; simp only [List.cons.injEq] at heq; exact absurd heq.1 hp
    · rfl
  simp only [stoi, hs, List.dropWhile_cons, hsp, Bool.false_eq_true, if_false]
  simp only [hmatch]
  simp only [List.takeWhile_cons, hc, if_true]
  simp

/-- Conversion of a text that starts with a minus sign. -/
theorem stoi_minus (s : String) (ds : List Char) (hs : s.data = '-' :: ds) :
    stoi s = if ds.takeWhile isdigit = [] then .error (.exception "stoi")
      else if inIntRange (-(digitsValue (ds.takeWhile isdigit) : Int))
      then .ok (-(digitsValue (ds.takeWhile isdigit) : Int))
      else .error (.exception "stoi") := by
  have hsp : isspace '-' = false := by decide
  simp only [stoi, hs, List.dropWhile_cons, hsp, Bool.false_eq_true, if_false, if_true]

/-- Conversion of a text that starts with a digit gives no negative value. -/
theorem stoi_digit_nonneg (s : String) (c : Char) (cs : List Char) (v : Int)
    (hs : s.data = c :: cs) (hc : isdigit c = true) (hv : stoi s = .ok v) : 0 ≤ v := by
  rw [stoi_digit s c cs hs hc] at hv
  split at hv
  · simp only [Except.ok.injEq] at hv
    rw [← hv]; exact Int.natCast_nonneg _
  · simp at hv

/-- The value read from an `INT` token that the parser got from the lexer is
not negative. -/
theorem int_nonneg (p : Parser) (v : Int) (ht : p.advance.currentToken.type = .INT)
    (hv : stoi p.advance.currentToken.lexeme = .ok v) : 0 ≤ v := by
  obtain ⟨c, cs, hl, hc⟩ := getNextToken_int p.lexer ht
  exact stoi_digit_nonneg _ c cs v hl hc hv

theorem parsePathPoint_nonneg (p p' : Parser) (v : Int × Int)
    (h : parsePathPoint p = .ok (v, p')) : 0 ≤ v.1 ∧ 0 ≤ v.2 := by
  simp only [parsePathPoint, expect_bind_ok, stoi_bind_ok, pure_ok_iff, Prod.mk.injEq] at h
  obtain ⟨_, h2, x, hx, _, h4, y, hy, _, hv, _⟩ := h
  rw [← hv]
  exact ⟨int_nonneg _ _ h2 hx, int_nonneg _ _ h4 hy⟩

theorem parsePathLoop_nonneg (fuel : Nat) (p p' : Parser) (acc path : List (Int × Int))
    (hacc : ∀ pt ∈ acc, 0 ≤ pt.1 ∧ 0 ≤ pt.2)
    (h : parsePathLoop fuel p acc = .ok (path, p')) :
    ∀ pt ∈ path, 0 ≤ pt.1 ∧ 0 ≤ pt.2 := by
  induction fuel generalizing p acc with
  | zero => simp [parsePathLoop] at h
  | succ fuel ih =>
    simp only [parsePathLoop] at h
    by_cases hc : p.currentToken.type = .RBRACKET
    · rw [matchType_true _ _ hc] at h
      simp only [Except.ok.injEq, Prod.mk.injEq] at h
      rw [← h.1]; exact hacc
    · rw [matchType_false _ _ hc] at h
      simp only [] at h
      cases hpt : parsePathPoint p with
      | error e => simp [hpt, bind, Except.bind] at h
      | ok r =>
        obtain ⟨pt, p1⟩ := r
        simp only [hpt, bind, Except.bind] at h
        have hn := parsePathPoint_nonneg p p1 pt hpt
        refine ih _ _ ?_ h
        intro q hq
        rcases List.mem_append.mp hq with hq | hq
        · exact hacc q hq
        · rw [List.mem_singleton.mp hq]; exact hn

theorem parseMapDecl_nonneg (fuel : Nat) (p p' : Parser) (v : MapDecl)
    (h : parseMapDecl fuel p = .ok (v, p')) : declNonneg (.map v) = true := by
  simp only [parseMapDecl, expect_bind_ok, stoi_bind_ok, pathLoop_bind_ok, pure_ok_iff,
    Prod.mk.injEq] at h
  obtain ⟨_, _, _, _, _, h6, w, hw, _, h8, ht, hh, _, _, _, _, _, ⟨path, p1⟩, hl, _, _, hv, _⟩ := h
  have hp := parsePathLoop_nonneg _ _ _ _ _ (by simp) hl
  have h1 := int_nonneg _ _ h6 hw
  have h2 := int_nonneg _ _ h8 hh
  rw [← hv]
  simp only [declNonneg, Bool.and_eq_true, decide_eq_true_eq, List.all_eq_true]
  exact ⟨⟨h1, h2⟩, hp⟩

theorem parseEnemyDecl_nonneg (p p' : Parser) (v : EnemyDecl)
    (h : parseEnemyDecl p = .ok (v, p')) : declNonneg (.enemy v) = true := by
  simp only [parseEnemyDecl, expect_bind_ok, stoi_bind_ok, stod_bind_ok, pure_ok_iff,
    Prod.mk.injEq] at h
  obtain ⟨_, _, _, _, h5, hp, hhp, _, _, _, _, _, _, _, _, _, h13, rw, hrw, _, _, hv, _⟩ := h
  have h1 := int_nonneg _ _ h5 hhp
  have h2 := int_nonneg _ _ h13 hrw
  rw [← hv]
  simp only [declNonneg, Bool.and_eq_true, decide_eq_true_eq]
  exact ⟨h1, h2⟩

theorem parseTowerDecl_nonneg (p p' : Parser) (v : TowerDecl)
    (h : parseTowerDecl p = .ok (v, p')) : declNonneg (.tower v) = true := by
  simp only [parseTowerDecl, expect_bind_ok, stoi_bind_ok, stod_bind_ok, pure_ok_iff,
    Prod.mk.injEq] at h
  obtain ⟨_, _, _, _, h5, r, hr, _, _, _, h9, d, hd, _, _, _, _, _, _, _, _, _, h17, c, hc,
    _, _, hv, _⟩ := h
  have h1 := int_nonneg _ _ h5 hr
  have h2 := int_nonneg _ _ h9 hd
  have h3 := int_nonneg _ _ h17 hc
  rw [← hv]
  simp only [declNonneg, Bool.and_eq_true, decide_eq_true_eq]
  exact ⟨⟨h1, h2⟩, h3⟩

theorem parseSpawnStmt_nonneg (p p' : Parser) (v : SpawnStmt)
    (h : parseSpawnStmt p = .ok (v, p')) : 0 ≤ v.count ∧ 0 ≤ v.start ∧ 0 ≤ v.interval := by
  simp only [parseSpawnStmt, expect_bind_ok, stoi_bind_ok, pure_ok_iff, Prod.mk.injEq] at h
  obtain ⟨_, _, _, _, _, h6, c, hc, _, _, _, h10, s, hs, _, _, _, h14, i, hi, _, _, hv, _⟩ := h
  rw [← hv]
  exact ⟨int_nonneg _ _ h6 hc, int_nonneg _ _ h10 hs, int_nonneg _ _ h14 hi⟩

theorem parseSpawnLoop_nonneg (fuel : Nat) (p p' : Parser) (acc spawns : List SpawnStmt)
    (hacc : ∀ s ∈ acc, 0 ≤ s.count ∧ 0 ≤ s.start ∧ 0 ≤ s.interval)
    (h : parseSpawnLoop fuel p acc = .ok (spawns, p')) :
    ∀ s ∈ spawns, 0 ≤ s.count ∧ 0 ≤ s.start ∧ 0 ≤ s.interval := by
  induction fuel generalizing p acc with
  | zero => simp [parseSpawnLoop] at h
  | succ fuel ih =>
    simp only [parseSpawnLoop] at h
    by_cases hc : p.currentToken.type = .SPAWN
    · rw [matchType_true _ _ hc] at h
      simp only [] at h
      cases hst : parseSpawnStmt p.advance with
      | error e => simp [hst, bind, Except.bind] at h
      | ok r =>
        obtain ⟨st, p1⟩ := r
        simp only [hst, bind, Except.bind] at h
        have hn := parseSpawnStmt_nonneg _ p1 st hst
        refine ih _ _ ?_ h
        intro q hq
        rcases List.mem_append.mp hq with hq | hq
        · exact hacc q hq
        · rw [List.mem_singleton.mp hq]; exact hn
    · rw [matchType_false _ _ hc] at h
      simp only [Except.ok.injEq, Prod.mk.injEq] at h
      rw [← h.1]; exact hacc

theorem parseWaveDecl_nonneg (fuel : Nat) (p p' : Parser) (v : WaveDecl)
    (h : parseWaveDecl fuel p = .ok (v, p')) : declNonneg (.wave v) = true := by
  simp only [parseWaveDecl, expect_bind_ok, spawnLoop_bind_ok, pure_ok_iff,
    Prod.mk.injEq] at h
  obtain ⟨_, _, ⟨spawns, p1⟩, hl, _, hv, _⟩ := h
  have hs := parseSpawnLoop_nonneg _ _ _ _ _ (by simp) hl
  rw [← hv]
  simp only [declNonneg, List.all_eq_true, Bool.and_eq_true, decide_eq_true_eq]
  intro s hm
  obtain ⟨a, b, c⟩ := hs s hm
  exact ⟨⟨a, b⟩, c⟩

theorem parsePlaceStmt_nonneg (p p' : Parser) (v : PlaceStmt)
    (h : parsePlaceStmt p = .ok (v, p')) : declNonneg (.place v) = true := by
  simp only [parsePlaceStmt, expect_bind_ok, stoi_bind_ok, pure_ok_iff, Prod.mk.injEq] at h
  obtain ⟨_, _, _, h4, x, hx, _, h6, y, hy, _, _, hv, _⟩ := h
  have h1 := int_nonneg _ _ h4 hx
  have h2 := int_nonneg _ _ h6 hy
  rw [← hv]
  simp only [declNonneg, Bool.and_eq_true, decide_eq_true_eq]
  exact ⟨h1, h2⟩

theorem parseDeclaration_nonneg (fuel : Nat) (p p' : Parser) (v : Decl)
    (h : parseDeclaration fuel p = .ok (v, p')) : declNonneg v = true := by
  simp only [parseDeclaration] at h
  by_cases h1 : p.currentToken.type = .MAP
  · rw [matchType_true _ _ h1] at h
    simp only [except_bind_ok, pure_ok_iff, Prod.mk.injEq] at h
    obtain ⟨⟨node, p1⟩, hn, rfl, _⟩ := h
    exact parseMapDecl_nonneg _ _ _ _ hn
  rw [matchType_false _ _ h1] at h
  simp only [] at h
  by_cases h2 : p.currentToken.type = .ENEMY
  · rw [matchType_true _ _ h2] at h
    simp only [except_bind_ok, pure_ok_iff, Prod.mk.injEq] at h
    obtain ⟨⟨node, p1⟩, hn, rfl, _⟩ := h
    exact parseEnemyDecl_nonneg _ _ _ hn
  rw [matchType_false _ _ h2] at h
  simp only [] at h
  by_cases h3 : p.currentToken.type = .TOWER
  · rw [matchType_true _ _ h3] at h
    simp only [except_bind_ok, pure_ok_iff, Prod.mk.injEq] at h
    obtain ⟨⟨node, p1⟩, hn, rfl, _⟩ := h
    exact parseTowerDecl_nonneg _ _ _ hn
  rw [matchType_false _ _ h3] at h
  simp only [] at h
  by_cases h4 : p.currentToken.type = .WAVE
  · rw [matchType_true _ _ h4] at h
    simp only [except_bind_ok, pure_ok_iff, Prod.mk.injEq] at h
    obtain ⟨⟨node, p1⟩, hn, rfl, _⟩ := h
    exact parseWaveDecl_nonneg _ _ _ _ hn
  rw [matchType_false _ _ h4] at h
  simp only [] at h
  by_cases h5 : p.currentToken.type = .PLACE
  · rw [matchType_true _ _ h5] at h
    simp only [except_bind_ok, pure_ok_iff, Prod.mk.injEq] at h
    obtain ⟨⟨node, p1⟩, hn, rfl, _⟩ := h
    exact parsePlaceStmt_nonneg _ _ _ hn
  rw [matchType_false _ _ h5] at h
  simp at h

theorem parseProgramLoop_nonneg (fuel : Nat) (p p' : Parser) (acc : List Decl) (v : Program)
    (hacc : ∀ d ∈ acc, declNonneg d = true)
    (h : parseProgramLoop fuel p acc = .ok (v, p')) :
    ∀ d ∈ v.declarations, declNonneg d = true := by
  induction fuel generalizing p acc with
  | zero => simp [parseProgramLoop] at h
  | succ fuel ih =>
    simp only [parseProgramLoop] at h
    by_cases hc : p.currentToken.type = .END_OF_FILE
    · simp only [hc, ne_eq, not_true_eq_false, if_false, Except.ok.injEq, Prod.mk.injEq] at h
      rw [← h.1]; exact hacc
    · simp only [hc, ne_eq, not_false_eq_true, if_true, except_bind_ok] at h
      obtain ⟨⟨node, p1⟩, hd, hl⟩ := h
      have hn := parseDeclaration_nonneg _ _ _ _ hd
      refine ih _ _ ?_ hl
      intro q hq
      rcases List.mem_append.mp hq with hq | hq
      · exact hacc q hq
      · rw [List.mem_singleton.mp hq]; exact hn

theorem signTest_of_nonneg (d : Decl) (h : declNonneg d = true) : signTest d = false := by
  cases d with
  | map m =>
    simp only [declNonneg, Bool.and_eq_true, decide_eq_true_eq, List.all_eq_true] at h
    simp only [signTest, List.any_eq_false, Bool.or_eq_true, decide_eq_true_eq]
    intro pt hm
    have := h.2 pt hm
    omega
  | enemy e =>
    simp only [declNonneg, Bool.and_eq_true, decide_eq_true_eq] at h
    simp only [signTest, decide_eq_false_iff_not]; omega
  | tower t =>
    simp only [declNonneg, Bool.and_eq_true, decide_eq_true_eq] at h
    simp only [signTest, decide_eq_false_iff_not]; omega
  | wave w =>
    simp only [declNonneg, Bool.and_eq_true, decide_eq_true_eq, List.all_eq_true] at h
    simp only [signTest, List.any_eq_false, decide_eq_true_eq]
    intro s hm
    have := h s hm
    omega
  | place p =>
    simp only [declNonneg, Bool.and_eq_true, decide_eq_true_eq] at h
    simp only [signTest, Bool.or_eq_false_iff, decide_eq_false_iff_not]; omega

theorem analyzeFrom_error (a : SemanticAnalyzer) (ds : List Decl) (msg : String)
    (h : analyzeFrom a ds = .error msg) : ∃ a1 d, d ∈ ds ∧ checkDecl a1 d = .error msg := by
  induction ds generalizing a with
  | nil => simp [analyzeFrom] at h
  | cons d rest ih =>
    simp only [analyzeFrom] at h
    cases hc : checkDecl a d with
    | error e =>
      simp only [hc, Except.error.injEq] at h
      exact ⟨a, d, List.mem_cons_self _ _, by rw [hc, h]⟩
    | ok a1 =>
      simp only [hc] at h
      obtain ⟨a2, d2, hm, he⟩ := ih a1 h
      exact ⟨a2, d2, List.mem_cons_of_mem _ hm, he⟩

theorem append_ne_reward (text name tail : String) (c : Char) (hc : c ≠ 'E')
    (ht : text.data.head? = some c) :
    text ++ name ++ tail ≠ "Enemy reward cannot be negative.\n" := by
  intro h
  have := congrArg String.data h
  simp only [String.data_append] at this
  cases hd : text.data with
  | nil => rw [hd] at ht; simp at ht
  | cons x xs =>
    rw [hd] at ht this
    simp only [List.head?_cons, Option.some.injEq] at ht
    simp only [List.cons_append] at this
    have h0 := congrArg List.head? this
    simp only [List.head?_cons, Option.some.injEq] at h0
    rw [ht] at h0
    exact hc h0

theorem checkSpawns_ne_reward (a : SemanticAnalyzer) (spawns : List SpawnStmt) :
    checkSpawns a spawns ≠ .error "Enemy reward cannot be negative.\n" := by
  induction spawns with
  | nil => simp [checkSpawns]
  | cons s rest ih =>
    simp only [checkSpawns]
    split
    · intro h
      simp only [Except.error.injEq] at h
      exact append_ne_reward "Wave uses undefined enemy: " _ _ 'W' (by decide) rfl h
    · split
      · intro h
        simp only [Except.error.injEq] at h
        revert h; decide
      · exact ih

/-- Only the test `reward < 0` of `checkEnemy` writes the diagnostic about a
negative reward. -/
theorem checkDecl_reward (a : SemanticAnalyzer) (d : Decl)
    (h : checkDecl a d = .error "Enemy reward cannot be negative.\n") : signTest d = true := by
  cases d with
  | map m =>
    simp only [checkDecl, checkMap] at h
    split at h
    · simp only [Except.error.injEq] at h
      exact absurd h (append_ne_reward "Semantic Error: Duplicate map name " _ _ 'S' (by decide) rfl)
    · split at h
      · simp only [Except.error.injEq] at h; exact absurd h (by decide)
      · split at h
        · simp only [Except.error.injEq] at h; exact absurd h (by decide)
        · simp at h
  | enemy e =>
    simp only [checkDecl, checkEnemy] at h
    split at h
    · simp only [Except.error.injEq] at h
      exact absurd h (append_ne_reward "Duplicate enemy: " _ _ 'D' (by decide) rfl)
    · split at h
      · simp only [Except.error.injEq] at h; exact absurd h (by decide)
      · split at h
        · simp only [Except.error.injEq] at h; exact absurd h (by decide)
        · split at h
          · rename_i hr
            simp only [signTest, decide_eq_true_eq]; exact hr
          · simp at h
  | tower t =>
    simp only [checkDecl, checkTower] at h
    split at h
    · simp only [Except.error.injEq] at h
      exact absurd h (append_ne_reward "Duplicate tower: " _ _ 'D' (by decide) rfl)
    · split at h
      · simp only [Except.error.injEq] at h; exact absurd h (by decide)
      · split at h
        · simp only [Except.error.injEq] at h; exact absurd h (by decide)
        · simp at h
  | wave w =>
    simp only [checkDecl, checkWave] at h
    split at h
    · simp only [Except.error.injEq] at h
      exact absurd h (append_ne_reward "Duplicate wave: " _ _ 'D' (by decide) rfl)
    · split at h
      · rename_i msg hs
        simp only [Except.error.injEq] at h
        rw [h] at hs
        exact absurd hs (checkSpawns_ne_reward _ _)
      · simp at h
  | place p =>
    simp only [checkDecl, checkPlacement] at h
    split at h
    · simp only [Except.error.injEq] at h
      exact absurd h (append_ne_reward "Placing undefined tower type: " _ _ 'P' (by decide) rfl)
    · split at h
      · simp only [Except.error.injEq] at h; exact absurd h (by decide)
      · split at h
        · simp only [Except.error.injEq] at h; exact absurd h (by decide)
        · simp at h

/-- C37: every integer field of a program that `parseProgram` returns for a
source text is at least 0 (map width and height, path coordinates, hp, reward,
range, damage, cost, spawn count, start and interval, placement x and y), so
each test `... < 0` of the analyzer is false on each of its declarations, and
the analyzer never writes the diagnostic of the test `reward < 0`. -/
theorem parsed_integers_nonneg (source : String) (program : Program)
    (h : parsedProgram source = some program) :
    (∀ d ∈ program.declarations, declNonneg d = true ∧ signTest d = false)
    ∧ analyze program ≠ .error "Enemy reward cannot be negative.\n" := by
  obtain ⟨p', hp⟩ := parsedProgram_some source program h
  have hn := parseProgramLoop_nonneg _ _ _ _ _ (by simp) hp
  refine ⟨fun d hd => ⟨hn d hd, signTest_of_nonneg d (hn d hd)⟩, fun he => ?_⟩
  obtain ⟨a1, d, hm, hc⟩ := analyzeFrom_error _ _ _ he
  have h1 := checkDecl_reward a1 d hc
  rw [signTest_of_nonneg d (hn d hm)] at h1
  exact absurd h1 (by decide)

theorem parsed_integers_nonneg_witness :
    parsedProgram "map M { size = (4, 3); path = [(0, 1) (3, 1)]; } place T at (2, 0);"
        = some ⟨[.map ⟨"M", 4, 3, [(0, 1), (3, 1)]⟩, .place ⟨"T", 2, 0⟩]⟩
    ∧ (∀ d ∈ [Decl.map ⟨"M", 4, 3, [(0, 1), (3, 1)]⟩, .place ⟨"T", 2, 0⟩],
        declNonneg d = true ∧ signTest d = false) :=
  ⟨by set_option maxRecDepth 100000 in decide,
   (parsed_integers_nonneg
      "map M { size = (4, 3); path = [(0, 1) (3, 1)]; } place T at (2, 0);"
      ⟨[.map ⟨"M", 4, 3, [(0, 1), (3, 1)]⟩, .place ⟨"T", 2, 0⟩]⟩
      (by set_option maxRecDepth 100000 in decide)).1⟩

/-! ## Attribute names are not checked -/

theorem parseEnemyDecl_iff (p p' : Parser) (v : EnemyDecl) :
    parseEnemyDecl p = .ok (v, p') ↔
      upcomingTypes enemyTypes p = true
      ∧ v.name = (p.tokenAt 0).lexeme
      ∧ stoi (p.tokenAt 4).lexeme = .ok v.hp
      ∧ stod (p.tokenAt 8).lexeme = .ok v.speed
      ∧ stoi (p.tokenAt 12).lexeme = .ok v.reward
      ∧ p' = p.advanceN 15 := by
  simp only [parseEnemyDecl, expect_bind_ok, stoi_bind_ok, stod_bind_ok, pure_ok_iff,
    Prod.mk.injEq, upcomingTypes, enemyTypes, Parser.tokenAt, Parser.advanceN,
    Bool.and_eq_true, decide_eq_true_eq, Bool.and_true]
  constructor
  · rintro ⟨h1, h2, h3, h4, h5, hp, hhp, h6, h7, h8, h9, sp, hsp, h10, h11, h12, h13, rw, hrw,
      h14, h15, hv, hp'⟩
    subst hv
    exact ⟨⟨h1, h2, h3, h4, h5, h6, h7, h8, h9, h10, h11, h12, h13, h14, h15⟩, rfl, hhp, hsp,
      hrw, hp'.symm⟩
  · rintro ⟨⟨h1, h2, h3, h4, h5, h6, h7, h8, h9, h10, h11, h12, h13, h14, h15⟩, hn, hhp, hsp,
      hrw, hp'⟩
    refine ⟨h1, h2, h3, h4, h5, _, hhp, h6, h7, h8, h9, _, hsp, h10, h11, h12, h13, _, hrw,
      h14, h15, ?_, hp'.symm⟩
    cases v
    simp only [] at hn
    rw [hn]

theorem parseTowerDecl_iff (p p' : Parser) (v : TowerDecl) :
    parseTowerDecl p = .ok (v, p') ↔
      upcomingTypes towerTypes p = true
      ∧ v.name = (p.tokenAt 0).lexeme
      ∧ stoi (p.tokenAt 4).lexeme = .ok v.range
      ∧ stoi (p.tokenAt 8).lexeme = .ok v.damage
      ∧ stod (p.tokenAt 12).lexeme = .ok v.fireRate
      ∧ stoi (p.tokenAt 16).lexeme = .ok v.cost
      ∧ p' = p.advanceN 19 := by
  simp only [parseTowerDecl, expect_bind_ok, stoi_bind_ok, stod_bind_ok, pure_ok_iff,
    Prod.mk.injEq, upcomingTypes, towerTypes, Parser.tokenAt, Parser.advanceN,
    Bool.and_eq_true, decide_eq_true_eq, Bool.and_true]
  constructor
  · rintro ⟨h1, h2, h3, h4, h5, r, hr, h6, h7, h8, h9, d, hd, h10, h11, h12, h13, f, hf,
      h14, h15, h16, h17, c, hc, h18, h19, hv, hp'⟩
    subst hv
    exact ⟨⟨h1, h2, h3, h4, h5, h6, h7, h8, h9, h10, h11, h12, h13, h14, h15, h16, h17, h18,
      h19⟩, rfl, hr, hd, hf, hc, hp'.symm⟩
  · rintro ⟨⟨h1, h2, h3, h4, h5, h6, h7, h8, h9, h10, h11, h12, h13, h14, h15, h16, h17, h18,
      h19⟩, hn, hr, hd, hf, hc, hp'⟩
    refine ⟨h1, h2, h3, h4, h5, _, hr, h6, h7, h8, h9, _, hd, h10, h11, h12, h13, _, hf,
      h14, h15, h16, h17, _, hc, h18, h19, ?_, hp'.symm⟩
    cases v
    simp only [] at hn
    rw [hn]

theorem tokenAt_succ (p : Parser) (k : Nat) : p.tokenAt (k + 1) = p.advance.tokenAt k := rfl

theorem upcomingTypes_of_tokenAt (ts : List TokenType) (p : Parser)
    (h : ∀ k t, ts.get? k = some t → (p.tokenAt k).type = t) :
    upcomingTypes ts p = true := by
  induction ts generalizing p with
  | nil => rfl
  | cons t0 ts ih =>
    simp only [upcomingTypes, Bool.and_eq_true, decide_eq_true_eq]
    refine ⟨h 0 t0 rfl, ih _ fun k t hk => ?_⟩
    rw [← tokenAt_succ]
    exact h (k + 1) t hk

theorem sameTokens_spec (names : List Nat) (n : Nat) (p q : Parser)
    (h : sameTokens names n p q = true) (k : Nat) (hk : k < n) :
    (q.tokenAt k).type = (p.tokenAt k).type
    ∧ (k ∉ names → (q.tokenAt k).lexeme = (p.tokenAt k).lexeme) := by
  simp only [sameTokens, List.all_eq_true, List.mem_range, Bool.and_eq_true, Bool.or_eq_true,
    decide_eq_true_eq] at h
  obtain ⟨h1, h2⟩ := h k hk
  exact ⟨h1, fun hn => h2.resolve_left hn⟩

theorem sameTokens_upcoming (ts : List TokenType) (names : List Nat) (p q : Parser)
    (h : sameTokens names ts.length p q = true) (hu : upcomingTypes ts p = true) :
    upcomingTypes ts q = true := by
  apply upcomingTypes_of_tokenAt
  intro k t hk
  have hlt : k < ts.length := by
    rcases Nat.lt_or_ge k ts.length with hl | hl
    · exact hl
    · rw [List.get?_eq_none.mpr hl] at hk; simp at hk
  rw [(sameTokens_spec names _ p q h k hlt).1]
  exact upcomingTypes_tokenAt ts p hu k t hk

/-- C32: the outcome of parsing an enemy or a tower declaration does not
depend on the lexemes of the attribute names: when a declaration parses and a
second token sequence has the same token types and the same lexemes except at
the positions of the attribute names (where it holds any `IDENT`), the second
one parses to the same node; the values are assigned by position, as the text
`enemy G { reward = 10; hp = 1.5; speed = 5; }` shows, which gives hp 10,
speed 1.5 and reward 5. -/
theorem attribute_names_positional (p q : Parser) :
    (∀ (v : EnemyDecl) (p' : Parser), parseEnemyDecl p = .ok (v, p') →
        sameTokens enemyAttributeNames 15 p q = true →
        parseEnemyDecl q = .ok (v, q.advanceN 15))
    ∧ (∀ (v : TowerDecl) (p' : Parser), parseTowerDecl p = .ok (v, p') →
        sameTokens towerAttributeNames 19 p q = true →
        parseTowerDecl q = .ok (v, q.advanceN 19))
    ∧ parsedProgram "enemy G { reward = 10; hp = 1.5; speed = 5; }"
        = some ⟨[.enemy { name := "G", hp := 10, speed := 3 / 2, reward := 5 }]⟩ := by
  refine ⟨fun v p' h hs => ?_, fun v p' h hs => ?_, ?_⟩
  · obtain ⟨hu, hn, h1, h2, h3, _⟩ := (parseEnemyDecl_iff p p' v).mp h
    have hl : ∀ k, k < 15 → k ∉ enemyAttributeNames →
        (q.tokenAt k).lexeme = (p.tokenAt k).lexeme :=
      fun k hk hm => (sameTokens_spec _ _ p q hs k hk).2 hm
    refine (parseEnemyDecl_iff q _ v).mpr
      ⟨sameTokens_upcoming enemyTypes _ p q hs hu, ?_, ?_, ?_, ?_, rfl⟩
    · rw [hl 0 (by decide) (by decide)]; exact hn
    · rw [hl 4 (by decide) (by decide)]; exact h1
    · rw [hl 8 (by decide) (by decide)]; exact h2
    · rw [hl 12 (by decide) (by decide)]; exact h3
  · obtain ⟨hu, hn, h1, h2, h3, h4, _⟩ := (parseTowerDecl_iff p p' v).mp h
    have hl : ∀ k, k < 19 → k ∉ towerAttributeNames →
        (q.tokenAt k).lexeme = (p.tokenAt k).lexeme :=
      fun k hk hm => (sameTokens_spec _ _ p q hs k hk).2 hm
    refine (parseTowerDecl_iff q _ v).mpr
      ⟨sameTokens_upcoming towerTypes _ p q hs hu, ?_, ?_, ?_, ?_, ?_, rfl⟩
    · rw [hl 0 (by decide) (by decide)]; exact hn
    · rw [hl 4 (by decide) (by decide)]; exact h1
    · rw [hl 8 (by decide) (by decide)]; exact h2
    · rw [hl 12 (by decide) (by decide)]; exact h3
    · rw [hl 16 (by decide) (by decide)]; exact h4
  · set_option maxRecDepth 100000 in with_unfolding_all decide

theorem attribute_names_positional_witness :
    parseEnemyDecl (parserOf "G { hp = 10; speed = 1.5; reward = 5; }")
        = .ok ({ name := "G", hp := 10, speed := 3 / 2, reward := 5 },
            (parserOf "G { hp = 10; speed = 1.5; reward = 5; }").advanceN 15)
    ∧ sameTokens enemyAttributeNames 15
        (parserOf "G { hp = 10; speed = 1.5; reward = 5; }")
        (parserOf "G { reward = 10; hp = 1.5; speed = 5; }") = true
    ∧ parseEnemyDecl (parserOf "G { reward = 10; hp = 1.5; speed = 5; }")
        = .ok ({ name := "G", hp := 10, speed := 3 / 2, reward := 5 },
            (parserOf "G { reward = 10; hp = 1.5; speed = 5; }").advanceN 15)
    ∧ parseTowerDecl (parserOf "T { range = 3; damage = 7; fire_rate = 0.5; cost = 40; }")
        = .ok ({ name := "T", range := 3, damage := 7, cost := 40, fireRate := 1 / 2 },
            (parserOf "T { range = 3; damage = 7; fire_rate = 0.5; cost = 40; }").advanceN 19)
    ∧ sameTokens towerAttributeNames 19
        (parserOf "T { range = 3; damage = 7; fire_rate = 0.5; cost = 40; }")
        (parserOf "T { cost = 3; a = 7; b = 0.5; range = 40; }") = true
    ∧ parseTowerDecl (parserOf "T { cost = 3; a = 7; b = 0.5; range = 40; }")
        = .ok ({ name := "T", range := 3, damage := 7, cost := 40, fireRate := 1 / 2 },
            (parserOf "T { cost = 3; a = 7; b = 0.5; range = 40; }").advanceN 19) :=
  have h1 : parseEnemyDecl (parserOf "G { hp = 10; speed = 1.5; reward = 5; }")
        = .ok ({ name := "G", hp := 10, speed := 3 / 2, reward := 5 },
            (parserOf "G { hp = 10; speed = 1.5; reward = 5; }").advanceN 15) := by
    set_option maxRecDepth 100000 in with_unfolding_all decide
  have h2 : sameTokens enemyAttributeNames 15
        (parserOf "G { hp = 10; speed = 1.5; reward = 5; }")
        (parserOf "G { reward = 10; hp = 1.5; speed = 5; }") = true := by
    set_option maxRecDepth 100000 in decide
  have h3 : parseTowerDecl (parserOf "T { range = 3; damage = 7; fire_rate = 0.5; cost = 40; }")
        = .ok ({ name := "T", range := 3, damage := 7, cost := 40, fireRate := 1 / 2 },
            (parserOf "T { range = 3; damage = 7; fire_rate = 0.5; cost = 40; }").advanceN 19) := by
    set_option maxRecDepth 100000 in with_unfolding_all decide
  have h4 : sameTokens towerAttributeNames 19
        (parserOf "T { range = 3; damage = 7; fire_rate = 0.5; cost = 40; }")
        (parserOf "T { cost = 3; a = 7; b = 0.5; range = 40; }") = true := by
    set_option maxRecDepth 100000 in decide
  ⟨h1, h2, (attribute_names_positional _ _).1 _ _ h1 h2, h3, h4,
    (attribute_names_positional _ _).2.1 _ _ h3 h4⟩

/-! ## Placements and the maps of the IR -/

theorem emitDecl_place_eq (d : Decl) (i : IrInstruction) (hi : i ∈ emitDecl d)
    (hop : i.opcode = .PLACE_TOWER) :
    ∃ p, d = Decl.place p ∧ emitDecl d = [i] := by
  cases d with
  | wave w =>
    simp only [emitDecl, List.mem_cons, List.mem_map] at hi
    rcases hi with rfl | ⟨s, hs, rfl⟩
    · simp at hop
    · simp [emitSpawn] at hop
  | map m => simp only [emitDecl, List.mem_singleton] at hi; subst hi; simp at hop
  | enemy e => simp only [emitDecl, List.mem_singleton] at hi; subst hi; simp at hop
  | tower t => simp only [emitDecl, List.mem_singleton] at hi; subst hi; simp at hop
  | place p =>
    simp only [emitDecl, List.mem_singleton] at hi
    exact ⟨p, rfl, by rw [hi]; rfl⟩

/-- A `PLACE_TOWER` of the generated IR splits the declarations at the
placement that emitted it. -/
theorem flatMap_split_place (ds : List Decl) (pre post : List IrInstruction)
    (pl : IrInstruction) (h : ds.flatMap emitDecl = pre ++ pl :: post)
    (hop : pl.opcode = .PLACE_TOWER) :
    ∃ before p after, ds = before ++ Decl.place p :: after
      ∧ pre = before.flatMap emitDecl ∧ emitDecl (Decl.place p) = [pl] := by
  induction ds generalizing pre with
  | nil => simp at h
  | cons d rest ih =>
    simp only [List.flatMap_cons] at h
    rcases List.append_eq_append_iff.mp h with ⟨a', hpre, hrest⟩ | ⟨c', hd, hc⟩
    · obtain ⟨before, p, after, hds, hb, he⟩ := ih a' hrest
      refine ⟨d :: before, p, after, by rw [hds]; rfl, ?_, he⟩
      rw [hpre, hb, List.flatMap_cons]
    · cases c' with
      | nil =>
        simp only [List.nil_append] at hc
        simp only [List.append_nil] at hd
        obtain ⟨before, p, after, hds, hb, he⟩ := ih [] hc.symm
        refine ⟨d :: before, p, after, by rw [hds]; rfl, ?_, he⟩
        rw [List.flatMap_cons, ← hb, List.append_nil, hd]
      | cons x c'' =>
        simp only [List.cons_append, List.cons.injEq] at hc
        obtain ⟨hx, hpost⟩ := hc
        subst hx
        have hm : pl ∈ emitDecl d := by rw [hd]; simp
        obtain ⟨p, hp, he⟩ := emitDecl_place_eq d pl hm hop
        have hlen := congrArg List.length hd
        rw [he] at hlen
        simp only [List.length_cons, List.length_nil, List.length_append] at hlen
        have hpre : pre = [] := List.length_eq_zero.mp (by omega)
        subst hp
        exact ⟨[], p, rest, rfl, by rw [hpre]; rfl, he⟩

theorem ofOpcode_append (op : IrOpcode) (a b : List IrInstruction) :
    ofOpcode op (a ++ b) = ofOpcode op a ++ ofOpcode op b := by
  simp [ofOpcode]

theorem ofOpcode_map_emitDecl (d : Decl) :
    ofOpcode .DEFINE_MAP (emitDecl d)
      = match d with
        | .map m => emitDecl (.map m)
        | _ => [] := by
  cases d with
  | wave w =>
    simp only [emitDecl, ofOpcode]
    rw [List.filter_cons_of_neg (by simp)]
    rw [List.filter_eq_nil_iff]
    intro a ha
    obtain ⟨s, _, rfl⟩ := List.mem_map.mp ha
    simp [emitSpawn]
  | map m => simp [emitDecl, ofOpcode]
  | enemy e => simp [emitDecl, ofOpcode]
  | tower t => simp [emitDecl, ofOpcode]
  | place p => simp [emitDecl, ofOpcode]

/-- The last `DEFINE_MAP` of the IR generated for declarations is the one of
the last map declaration. -/
theorem lastDefineMap_flatMap (ds : List Decl) (m : MapDecl) (h : lastMap ds = some m) :
    lastDefineMap (ds.flatMap emitDecl) = (emitDecl (.map m)).head? := by
  induction ds using List.reverseRecOn with
  | nil => simp [lastMap] at h
  | append_singleton init d ih =>
    simp only [lastDefineMap, List.flatMap_append, List.flatMap_singleton, ofOpcode_append,
      ofOpcode_map_emitDecl] at ih ⊢
    simp only [lastMap, List.filterMap_append, List.filterMap_cons, List.filterMap_nil] at h ih
    cases d with
    | map m1 =>
      simp only [List.getLast?_append, List.getLast?_singleton] at h
      have h1 : m1 = m := by simpa [Option.or] using h
      subst h1
      simp [emitDecl]
    | enemy e => simp only [List.append_nil] at h ⊢; exact ih h
    | tower t => simp only [List.append_nil] at h ⊢; exact ih h
    | wave w => simp only [List.append_nil] at h ⊢; exact ih h
    | place p => simp only [List.append_nil] at h ⊢; exact ih h

/-- C34: in the IR generated for an accepted program, every `PLACE_TOWER` is
preceded by a `DEFINE_MAP`, and its `x` and `y` lie inside the grid of the last
`DEFINE_MAP` that precedes it; when the IR holds exactly one `DEFINE_MAP`, that
one is the first `DEFINE_MAP` of the IR, which `generateJSON` writes. -/
theorem placement_inside_latest_map (program : Program) (pre post : List IrInstruction)
    (pl : IrInstruction) (h : accepted program = true)
    (hs : generate program = pre ++ pl :: post) (hop : pl.opcode = .PLACE_TOWER) :
    ∃ m, lastDefineMap pre = some m ∧ placedInside m pl = true
      ∧ ((ofOpcode .DEFINE_MAP (generate program)).length = 1 →
          firstDefineMap (generate program) = some m) := by
  have hv := (accepted_iff_valid program).mp h
  have hs0 := hs
  rw [generate_eq_flatMap] at hs
  obtain ⟨before, p, after, hds, hpre, he⟩ := flatMap_split_place _ pre post pl hs hop
  have hn : program.declarations[before.length]? = some (Decl.place p) := by
    rw [hds, List.getElem?_append_right (Nat.le_refl _)]; simp
  have hvalid := hv before.length _ hn
  have htake : program.declarations.take before.length = before := by
    rw [hds]; simp
  rw [htake] at hvalid
  obtain ⟨_, m, hm, hx0, hx1, hy0, hy1⟩ := hvalid
  have hl := lastDefineMap_flatMap before m hm
  rw [← hpre] at hl
  simp only [emitDecl, List.cons.injEq, and_true] at he
  refine ⟨_, by rw [hl]; rfl, ?_, fun h1 => ?_⟩
  · rw [← he]
    simp [placedInside, Metadata.getInt, Metadata.find, Value.getInt, hx0, hx1, hy0, hy1]
  · have hpl : ofOpcode .DEFINE_MAP [pl] = [] := by simp [ofOpcode, hop]
    have hsplit : ofOpcode .DEFINE_MAP (generate program)
        = ofOpcode .DEFINE_MAP pre ++ ofOpcode .DEFINE_MAP post := by
      rw [hs0, ofOpcode_append]
      show _ ++ ofOpcode .DEFINE_MAP ([pl] ++ post) = _
      rw [ofOpcode_append, hpl, List.nil_append]
    simp only [lastDefineMap, emitDecl, List.head?_cons] at hl
    simp only [firstDefineMap]
    rw [hsplit] at h1 ⊢
    cases hp : ofOpcode .DEFINE_MAP pre with
    | nil => rw [hp] at hl; simp at hl
    | cons a as =>
      rw [hp] at hl h1
      simp only [List.length_append, List.length_cons] at h1
      have has : as = [] := List.length_eq_zero.mp (by omega)
      subst has
      simpa using hl

/-- C34, at the program with two maps: the placement at (5, 5) lies inside the
second map, of size 10 by 10. -/
theorem placement_inside_latest_map_witness :
    ∃ m, lastDefineMap ((generate twoMapProgram).take 3) = some m
      ∧ placedInside m ⟨.PLACE_TOWER, ["T"], [("x", .int 5), ("y", .int 5)]⟩ = true
      ∧ Metadata.getInt m.metadata "width" = some 10 := by
  obtain ⟨m, h1, h2, _⟩ := placement_inside_latest_map twoMapProgram
    ((generate twoMapProgram).take 3) []
    ⟨.PLACE_TOWER, ["T"], [("x", .int 5), ("y", .int 5)]⟩ (by decide) (by decide) rfl
  refine ⟨m, h1, h2, ?_⟩
  have e : lastDefineMap ((generate twoMapProgram).take 3)
      = some ⟨.DEFINE_MAP, ["Big"],
          [("width", .int 10), ("height", .int 10), ("path", .str "")]⟩ := by decide
  rw [e] at h1
  cases h1
  rfl

/-- C34 fails for the first `DEFINE_MAP`: the program with the maps `Small`
(2 by 2) and `Big` (10 by 10) and a placement at (5, 5) is accepted, the first
`DEFINE_MAP` of its IR is `Small`, the map that the first loop of
`generateJSON` writes, and the placement lies outside it. -/
theorem placement_outside_first_map :
    accepted twoMapProgram = true
    ∧ firstDefineMap (generate twoMapProgram)
        = some ⟨.DEFINE_MAP, ["Small"],
            [("width", .int 2), ("height", .int 2), ("path", .str "")]⟩
    ∧ (⟨.PLACE_TOWER, ["T"], [("x", .int 5), ("y", .int 5)]⟩ : IrInstruction)
        ∈ generate twoMapProgram
    ∧ placedInside
        ⟨.DEFINE_MAP, ["Small"], [("width", .int 2), ("height", .int 2), ("path", .str "")]⟩
        ⟨.PLACE_TOWER, ["T"], [("x", .int 5), ("y", .int 5)]⟩ = false
    ∧ (categorize (generate twoMapProgram) 0 initialCategories).map Categories.json
        = (generateMapJSON ⟨.DEFINE_MAP, ["Small"],
            [("width", .int 2), ("height", .int 2), ("path", .str "")]⟩).map
            (fun text => initialCategories.json ++ text) := by
  refine ⟨by decide, by decide, by decide, by decide, by decide⟩

/-! ## Spawn merging conserves the number of enemies -/

theorem sum_map_set (f : IrInstruction → Int) (l : List IrInstruction) (n : Nat)
    (t x : IrInstruction) (h : l[n]? = some t) :
    ((l.set n x).map f).sum = (l.map f).sum - f t + f x := by
  induction l generalizing n with
  | nil => simp at h
  | cons a rest ih =>
    cases n with
    | zero =>
      simp only [List.getElem?_cons_zero, Option.some.injEq] at h
      subst h
      simp only [List.set_cons_zero, List.map_cons, List.sum_cons]
      omega
    | succ n =>
      simp only [List.getElem?_cons_succ] at h
      simp only [List.set_cons_succ, List.map_cons, List.sum_cons, ih n h]
      omega

theorem filter_set_same (p : IrInstruction → Bool) (l : List IrInstruction) (n : Nat)
    (t x : IrInstruction) (h : l[n]? = some t) (ht : p t = false) (hx : p x = false) :
    (l.set n x).filter p = l.filter p := by
  induction l generalizing n with
  | nil => simp at h
  | cons a rest ih =>
    cases n with
    | zero =>
      simp only [List.getElem?_cons_zero, Option.some.injEq] at h
      subst h
      simp [List.filter_cons, ht, hx]
    | succ n =>
      simp only [List.getElem?_cons_succ] at h
      simp only [List.set_cons_succ, List.filter_cons, ih n h]

theorem merged_mergeable (t : IrInstruction) (v : Value) (h : isMergeable t = true) :
    isMergeable { t with metadata := Metadata.set t.metadata "count" v } = true := h

theorem countOf_merged (t : IrInstruction) (total : Int) (h : isMergeable t = true) :
    countOf { t with metadata := Metadata.set t.metadata "count" (.int total) } = total := by
  simp only [countOf, merged_mergeable t _ h, if_true, Metadata.getInt, find_set_same]
  rfl

/-- One iteration of the loop of pass 2: the sum of the counts grows by the
count of the instruction, up to a multiple of 2^32 when the merged count
wraps; an instruction that is not a mergeable spawn is appended, and the
output grows by at most one instruction. -/
theorem mergeStep_conserve (st st2 : MergeState) (i : IrInstruction)
    (hidx : MergeIdx st) (h : mergeStep st i = some st2) :
    (spawnTotal st2.optimized - (spawnTotal st.optimized + countOf i)) % 4294967296 = 0
    ∧ unmergeable st2.optimized
        = unmergeable st.optimized ++ (if isMergeable i then [] else [i])
    ∧ st2.optimized.length ≤ st.optimized.length + 1 := by
  by_cases hm : isMergeable i = true
  · simp only [mergeStep, hm, if_true] at h
    cases hk : spawnKey i with
    | none => simp [hk] at h
    | some key =>
      simp only [hk, Option.some_bind] at h
      cases hl : st.spawnGroupIndex.lookup key with
      | none =>
        simp only [hl, Option.some.injEq] at h
        subst h
        refine ⟨?_, ?_, ?_⟩
        · simp [spawnTotal]
        · simp [unmergeable, hm]
        · simp
      | some index =>
        simp only [hl, List.get?_eq_getElem?] at h
        cases ht : st.optimized[index]? with
        | none => simp [ht] at h
        | some t =>
          simp only [ht, Option.some_bind] at h
          cases he : Metadata.getInt t.metadata "count" with
          | none => simp [he] at h
          | some e =>
            cases hn : Metadata.getInt i.metadata "count" with
            | none => simp [he, hn] at h
            | some n =>
              cases hs : (some (intAdd e n) : Option Int) with
              | none => cases hs
              | some total =>
                simp only [Option.some.injEq] at hs
                simp only [he, hn, hs, Option.some_bind, Option.some.injEq] at h
                subst h
                obtain ⟨u, hu, h1, _⟩ := hidx key index hl
                rw [ht] at hu
                cases hu
                have htot : (total - (e + n)) % 4294967296 = 0 := by
                  rw [← hs]; exact wrapInt_modEq _
                refine ⟨?_, ?_, ?_⟩
                · simp only [spawnTotal]
                  rw [sum_map_set countOf _ index t _ ht]
                  have c1 : countOf t = e := by simp [countOf, h1, he]
                  have c2 : countOf i = n := by simp [countOf, hm, hn]
                  rw [c1, c2, countOf_merged t total h1]
                  omega
                · simp only [unmergeable, hm, if_true, List.append_nil]
                  exact filter_set_same _ _ index t _ ht (by simp [h1])
                    (by simp [merged_mergeable t _ h1])
                · simp
  · have hm' : isMergeable i = false := by simpa using hm
    simp only [mergeStep, hm, Bool.false_eq_true, if_false, Option.some.injEq] at h
    subst h
    refine ⟨?_, ?_, ?_⟩
    · simp [spawnTotal, countOf, hm']
    · simp [unmergeable, hm']
    · simp

theorem mergeLoop_conserve (l : List IrInstruction) (st st2 : MergeState)
    (hidx : MergeIdx st) (h : mergeLoop st l = some st2) :
    (spawnTotal st2.optimized - (spawnTotal st.optimized + spawnTotal l)) % 4294967296 = 0
    ∧ unmergeable st2.optimized = unmergeable st.optimized ++ unmergeable l
    ∧ st2.optimized.length ≤ st.optimized.length + l.length := by
  induction l generalizing st with
  | nil =>
    simp only [mergeLoop, Option.some.injEq] at h
    subst h
    simp [spawnTotal, unmergeable]
  | cons i rest ih =>
    simp only [mergeLoop] at h
    cases hs : mergeStep st i with
    | none => simp [hs] at h
    | some st1 =>
      simp only [hs, Option.some_bind] at h
      obtain ⟨a1, a2, a3⟩ := mergeStep_conserve st st1 i hidx hs
      obtain ⟨b1, b2, b3⟩ := ih st1 (mergeStep_idx st st1 i hidx hs) h
      refine ⟨?_, ?_, ?_⟩
      · have e : spawnTotal (i :: rest) = countOf i + spawnTotal rest := by
          simp only [spawnTotal, List.map_cons, List.sum_cons]
        rw [e]
        omega
      · rw [b2, a2]
        by_cases hm : isMergeable i = true
        · simp [unmergeable, hm, List.filter_cons]
        · have hm' : isMergeable i = false := by simpa using hm
          simp [unmergeable, hm', List.filter_cons]
      · simp only [List.length_cons]; omega

theorem nonSpawns_unmergeable (ir : List IrInstruction) :
    nonSpawns (unmergeable ir) = nonSpawns ir := by
  simp only [nonSpawns, unmergeable, List.filter_filter]
  congr 1
  funext i
  by_cases h : i.opcode = .SPAWN_ENEMY
  · simp [h]
  · simp [h, isMergeable]

/-- What pass 2 conserves: when `redundantSpawnMerging` returns, the sum of the
`count` metadata over the `SPAWN_ENEMY` instructions with at least two
operands is the same in the output as in the input up to a multiple of 2^32,
the instructions that are not `SPAWN_ENEMY` are the same and in the same order
(as are all instructions that are not a `SPAWN_ENEMY` with at least two
operands), and the output is no longer than the input. -/
theorem merge_conserves_modulo (l out : List IrInstruction)
    (h : redundantSpawnMerging l = some out) :
    (spawnTotal out - spawnTotal l) % 4294967296 = 0
    ∧ nonSpawns out = nonSpawns l
    ∧ unmergeable out = unmergeable l
    ∧ out.length ≤ l.length := by
  simp only [redundantSpawnMerging, Option.map_eq_some'] at h
  obtain ⟨st2, hst, rfl⟩ := h
  obtain ⟨h1, h2, h3⟩ := mergeLoop_conserve l _ st2 (by intro k n hk; simp at hk) hst
  have h2' : unmergeable st2.optimized = unmergeable l := by
    rw [h2]; simp [unmergeable]
  refine ⟨?_, ?_, h2', ?_⟩
  · have e : spawnTotal ([] : List IrInstruction) = 0 := rfl
    simp only [e] at h1
    omega
  · rw [← nonSpawns_unmergeable, h2', nonSpawns_unmergeable]
  · simpa using h3

/-- C36 fails when a merged count overflows: the program `countOverflowProgram`
(two spawns of the same enemy, start and interval with counts 2147483647 and
1) is accepted, its IR holds 2147483648 enemies, pass 2 returns, and its output
holds the single spawn with count -2147483648. -/
theorem merge_overflow_loses_count :
    parsedProgram countOverflowSource = some countOverflowProgram
    ∧ accepted countOverflowProgram = true
    ∧ spawnTotal (generate countOverflowProgram) = 2147483648
    ∧ redundantSpawnMerging (generate countOverflowProgram)
        = some [⟨.DEFINE_ENEMY, ["G"], [("hp", .int 1), ("speed", .real 1), ("reward", .int 0)]⟩,
            ⟨.DEFINE_WAVE, ["W"], []⟩,
            ⟨.SPAWN_ENEMY, ["W", "G"],
              [("count", .int (-2147483648)), ("start", .int 0), ("interval", .int 1)]⟩]
    ∧ (redundantSpawnMerging (generate countOverflowProgram)).map spawnTotal
        = some (-2147483648) := by
  refine ⟨?_, ?_, ?_, ?_, ?_⟩
  · set_option maxRecDepth 100000 in decide
  · decide
  · decide
  · decide
  · decide

theorem boundary_not_spawn (op : IrOpcode) (h : isBoundary op = true) : op ≠ .SPAWN_ENEMY := by
  intro e; subst e; revert h; decide

/-- In a grouped sequence the leading spawns belong to the open wave. -/
theorem grouped_leading (c : Option String) (l : List IrInstruction) (h : Grouped c l) :
    (l.takeWhile fun s =>
        (decide (s.opcode = .SPAWN_ENEMY) && decide (s.operands.head? = some (c.getD ""))))
      = l.takeWhile fun s => decide (s.opcode = .SPAWN_ENEMY) := by
  induction l with
  | nil => rfl
  | cons i rest ih =>
    simp only [Grouped] at h
    by_cases h1 : i.opcode = .DEFINE_WAVE
    · simp [List.takeWhile_cons, h1]
    · simp only [h1, if_false] at h
      by_cases h2 : isBoundary i.opcode = true
      · have := boundary_not_spawn _ h2
        simp [List.takeWhile_cons, this]
      · simp only [h2, Bool.false_eq_true, if_false] at h
        obtain ⟨⟨hop, hsome, hhead⟩, hrest⟩ := h
        have hc : i.operands.head? = some (c.getD "") := by
          rw [hhead]
          cases c with
          | none => simp at hsome
          | some W => rfl
        simp only [List.takeWhile_cons, hop, hc, decide_True, Bool.and_self, if_true, ih hrest]

theorem grouped_none_leading (l : List IrInstruction) (h : Grouped none l) :
    (l.dropWhile fun s => decide (s.opcode = .SPAWN_ENEMY)) = l := by
  cases l with
  | nil => rfl
  | cons i rest =>
    simp only [Grouped] at h
    by_cases h1 : i.opcode = .DEFINE_WAVE
    · simp [List.dropWhile_cons, h1]
    · simp only [h1, if_false] at h
      by_cases h2 : isBoundary i.opcode = true
      · have := boundary_not_spawn _ h2
        simp [List.dropWhile_cons, this]
      · simp only [h2, Bool.false_eq_true, if_false] at h
        simp at h

theorem takeWhile_append_filter_dropWhile (p : IrInstruction → Bool) (l : List IrInstruction) :
    l.takeWhile p ++ (l.dropWhile p).filter p = l.filter p := by
  induction l with
  | nil => rfl
  | cons a rest ih =>
    by_cases h : p a = true
    · simp [List.takeWhile_cons, List.dropWhile_cons, List.filter_cons, h, ih]
    · simp [List.takeWhile_cons, List.dropWhile_cons, List.filter_cons, h]

theorem waveNameAt_append (pre rest : List IrInstruction) (i : IrInstruction) :
    waveNameAt (pre ++ i :: rest) pre.length = i.operands.head?.getD "" := by
  simp only [waveNameAt, List.get?_eq_getElem?]
  rw [List.getElem?_append_right (Nat.le_refl _)]
  simp

theorem waveRun_append (W : String) (pre rest : List IrInstruction) (i : IrInstruction) :
    waveRun W (pre ++ i :: rest) pre.length
      = rest.takeWhile fun s =>
          (decide (s.opcode = .SPAWN_ENEMY) && decide (s.operands.head? = some W)) := by
  simp only [waveRun]
  congr 1
  have : pre ++ i :: rest = (pre ++ [i]) ++ rest := by simp
  rw [this, List.drop_append_of_le_length (by simp)]
  simp

/-- The spawns read for the waves of a grouped suffix are the spawns of the
suffix after its leading spawns. -/
theorem emitted_suffix (l pre : List IrInstruction) (c : Option String) (h : Grouped c l) :
    ((indicesOf .DEFINE_WAVE l pre.length).flatMap fun k =>
        waveRun (waveNameAt (pre ++ l) k) (pre ++ l) k)
      = ofOpcode .SPAWN_ENEMY (l.dropWhile fun s => decide (s.opcode = .SPAWN_ENEMY)) := by
  induction l generalizing pre c with
  | nil => simp [indicesOf, ofOpcode]
  | cons i rest ih =>
    have happ : pre ++ i :: rest = (pre ++ [i]) ++ rest := by simp
    have hlen : (pre ++ [i]).length = pre.length + 1 := by simp
    simp only [Grouped] at h
    by_cases h1 : i.opcode = .DEFINE_WAVE
    · simp only [h1, if_true] at h
      have hns : ¬ (i.opcode = .SPAWN_ENEMY) := by rw [h1]; decide
      have ih' := ih (pre ++ [i]) _ h
      rw [hlen, ← happ] at ih'
      have hidx : indicesOf .DEFINE_WAVE (i :: rest) pre.length
          = pre.length :: indicesOf .DEFINE_WAVE rest (pre.length + 1) := by
        simp [indicesOf, h1]
      have hd : ((i :: rest).dropWhile fun s => decide (s.opcode = .SPAWN_ENEMY)) = i :: rest := by
        simp [List.dropWhile_cons, hns]
      have hf : ofOpcode .SPAWN_ENEMY (i :: rest) = ofOpcode .SPAWN_ENEMY rest := by
        simp [ofOpcode, List.filter_cons, hns]
      rw [hidx, hd, hf, List.flatMap_cons, ih', waveNameAt_append, waveRun_append,
        grouped_leading _ rest h]
      exact takeWhile_append_filter_dropWhile _ rest
    · simp only [h1, if_false] at h
      have hidx : indicesOf .DEFINE_WAVE (i :: rest) pre.length
          = indicesOf .DEFINE_WAVE rest (pre.length + 1) := by
        simp [indicesOf, h1]
      by_cases h2 : isBoundary i.opcode = true
      · simp only [h2, if_true] at h
        have hns := boundary_not_spawn _ h2
        have ih' := ih (pre ++ [i]) _ h
        rw [hlen, ← happ] at ih'
        have hd : ((i :: rest).dropWhile fun s => decide (s.opcode = .SPAWN_ENEMY))
            = i :: rest := by
          simp [List.dropWhile_cons, hns]
        have hf : ofOpcode .SPAWN_ENEMY (i :: rest) = ofOpcode .SPAWN_ENEMY rest := by
          simp [ofOpcode, List.filter_cons, hns]
        rw [hidx, hd, hf, ih', grouped_none_leading rest h]
      · simp only [h2, Bool.false_eq_true, if_false] at h
        obtain ⟨⟨hop, _, _⟩, hrest⟩ := h
        have ih' := ih (pre ++ [i]) _ hrest
        rw [hlen, ← happ] at ih'
        have hd : ((i :: rest).dropWhile fun s => decide (s.opcode = .SPAWN_ENEMY))
            = rest.dropWhile fun s => decide (s.opcode = .SPAWN_ENEMY) := by
          simp [List.dropWhile_cons, hop]
        rw [hidx, hd, ih']

/-- The spawns written for the waves of a grouped IR are all its spawns, in
IR order. -/
theorem emitted_grouped (ir : List IrInstruction) (h : Grouped none ir) :
    emittedSpawns ir = ofOpcode .SPAWN_ENEMY ir := by
  have := emitted_suffix ir [] none h
  simp only [List.nil_append, List.length_nil] at this
  rw [emittedSpawns, this, grouped_none_leading ir h]

/-! ### The wave and spawn instructions can be written -/

theorem writable_emitDecl (d : Decl) : ∀ i ∈ emitDecl d, waveWritable i = true := by
  intro i hi
  cases d with
  | wave w =>
    simp only [emitDecl, List.mem_cons, List.mem_map] at hi
    rcases hi with rfl | ⟨s, _, rfl⟩
    · rfl
    · rfl
  | map m => simp only [emitDecl, List.mem_singleton] at hi; subst hi; rfl
  | enemy e => simp only [emitDecl, List.mem_singleton] at hi; subst hi; rfl
  | tower t => simp only [emitDecl, List.mem_singleton] at hi; subst hi; rfl
  | place p => simp only [emitDecl, List.mem_singleton] at hi; subst hi; rfl

theorem writable_generate (program : Program) :
    ∀ i ∈ generate program, waveWritable i = true := by
  intro i hi
  rw [generate_eq_flatMap] at hi
  obtain ⟨d, _, hd⟩ := List.mem_flatMap.mp hi
  exact writable_emitDecl d i hd

theorem writable_congr (b d : IrInstruction) (hop : d.opcode = b.opcode)
    (hops : d.operands = b.operands)
    (h1 : (Metadata.getInt b.metadata "count").isSome = true →
      (Metadata.getInt d.metadata "count").isSome = true)
    (h2 : (Metadata.getInt b.metadata "start").isSome = true →
      (Metadata.getInt d.metadata "start").isSome = true)
    (h3 : (Metadata.getInt b.metadata "interval").isSome = true →
      (Metadata.getInt d.metadata "interval").isSome = true)
    (h : waveWritable b = true) : waveWritable d = true := by
  simp only [waveWritable, hop, hops, Bool.and_eq_true, Bool.or_eq_true, decide_eq_true_eq] at h ⊢
  refine ⟨h.1, ?_⟩
  rcases h.2 with hn | ⟨⟨⟨⟨a, b1⟩, c⟩, e⟩, f⟩
  · exact Or.inl hn
  · exact Or.inr ⟨⟨⟨⟨a, b1⟩, h1 c⟩, h2 e⟩, h3 f⟩

theorem getInt_set_int (m : Metadata) (k k2 : String) (v : Int)
    (h : (Metadata.getInt m k2).isSome = true) :
    (Metadata.getInt (Metadata.set m k (.int v)) k2).isSome = true := by
  by_cases e : k = k2
  · subst e
    simp [Metadata.getInt, find_set_same, Value.getInt]
  · rw [getInt_set_ne m k k2 _ e]; exact h

theorem writable_set_int (t : IrInstruction) (k : String) (v : Int)
    (h : waveWritable t = true) :
    waveWritable { t with metadata := Metadata.set t.metadata k (.int v) } = true :=
  writable_congr t _ rfl rfl (getInt_set_int _ _ _ _) (getInt_set_int _ _ _ _)
    (getInt_set_int _ _ _ _) h

theorem writable_set_dps (t : IrInstruction) (v : Value)
    (h : waveWritable t = true) :
    waveWritable { t with metadata := Metadata.set t.metadata "dps" v } = true :=
  writable_congr t _ rfl rfl
    (fun h1 => by rw [getInt_set_ne _ _ _ _ (by decide)]; exact h1)
    (fun h1 => by rw [getInt_set_ne _ _ _ _ (by decide)]; exact h1)
    (fun h1 => by rw [getInt_set_ne _ _ _ _ (by decide)]; exact h1) h

theorem mergeStep_writable (st st2 : MergeState) (i : IrInstruction)
    (hall : ∀ x ∈ st.optimized, waveWritable x = true) (hi : waveWritable i = true)
    (h : mergeStep st i = some st2) : ∀ x ∈ st2.optimized, waveWritable x = true := by
  have happend : ∀ x ∈ st.optimized ++ [i], waveWritable x = true := by
    intro x hx
    rcases List.mem_append.mp hx with hx | hx
    · exact hall x hx
    · rw [List.mem_singleton.mp hx]; exact hi
  by_cases hm : isMergeable i = true
  · simp only [mergeStep, hm, if_true] at h
    cases hk : spawnKey i with
    | none => simp [hk] at h
    | some key =>
      simp only [hk, Option.some_bind] at h
      cases hl : st.spawnGroupIndex.lookup key with
      | none =>
        simp only [hl, Option.some.injEq] at h
        subst h
        exact happend
      | some index =>
        simp only [hl, List.get?_eq_getElem?] at h
        cases ht : st.optimized[index]? with
        | none => simp [ht] at h
        | some t =>
          simp only [ht, Option.some_bind] at h
          cases he : Metadata.getInt t.metadata "count" with
          | none => simp [he] at h
          | some e =>
            cases hn : Metadata.getInt i.metadata "count" with
            | none => simp [he, hn] at h
            | some n =>
              cases hs : (some (intAdd e n) : Option Int) with
              | none => cases hs
              | some total =>
                simp only [Option.some.injEq] at hs
                simp only [he, hn, hs, Option.some_bind, Option.some.injEq] at h
                subst h
                intro x hx
                rcases List.mem_or_eq_of_mem_set hx with hx | hx
                · exact hall x hx
                · rw [hx]
                  exact writable_set_int t "count" total
                    (hall t (List.getElem?_mem ht))
  · simp only [mergeStep, hm, Bool.false_eq_true, if_false, Option.some.injEq] at h
    subst h
    exact happend

theorem mergeLoop_writable (l : List IrInstruction) (st st2 : MergeState)
    (hall : ∀ x ∈ st.optimized, waveWritable x = true)
    (hl : ∀ x ∈ l, waveWritable x = true)
    (h : mergeLoop st l = some st2) : ∀ x ∈ st2.optimized, waveWritable x = true := by
  induction l generalizing st with
  | nil =>
    simp only [mergeLoop, Option.some.injEq] at h
    subst h
    exact hall
  | cons i rest ih =>
    simp only [mergeLoop] at h
    cases hs : mergeStep st i with
    | none => simp [hs] at h
    | some st1 =>
      simp only [hs, Option.some_bind] at h
      exact ih st1
        (mergeStep_writable st st1 i hall (hl i (List.mem_cons_self _ _)) hs)
        (fun x hx => hl x (List.mem_cons_of_mem _ hx)) h

theorem foldInstruction_writable (b d : IrInstruction) (h : foldInstruction fp b = some d)
    (hb : waveWritable b = true) : waveWritable d = true := by
  simp only [foldInstruction, Option.bind_eq_some] at h
  obtain ⟨c, hc, hd⟩ := h
  have hcw : waveWritable c = true := by
    simp only [foldTower] at hc
    split at hc
    · split at hc
      · simp only [Option.bind_eq_some, Option.some.injEq] at hc
        obtain ⟨dmg, _, fr, _, rfl⟩ := hc
        exact writable_set_dps b _ hb
      · cases hc; exact hb
    · cases hc; exact hb
  simp only [foldSpawn] at hd
  split at hd
  · split at hd
    · simp only [Option.bind_eq_some, Option.some.injEq] at hd
      obtain ⟨n, _, i, _, rfl⟩ := hd
      exact writable_set_int c _ _ hcw
    · cases hd; exact hcw
  · cases hd; exact hcw

theorem constantFolding_writable (l out : List IrInstruction)
    (h : constantFolding fp l = some out) (hl : ∀ x ∈ l, waveWritable x = true) :
    ∀ x ∈ out, waveWritable x = true := by
  induction l generalizing out with
  | nil =>
    simp only [constantFolding, Option.some.injEq] at h
    subst h
    intro x hx; cases hx
  | cons b rest ih =>
    simp only [constantFolding, Option.bind_eq_some, Option.some.injEq] at h
    obtain ⟨d, hd, o, ho, rfl⟩ := h
    intro x hx
    rcases List.mem_cons.mp hx with rfl | hx
    · exact foldInstruction_writable b _ hd (hl b (List.mem_cons_self _ _))
    · exact ih o ho (fun y hy => hl y (List.mem_cons_of_mem _ hy)) x hx

theorem optimize_writable (ir out : List IrInstruction) (h : optimize fp ir = some out)
    (hl : ∀ x ∈ ir, waveWritable x = true) : ∀ x ∈ out, waveWritable x = true := by
  obtain ⟨B, C, hB, hC, rfl⟩ := optimize_stages ir out h
  have h1 : ∀ x ∈ duplicateDefinitionRemoval ir, waveWritable x = true :=
    fun x hx => hl x (mem_dedupLoop _ _ x hx)
  simp only [redundantSpawnMerging, Option.map_eq_some'] at hB
  obtain ⟨st2, hst, rfl⟩ := hB
  have h2 := mergeLoop_writable _ _ st2 (by intro x hx; cases hx) h1 hst
  have h3 := constantFolding_writable _ _ hC h2
  intro x hx
  exact h3 x (List.mem_filter.mp hx).1

theorem putInt_ok (m : Metadata) (key before after json : String)
    (h : (Metadata.getInt m key).isSome = true) :
    ∃ v, Metadata.getInt m key = some v
      ∧ putInt m key before after json = some (json ++ before ++ to_string v ++ after) := by
  cases hg : Metadata.getInt m key with
  | none => rw [hg] at h; cases h
  | some v =>
    refine ⟨v, rfl, ?_⟩
    have hc : Metadata.count m key = true := by
      simp only [Metadata.count]
      simp only [Metadata.getInt] at hg
      cases hf : Metadata.find m key with
      | none => rw [hf] at hg; cases hg
      | some x => rfl
    simp [putInt, hc, hg]

theorem spawnJSON_ok (s : IrInstruction) (hop : s.opcode = .SPAWN_ENEMY)
    (h : waveWritable s = true) : ∃ t, spawnJSON s = some t := by
  simp only [waveWritable, hop, Bool.and_eq_true, Bool.or_eq_true, decide_eq_true_eq, ne_eq,
    not_true_eq_false, false_or] at h
  obtain ⟨_, ⟨⟨⟨⟨_, h1⟩, h2⟩, h3⟩, h4⟩⟩ := h
  obtain ⟨e, he⟩ := Option.isSome_iff_exists.mp h1
  simp only [spawnJSON, he, Option.bind_eq_bind, Option.some_bind, Option.pure_def]
  obtain ⟨a, _, ha⟩ := putInt_ok s.metadata "count" "            \"count\": " ",\n"
    ("          \x7b\n" ++ "            \"enemyType\": \"" ++ escapeJSON e ++ "\",\n") h2
  rw [ha]
  simp only [Option.some_bind]
  obtain ⟨b, _, hb⟩ := putInt_ok s.metadata "start" "            \"start\": " ",\n"
    ("          \x7b\n" ++ "            \"enemyType\": \"" ++ escapeJSON e ++ "\",\n"
      ++ "            \"count\": " ++ to_string a ++ ",\n") h3
  rw [hb]
  simp only [Option.some_bind]
  obtain ⟨c, _, hc⟩ := putInt_ok s.metadata "interval" "            \"interval\": " "\n"
    ("          \x7b\n" ++ "            \"enemyType\": \"" ++ escapeJSON e ++ "\",\n"
      ++ "            \"count\": " ++ to_string a ++ ",\n"
      ++ "            \"start\": " ++ to_string b ++ ",\n") h4
  rw [hc]
  exact ⟨_, rfl⟩

theorem waveSpawnLoop_ok (W : String) (rest : List IrInstruction) (i : Nat) (first : Bool)
    (json : String) (h : ∀ s ∈ rest, waveWritable s = true) :
    ∃ r, waveSpawnLoop W rest i first json = some r := by
  induction rest generalizing i first json with
  | nil => exact ⟨_, rfl⟩
  | cons s rest ih =>
    have hs := h s (List.mem_cons_self _ _)
    by_cases hop : s.opcode = .SPAWN_ENEMY
    · have hw := hs
      simp only [waveWritable, hop, Bool.and_eq_true, Bool.or_eq_true, decide_eq_true_eq, ne_eq,
        not_true_eq_false, false_or] at hw
      obtain ⟨V, hV⟩ := Option.isSome_iff_exists.mp hw.2.1.1.1.1
      by_cases hWV : V = W
      · subst hWV
        rw [waveSpawnLoop_cons V s rest i first json hop hV]
        obtain ⟨t, ht⟩ := spawnJSON_ok s hop hs
        rw [ht]
        exact ih _ _ _ (fun x hx => h x (List.mem_cons_of_mem _ hx))
      · refine ⟨(json, i), ?_⟩
        simp [waveSpawnLoop, hop, hV, hWV]
    · refine ⟨(json, i), ?_⟩
      simp [waveSpawnLoop, hop]

theorem mem_indicesOf (op : IrOpcode) (l : List IrInstruction) (j k : Nat)
    (h : k ∈ indicesOf op l j) : ∃ w, l.get? (k - j) = some w ∧ w.opcode = op ∧ j ≤ k := by
  induction l generalizing j with
  | nil => simp [indicesOf] at h
  | cons a rest ih =>
    simp only [indicesOf] at h
    have hrec : k ∈ indicesOf op rest (j + 1) →
        ∃ w, (a :: rest).get? (k - j) = some w ∧ w.opcode = op ∧ j ≤ k := by
      intro hk
      obtain ⟨w, hw, ho, hj⟩ := ih (j + 1) hk
      refine ⟨w, ?_, ho, by omega⟩
      have : k - j = (k - (j + 1)) + 1 := by omega
      rw [this]
      exact hw
    split at h
    · rename_i hop
      rcases List.mem_cons.mp h with rfl | hk
      · exact ⟨a, by simp, hop, Nat.le_refl _⟩
      · exact hrec hk
    · exact hrec h

/-- The wave object at a `DEFINE_WAVE` of an IR whose instructions can be
written: `generateWaveJSON` returns it, with one spawn object per instruction
of the run of the wave. -/
theorem generateWaveJSON_ok (ir : List IrInstruction) (k : Nat)
    (hall : ∀ x ∈ ir, waveWritable x = true) (hk : k ∈ indicesOf .DEFINE_WAVE ir 0) :
    ∃ texts, generateWaveJSON ir k
        = some (waveJSON (waveNameAt ir k) texts, k + (waveRun (waveNameAt ir k) ir k).length)
      ∧ mapOpt spawnJSON (waveRun (waveNameAt ir k) ir k) = some texts
      ∧ texts.length = (waveRun (waveNameAt ir k) ir k).length := by
  obtain ⟨w, hw, hop, _⟩ := mem_indicesOf _ _ _ _ hk
  simp only [Nat.sub_zero] at hw
  have hww := hall w (List.getElem?_mem (by rw [← List.get?_eq_getElem?]; exact hw))
  simp only [waveWritable, hop, Bool.and_eq_true, Bool.or_eq_true, decide_eq_true_eq, ne_eq,
    not_true_eq_false, false_or] at hww
  obtain ⟨W, hW⟩ := Option.isSome_iff_exists.mp hww.1
  have hname : waveNameAt ir k = W := by
    simp only [waveNameAt, hw, Option.some_bind, hW, Option.getD_some]
  obtain ⟨r, hr⟩ := waveSpawnLoop_ok W (ir.drop (k + 1)) (k + 1) true
    ("      \x7b\n" ++ "        \"name\": \"" ++ escapeJSON W ++ "\",\n" ++ "        \"spawns\": [\n")
    (fun s hs => hall s (List.mem_of_mem_drop hs))
  have hg : ∃ r2, generateWaveJSON ir k = some r2 := by
    simp only [generateWaveJSON, hw, hW, Option.bind_eq_bind, Option.some_bind, hr,
      Option.pure_def]
    exact ⟨_, rfl⟩
  obtain ⟨⟨text, k'⟩, hr2⟩ := hg
  obtain ⟨texts, h1, h2, h3⟩ := generateWaveJSON_spec ir k w W text k' hw hW hr2
  rw [hname]
  refine ⟨texts, by rw [hr2, h2, h3], h1, mapOpt_length _ _ _ h1⟩

theorem mapOpt_eq_map {α β : Type} (f : α → Option β) (g : α → β) (l : List α)
    (h : ∀ a ∈ l, f a = some (g a)) : mapOpt f l = some (l.map g) := by
  induction l with
  | nil => rfl
  | cons a rest ih =>
    simp only [mapOpt, h a (List.mem_cons_self _ _), Option.bind_eq_bind, Option.some_bind,
      ih (fun b hb => h b (List.mem_cons_of_mem _ hb)), Option.pure_def, List.map_cons]

theorem waveRun_spec (W : String) (ir : List IrInstruction) (k : Nat) :
    ∀ s ∈ waveRun W ir k, s.opcode = .SPAWN_ENEMY ∧ s.operands.head? = some W := by
  intro s hs
  have := List.mem_takeWhile_imp hs
  simpa using this

/-! ## The path string is decoded to the declared path -/

theorem digitChar_spec : ∀ m, m < 10 →
    isdigit (Nat.digitChar m) = true ∧ (Nat.digitChar m).toNat - '0'.toNat = m := by
  decide

theorem digitsValue_append (a : List Char) (d : Char) :
    digitsValue (a ++ [d]) = digitsValue a * 10 + (d.toNat - '0'.toNat) := by
  simp [digitsValue, List.foldl_append]

theorem toDigitsCore_spec (fuel n : Nat) (ds : List Char) (h : n < fuel) :
    ∃ pre, Nat.toDigitsCore 10 fuel n ds = pre ++ ds ∧ digitsValue pre = n ∧ pre ≠ []
      ∧ ∀ c ∈ pre, isdigit c = true := by
  induction fuel generalizing n ds with
  | zero => omega
  | succ fuel ih =>
    obtain ⟨hd, hv⟩ := digitChar_spec (n % 10) (Nat.mod_lt _ (by decide))
    simp only [Nat.toDigitsCore]
    by_cases h0 : n / 10 = 0
    · simp only [h0, if_true]
      refine ⟨[Nat.digitChar (n % 10)], rfl, ?_, by simp, ?_⟩
      · have : digitsValue [Nat.digitChar (n % 10)]
            = (Nat.digitChar (n % 10)).toNat - '0'.toNat := by simp [digitsValue]
        rw [this, hv]
        omega
      · intro c hc
        rw [List.mem_singleton.mp hc]; exact hd
    · simp only [h0, if_false]
      obtain ⟨pre, he, hval, hne, hall⟩ := ih (n / 10) (Nat.digitChar (n % 10) :: ds) (by omega)
      refine ⟨pre ++ [Nat.digitChar (n % 10)], by rw [he]; simp, ?_, by simp, ?_⟩
      · rw [digitsValue_append, hval, hv]; omega
      · intro c hc
        rcases List.mem_append.mp hc with hc | hc
        · exact hall c hc
        · rw [List.mem_singleton.mp hc]; exact hd

/-- The decimal digits of a natural number: their value is the number, there
is at least one, and all are digits. -/
theorem toDigits_spec (n : Nat) :
    digitsValue (Nat.toDigits 10 n) = n ∧ Nat.toDigits 10 n ≠ []
      ∧ ∀ c ∈ Nat.toDigits 10 n, isdigit c = true := by
  obtain ⟨pre, he, hv, hne, hall⟩ := toDigitsCore_spec (n + 1) n [] (by omega)
  simp only [List.append_nil] at he
  simp only [Nat.toDigits, he]
  exact ⟨hv, hne, hall⟩

theorem toString_ofNat (n : Nat) : (toString (n : Int)).data = Nat.toDigits 10 n := rfl

theorem toString_negSucc (n : Nat) :
    (toString (Int.negSucc n)).data = '-' :: Nat.toDigits 10 (n + 1) := rfl

theorem takeWhile_all (p : Char → Bool) (l : List Char) (h : ∀ c ∈ l, p c = true) :
    l.takeWhile p = l := by
  induction l with
  | nil => rfl
  | cons a rest ih =>
    simp only [List.takeWhile_cons, h a (List.mem_cons_self _ _), if_true,
      ih (fun c hc => h c (List.mem_cons_of_mem _ hc))]

/-- Conversion `std::stoi` reads back the decimal text of an `int`. -/
theorem stoi_toString (v : Int) (h : inIntRange v = true) : stoi (toString v) = .ok v := by
  cases v with
  | ofNat n =>
    obtain ⟨hv, hne, hall⟩ := toDigits_spec n
    cases hd : Nat.toDigits 10 n with
    | nil => exact absurd hd hne
    | cons c cs =>
      have hs : (toString (Int.ofNat n)).data = c :: cs := by rw [← hd]; rfl
      rw [stoi_digit _ c cs hs (hall c (by rw [hd]; exact List.mem_cons_self _ _))]
      rw [← hd, takeWhile_all _ _ hall, hv]
      have : inIntRange ((n : Nat) : Int) = true := h
      simp only [this, if_true]
      rfl
  | negSucc n =>
    obtain ⟨hv, hne, hall⟩ := toDigits_spec (n + 1)
    rw [stoi_minus _ _ (toString_negSucc n), takeWhile_all _ _ hall, hv]
    have e : -(((n + 1 : Nat)) : Int) = Int.negSucc n := rfl
    simp only [hne, if_false, e, h, if_true]

/-- The decimal text of an integer holds neither `,` nor `;`. -/
theorem toString_chars (v : Int) : ∀ c ∈ (toString v).data, c ≠ ',' ∧ c ≠ ';' := by
  have hdig : ∀ c, isdigit c = true → c ≠ ',' ∧ c ≠ ';' := by
    intro c hc
    constructor <;> (intro e; subst e; revert hc; decide)
  intro c hc
  cases v with
  | ofNat n => exact hdig c ((toDigits_spec n).2.2 c hc)
  | negSucc n =>
    rw [toString_negSucc] at hc
    rcases List.mem_cons.mp hc with rfl | hc
    · decide
    · exact hdig c ((toDigits_spec (n + 1)).2.2 c hc)

theorem pathStream_data (path : List (Int × Int)) (acc : String) :
    (pathStream path acc).data = acc.data ++ pathChars path := by
  induction path generalizing acc with
  | nil => simp [pathStream, pathChars]
  | cons p rest ih =>
    simp only [pathStream, pathChars, pointChars]
    rw [ih]
    cases rest with
    | nil => simp [pathChars, String.data_append]
    | cons q r => simp [String.data_append]

theorem getlineLoop_piece (a rest cur : List Char) (h : ∀ c ∈ a, c ≠ ';') :
    getlineLoop (a ++ ';' :: rest) cur = (cur ++ a) :: getlineLoop rest [] := by
  induction a generalizing cur with
  | nil => simp [getlineLoop]
  | cons c a ih =>
    have hc := h c (List.mem_cons_self _ _)
    simp only [List.cons_append, getlineLoop, hc, if_false, List.append_eq]
    rw [ih _ (fun d hd => h d (List.mem_cons_of_mem _ hd))]
    simp

theorem getlineLoop_last (a cur : List Char) (h : ∀ c ∈ a, c ≠ ';') (hne : cur ++ a ≠ []) :
    getlineLoop a cur = [cur ++ a] := by
  induction a generalizing cur with
  | nil =>
    simp only [List.append_nil] at hne
    simp [getlineLoop, hne]
  | cons c a ih =>
    have hc := h c (List.mem_cons_self _ _)
    simp only [getlineLoop, hc, if_false]
    rw [ih _ (fun d hd => h d (List.mem_cons_of_mem _ hd)) (by simp)]
    simp

theorem pointChars_no_semicolon (p : Int × Int) : ∀ c ∈ pointChars p, c ≠ ';' := by
  intro c hc
  simp only [pointChars, List.mem_append, List.mem_cons] at hc
  rcases hc with hc | rfl | hc
  · exact (toString_chars p.1 c hc).2
  · decide
  · exact (toString_chars p.2 c hc).2

theorem pointChars_ne_nil (p : Int × Int) : pointChars p ≠ [] := by
  simp [pointChars]

/-- The pieces that `std::getline` cuts out of the path string are the texts
of the points. -/
theorem getlineLoop_pathChars (path : List (Int × Int)) :
    getlineLoop (pathChars path) [] = path.map pointChars := by
  induction path with
  | nil => simp [pathChars, getlineLoop]
  | cons p rest ih =>
    simp only [pathChars, List.map_cons]
    cases rest with
    | nil =>
      simp only [List.length_nil, gt_iff_lt, Nat.lt_irrefl, if_false, List.append_nil,
        List.map_nil]
      rw [getlineLoop_last _ _ (pointChars_no_semicolon p) (by simpa using pointChars_ne_nil p)]
      simp
    | cons q r =>
      simp only [List.length_cons, gt_iff_lt, Nat.zero_lt_succ, if_true]
      rw [getlineLoop_piece _ _ _ (pointChars_no_semicolon p), ih]
      simp

theorem pointChars_split (p : Int × Int) :
    (pointChars p).contains ',' = true
    ∧ (pointChars p).takeWhile (· ≠ ',') = (toString p.1).data
    ∧ ((pointChars p).dropWhile (· ≠ ',')).drop 1 = (toString p.2).data := by
  have hx : ∀ c ∈ (toString p.1).data, (decide (c ≠ ',')) = true := by
    intro c hc
    simpa using (toString_chars p.1 c hc).1
  refine ⟨by simp [pointChars], ?_, ?_⟩
  · simp only [pointChars]
    rw [List.takeWhile_append_of_pos hx]
    simp
  · simp only [pointChars]
    rw [List.dropWhile_append_of_pos hx]
    simp

/-- The loop body of `generateMapJSON` decodes the text of a point to the
point. -/
theorem decodePoint_pointChars (p : Int × Int)
    (h1 : inIntRange p.1 = true) (h2 : inIntRange p.2 = true) :
    decodePoint (pointChars p) = some p := by
  obtain ⟨_, ht, hd⟩ := pointChars_split p
  have e1 : String.mk (toString p.1).data = toString p.1 := rfl
  have e2 : String.mk (toString p.2).data = toString p.2 := rfl
  simp only [decodePoint, ht, hd, e1, e2, stoi_toString _ h1, stoi_toString _ h2,
    Except.toOption, Option.bind_eq_bind, Option.some_bind, Option.pure_def]

/-- The loop of `generateMapJSON` over pieces that hold a `,`: it writes the
objects of the decoded points, separated by `,` and a newline. -/
theorem mapPathLoop_decoded (pieces : List (List Char)) (first : Bool) (json : String)
    (h : ∀ coord ∈ pieces, coord.contains ',' = true) :
    mapPathLoop pieces first json
      = (mapOpt decodePoint pieces).map fun points =>
          json ++ joinSep ",\n" first (points.map pointJSON) := by
  induction pieces generalizing first json with
  | nil => simp [mapPathLoop, mapOpt, joinSep]
  | cons coord rest ih =>
    have hc := h coord (List.mem_cons_self _ _)
    have hr := fun c hm => h c (List.mem_cons_of_mem coord hm)
    simp only [mapPathLoop, hc, if_true, mapOpt, decodePoint, Option.bind_eq_bind,
      Option.pure_def]
    cases hx : (stoi (String.mk (coord.takeWhile (· ≠ ',')))).toOption with
    | none => simp
    | some x =>
      cases hy : (stoi (String.mk ((coord.dropWhile (· ≠ ',')).drop 1))).toOption with
      | none => simp
      | some y =>
        simp only [Option.some_bind, ih _ _ hr]
        cases mapOpt decodePoint rest with
        | none => simp
        | some points =>
          simp only [Option.map_some', Option.some_bind, List.map_cons, joinSep, pointJSON,
            Option.some.injEq]
          cases first
          · simp only [Bool.not_false, if_true, Bool.false_eq_true, if_false,
              String.append_assoc]
          · simp only [Bool.not_true, Bool.false_eq_true, if_false, if_true,
              String.append_assoc, String.empty_append]

theorem mapOpt_map_some {α β : Type} (f : α → Option β) (g : β → α) (l : List β)
    (h : ∀ b ∈ l, f (g b) = some b) : mapOpt f (l.map g) = some l := by
  induction l with
  | nil => rfl
  | cons b rest ih =>
    simp only [List.map_cons, mapOpt, h b (List.mem_cons_self _ _), Option.bind_eq_bind,
      Option.some_bind, ih (fun c hc => h c (List.mem_cons_of_mem _ hc)), Option.pure_def]

/-- C31: for every path whose coordinates are values of the type `int`, the
path string that the IR generator builds is cut by `generateMapJSON` at the `;`
into the texts `x,y` of the points, each piece is decoded to its point, so the
decoded list is the declared path, in order; the loop writes the objects of
exactly these points, and the map object of the emitted `DEFINE_MAP` holds the
declared path. -/
theorem path_round_trip (path : List (Int × Int)) (h : pathInRange path = true) :
    decodePath (pathStream path "") = some path
    ∧ (∀ json, mapPathLoop (getlineLoop (pathStream path "").data []) true json
        = some (json ++ joinSep ",\n" true (path.map pointJSON)))
    ∧ (∀ (name : String) (width height : Int),
        generateMapJSON ⟨.DEFINE_MAP, [name],
            [("width", .int width), ("height", .int height),
             ("path", .str (pathStream path ""))]⟩
          = some ("    \"map\": \x7b\n" ++ "      \"name\": \"" ++ escapeJSON name ++ "\",\n"
              ++ "      \"width\": " ++ to_string width ++ ",\n"
              ++ "      \"height\": " ++ to_string height ++ ",\n"
              ++ "      \"path\": [\n" ++ joinSep ",\n" true (path.map pointJSON)
              ++ "\n      ]\n" ++ "    \x7d")) := by
  have hpieces : getlineLoop (pathStream path "").data [] = path.map pointChars := by
    rw [pathStream_data]
    exact getlineLoop_pathChars path
  have hin : ∀ p ∈ path, decodePoint (pointChars p) = some p := by
    intro p hp
    simp only [pathInRange, List.all_eq_true, Bool.and_eq_true] at h
    exact decodePoint_pointChars p (h p hp).1 (h p hp).2
  have hdec : mapOpt decodePoint (path.map pointChars) = some path :=
    mapOpt_map_some _ _ _ hin
  have hloop : ∀ json, mapPathLoop (getlineLoop (pathStream path "").data []) true json
      = some (json ++ joinSep ",\n" true (path.map pointJSON)) := by
    intro json
    rw [hpieces, mapPathLoop_decoded _ _ _ (by
      intro coord hc
      obtain ⟨p, _, rfl⟩ := List.mem_map.mp hc
      exact (pointChars_split p).1), hdec]
    rfl
  refine ⟨by rw [decodePath, hpieces, hdec], hloop, fun name width height => ?_⟩
  simp only [generateMapJSON, List.head?_cons, Option.bind_eq_bind, Option.some_bind,
    Option.pure_def]
  rw [putInt_value [("width", Value.int width), ("height", Value.int height),
      ("path", Value.str (pathStream path ""))] "width" _ _ _ width rfl]
  simp only [Option.some_bind]
  rw [putInt_value [("width", Value.int width), ("height", Value.int height),
      ("path", Value.str (pathStream path ""))] "height" _ _ _ height rfl]
  simp only [Option.some_bind]
  have hc : Metadata.count [("width", Value.int width), ("height", Value.int height),
      ("path", Value.str (pathStream path ""))] "path" = true := rfl
  have hs : Metadata.getString [("width", Value.int width), ("height", Value.int height),
      ("path", Value.str (pathStream path ""))] "path" = some (pathStream path "") := rfl
  simp only [hc, if_true, hs, Option.some_bind, hloop]

/-- C31, at the path of the minimal-map scenario and at a path with a negative
coordinate. -/
theorem path_round_trip_witness :
    decodePath (pathStream [(0, 0), (1, 0), (2, 0)] "") = some [(0, 0), (1, 0), (2, 0)]
    ∧ decodePath (pathStream [(-3, 12)] "") = some [(-3, 12)]
    ∧ pathStream [(0, 0), (1, 0), (2, 0)] "" = "0,0;1,0;2,0" :=
  ⟨(path_round_trip [(0, 0), (1, 0), (2, 0)] (by decide)).1,
   (path_round_trip [(-3, 12)] (by decide)).1, by decide⟩

/-! ## The optimizer returns on generated IR -/

theorem optimizable_emitDecl (d : Decl) : ∀ i ∈ emitDecl d, optimizable i = true := by
  intro i hi
  cases d with
  | wave w =>
    simp only [emitDecl, List.mem_cons, List.mem_map] at hi
    rcases hi with rfl | ⟨s, _, rfl⟩
    · rfl
    · rfl
  | map m => simp only [emitDecl, List.mem_singleton] at hi; subst hi; rfl
  | enemy e => simp only [emitDecl, List.mem_singleton] at hi; subst hi; rfl
  | tower t => simp only [emitDecl, List.mem_singleton] at hi; subst hi; rfl
  | place p => simp only [emitDecl, List.mem_singleton] at hi; subst hi; rfl

theorem optimizable_generate (program : Program) :
    ∀ i ∈ generate program, optimizable i = true := by
  intro i hi
  rw [generate_eq_flatMap] at hi
  obtain ⟨d, _, hd⟩ := List.mem_flatMap.mp hi
  exact optimizable_emitDecl d i hd

theorem optimizable_spawn (i : IrInstruction) (h : optimizable i = true)
    (hop : i.opcode = .SPAWN_ENEMY) :
    (∃ n, Metadata.getInt i.metadata "count" = some n)
    ∧ (∃ s, Metadata.getInt i.metadata "start" = some s)
    ∧ (∃ v, Metadata.getInt i.metadata "interval" = some v) := by
  simp only [optimizable, hop, Bool.and_eq_true, Bool.or_eq_true, decide_eq_true_eq, ne_eq,
    not_true_eq_false, false_or] at h
  obtain ⟨⟨⟨h1, h2⟩, h3⟩, _⟩ := h
  exact ⟨Option.isSome_iff_exists.mp h1, Option.isSome_iff_exists.mp h2,
    Option.isSome_iff_exists.mp h3⟩

theorem optimizable_tower (i : IrInstruction) (h : optimizable i = true)
    (hop : i.opcode = .DEFINE_TOWER) :
    (∃ d, Metadata.getInt i.metadata "damage" = some d)
    ∧ (∃ f, Metadata.getDouble i.metadata "fire_rate" = some f) := by
  simp only [optimizable, hop, Bool.and_eq_true, Bool.or_eq_true, decide_eq_true_eq, ne_eq,
    not_true_eq_false, false_or] at h
  obtain ⟨_, h1, h2⟩ := h
  exact ⟨Option.isSome_iff_exists.mp h1, Option.isSome_iff_exists.mp h2⟩

theorem optimizable_congr (b d : IrInstruction) (hop : d.opcode = b.opcode)
    (h1 : (Metadata.getInt b.metadata "count").isSome = true →
      (Metadata.getInt d.metadata "count").isSome = true)
    (h2 : (Metadata.getInt b.metadata "start").isSome = true →
      (Metadata.getInt d.metadata "start").isSome = true)
    (h3 : (Metadata.getInt b.metadata "interval").isSome = true →
      (Metadata.getInt d.metadata "interval").isSome = true)
    (h4 : (Metadata.getInt b.metadata "damage").isSome = true →
      (Metadata.getInt d.metadata "damage").isSome = true)
    (h5 : (Metadata.getDouble b.metadata "fire_rate").isSome = true →
      (Metadata.getDouble d.metadata "fire_rate").isSome = true)
    (h : optimizable b = true) : optimizable d = true := by
  simp only [optimizable, hop, Bool.and_eq_true, Bool.or_eq_true, decide_eq_true_eq] at h ⊢
  obtain ⟨hs, ht⟩ := h
  constructor
  · rcases hs with hn | ⟨⟨a, b1⟩, c⟩
    · exact Or.inl hn
    · exact Or.inr ⟨⟨h1 a, h2 b1⟩, h3 c⟩
  · rcases ht with hn | ⟨a, b1⟩
    · exact Or.inl hn
    · exact Or.inr ⟨h4 a, h5 b1⟩

theorem optimizable_set_int (t : IrInstruction) (k : String) (v : Int)
    (hk : k ≠ "fire_rate") (h : optimizable t = true) :
    optimizable { t with metadata := Metadata.set t.metadata k (.int v) } = true :=
  optimizable_congr t _ rfl (getInt_set_int _ _ _ _) (getInt_set_int _ _ _ _)
    (getInt_set_int _ _ _ _) (getInt_set_int _ _ _ _)
    (fun h1 => by rw [getDouble_set_ne _ _ _ _ hk]; exact h1) h

theorem optimizable_set_dps (t : IrInstruction) (v : Value)
    (h : optimizable t = true) :
    optimizable { t with metadata := Metadata.set t.metadata "dps" v } = true :=
  optimizable_congr t _ rfl
    (fun h1 => by rw [getInt_set_ne _ _ _ _ (by decide)]; exact h1)
    (fun h1 => by rw [getInt_set_ne _ _ _ _ (by decide)]; exact h1)
    (fun h1 => by rw [getInt_set_ne _ _ _ _ (by decide)]; exact h1)
    (fun h1 => by rw [getInt_set_ne _ _ _ _ (by decide)]; exact h1)
    (fun h1 => by rw [getDouble_set_ne _ _ _ _ (by decide)]; exact h1) h

/-- One iteration of the loop of pass 2 returns on instructions whose metadata
the pass can read. -/
theorem mergeStep_some (st : MergeState) (i : IrInstruction)
    (hall : ∀ x ∈ st.optimized, optimizable x = true) (hi : optimizable i = true)
    (hidx : MergeIdx st) :
    ∃ st2, mergeStep st i = some st2 ∧ ∀ x ∈ st2.optimized, optimizable x = true := by
  have happend : ∀ x ∈ st.optimized ++ [i], optimizable x = true := by
    intro x hx
    rcases List.mem_append.mp hx with hx | hx
    · exact hall x hx
    · rw [List.mem_singleton.mp hx]; exact hi
  by_cases hm : isMergeable i = true
  · have hop : i.opcode = .SPAWN_ENEMY := by
      simp only [isMergeable, Bool.and_eq_true, decide_eq_true_eq] at hm
      exact hm.1
    obtain ⟨⟨n, hn⟩, ⟨s, hs⟩, ⟨v, hv⟩⟩ := optimizable_spawn i hi hop
    have hk : ∃ key, spawnKey i = some key := by
      simp only [spawnKey, hs, hv, Option.some_bind]
      exact ⟨_, rfl⟩
    obtain ⟨key, hk⟩ := hk
    cases hl : st.spawnGroupIndex.lookup key with
    | none =>
      refine ⟨{ optimized := st.optimized ++ [i],
                spawnGroupIndex := (key, st.optimized.length) :: st.spawnGroupIndex },
        ?_, happend⟩
      simp only [mergeStep, hm, if_true, hk, Option.some_bind, hl]
    | some index =>
      obtain ⟨t, ht, htm, _⟩ := hidx key index hl
      have htop : t.opcode = .SPAWN_ENEMY := by
        simp only [isMergeable, Bool.and_eq_true, decide_eq_true_eq] at htm
        exact htm.1
      have htw := hall t (List.getElem?_mem ht)
      obtain ⟨⟨e, he⟩, _, _⟩ := optimizable_spawn t htw htop
      refine ⟨⟨st.optimized.set index
          ⟨t.opcode, t.operands, Metadata.set t.metadata "count" (.int (intAdd e n))⟩,
          st.spawnGroupIndex⟩, ?_, ?_⟩
      · simp only [mergeStep, hm, if_true, hk, Option.some_bind, hl, List.get?_eq_getElem?, ht,
          he, hn]
      · intro x hx
        rcases List.mem_or_eq_of_mem_set hx with hx | hx
        · exact hall x hx
        · rw [hx]
          exact optimizable_set_int t "count" _ (by decide) htw
  · refine ⟨{ st with optimized := st.optimized ++ [i] }, ?_, happend⟩
    simp only [mergeStep, hm, Bool.false_eq_true, if_false]

theorem mergeLoop_some (l : List IrInstruction) (st : MergeState)
    (hall : ∀ x ∈ st.optimized, optimizable x = true)
    (hl : ∀ x ∈ l, optimizable x = true) (hidx : MergeIdx st) :
    ∃ st2, mergeLoop st l = some st2 ∧ ∀ x ∈ st2.optimized, optimizable x = true := by
  induction l generalizing st with
  | nil => exact ⟨st, rfl, hall⟩
  | cons i rest ih =>
    obtain ⟨st1, h1, hall1⟩ := mergeStep_some st i hall (hl i (List.mem_cons_self _ _)) hidx
    obtain ⟨st2, h2, hall2⟩ := ih st1 hall1 (fun x hx => hl x (List.mem_cons_of_mem _ hx))
      (mergeStep_idx st st1 i hidx h1)
    exact ⟨st2, by simp only [mergeLoop, h1, Option.some_bind, h2], hall2⟩

/-- Pass 2 returns on instructions whose metadata it can read. -/
theorem redundantSpawnMerging_some (l : List IrInstruction)
    (hl : ∀ x ∈ l, optimizable x = true) :
    ∃ out, redundantSpawnMerging l = some out ∧ ∀ x ∈ out, optimizable x = true := by
  obtain ⟨st2, h, hall⟩ := mergeLoop_some l { optimized := [], spawnGroupIndex := [] }
    (by intro x hx; cases hx) hl (by intro k n hk; simp at hk)
  exact ⟨st2.optimized, by simp [redundantSpawnMerging, h], hall⟩

theorem foldInstruction_some (b : IrInstruction) (hb : optimizable b = true) :
    ∃ d, foldInstruction fp b = some d ∧ optimizable d = true := by
  by_cases hT : b.opcode = .DEFINE_TOWER
  · have hS : ¬ b.opcode = .SPAWN_ENEMY := by rw [hT]; decide
    obtain ⟨⟨dmg, hd⟩, ⟨fr, hf⟩⟩ := optimizable_tower b hb hT
    by_cases hc : (Metadata.count b.metadata "damage" && Metadata.count b.metadata "fire_rate")
        = true
    · refine ⟨{ b with metadata := Metadata.set b.metadata "dps" (.real (fp.product dmg fr)) },
        ?_, optimizable_set_dps b _ hb⟩
      simp only [foldInstruction, foldTower, foldSpawn, hT, if_true, hc, hd, hf,
        Option.some_bind, reduceCtorEq, if_false]
    · refine ⟨b, ?_, hb⟩
      simp only [foldInstruction, foldTower, foldSpawn, hT, if_true, hc, Bool.false_eq_true,
        if_false, Option.some_bind, reduceCtorEq]
  · by_cases hS : b.opcode = .SPAWN_ENEMY
    · obtain ⟨⟨n, hn⟩, _, ⟨v, hv⟩⟩ := optimizable_spawn b hb hS
      by_cases hc : (Metadata.count b.metadata "count" && Metadata.count b.metadata "interval")
          = true
      · refine ⟨{ b with
            metadata := Metadata.set b.metadata "total_duration" (.int (intMul n v)) },
          ?_, optimizable_set_int b _ _ (by decide) hb⟩
        simp only [foldInstruction, foldTower, foldSpawn, hS, reduceCtorEq, if_false,
          Option.some_bind, if_true, hc, hn, hv]
      · refine ⟨b, ?_, hb⟩
        simp only [foldInstruction, foldTower, foldSpawn, hS, reduceCtorEq, if_false,
          Option.some_bind, if_true, hc, Bool.false_eq_true]
    · refine ⟨b, ?_, hb⟩
      simp only [foldInstruction, foldTower, foldSpawn, hT, if_false, Option.some_bind, hS]

/-- Pass 3 returns on instructions whose metadata it can read. -/
theorem constantFolding_some (l : List IrInstruction) (hl : ∀ x ∈ l, optimizable x = true) :
    ∃ out, constantFolding fp l = some out ∧ ∀ x ∈ out, optimizable x = true := by
  induction l with
  | nil => exact ⟨[], rfl, by intro x hx; cases hx⟩
  | cons b rest ih =>
    obtain ⟨d, hd, hdo⟩ := @foldInstruction_some fp b (hl b (List.mem_cons_self _ _))
    obtain ⟨out, ho, hall⟩ := ih (fun x hx => hl x (List.mem_cons_of_mem _ hx))
    refine ⟨d :: out, by simp only [constantFolding, hd, Option.some_bind, ho], ?_⟩
    intro x hx
    rcases List.mem_cons.mp hx with rfl | hx
    · exact hdo
    · exact hall x hx

theorem runPass_some (p : Pass) (ir : List IrInstruction)
    (hl : ∀ x ∈ ir, optimizable x = true) :
    ∃ out, runPass fp p ir = some out ∧ ∀ x ∈ out, optimizable x = true := by
  cases p with
  | dedup => exact ⟨_, rfl, fun x hx => hl x (mem_dedupLoop _ _ x hx)⟩
  | merge => exact redundantSpawnMerging_some ir hl
  | fold => exact constantFolding_some ir hl
  | dce => exact ⟨_, rfl, fun x hx => hl x (List.mem_filter.mp hx).1⟩

/-- Every sequence of passes returns on instructions whose metadata the passes
can read. -/
theorem runPasses_some (ps : List Pass) (ir : List IrInstruction)
    (hl : ∀ x ∈ ir, optimizable x = true) :
    ∃ out, runPasses fp ps ir = some out ∧ ∀ x ∈ out, optimizable x = true := by
  induction ps generalizing ir with
  | nil => exact ⟨ir, rfl, hl⟩
  | cons p ps ih =>
    obtain ⟨mid, h1, hmid⟩ := @runPass_some fp p ir hl
    obtain ⟨out, h2, hout⟩ := ih mid hmid
    exact ⟨out, by simp only [runPasses, h1, Option.some_bind, h2], hout⟩

/-- The optimizer returns on the IR generated for a program. -/
theorem optimize_generate_some (program : Program) :
    ∃ out, optimize fp (generate program) = some out := by
  obtain ⟨out, h, _⟩ := @runPasses_some fp [Pass.dedup, Pass.merge, Pass.fold, Pass.dce]
    (generate program) (optimizable_generate program)
  exact ⟨out, by rw [optimize_eq_runPasses]; exact h⟩

/-! ## Wave grouping and reference safety of the optimized IR -/

/-- C4: for a program accepted by the semantic analyzer, every sequence of the
four passes applied to the generated IR returns, and so does `optimize`, and
the result satisfies the wave grouping invariant: every instruction between a
`DEFINE_WAVE` named `W` and the next boundary instruction (or the end) is a
`SPAWN_ENEMY` whose first operand is `W`. -/
theorem wave_grouping_preserved (program : Program) (hacc : accepted program = true) :
    (∀ (passes : List Pass),
        ∃ out, runPasses fp passes (generate program) = some out ∧ WaveGrouping out)
    ∧ (∃ out, optimize fp (generate program) = some out ∧ WaveGrouping out) := by
  obtain ⟨h1, h2⟩ := @wave_grouping_of_run fp program hacc
  constructor
  · intro passes
    obtain ⟨out, h, _⟩ := @runPasses_some fp passes (generate program)
      (optimizable_generate program)
    exact ⟨out, h, h1 passes out h⟩
  · obtain ⟨out, h⟩ := @optimize_generate_some fp program
    exact ⟨out, h, h2 out h⟩

/-- C4, at `sampleProgram`: the wave grouping invariant holds for its optimized
IR and for its IR after dead code elimination followed by spawn merging. -/
theorem wave_grouping_preserved_witness :
    (∃ out, optimize exactProduct (generate sampleProgram) = some out ∧ WaveGrouping out)
    ∧ ∃ out, runPasses exactProduct [Pass.dce, Pass.merge] (generate sampleProgram) = some out
        ∧ WaveGrouping out :=
  ⟨(wave_grouping_preserved sampleProgram (by decide)).2,
   (wave_grouping_preserved sampleProgram (by decide)).1 [Pass.dce, Pass.merge]⟩

/-- C6: for a program accepted by the semantic analyzer, `optimize` returns on
the generated IR, and in the optimized IR every `SPAWN_ENEMY` has a second
operand that is the name of a `DEFINE_ENEMY` present in the output, and every
`PLACE_TOWER` has a first operand that is the name of a `DEFINE_TOWER` present
in the output. -/
theorem dce_safety (program : Program) (hacc : accepted program = true) :
    ∃ out, optimize fp (generate program) = some out
      ∧ (∀ i ∈ out, i.opcode = .SPAWN_ENEMY →
          ∃ e, i.operands.get? 1 = some e ∧
            ∃ d ∈ out, d.opcode = .DEFINE_ENEMY ∧ d.operands = [e])
      ∧ (∀ i ∈ out, i.opcode = .PLACE_TOWER →
          ∃ t, i.operands.get? 0 = some t ∧
            ∃ d ∈ out, d.opcode = .DEFINE_TOWER ∧ d.operands = [t]) := by
  obtain ⟨out, h⟩ := @optimize_generate_some fp program
  exact ⟨out, h, dce_safety_of_run program out hacc h⟩

/-- C6, at `sampleProgram`, whose optimized IR keeps `Goblin` and `Archer` and
drops the unreferenced `Orc` and `Cannon`. -/
theorem dce_safety_witness :
    ∃ out, optimize exactProduct (generate sampleProgram) = some out
      ∧ (∀ i ∈ out, i.opcode = .SPAWN_ENEMY →
          ∃ e, i.operands.get? 1 = some e ∧
            ∃ d ∈ out, d.opcode = .DEFINE_ENEMY ∧ d.operands = [e])
      ∧ (∀ i ∈ out, i.opcode = .PLACE_TOWER →
          ∃ t, i.operands.get? 0 = some t ∧
            ∃ d ∈ out, d.opcode = .DEFINE_TOWER ∧ d.operands = [t]) :=
  dce_safety sampleProgram (by decide)

/-! ## No spawn is lost between the IR and the JSON output -/

theorem waves_of_sections (fmt : DoubleFormat) (ir : List IrInstruction)
    (sections waves : List String) (h : jsonSections fmt ir = some sections)
    (hw : mapOpt (fun k => (generateWaveJSON ir k).map Prod.fst) (indicesOf .DEFINE_WAVE ir 0)
      = some waves)
    (hne : ofOpcode .DEFINE_WAVE ir ≠ []) : wavesSection waves ∈ sections := by
  simp only [jsonSections, Option.bind_eq_bind, Option.pure_def, hw] at h
  split at h
  all_goals
    simp only [Option.bind_eq_some, Option.some.injEq] at h
    obtain ⟨maps, _, enemies, _, towers, _, w, hw2, placements, _, rfl⟩ := h
    subst hw2
    simp [hne]

/-- A grouped IR whose wave and spawn instructions can be written loses no
spawn in the JSON output. -/
theorem spawnsWritten_of (ir : List IrInstruction) (hg : Grouped none ir)
    (hw : ∀ x ∈ ir, waveWritable x = true) : SpawnsWritten ir := by
  have hwaves : mapOpt (fun k => (generateWaveJSON ir k).map Prod.fst)
      (indicesOf .DEFINE_WAVE ir 0) = some (waveObjects ir) := by
    apply mapOpt_eq_map
    intro k hk
    obtain ⟨texts, h1, h2, _⟩ := generateWaveJSON_ok ir k hw hk
    rw [h1, h2]
    rfl
  refine ⟨emitted_grouped ir hg,
    fun k hk => ⟨waveRun_spec _ ir k, generateWaveJSON_ok ir k hw hk⟩, ?_⟩
  intro fmt json hj
  rw [generateJSON_eq_sections] at hj
  obtain ⟨sections, hs, rfl⟩ := Option.map_eq_some'.mp hj
  exact ⟨sections, hs, rfl, waves_of_sections fmt ir sections _ hs hwaves⟩

/-- C35: for a program accepted by the semantic analyzer, both for the
generated IR and for the optimized IR, which `optimize` returns, no spawn is
lost in the JSON output: the spawns whose objects are written under the waves
are exactly the `SPAWN_ENEMY` instructions of the IR, in IR order (so their
numbers agree); for every `DEFINE_WAVE`, `generateWaveJSON` returns the wave
object with one spawn object per instruction of the run of the wave, each of
these instructions is a `SPAWN_ENEMY` whose first operand is the name of the
wave; and the text that `generateJSON` returns holds the `waves` section made
of these wave objects. -/
theorem no_spawn_lost (program : Program) (h : accepted program = true) :
    SpawnsWritten (generate program)
    ∧ ∃ ir, optimize fp (generate program) = some ir ∧ SpawnsWritten ir := by
  have hg0 : Grouped none (generate program) := by
    rw [generate_eq_flatMap]; exact grouped_flatMap _ _
  have hw0 := writable_generate program
  refine ⟨spawnsWritten_of _ hg0 hw0, ?_⟩
  obtain ⟨ir, ho⟩ := @optimize_generate_some fp program
  refine ⟨ir, ho, spawnsWritten_of ir ?_ (optimize_writable _ _ ho hw0)⟩
  rw [optimize_eq_runPasses] at ho
  exact (runPasses_preserves _ _ _ hg0 (accepted_defKeys_nodup program h) ho).1

/-- C35, at the sample program and its optimized IR, where the two spawns of
wave `W` are merged: the two remaining spawns are both written. -/
theorem no_spawn_lost_witness :
    emittedSpawns (generate sampleProgram) = ofOpcode .SPAWN_ENEMY (generate sampleProgram)
    ∧ (ofOpcode .SPAWN_ENEMY (generate sampleProgram)).length = 3
    ∧ ∃ ir, optimize exactProduct (generate sampleProgram) = some ir
        ∧ emittedSpawns ir = ofOpcode .SPAWN_ENEMY ir
        ∧ (ofOpcode .SPAWN_ENEMY ir).length = 2 := by
  obtain ⟨h1, ir, ho, h2⟩ := @no_spawn_lost exactProduct sampleProgram (by decide)
  refine ⟨h1.1, by decide, ir, ho, h2.1, ?_⟩
  have e : ir = sampleOptimized := by
    have := sample_optimize
    rw [ho] at this
    exact Option.some.inj this
  rw [e]
  decide

end Mtdl
